import Mathlib

/-! # Cloth simulation (`silksolution/simulation.cpp`): embedding and properties

The physics core of the program (`Particle`, `Constraint`, `Cloth`) is embedded
as pure functions on explicit state.

* A C++ `float` is modelled twice.  `F32` is IEEE 754 binary32 as the program
  computes with it: round to nearest, ties to even, with overflow to the
  infinities, gradual underflow, signed zeros and NaN; the functions of the
  physics core over `F32` are in the namespace `Binary32`, and the properties
  that depend on the arithmetic (integration step, speed limit, length error
  and midpoint of a constraint, unit normals, and the inputs at which a claim
  fails) are stated there, with explicit bounds for the rounding errors.
  `Flt α` is the exact model: either a number of an ordered field `α` (no
  rounding, no overflow) or `nan`, the result of an operation that has no
  numeric value (division by zero, square root of a negative number); `nan` is
  absorbing for the arithmetic operations and makes every comparison false, as
  an IEEE NaN does.  It is used for the properties that do not depend on the
  arithmetic, and for formulas that the floats follow up to rounding, which
  are stated for inputs in a range where binary32 neither overflows nor
  underflows.
* The square root on `α` is a parameter `sq : α → α` of the functions that use
  it, so that the definitions stay executable (for instance over `ℚ`).
* `Particle*` members of `Constraint` and the `unsigned int` entries of
  `Cloth::indices` are positions in the particle vector.  An access outside the
  vector (undefined in C++) is modelled as skipping the operation.
* The GLM functions (`glm::dot`, `glm::cross`, `glm::length`, `glm::normalize`)
  are library code; they are written out following their GLM definitions.
-/

set_option linter.unusedSectionVars false

namespace Silk

/-! ## Scalars -/

/-- Value of a C++ `float` in exact arithmetic: a number, or `nan` (no numeric value).  It
has no rounding, no overflow to an infinity and no underflow to zero; binary32 with these is
`F32` below. -/
inductive Flt (α : Type) where
  | fin (x : α) : Flt α
  | nan : Flt α
  deriving DecidableEq, Repr

namespace Flt

variable {α : Type} [LinearOrderedField α]

/-- Float addition `a + b`. -/
def add : Flt α → Flt α → Flt α
  | fin a, fin b => fin (a + b)
  | _, _ => nan

/-- Float subtraction `a - b`. -/
def sub : Flt α → Flt α → Flt α
  | fin a, fin b => fin (a - b)
  | _, _ => nan

/-- Float multiplication `a * b`. -/
def mul : Flt α → Flt α → Flt α
  | fin a, fin b => fin (a * b)
  | _, _ => nan

/-- Float division `a / b`; a zero divisor gives no number. -/
def div : Flt α → Flt α → Flt α
  | fin a, fin b => if b = 0 then nan else fin (a / b)
  | _, _ => nan

/-- Square root `std::sqrt`, with `sq` the square root on numbers. -/
def sqrt (sq : α → α) : Flt α → Flt α
  | fin a => if a < 0 then nan else fin (sq a)
  | nan => nan

/-- Comparison `a > b` of C++; false when an operand is `nan`. -/
def gt : Flt α → Flt α → Bool
  | fin a, fin b => decide (b < a)
  | _, _ => false

/-- Comparison `a == b` of C++; false when an operand is `nan`. -/
def eq : Flt α → Flt α → Bool
  | fin a, fin b => decide (a = b)
  | _, _ => false

/-- Comparison `a < b` of C++; false when an operand is `nan`. -/
def lt : Flt α → Flt α → Bool
  | fin a, fin b => decide (a < b)
  | _, _ => false

/-- Comparison `a >= b` of C++; false when an operand is `nan`. -/
def ge : Flt α → Flt α → Bool
  | fin a, fin b => decide (b ≤ a)
  | _, _ => false

/-- Comparison `a <= b` of C++; false when an operand is `nan`. -/
def le : Flt α → Flt α → Bool
  | fin a, fin b => decide (a ≤ b)
  | _, _ => false

instance : Add (Flt α) := ⟨add⟩

instance : Sub (Flt α) := ⟨sub⟩

instance : Mul (Flt α) := ⟨mul⟩

instance : Div (Flt α) := ⟨div⟩

instance : Zero (Flt α) := ⟨fin 0⟩

end Flt

/-! ## Vectors and the GLM functions used by the program -/

/-- Three floats: `glm::vec3`. -/
@[ext]
structure Vec3 (F : Type) where
  x : F
  y : F
  z : F
  deriving DecidableEq, Repr

/-- Two floats: `glm::vec2`. -/
structure Vec2 (F : Type) where
  x : F
  y : F
  deriving DecidableEq, Repr

namespace Vec3

variable {F : Type}

/-- Component-wise sum `a + b`. -/
def add [Add F] (a b : Vec3 F) : Vec3 F := ⟨a.x + b.x, a.y + b.y, a.z + b.z⟩

/-- Component-wise difference `a - b`. -/
def sub [Sub F] (a b : Vec3 F) : Vec3 F := ⟨a.x - b.x, a.y - b.y, a.z - b.z⟩

/-- Vector times scalar `v * s`. -/
def smul [Mul F] (v : Vec3 F) (s : F) : Vec3 F := ⟨v.x * s, v.y * s, v.z * s⟩

/-- Vector divided by scalar `v / s`. -/
def sdiv [Div F] (v : Vec3 F) (s : F) : Vec3 F := ⟨v.x / s, v.y / s, v.z / s⟩

instance [Add F] : Add (Vec3 F) := ⟨add⟩

instance [Sub F] : Sub (Vec3 F) := ⟨sub⟩

instance [Mul F] : HMul (Vec3 F) F (Vec3 F) := ⟨smul⟩

instance [Div F] : HDiv (Vec3 F) F (Vec3 F) := ⟨sdiv⟩

/-- The vector `glm::vec3(0.0f)`. -/
def zero [Zero F] : Vec3 F := ⟨0, 0, 0⟩

/-- Scalar product `glm::dot(a, b)`. -/
def dot [Add F] [Mul F] (a b : Vec3 F) : F := a.x * b.x + a.y * b.y + a.z * b.z

/-- Vector product `glm::cross(a, b)`. -/
def cross [Sub F] [Mul F] (a b : Vec3 F) : Vec3 F :=
  ⟨a.y * b.z - b.y * a.z, a.z * b.x - b.z * a.x, a.x * b.y - b.x * a.y⟩

end Vec3

section glm

variable {α : Type} [LinearOrderedField α]

/-- Euclidean norm `glm::length(v)`, which is `sqrt(dot(v, v))`. -/
def length (sq : α → α) (v : Vec3 (Flt α)) : Flt α := Flt.sqrt sq (Vec3.dot v v)

/-- GLM `inversesqrt(x)`, which is `1 / sqrt(x)`. -/
def inversesqrt (sq : α → α) (x : Flt α) : Flt α := Flt.fin 1 / Flt.sqrt sq x

/-- Unit vector `glm::normalize(v)`, which is `v * inversesqrt(dot(v, v))`, in exact
arithmetic; in binary32 (`Binary32.normalize`) the result is of length 1 up to rounding only,
and only while `dot(v, v)` neither overflows nor underflows. -/
def normalize (sq : α → α) (v : Vec3 (Flt α)) : Vec3 (Flt α) :=
  v * inversesqrt sq (Vec3.dot v v)

/-- A vector of numbers as a vector of floats. -/
def Vec3.toFlt (v : Vec3 α) : Vec3 (Flt α) := ⟨Flt.fin v.x, Flt.fin v.y, Flt.fin v.z⟩

/-- The vector of floats each of whose components is `nan`. -/
def Vec3.nan : Vec3 (Flt α) := ⟨Flt.nan, Flt.nan, Flt.nan⟩

/-- The components of the vector of numbers are of magnitude at most `b`. -/
def Vec3.Within (b : α) (v : Vec3 α) : Prop := |v.x| ≤ b ∧ |v.y| ≤ b ∧ |v.z| ≤ b

end glm

/-! ## Constants of the program -/

section constants

variable {α : Type} [LinearOrderedField α]

/-- Constant `DAMPING = 0.98f`. -/
def DAMPING : Flt α := Flt.fin (98 / 100)

/-- Constant `CONSTRAINT_ITERATIONS = 5`. -/
def CONSTRAINT_ITERATIONS : Nat := 5

/-- Gravity force `glm::vec3(0.0f, -9.8f, 0.0f)` of `Cloth::update`. -/
def gravity : Vec3 (Flt α) := ⟨Flt.fin 0, Flt.fin (-(98 / 10)), Flt.fin 0⟩

end constants

/-! ## Particle -/

/-- State of one particle: `struct Particle`. -/
structure Particle (F : Type) where
  position : Vec3 F
  oldPosition : Vec3 F
  acceleration : Vec3 F
  uv : Vec2 F
  normal : Vec3 F
  tangent : Vec3 F
  isPinned : Bool
  mass : F
  deriving DecidableEq, Repr

section particle

variable {α : Type} [LinearOrderedField α]

/-- Constructor `Particle(pos, tex)`. -/
def Particle.mk0 (pos : Vec3 (Flt α)) (tex : Vec2 (Flt α)) : Particle (Flt α) :=
  { position := pos, oldPosition := pos, acceleration := Vec3.zero, uv := tex,
    normal := ⟨Flt.fin 0, Flt.fin 0, Flt.fin 1⟩, tangent := ⟨Flt.fin 1, Flt.fin 0, Flt.fin 0⟩,
    isPinned := false, mass := Flt.fin 1 }

/-- Method `Particle::addForce(f)`: `acceleration += f / mass`. -/
def Particle.addForce (p : Particle (Flt α)) (f : Vec3 (Flt α)) : Particle (Flt α) :=
  { p with acceleration := p.acceleration + f / p.mass }

/-- Method `Particle::update(dt)` in exact arithmetic; the floats of the program
(`Binary32.Particle.update`) follow it up to rounding while `dot(velocity, velocity)` does
not overflow. -/
def Particle.update (sq : α → α) (p : Particle (Flt α)) (dt : Flt α) : Particle (Flt α) :=
  if p.isPinned then p
  else
    let velocity := p.position - p.oldPosition
    let oldPosition := p.position
    let velocityMag := length sq velocity
    let velocity :=
      if Flt.gt velocityMag (Flt.fin 10) then normalize sq velocity * (Flt.fin 10 : Flt α)
      else velocity
    { p with
      oldPosition := oldPosition
      position := p.position + (velocity * (DAMPING : Flt α) + p.acceleration * dt * dt)
      acceleration := Vec3.zero }

end particle

/-! ## Constraint -/

/-- Distance constraint between two particles: `struct Constraint`.  The members
`p1`, `p2` (of type `Particle*`) are positions in `Cloth::particles`. -/
structure Constraint (F : Type) where
  p1 : Nat
  p2 : Nat
  restDistance : F
  stiffness : F
  deriving DecidableEq, Repr

section constraint

variable {α : Type} [LinearOrderedField α]

/-- Statement `p->position += correction` of `Constraint::solve`, under `if (!p->isPinned)`. -/
def addCorrection (correction : Vec3 (Flt α)) (p : Particle (Flt α)) : Particle (Flt α) :=
  if !p.isPinned then { p with position := p.position + correction } else p

/-- Statement `p->position -= correction` of `Constraint::solve`, under `if (!p->isPinned)`. -/
def subCorrection (correction : Vec3 (Flt α)) (p : Particle (Flt α)) : Particle (Flt α) :=
  if !p.isPinned then { p with position := p.position - correction } else p

/-- Method `Constraint::solve()`, acting on the particle vector its pointers refer to, in
exact arithmetic; the floats of the program (`Binary32.Constraint.solve`) follow it up to
rounding while `dot(delta, delta)` neither overflows nor underflows. -/
def Constraint.solve (sq : α → α) (c : Constraint (Flt α)) (ps : List (Particle (Flt α))) :
    List (Particle (Flt α)) :=
  match ps[c.p1]?, ps[c.p2]? with
  | some a, some b =>
    let delta := b.position - a.position
    let currentDist := length sq delta
    if Flt.eq currentDist (Flt.fin 0) then ps
    else
      let correctionAmount := (currentDist - c.restDistance) / currentDist
      let correction := delta * correctionAmount * (Flt.fin (5 / 10) : Flt α) * c.stiffness
      List.modify (subCorrection correction) c.p2 (List.modify (addCorrection correction) c.p1 ps)
  | _, _ => ps

/-- Current length of the constraint, `glm::length(p2->position - p1->position)`, as
`Constraint::solve` computes it. -/
def Constraint.currentDist (sq : α → α) (c : Constraint (Flt α)) (ps : List (Particle (Flt α))) :
    Flt α :=
  match ps[c.p1]?, ps[c.p2]? with
  | some a, some b => length sq (b.position - a.position)
  | _, _ => Flt.nan

end constraint

/-! ## Cloth -/

/-- State of the cloth: `class Cloth` (the OpenGL buffer handles are left out). -/
structure Cloth (F : Type) where
  width : Int
  height : Int
  particles : List (Particle F)
  constraints : List (Constraint F)
  indices : List Nat
  deriving DecidableEq, Repr

section cloth

variable {α : Type} [LinearOrderedField α]

/-- Body of loop A of `Cloth::update`: gravity (unless pinned) and wind force. -/
def applyForces (sq : α → α) (wind : Vec3 (Flt α)) (p : Particle (Flt α)) : Particle (Flt α) :=
  let p := if !p.isPinned then p.addForce gravity else p
  let windForce := wind *
    (Vec3.dot p.normal (normalize sq wind) * (Flt.fin (8 / 10) : Flt α) + Flt.fin (2 / 10))
  p.addForce windForce

/-- One pass `for (auto& c : constraints) c.solve();`. -/
def solveAll (sq : α → α) (cs : List (Constraint (Flt α))) (ps : List (Particle (Flt α))) :
    List (Particle (Flt α)) :=
  cs.foldl (fun acc c => c.solve sq acc) ps

/-- Loop C of `Cloth::update`: `n` passes over all constraints. -/
def solvePasses (sq : α → α) (cs : List (Constraint (Flt α))) :
    Nat → List (Particle (Flt α)) → List (Particle (Flt α))
  | 0, ps => ps
  | n + 1, ps => solvePasses sq cs n (solveAll sq cs ps)

/-- First loop of `recalculateNormals`: clear normal and tangent. -/
def clearNormal (p : Particle (Flt α)) : Particle (Flt α) :=
  { p with normal := Vec3.zero, tangent := Vec3.zero }

/-- Statement `p.normal += normal`. -/
def addNormal (normal : Vec3 (Flt α)) (p : Particle (Flt α)) : Particle (Flt α) :=
  { p with normal := p.normal + normal }

/-- Statement `p.tangent += tangent`. -/
def addTangent (tangent : Vec3 (Flt α)) (p : Particle (Flt α)) : Particle (Flt α) :=
  { p with tangent := p.tangent + tangent }

/-- Body of the triangle loop of `recalculateNormals` for the triangle `(i0, i1, i2)`. -/
def accumulateTriangle (sq : α → α) (i0 i1 i2 : Nat) (ps : List (Particle (Flt α))) :
    List (Particle (Flt α)) :=
  match ps[i0]?, ps[i1]?, ps[i2]? with
  | some p1, some p2, some p3 =>
    let edge1 := p2.position - p1.position
    let edge2 := p3.position - p1.position
    let normal := Vec3.cross edge1 edge2
    let tangent := normalize sq edge1
    let ps := List.modify (addNormal normal) i0 ps
    let ps := List.modify (addNormal normal) i1 ps
    let ps := List.modify (addNormal normal) i2 ps
    let ps := List.modify (addTangent tangent) i0 ps
    let ps := List.modify (addTangent tangent) i1 ps
    List.modify (addTangent tangent) i2 ps
  | _, _, _ => ps

/-- The vector `normal` that the triangle loop of `recalculateNormals` computes for the
triangle `(i0, i1, i2)`: `glm::cross(p2.position - p1.position, p3.position - p1.position)`. -/
def faceNormal (i0 i1 i2 : Nat) (ps : List (Particle (Flt α))) : Vec3 (Flt α) :=
  match ps[i0]?, ps[i1]?, ps[i2]? with
  | some p1, some p2, some p3 =>
    let edge1 := p2.position - p1.position
    let edge2 := p3.position - p1.position
    Vec3.cross edge1 edge2
  | _, _, _ => Vec3.nan

/-- Second loop of `recalculateNormals`: the index list is read three entries at a time. -/
def accumulate (sq : α → α) : List Nat → List (Particle (Flt α)) → List (Particle (Flt α))
  | i0 :: i1 :: i2 :: rest, ps => accumulate sq rest (accumulateTriangle sq i0 i1 i2 ps)
  | _, ps => ps

/-- Third loop of `recalculateNormals`: normalize normal and tangent. -/
def normalizeNormal (sq : α → α) (p : Particle (Flt α)) : Particle (Flt α) :=
  { p with normal := normalize sq p.normal, tangent := normalize sq p.tangent }

/-- Method `Cloth::recalculateNormals()`. -/
def Cloth.recalculateNormals (sq : α → α) (c : Cloth (Flt α)) : Cloth (Flt α) :=
  { c with
    particles := (accumulate sq c.indices (c.particles.map clearNormal)).map (normalizeNormal sq) }

/-- Method `Cloth::update(dt, wind)`. -/
def Cloth.update (sq : α → α) (c : Cloth (Flt α)) (dt : Flt α) (wind : Vec3 (Flt α)) :
    Cloth (Flt α) :=
  let ps := c.particles.map (applyForces sq wind)
  let ps := ps.map (fun p => p.update sq dt)
  let ps := solvePasses sq c.constraints CONSTRAINT_ITERATIONS ps
  Cloth.recalculateNormals sq { c with particles := ps }

/-- Particle vector after the second loop of `recalculateNormals`: every particle holds the
sum of the face normals and the sum of the face tangents of its triangles. -/
def Cloth.accumulated (sq : α → α) (c : Cloth (Flt α)) : List (Particle (Flt α)) :=
  accumulate sq c.indices (c.particles.map clearNormal)

/-- State of the cloth in `Cloth::update` after loops A, B and C, when `recalculateNormals`
is called. -/
def Cloth.beforeNormals (sq : α → α) (c : Cloth (Flt α)) (dt : Flt α) (wind : Vec3 (Flt α)) :
    Cloth (Flt α) :=
  { c with
    particles := solvePasses sq c.constraints CONSTRAINT_ITERATIONS
      ((c.particles.map (applyForces sq wind)).map (fun p => p.update sq dt)) }

end cloth

/-! ## Construction of the cloth -/

section construction

variable {α : Type} [LinearOrderedField α]

/-- Constant `STRUCTURAL_STIFFNESS = 1.0f`. -/
def STRUCTURAL_STIFFNESS : Flt α := Flt.fin 1

/-- Constant `SHEAR_STIFFNESS = 0.8f`. -/
def SHEAR_STIFFNESS : Flt α := Flt.fin (8 / 10)

/-- Constant `BENDING_STIFFNESS = 0.05f`. -/
def BENDING_STIFFNESS : Flt α := Flt.fin (5 / 100)

/-- Function `glm::distance(p0, p1)`, which is `length(p1 - p0)`. -/
def distance (sq : α → α) (p0 p1 : Vec3 (Flt α)) : Flt α := length sq (p1 - p0)

/-- Constructor `Constraint(pi, pj, stiff)`, with the particles given by their positions `i`,
`j` in the particle vector `ps`: the rest distance is the distance of the two particles. -/
def Constraint.new (sq : α → α) (ps : List (Particle (Flt α))) (i j : Nat) (stiff : Flt α) :
    Constraint (Flt α) :=
  { p1 := i, p2 := j, stiffness := stiff,
    restDistance :=
      match ps[i]?, ps[j]? with
      | some a, some b => distance sq a.position b.position
      | _, _ => Flt.nan }

/-- Body of the first loop of `Cloth::Cloth(w, h)` for the grid point `(x, y)`: the particle
that is pushed to the vector (`spacing` is `0.1f`). -/
def gridParticle (w h x y : Nat) : Particle (Flt α) :=
  let spacing : Flt α := Flt.fin (1 / 10)
  let pos : Vec3 (Flt α) :=
    ⟨(Flt.fin (x : α) - Flt.fin (w : α) / Flt.fin 2) * spacing,
      Flt.fin 3 + (Flt.fin (y : α) - Flt.fin (h : α) / Flt.fin 2) * spacing,
      Flt.fin 0⟩
  let uv : Vec2 (Flt α) :=
    ⟨Flt.fin (x : α) / Flt.fin (((w : Int) - 1 : Int) : α),
      Flt.fin (y : α) / Flt.fin (((h : Int) - 1 : Int) : α)⟩
  let p := Particle.mk0 pos uv
  if (y : Int) = (h : Int) - 1 ∧ x % 5 = 0 then { p with isPinned := true } else p

/-- First loop of `Cloth::Cloth(w, h)`: the particles, row after row. -/
def gridParticles (w h : Nat) : List (Particle (Flt α)) :=
  (List.range h).flatMap fun y => (List.range w).map fun x => gridParticle w h x y

/-- Lambda `addConstraint(x1, y1, x2, y2, k)` of `Cloth::Cloth(w, h)`: the constraints it
appends, one when both grid points are in bounds and none otherwise. -/
def addConstraint (sq : α → α) (ps : List (Particle (Flt α))) (w h : Nat)
    (x1 y1 x2 y2 : Int) (k : Flt α) : List (Constraint (Flt α)) :=
  if 0 ≤ x1 ∧ x1 < w ∧ 0 ≤ y1 ∧ y1 < h ∧ 0 ≤ x2 ∧ x2 < w ∧ 0 ≤ y2 ∧ y2 < h then
    [Constraint.new sq ps (y1 * w + x1).toNat (y2 * w + x2).toNat k]
  else []

/-- Body of the second loop of `Cloth::Cloth(w, h)` for the grid point `(x, y)`: the six calls
of `addConstraint`. -/
def cellConstraints (sq : α → α) (ps : List (Particle (Flt α))) (w h : Nat) (x y : Nat) :
    List (Constraint (Flt α)) :=
  addConstraint sq ps w h x y (x + 1) y STRUCTURAL_STIFFNESS ++
  addConstraint sq ps w h x y x (y + 1) STRUCTURAL_STIFFNESS ++
  addConstraint sq ps w h x y (x + 1) (y + 1) SHEAR_STIFFNESS ++
  addConstraint sq ps w h x y (x - 1) (y + 1) SHEAR_STIFFNESS ++
  addConstraint sq ps w h x y (x + 2) y BENDING_STIFFNESS ++
  addConstraint sq ps w h x y x (y + 2) BENDING_STIFFNESS

/-- Second loop of `Cloth::Cloth(w, h)`: the constraints, grid point after grid point. -/
def gridConstraints (sq : α → α) (ps : List (Particle (Flt α))) (w h : Nat) :
    List (Constraint (Flt α)) :=
  (List.range h).flatMap fun y => (List.range w).flatMap fun x => cellConstraints sq ps w h x y

/-- Body of the third loop of `Cloth::Cloth(w, h)` for the cell `(x, y)`: the six indices
that are pushed, two triangles. -/
def cellIndices (w x y : Nat) : List Nat :=
  let topLeft := y * w + x
  let topRight := topLeft + 1
  let bottomLeft := (y + 1) * w + x
  let bottomRight := bottomLeft + 1
  [topLeft, bottomLeft, topRight, topRight, bottomLeft, bottomRight]

/-- Third loop of `Cloth::Cloth(w, h)`: the triangle indices, cell after cell. -/
def gridIndices (w h : Nat) : List Nat :=
  (List.range (h - 1)).flatMap fun y => (List.range (w - 1)).flatMap fun x => cellIndices w x y

/-- The offsets `(dx, dy)` of the neighbours that a grid point is joined to, with the
stiffness of the constraint: structural, shear and bending. -/
def constraintOffsets : List (Int × Int × Flt α) :=
  [(1, 0, STRUCTURAL_STIFFNESS), (0, 1, STRUCTURAL_STIFFNESS), (1, 1, SHEAR_STIFFNESS),
    (-1, 1, SHEAR_STIFFNESS), (2, 0, BENDING_STIFFNESS), (0, 2, BENDING_STIFFNESS)]

/-- The stiffness that the specification gives to a constraint from the grid point `(x, y)`
to the grid point `(x2, y2)`: 1.0 for the structural neighbours `(x + 1, y)` and `(x, y + 1)`,
0.8 for the shear neighbours `(x + 1, y + 1)` and `(x - 1, y + 1)`, 0.05 for the bending
neighbours `(x + 2, y)` and `(x, y + 2)`, and no value for any other pair of grid points. -/
def specStiffness (x y x2 y2 : Nat) : Option α :=
  if (x2 = x + 1 ∧ y2 = y) ∨ (x2 = x ∧ y2 = y + 1) then some 1
  else if (x2 = x + 1 ∧ y2 = y + 1) ∨ (x2 + 1 = x ∧ y2 = y + 1) then some (8 / 10)
  else if (x2 = x + 2 ∧ y2 = y) ∨ (x2 = x ∧ y2 = y + 2) then some (5 / 100)
  else none

/-- Constructor `Cloth::Cloth(w, h)` for dimensions that are not negative (the call of
`setupMesh`, which creates the OpenGL buffers, is left out). -/
def Cloth.new (sq : α → α) (w h : Nat) : Cloth (Flt α) :=
  { width := w, height := h,
    particles := gridParticles w h,
    constraints := gridConstraints sq (gridParticles w h) w h,
    indices := gridIndices w h }

end construction

/-! ## Picking -/

section picking

variable {α : Type} [LinearOrderedField α]

/-- Body of the loop of `getParticleIndexUnderCursor` for the particle `p` at position `i`,
on the pair `(closestDistSq, closestIndex)`; `project` stands for
`glm::project(., view, projection, viewport)`. -/
def pickStep (project : Vec3 (Flt α) → Vec3 (Flt α)) (xpos scaledY : Flt α)
    (st : Flt α × Int) (i : Nat) (p : Particle (Flt α)) : Flt α × Int :=
  let screenPos := project p.position
  if Flt.lt screenPos.z (Flt.fin 0) || Flt.gt screenPos.z (Flt.fin 1) then st
  else
    let dx := screenPos.x - xpos
    let dy := screenPos.y - scaledY
    let distSq := dx * dx + dy * dy
    let GRAB_THRESHOLD_SQ : Flt α := Flt.fin 50 * Flt.fin 50
    if Flt.lt distSq GRAB_THRESHOLD_SQ && Flt.lt distSq st.1 then (distSq, (i : Int)) else st

/-- Loop `for (int i = 0; i < cloth.particles.size(); ++i)` of `getParticleIndexUnderCursor`,
from the position `i` on. -/
def pickLoop (project : Vec3 (Flt α) → Vec3 (Flt α)) (xpos scaledY : Flt α) :
    List (Particle (Flt α)) → Nat → Flt α × Int → Flt α × Int
  | [], _, st => st
  | p :: ps, i, st => pickLoop project xpos scaledY ps (i + 1) (pickStep project xpos scaledY st i p)

/-- Function `getParticleIndexUnderCursor(xpos, ypos, cloth, view, projection, width,
height)`, with `project` for the projection to the screen. -/
def getParticleIndexUnderCursor (project : Vec3 (Flt α) → Vec3 (Flt α)) (xpos ypos : Flt α)
    (particles : List (Particle (Flt α))) (height : Int) : Int :=
  let closestDistSq : Flt α := Flt.fin 1000000
  let closestIndex : Int := -1
  let scaledY := Flt.fin (height : α) - ypos
  (pickLoop project xpos scaledY particles 0 (closestDistSq, closestIndex)).2

/-- Square of the screen distance between the projection `s` of a particle and the cursor
`(x, y)`, the cursor's `y` flipped to `height - y`. -/
def screenDistSq (height : Int) (x y : α) (s : Vec3 α) : α :=
  (s.x - x) * (s.x - x) + (s.y - ((height : α) - y)) * (s.y - ((height : α) - y))

/-- A projection `s` that can be picked: its depth is in `[0, 1]` and it is at a screen
distance of less than 50 pixels from the cursor. -/
def Pickable (height : Int) (x y : α) (s : Vec3 α) : Prop :=
  0 ≤ s.z ∧ s.z ≤ 1 ∧ screenDistSq height x y s < 50 * 50

instance (height : Int) (x y : α) (s : Vec3 α) : Decidable (Pickable height x y s) := by
  unfold Pickable
  infer_instance

end picking

/-! ## The physics part of a frame of the render loop -/

section renderloop

variable {α : Type} [LinearOrderedField α] {S : Type}

/-- Loop `while (accumulator >= physicsStep) { cloth.update(physicsStep, wind);
accumulator -= physicsStep; }`, run for at most `fuel` iterations; `step` stands for the
call of `cloth.update`. -/
def whileSteps (step : S → S) (physicsStep : Flt α) : Nat → Flt α → S → S × Flt α
  | 0, accumulator, s => (s, accumulator)
  | fuel + 1, accumulator, s =>
    if Flt.ge accumulator physicsStep then
      whileSteps step physicsStep fuel (accumulator - physicsStep) (step s)
    else (s, accumulator)

/-- Physics update of one iteration of the render loop of `main`, for the frame time
`deltaTime`: the local `accumulator` starts from `deltaTime`. -/
def framePhysics (step : S → S) (fuel : Nat) (deltaTime : Flt α) (s : S) : S × Flt α :=
  let physicsStep : Flt α := Flt.fin (1 / 100)
  let accumulator := deltaTime
  let accumulator := if Flt.gt accumulator (Flt.fin (5 / 100)) then Flt.fin (5 / 100) else accumulator
  whileSteps step physicsStep fuel accumulator s

/-- Physics updates of a sequence of frames, one frame time per frame: nothing but the state
`s` passes from a frame to the next. -/
def runFrames (step : S → S) (fuel : Nat) (s : S) (deltaTimes : List (Flt α)) : S :=
  deltaTimes.foldl (fun s deltaTime => (framePhysics step fuel deltaTime s).1) s

end renderloop

/-! ## The second demo: `SilkSimulation` -/

namespace SilkSimulation

/-- Member `struct Particle` of `SilkSimulation`. -/
structure Particle (F : Type) where
  pos : Vec2 F
  prev : Vec2 F
  pinned : Bool
  deriving DecidableEq, Repr

end SilkSimulation

/-- State of a `SilkSimulation` object, for dimensions that are not negative. -/
structure SilkSimulation (F : Type) where
  m_width : Nat
  m_height : Nat
  m_particles : List (SilkSimulation.Particle F)
  deriving DecidableEq, Repr

namespace SilkSimulation

variable {α : Type} [LinearOrderedField α]

/-- Function `idx(x, y, w)`. -/
def idx (x y w : Nat) : Nat := y * w + x

/-- A particle as `resize` creates it: `Vec2()` is `(0, 0)` and `pinned` is `false`. -/
def Particle.default : Particle (Flt α) :=
  { pos := ⟨Flt.fin 0, Flt.fin 0⟩, prev := ⟨Flt.fin 0, Flt.fin 0⟩, pinned := false }

/-- Body of the loops of `SilkSimulation::initialize()` for the grid point `(x, y)`, on the particle
`m_particles[idx(x, y, m_width)]`. -/
def initParticle (w h x y : Nat) (p : Particle (Flt α)) : Particle (Flt α) :=
  let fx : Flt α := Flt.fin (x : α) / Flt.fin (((w : Int) - 1 : Int) : α) - Flt.fin (5 / 10)
  let fy : Flt α := Flt.fin (5 / 10) - Flt.fin (y : α) / Flt.fin (((h : Int) - 1 : Int) : α)
  let p := { p with pos := ⟨fx, fy⟩ }
  let p := { p with prev := p.pos }
  { p with pinned := decide (y = 0) }

/-- Method `SilkSimulation::initialize()` (the word is reserved in Lean, hence `init`). -/
def init (s : SilkSimulation (Flt α)) : SilkSimulation (Flt α) :=
  let ps : List (Particle (Flt α)) := List.replicate (s.m_width * s.m_height) Particle.default
  { s with
    m_particles := (List.range s.m_height).foldl (fun ps y =>
      (List.range s.m_width).foldl (fun ps x =>
        List.modify (initParticle s.m_width s.m_height x y) (idx x y s.m_width) ps) ps) ps }

/-- Body of the integration loop of `step`, with `dt2 = dt * dt`. -/
def integrate (dt2 : Flt α) (p : Particle (Flt α)) : Particle (Flt α) :=
  if p.pinned then p
  else
    let gravity : Vec2 (Flt α) := ⟨Flt.fin 0, Flt.fin (-(15 / 10))⟩
    let damping : Flt α := Flt.fin (9995 / 10000)
    let temp := p.pos
    let vel : Vec2 (Flt α) := ⟨(p.pos.x - p.prev.x) * damping, (p.pos.y - p.prev.y) * damping⟩
    { p with
      pos := ⟨p.pos.x + (vel.x + gravity.x * dt2), p.pos.y + (vel.y + gravity.y * dt2)⟩
      prev := temp }

/-- Statements `pa.pos.x += dx * diff; pa.pos.y += dy * diff;` under `if (!pa.pinned)`. -/
def pull (dx dy diff : Flt α) (p : Particle (Flt α)) : Particle (Flt α) :=
  if !p.pinned then { p with pos := ⟨p.pos.x + dx * diff, p.pos.y + dy * diff⟩ } else p

/-- Statements `pb.pos.x -= dx * diff; pb.pos.y -= dy * diff;` under `if (!pb.pinned)`. -/
def push (dx dy diff : Flt α) (p : Particle (Flt α)) : Particle (Flt α) :=
  if !p.pinned then { p with pos := ⟨p.pos.x - dx * diff, p.pos.y - dy * diff⟩ } else p

/-- Body of the two constraint loops of `step` for the particles at the positions `a` and
`b`, with the rest length `target`. -/
def relax (sq : α → α) (target : Flt α) (a b : Nat) (ps : List (Particle (Flt α))) :
    List (Particle (Flt α)) :=
  match ps[a]?, ps[b]? with
  | some pa, some pb =>
    let dx := pb.pos.x - pa.pos.x
    let dy := pb.pos.y - pa.pos.y
    let dist := Flt.sqrt sq (dx * dx + dy * dy)
    if Flt.le dist (Flt.fin (1 / 1000000)) then ps
    else
      let diff := (dist - target) / dist * Flt.fin (5 / 10)
      List.modify (push dx dy diff) b (List.modify (pull dx dy diff) a ps)
  | _, _ => ps

/-- One iteration of the loop `for (int it = 0; it < iterations; ++it)` of `step`: the
horizontal constraints, then the vertical ones. -/
def relaxAll (sq : α → α) (w h : Nat) (ps : List (Particle (Flt α))) :
    List (Particle (Flt α)) :=
  let restX : Flt α := Flt.fin 1 / Flt.fin (((w : Int) - 1 : Int) : α)
  let restY : Flt α := Flt.fin 1 / Flt.fin (((h : Int) - 1 : Int) : α)
  let ps := (List.range h).foldl (fun ps y =>
    (List.range (w - 1)).foldl (fun ps x => relax sq restX (idx x y w) (idx (x + 1) y w) ps) ps) ps
  (List.range (h - 1)).foldl (fun ps y =>
    (List.range w).foldl (fun ps x => relax sq restY (idx x y w) (idx x (y + 1) w) ps) ps) ps

/-- A particle is still pinned and at the same place: `pinned` is the same, and `pos` is the
same when the particle is pinned. -/
def Particle.Kept (p q : Particle (Flt α)) : Prop :=
  q.pinned = p.pinned ∧ (p.pinned = true → q.pos = p.pos)

/-- Method `SilkSimulation::step(dt)`. -/
def step (sq : α → α) (s : SilkSimulation (Flt α)) (dt : Flt α) : SilkSimulation (Flt α) :=
  if Flt.le dt (Flt.fin 0) then s
  else
    let dt2 := dt * dt
    let ps := s.m_particles.map (integrate dt2)
    let iterations := 6
    { s with m_particles := Nat.iterate (relaxAll sq s.m_width s.m_height) iterations ps }

end SilkSimulation

/-! ## An executable square root on the rationals -/

/-- Square root on `ℚ`, exact on the squares of rationals. -/
def sqrtQ (x : ℚ) : ℚ := (Nat.sqrt x.num.toNat : ℚ) / (Nat.sqrt x.den : ℚ)

/-! ## Relations between a particle before and after a piece of the step -/

section relations

variable {α : Type} [LinearOrderedField α]

/-- A relation on particles that the constraint solver and the normal recomputation
maintain: it is reflexive and transitive, and it holds when the position of an unpinned
particle, or the normal or tangent of any particle, is overwritten. -/
structure Stable (R : Particle (Flt α) → Particle (Flt α) → Prop) : Prop where
  refl : ∀ p, R p p
  trans : ∀ p q r, R p q → R q r → R p r
  position : ∀ (p : Particle (Flt α)) (v : Vec3 (Flt α)), p.isPinned = false →
    R p { p with position := v }
  normal : ∀ (p : Particle (Flt α)) (v : Vec3 (Flt α)), R p { p with normal := v }
  tangent : ∀ (p : Particle (Flt α)) (v : Vec3 (Flt α)), R p { p with tangent := v }

/-- The fields `uv`, `isPinned` and `mass` are the same, and the position is the same when
the particle is pinned. -/
def Particle.Kept (p q : Particle (Flt α)) : Prop :=
  q.uv = p.uv ∧ q.isPinned = p.isPinned ∧ q.mass = p.mass ∧
    (p.isPinned = true → q.position = p.position)

/-- The fields `isPinned`, `acceleration` and `oldPosition` are the same. -/
def Particle.SameMotion (p q : Particle (Flt α)) : Prop :=
  q.isPinned = p.isPinned ∧ q.acceleration = p.acceleration ∧ q.oldPosition = p.oldPosition

end relations

/-! ## Square roots -/

/-- The parameter `sq` is a square root: on non-negative numbers it returns the non-negative
number whose square is the argument. -/
def IsSqrt {α : Type} [LinearOrderedField α] (sq : α → α) : Prop :=
  ∀ x, 0 ≤ x → 0 ≤ sq x ∧ sq x * sq x = x

/-! ## Example states -/

section examples

/-- A particle at the point `(x, y, 0)` as `Particle(pos, uv)` constructs it. -/
def particleAt (x y : ℚ) : Particle (Flt ℚ) :=
  Particle.mk0 ⟨Flt.fin x, Flt.fin y, Flt.fin 0⟩ ⟨Flt.fin 0, Flt.fin 0⟩

/-- A cloth of three particles, the first one pinned, with one constraint and one triangle. -/
def demoCloth : Cloth (Flt ℚ) :=
  { width := 3, height := 1,
    particles := [{ particleAt 0 0 with isPinned := true }, particleAt 1 0, particleAt 0 1],
    constraints := [⟨0, 1, Flt.fin 1, Flt.fin 1⟩],
    indices := [0, 1, 2] }

/-- A pinned particle at the origin. -/
def pinnedOrigin {α : Type} [LinearOrderedField α] : Particle (Flt α) :=
  { Particle.mk0 (Vec3.toFlt ⟨0, 0, 0⟩) ⟨Flt.fin 0, Flt.fin 0⟩ with isPinned := true }

/-- An unpinned particle at `(3, 0, 0)`. -/
def freeAtThree {α : Type} [LinearOrderedField α] : Particle (Flt α) :=
  Particle.mk0 (Vec3.toFlt ⟨3, 0, 0⟩) ⟨Flt.fin 0, Flt.fin 0⟩

/-- A constraint between the particles 0 and 1 with rest distance 1 and stiffness 1. -/
def unitConstraint {α : Type} [LinearOrderedField α] : Constraint (Flt α) :=
  ⟨0, 1, Flt.fin 1, Flt.fin 1⟩

/-- A cloth of one triangle whose first two corners coincide: the triangle has zero area and
its first edge has zero length. -/
def degenerateCloth : Cloth (Flt ℚ) :=
  { width := 3, height := 1,
    particles := [particleAt 0 0, particleAt 0 0, particleAt 0 1],
    constraints := [],
    indices := [0, 1, 2] }

/-- The wind `(1, 0, 0)`. -/
def windX : Vec3 (Flt ℚ) := ⟨Flt.fin 1, Flt.fin 0, Flt.fin 0⟩

/-- A projection to the screen for the examples: 100 pixels per unit of length, depth `1/2`;
a position that is not a pair of numbers goes behind the far plane. -/
def flatScreen : Vec3 (Flt ℚ) → Vec3 ℚ
  | ⟨Flt.fin x, Flt.fin y, _⟩ => ⟨100 * x, 100 * y, 1 / 2⟩
  | _ => ⟨0, 0, 2⟩

end examples

/-! ## Binary32 floats

`F32` is the value of a C++ `float` as the program computes with it: IEEE 754 binary32 with
round to nearest, ties to even, for every operation (one rounding for each operation, no
fused multiply-add).  A finite value is `(-1)^neg * m * 2^e`; the operations return it with
`m < 2^24`, `-149 ≤ e ≤ 104` and `2^23 ≤ m` unless `e = -149` (subnormal numbers and zero). -/

/-- Value of a C++ `float` in binary32: a finite number `(-1)^neg * m * 2^e`, an infinity or
a NaN. -/
inductive F32 where
  | fin (neg : Bool) (m : Nat) (e : Int) : F32
  | inf (neg : Bool) : F32
  | nan : F32
  deriving DecidableEq, Repr

namespace F32

/-- Number of binary digits of `n`, with `fuel` at least the number of digits. -/
def bitsAux : Nat → Nat → Nat
  | 0, _ => 0
  | fuel + 1, n => if n = 0 then 0 else bitsAux fuel (n / 2) + 1

/-- Number of binary digits of `n`: `0` for `0`, and `k + 1` when `2^k ≤ n < 2^(k+1)`. -/
def bits (n : Nat) : Nat := bitsAux n n

/-- Integer square root, one binary digit at a time from the digit `2^(b-1)` down. -/
def isqrtAux (n : Nat) : Nat → Nat → Nat
  | 0, r => r
  | b + 1, r => if (r + 2 ^ b) * (r + 2 ^ b) ≤ n then isqrtAux n b (r + 2 ^ b) else isqrtAux n b r

/-- Integer square root: the largest `r` with `r * r ≤ n`. -/
def isqrt (n : Nat) : Nat := isqrtAux n (bits n) 0

/-- The finite value `(-1)^neg * m * 2^e`, or the infinity when the exponent is beyond the
largest one of binary32. -/
def pack (neg : Bool) (m : Nat) (e : Int) : F32 := if e > 104 then inf neg else fin neg m e

/-- Rounding to binary32, to nearest and ties to even, of the number `(-1)^neg * x` for
`n * 2^e ≤ x < (n + 1) * 2^e`, where `sticky` tells whether `x` is above `n * 2^e`.  When
`sticky` holds, `n` must have at least 26 binary digits. -/
def round (neg : Bool) (n : Nat) (sticky : Bool) (e : Int) : F32 :=
  if n = 0 then fin neg 0 (-149)
  else
    let s : Int := max ((bits n : Int) - 24) (-149 - e)
    if s ≤ 0 then pack neg (n * 2 ^ (-s).toNat) (e + s)
    else
      let k := s.toNat
      let q := n / 2 ^ k
      let r := n % 2 ^ k
      let half := 2 ^ (k - 1)
      let up := decide (half < r) || (decide (r = half) && (sticky || decide (q % 2 = 1)))
      let q := if up then q + 1 else q
      if q = 2 ^ 24 then pack neg (2 ^ 23) (e + s + 1) else pack neg q (e + s)

/-- The float of a literal with the value `num / den`, such as `0.98f` (`lit 98 100`). -/
def lit (num den : Nat) : F32 :=
  let k := bits den + 27
  round false (num * 2 ^ k / den) (decide (num * 2 ^ k % den ≠ 0)) (-(k : Int))

/-- The integer `(-1)^neg * m`. -/
def signed (neg : Bool) (m : Nat) : Int := if neg then -(m : Int) else m

/-- The integers `a / 2^e` and `b / 2^e` for the finite numbers `a = (-1)^s₁ * m₁ * 2^e₁` and
`b = (-1)^s₂ * m₂ * 2^e₂`, with `e` the smaller one of the two exponents. -/
def aligned (s₁ : Bool) (m₁ : Nat) (e₁ : Int) (s₂ : Bool) (m₂ : Nat) (e₂ : Int) : Int × Int :=
  (signed s₁ (m₁ * 2 ^ (e₁ - min e₁ e₂).toNat), signed s₂ (m₂ * 2 ^ (e₂ - min e₁ e₂).toNat))

/-- Float addition `a + b`. -/
def add : F32 → F32 → F32
  | fin s₁ m₁ e₁, fin s₂ m₂ e₂ =>
    let c := (aligned s₁ m₁ e₁ s₂ m₂ e₂).1 + (aligned s₁ m₁ e₁ s₂ m₂ e₂).2
    if c = 0 then fin (s₁ && s₂) 0 (-149) else round (decide (c < 0)) c.natAbs false (min e₁ e₂)
  | inf s₁, inf s₂ => if s₁ = s₂ then inf s₁ else nan
  | inf s, fin _ _ _ => inf s
  | fin _ _ _, inf s => inf s
  | _, _ => nan

/-- Float negation `-a`. -/
def neg : F32 → F32
  | fin s m e => fin (!s) m e
  | inf s => inf (!s)
  | nan => nan

/-- Float subtraction `a - b`, which is `a + (-b)`. -/
def sub (a b : F32) : F32 := add a (neg b)

/-- Float multiplication `a * b`. -/
def mul : F32 → F32 → F32
  | fin s₁ m₁ e₁, fin s₂ m₂ e₂ => round (xor s₁ s₂) (m₁ * m₂) false (e₁ + e₂)
  | fin s₁ m₁ _, inf s₂ => if m₁ = 0 then nan else inf (xor s₁ s₂)
  | inf s₁, fin s₂ m₂ _ => if m₂ = 0 then nan else inf (xor s₁ s₂)
  | inf s₁, inf s₂ => inf (xor s₁ s₂)
  | _, _ => nan

/-- Float division `a / b`. -/
def div : F32 → F32 → F32
  | fin s₁ m₁ e₁, fin s₂ m₂ e₂ =>
    if m₂ = 0 then (if m₁ = 0 then nan else inf (xor s₁ s₂))
    else
      let k := bits m₂ + 27
      round (xor s₁ s₂) (m₁ * 2 ^ k / m₂) (decide (m₁ * 2 ^ k % m₂ ≠ 0)) (e₁ - e₂ - k)
  | fin s₁ _ _, inf s₂ => fin (xor s₁ s₂) 0 (-149)
  | inf s₁, fin s₂ _ _ => inf (xor s₁ s₂)
  | _, _ => nan

/-- Square root `std::sqrt`. -/
def sqrt : F32 → F32
  | fin s m e =>
    if m = 0 then fin s 0 (-149)
    else if s then nan
    else
      let k : Nat := 54 + (e % 2).toNat
      let r := isqrt (m * 2 ^ k)
      round false r (decide (r * r ≠ m * 2 ^ k)) ((e - k) / 2)
  | inf false => inf false
  | inf true => nan
  | nan => nan

/-- Comparison `a < b` of C++; false when an operand is a NaN. -/
def lt : F32 → F32 → Bool
  | fin s₁ m₁ e₁, fin s₂ m₂ e₂ =>
    decide ((aligned s₁ m₁ e₁ s₂ m₂ e₂).1 < (aligned s₁ m₁ e₁ s₂ m₂ e₂).2)
  | fin _ _ _, inf s => !s
  | inf s, fin _ _ _ => s
  | inf s₁, inf s₂ => s₁ && !s₂
  | _, _ => false

/-- Comparison `a > b` of C++; false when an operand is a NaN. -/
def gt (a b : F32) : Bool := lt b a

/-- Comparison `a == b` of C++; false when an operand is a NaN, true for `0` and `-0`. -/
def eq : F32 → F32 → Bool
  | fin s₁ m₁ e₁, fin s₂ m₂ e₂ =>
    decide ((aligned s₁ m₁ e₁ s₂ m₂ e₂).1 = (aligned s₁ m₁ e₁ s₂ m₂ e₂).2)
  | inf s₁, inf s₂ => s₁ == s₂
  | _, _ => false

instance : Add F32 := ⟨add⟩

instance : Sub F32 := ⟨sub⟩

instance : Mul F32 := ⟨mul⟩

instance : Div F32 := ⟨div⟩

instance : Zero F32 := ⟨fin false 0 (-149)⟩

/-- The rational number that a finite float stands for (`0` for an infinity or a NaN). -/
def val : F32 → ℚ
  | fin s m e => (if s then -1 else 1) * (m : ℚ) * 2 ^ e
  | _ => 0

/-- The float is a finite number. -/
def IsFin (a : F32) : Prop := ∃ s m e, a = fin s m e

/-- The float `c` is a finite number next to the rational number `x`: it differs from `x` by
at most `|x| / 2^22` (two units in the last place of a normal number) plus `2^-149` (the
spacing of the subnormal numbers). -/
def Near (x : ℚ) (c : F32) : Prop := IsFin c ∧ |val c - x| ≤ |x| / 2 ^ 22 + 1 / 2 ^ 149

/-- The float `c` is a finite number within `ε` of the rational number `x`. -/
def Approx (ε x : ℚ) (c : F32) : Prop := IsFin c ∧ |val c - x| ≤ ε

end F32

/-! ## The physics core in binary32 arithmetic

The same functions of the program as above, computed with `F32` in place of the exact
numbers of `Flt`. -/

namespace Binary32

/-- Euclidean norm `glm::length(v)`, which is `sqrt(dot(v, v))`. -/
def length (v : Vec3 F32) : F32 := F32.sqrt (Vec3.dot v v)

/-- GLM `inversesqrt(x)`, which is `1 / sqrt(x)`. -/
def inversesqrt (x : F32) : F32 := F32.lit 1 1 / F32.sqrt x

/-- Unit vector `glm::normalize(v)`, which is `v * inversesqrt(dot(v, v))`. -/
def normalize (v : Vec3 F32) : Vec3 F32 := v * inversesqrt (Vec3.dot v v)

/-- Constant `DAMPING = 0.98f`. -/
def DAMPING : F32 := F32.lit 98 100

/-- Gravity force `glm::vec3(0.0f, -9.8f, 0.0f)` of `Cloth::update`. -/
def gravity : Vec3 F32 := ⟨0, F32.neg (F32.lit 98 10), 0⟩

/-- Constructor `Particle(pos, tex)`. -/
def Particle.mk0 (pos : Vec3 F32) (tex : Vec2 F32) : Particle F32 :=
  { position := pos, oldPosition := pos, acceleration := Vec3.zero, uv := tex,
    normal := ⟨0, 0, F32.lit 1 1⟩, tangent := ⟨F32.lit 1 1, 0, 0⟩,
    isPinned := false, mass := F32.lit 1 1 }

/-- Method `Particle::addForce(f)`: `acceleration += f / mass`. -/
def Particle.addForce (p : Particle F32) (f : Vec3 F32) : Particle F32 :=
  { p with acceleration := p.acceleration + f / p.mass }

/-- Method `Particle::update(dt)`. -/
def Particle.update (p : Particle F32) (dt : F32) : Particle F32 :=
  if p.isPinned then p
  else
    let velocity := p.position - p.oldPosition
    let oldPosition := p.position
    let velocityMag := length velocity
    let velocity :=
      if F32.gt velocityMag (F32.lit 10 1) then normalize velocity * F32.lit 10 1
      else velocity
    { p with
      oldPosition := oldPosition
      position := p.position + (velocity * DAMPING + p.acceleration * dt * dt)
      acceleration := Vec3.zero }

/-- Statement `p->position += correction` of `Constraint::solve`, under `if (!p->isPinned)`. -/
def addCorrection (correction : Vec3 F32) (p : Particle F32) : Particle F32 :=
  if !p.isPinned then { p with position := p.position + correction } else p

/-- Statement `p->position -= correction` of `Constraint::solve`, under `if (!p->isPinned)`. -/
def subCorrection (correction : Vec3 F32) (p : Particle F32) : Particle F32 :=
  if !p.isPinned then { p with position := p.position - correction } else p

/-- Method `Constraint::solve()`, acting on the particle vector its pointers refer to. -/
def Constraint.solve (c : Constraint F32) (ps : List (Particle F32)) : List (Particle F32) :=
  match ps[c.p1]?, ps[c.p2]? with
  | some a, some b =>
    let delta := b.position - a.position
    let currentDist := length delta
    if F32.eq currentDist (F32.lit 0 1) then ps
    else
      let correctionAmount := (currentDist - c.restDistance) / currentDist
      let correction := delta * correctionAmount * F32.lit 5 10 * c.stiffness
      List.modify (subCorrection correction) c.p2 (List.modify (addCorrection correction) c.p1 ps)
  | _, _ => ps

/-- Body of loop A of `Cloth::update`: gravity (unless pinned) and wind force. -/
def applyForces (wind : Vec3 F32) (p : Particle F32) : Particle F32 :=
  let p := if !p.isPinned then Particle.addForce p gravity else p
  let windForce := wind *
    (Vec3.dot p.normal (normalize wind) * F32.lit 8 10 + F32.lit 2 10)
  Particle.addForce p windForce

/-- One pass `for (auto& c : constraints) c.solve();`. -/
def solveAll (cs : List (Constraint F32)) (ps : List (Particle F32)) : List (Particle F32) :=
  cs.foldl (fun acc c => Constraint.solve c acc) ps

/-- Loop C of `Cloth::update`: `n` passes over all constraints. -/
def solvePasses (cs : List (Constraint F32)) : Nat → List (Particle F32) → List (Particle F32)
  | 0, ps => ps
  | n + 1, ps => solvePasses cs n (solveAll cs ps)

/-- First loop of `recalculateNormals`: clear normal and tangent. -/
def clearNormal (p : Particle F32) : Particle F32 :=
  { p with normal := Vec3.zero, tangent := Vec3.zero }

/-- Statement `p.normal += normal`. -/
def addNormal (normal : Vec3 F32) (p : Particle F32) : Particle F32 :=
  { p with normal := p.normal + normal }

/-- Statement `p.tangent += tangent`. -/
def addTangent (tangent : Vec3 F32) (p : Particle F32) : Particle F32 :=
  { p with tangent := p.tangent + tangent }

/-- Body of the triangle loop of `recalculateNormals` for the triangle `(i0, i1, i2)`. -/
def accumulateTriangle (i0 i1 i2 : Nat) (ps : List (Particle F32)) : List (Particle F32) :=
  match ps[i0]?, ps[i1]?, ps[i2]? with
  | some p1, some p2, some p3 =>
    let edge1 := p2.position - p1.position
    let edge2 := p3.position - p1.position
    let normal := Vec3.cross edge1 edge2
    let tangent := normalize edge1
    let ps := List.modify (addNormal normal) i0 ps
    let ps := List.modify (addNormal normal) i1 ps
    let ps := List.modify (addNormal normal) i2 ps
    let ps := List.modify (addTangent tangent) i0 ps
    let ps := List.modify (addTangent tangent) i1 ps
    List.modify (addTangent tangent) i2 ps
  | _, _, _ => ps

/-- Second loop of `recalculateNormals`: the index list is read three entries at a time. -/
def accumulate : List Nat → List (Particle F32) → List (Particle F32)
  | i0 :: i1 :: i2 :: rest, ps => accumulate rest (accumulateTriangle i0 i1 i2 ps)
  | _, ps => ps

/-- Third loop of `recalculateNormals`: normalize normal and tangent. -/
def normalizeNormal (p : Particle F32) : Particle F32 :=
  { p with normal := normalize p.normal, tangent := normalize p.tangent }

/-- Method `Cloth::recalculateNormals()`. -/
def Cloth.recalculateNormals (c : Cloth F32) : Cloth F32 :=
  { c with particles := (accumulate c.indices (c.particles.map clearNormal)).map normalizeNormal }

/-- Method `Cloth::update(dt, wind)`. -/
def Cloth.update (c : Cloth F32) (dt : F32) (wind : Vec3 F32) : Cloth F32 :=
  let ps := c.particles.map (applyForces wind)
  let ps := ps.map (fun p => Particle.update p dt)
  let ps := solvePasses c.constraints CONSTRAINT_ITERATIONS ps
  Cloth.recalculateNormals { c with particles := ps }

/-- State of the cloth in `Cloth::update` after loops A, B and C, when `recalculateNormals`
is called. -/
def Cloth.beforeNormals (c : Cloth F32) (dt : F32) (wind : Vec3 F32) : Cloth F32 :=
  { c with
    particles := solvePasses c.constraints CONSTRAINT_ITERATIONS
      ((c.particles.map (applyForces wind)).map (fun p => Particle.update p dt)) }

/-- The triangles of an index list: its entries three at a time. -/
def triangles : List Nat → List (Nat × Nat × Nat)
  | i0 :: i1 :: i2 :: rest => (i0, i1, i2) :: triangles rest
  | _ => []

/-- The un-normalized face normal of the triangle `t = (i0, i1, i2)` for the positions
`pos`: the vector product `(pos[i1] - pos[i0]) × (pos[i2] - pos[i0])` of its first two
edges; no value when an index is outside the vector. -/
def faceNormal (pos : List (Vec3 F32)) (t : Nat × Nat × Nat) : Option (Vec3 F32) :=
  match pos[t.1]?, pos[t.2.1]?, pos[t.2.2]? with
  | some a, some b, some c => some (Vec3.cross (b - a) (c - a))
  | _, _, _ => none

/-- The normalized first edge of the triangle `t = (i0, i1, i2)` for the positions `pos`:
`normalize(pos[i1] - pos[i0])`; no value when an index is outside the vector. -/
def faceTangent (pos : List (Vec3 F32)) (t : Nat × Nat × Nat) : Option (Vec3 F32) :=
  match pos[t.1]?, pos[t.2.1]?, pos[t.2.2]? with
  | some a, some b, some _ => some (normalize (b - a))
  | _, _, _ => none

/-- The vectors `f t` of the triangles `t` of the index list `idx` that have the particle
`i` as a corner, in the order of the list; a triangle counts once for each of its corners
that is `i`. -/
def incident (f : Nat × Nat × Nat → Option (Vec3 F32)) (i : Nat) (idx : List Nat) :
    List (Vec3 F32) :=
  (triangles idx).flatMap fun t =>
    match f t with
    | some v => ([t.1, t.2.1, t.2.2].filter (fun j => j = i)).map (fun _ => v)
    | none => []

/-- Sum of a list of vectors in binary32, from left to right, starting from `acc`. -/
def vsum (acc : Vec3 F32) (l : List (Vec3 F32)) : Vec3 F32 := l.foldl (fun a v => a + v) acc

/-- Sum of the un-normalized face normals of the triangles incident to the particle `i` of
the cloth, in binary32, in the order of the index list. -/
def normalSum (c : Cloth F32) (i : Nat) : Vec3 F32 :=
  vsum Vec3.zero (incident (faceNormal (c.particles.map (fun p => p.position))) i c.indices)

/-- Sum of the normalized first edges of the triangles incident to the particle `i` of the
cloth, in binary32, in the order of the index list. -/
def tangentSum (c : Cloth F32) (i : Nat) : Vec3 F32 :=
  vsum Vec3.zero (incident (faceTangent (c.particles.map (fun p => p.position))) i c.indices)

/-- Square of the Euclidean length of a vector of finite floats, as a rational number. -/
def sqNorm (v : Vec3 F32) : ℚ := F32.val v.x ^ 2 + F32.val v.y ^ 2 + F32.val v.z ^ 2

/-- Square of the Euclidean distance of two vectors of finite floats, as a rational
number. -/
def sqDist (a b : Vec3 F32) : ℚ :=
  (F32.val a.x - F32.val b.x) ^ 2 + (F32.val a.y - F32.val b.y) ^ 2 +
    (F32.val a.z - F32.val b.z) ^ 2

/-- The components of the vector are finite floats. -/
def Fin3 (v : Vec3 F32) : Prop := F32.IsFin v.x ∧ F32.IsFin v.y ∧ F32.IsFin v.z

/-- The components of the vector are finite floats of magnitude at most `b`. -/
def Bounded (b : ℚ) (v : Vec3 F32) : Prop :=
  Fin3 v ∧ |F32.val v.x| ≤ b ∧ |F32.val v.y| ≤ b ∧ |F32.val v.z| ≤ b

/-- The vector can be normalized in binary32: its components are finite floats, and its
length is between `2^-49` and `2^49`, so that the scalar product of the vector with itself
neither underflows nor overflows. -/
def Normalizable (v : Vec3 F32) : Prop :=
  Fin3 v ∧ 1 / 2 ^ 98 ≤ sqNorm v ∧ sqNorm v ≤ 2 ^ 98

/-- The sum of the floats `a'` and `b'` is the sum of the floats `a` and `b` up to the
rounding of `a'` and of `b'`: the two sums differ by at most `2^-21` times the sum of the
magnitudes of `a'` and `b'`, plus `2^-147`. -/
def SameSum (a b a' b' : F32) : Prop :=
  |(F32.val a' + F32.val b') - (F32.val a + F32.val b)| ≤
    (|F32.val a'| + |F32.val b'|) / 2 ^ 21 + 1 / 2 ^ 147

/-- A particle at `pos` with the fields that `Particle(pos, tex)` gives it. -/
def particleAt (x y z : F32) : Particle F32 := Particle.mk0 ⟨x, y, z⟩ ⟨0, 0⟩

/-- The numbers that the components of a vector of finite floats stand for. -/
def vals (v : Vec3 F32) : Vec3 ℚ := ⟨F32.val v.x, F32.val v.y, F32.val v.z⟩

/-- The velocity `v` limited to the length 10, for a vector `v` of length `ℓ`: `v` itself if
`ℓ ≤ 10`, and `10 * v / ℓ` otherwise. -/
def clampSpeed (ℓ : ℚ) (v : Vec3 ℚ) : Vec3 ℚ := if ℓ ≤ 10 then v else (v * (10 : ℚ)) / ℓ

/-- The position after the integration step by the formula `p + 0.98 * v + a * dt^2`, with
`v` the velocity `p - q` limited to the length 10, `ℓ` being the length of `p - q`. -/
def stepFormula (P Q A : Vec3 ℚ) (dt ℓ : ℚ) : Vec3 ℚ :=
  P + clampSpeed ℓ (P - Q) * (98 / 100 : ℚ) + A * dt ^ 2

/-- Current length of the constraint, `glm::length(p2->position - p1->position)`, as
`Constraint::solve` computes it. -/
def Constraint.currentDist (c : Constraint F32) (ps : List (Particle F32)) : F32 :=
  match ps[c.p1]?, ps[c.p2]? with
  | some a, some b => length (b.position - a.position)
  | _, _ => F32.nan

/-- The number 1 for an unpinned particle and 0 for a pinned one. -/
def free (p : Particle F32) : ℚ := if p.isPinned then 0 else 1

end Binary32

/-! ## Example states in binary32 -/

namespace Binary32

/-- A cloth of one triangle with corners `(0, 0, 0)`, `(1, 0, 0)` and `(0, 1, 0)`. -/
def unitTriangle : Cloth F32 :=
  { width := 2, height := 2,
    particles := [particleAt 0 0 0, particleAt (F32.lit 1 1) 0 0, particleAt 0 (F32.lit 1 1) 0],
    constraints := [], indices := [0, 1, 2] }

/-- A cloth of one triangle with corners `(0, 0, 0)`, `(2^-40, 0, 0)` and `(0, 2^-40, 0)`. -/
def tinyTriangle : Cloth F32 :=
  { width := 2, height := 2,
    particles := [particleAt 0 0 0, particleAt (F32.lit 1 (2 ^ 40)) 0 0,
      particleAt 0 (F32.lit 1 (2 ^ 40)) 0],
    constraints := [], indices := [0, 1, 2] }

/-- A cloth of one triangle with corners `(0, 0, 0)`, `(1, 0, 0)` and `(0, 1, -1)`. -/
def skewTriangle : Cloth F32 :=
  { width := 2, height := 2,
    particles := [particleAt 0 0 0, particleAt (F32.lit 1 1) 0 0,
      particleAt 0 (F32.lit 1 1) (F32.neg (F32.lit 1 1))],
    constraints := [], indices := [0, 1, 2] }

/-- An unpinned particle at the origin that was at `(-2^64, 0, 0)` one tick before. -/
def farParticle : Particle F32 :=
  { particleAt 0 0 0 with oldPosition := ⟨F32.neg (F32.lit (2 ^ 64) 1), 0, 0⟩ }

/-- An unpinned particle at `(2^27, 0, 0)` that was at `(2^27 - 56, 0, 0)` one tick
before. -/
def bigParticle : Particle F32 :=
  { particleAt (F32.lit (2 ^ 27) 1) 0 0 with oldPosition := ⟨F32.lit (2 ^ 27 - 56) 1, 0, 0⟩ }

/-- An unpinned particle at `(50, 0, 0)` that was at the origin one tick before. -/
def fastParticle : Particle F32 :=
  { particleAt (F32.lit 50 1) 0 0 with oldPosition := ⟨0, 0, 0⟩ }

/-- A constraint between the particles 0 and 1 with rest distance 1 and stiffness 1. -/
def unitSpring : Constraint F32 := ⟨0, 1, F32.lit 1 1, F32.lit 1 1⟩

/-- Two unpinned particles at `(0, 0, 0)` and `(2^-80, 0, 0)`. -/
def closePair : List (Particle F32) := [particleAt 0 0 0, particleAt (F32.lit 1 (2 ^ 80)) 0 0]

/-- Two unpinned particles at `(-2^64, 0, 0)` and `(2^64, 0, 0)`. -/
def farPair : List (Particle F32) :=
  [particleAt (F32.neg (F32.lit (2 ^ 64) 1)) 0 0, particleAt (F32.lit (2 ^ 64) 1) 0 0]

/-- Two unpinned particles at `(0, 0, 0)` and `(3, 0, 0)`. -/
def loosePair : List (Particle F32) := [particleAt 0 0 0, particleAt (F32.lit 3 1) 0 0]

/-- An unpinned particle at `(12, 0, 0)` that was at the origin one tick before. -/
def quickParticle : Particle F32 :=
  { particleAt (F32.lit 12 1) 0 0 with oldPosition := ⟨0, 0, 0⟩ }

/-- A pinned particle at `(0, 0, 0)` and an unpinned particle at `(3, 0, 0)`. -/
def anchoredPair : List (Particle F32) :=
  [{ particleAt 0 0 0 with isPinned := true }, particleAt (F32.lit 3 1) 0 0]

end Binary32

/-! # Properties -/

/-! ## Arithmetic of floats that are numbers -/

section arithmetic

variable {α : Type} [LinearOrderedField α]

@[simp]
theorem Flt.fin_add (a b : α) : (Flt.fin a + Flt.fin b : Flt α) = Flt.fin (a + b) := rfl

@[simp]
theorem Flt.fin_sub (a b : α) : (Flt.fin a - Flt.fin b : Flt α) = Flt.fin (a - b) := rfl

@[simp]
theorem Flt.fin_mul (a b : α) : (Flt.fin a * Flt.fin b : Flt α) = Flt.fin (a * b) := rfl

theorem Flt.fin_div (a : α) {b : α} (hb : b ≠ 0) :
    (Flt.fin a / Flt.fin b : Flt α) = Flt.fin (a / b) := by
  show Flt.div _ _ = _
  simp [Flt.div, hb]

@[simp]
theorem Flt.fin_div_zero (a : α) : (Flt.fin a / Flt.fin 0 : Flt α) = Flt.nan := by
  show Flt.div _ _ = _
  simp [Flt.div]

@[simp]
theorem Flt.zero_eq : (0 : Flt α) = Flt.fin 0 := rfl

theorem Vec3.zero_flt : (Vec3.zero : Vec3 (Flt α)) = ⟨Flt.fin 0, Flt.fin 0, Flt.fin 0⟩ := rfl

@[simp]
theorem Flt.nan_mul (a : Flt α) : Flt.nan * a = Flt.nan := rfl

@[simp]
theorem Flt.mul_nan (a : Flt α) : a * Flt.nan = Flt.nan := by
  cases a <;> rfl

@[simp]
theorem Flt.nan_add (a : Flt α) : Flt.nan + a = Flt.nan := rfl

@[simp]
theorem Flt.add_nan (a : Flt α) : a + Flt.nan = Flt.nan := by
  cases a <;> rfl

theorem Flt.fin_div_eq (a b : α) :
    (Flt.fin a / Flt.fin b : Flt α) = if b = 0 then Flt.nan else Flt.fin (a / b) := rfl

theorem Flt.sqrt_fin_eq (sq : α → α) (a : α) :
    Flt.sqrt sq (Flt.fin a) = if a < 0 then Flt.nan else Flt.fin (sq a) := rfl

theorem Vec3.add_def {F : Type} [Add F] (a b : Vec3 F) :
    a + b = ⟨a.x + b.x, a.y + b.y, a.z + b.z⟩ := rfl

theorem Vec3.sub_def {F : Type} [Sub F] (a b : Vec3 F) :
    a - b = ⟨a.x - b.x, a.y - b.y, a.z - b.z⟩ := rfl

theorem Vec3.smul_def {F : Type} [Mul F] (a : Vec3 F) (s : F) :
    a * s = ⟨a.x * s, a.y * s, a.z * s⟩ := rfl

theorem Vec3.sdiv_def {F : Type} [Div F] (a : Vec3 F) (s : F) :
    a / s = ⟨a.x / s, a.y / s, a.z / s⟩ := rfl

@[simp]
theorem sqrtQ_zero : sqrtQ 0 = 0 := by
  simp [sqrtQ]

@[simp]
theorem sqrtQ_one : sqrtQ 1 = 1 := by
  simp [sqrtQ]

theorem Flt.sqrt_fin (sq : α → α) {a : α} (ha : 0 ≤ a) :
    Flt.sqrt sq (Flt.fin a) = Flt.fin (sq a) := by
  simp [Flt.sqrt, not_lt.mpr ha]

@[simp]
theorem Flt.gt_fin (a b : α) : Flt.gt (Flt.fin a) (Flt.fin b) = decide (b < a) := rfl

@[simp]
theorem Flt.eq_fin (a b : α) : Flt.eq (Flt.fin a) (Flt.fin b) = decide (a = b) := rfl

@[simp]
theorem Vec3.add_x (a b : Vec3 α) : (a + b).x = a.x + b.x := rfl

@[simp]
theorem Vec3.add_y (a b : Vec3 α) : (a + b).y = a.y + b.y := rfl

@[simp]
theorem Vec3.add_z (a b : Vec3 α) : (a + b).z = a.z + b.z := rfl

@[simp]
theorem Vec3.sub_x (a b : Vec3 α) : (a - b).x = a.x - b.x := rfl

@[simp]
theorem Vec3.sub_y (a b : Vec3 α) : (a - b).y = a.y - b.y := rfl

@[simp]
theorem Vec3.sub_z (a b : Vec3 α) : (a - b).z = a.z - b.z := rfl

@[simp]
theorem Vec3.smul_x (a : Vec3 α) (s : α) : (a * s).x = a.x * s := rfl

@[simp]
theorem Vec3.smul_y (a : Vec3 α) (s : α) : (a * s).y = a.y * s := rfl

@[simp]
theorem Vec3.smul_z (a : Vec3 α) (s : α) : (a * s).z = a.z * s := rfl

@[simp]
theorem Vec3.sdiv_x (a : Vec3 α) (s : α) : (a / s).x = a.x / s := rfl

@[simp]
theorem Vec3.sdiv_y (a : Vec3 α) (s : α) : (a / s).y = a.y / s := rfl

@[simp]
theorem Vec3.sdiv_z (a : Vec3 α) (s : α) : (a / s).z = a.z / s := rfl

@[simp]
theorem Vec3.toFlt_add (a b : Vec3 α) : a.toFlt + b.toFlt = (a + b).toFlt := rfl

@[simp]
theorem Vec3.toFlt_sub (a b : Vec3 α) : a.toFlt - b.toFlt = (a - b).toFlt := rfl

@[simp]
theorem Vec3.toFlt_smul (a : Vec3 α) (s : α) : a.toFlt * Flt.fin s = (a * s).toFlt := rfl

theorem Vec3.toFlt_sdiv (a : Vec3 α) {s : α} (hs : s ≠ 0) :
    a.toFlt / Flt.fin s = (a / s).toFlt := by
  show Vec3.sdiv _ _ = _
  simp [Vec3.sdiv, Vec3.toFlt, Flt.fin_div _ hs]

@[simp]
theorem Vec3.toFlt_zero : (Vec3.zero : Vec3 α).toFlt = Vec3.zero := rfl

theorem Vec3.toFlt_injective {a b : Vec3 α} (h : a.toFlt = b.toFlt) : a = b := by
  cases a
  cases b
  simpa [Vec3.toFlt] using h

@[simp]
theorem Vec3.dot_toFlt (a b : Vec3 α) : Vec3.dot a.toFlt b.toFlt = Flt.fin (Vec3.dot a b) := rfl

theorem Vec3.dot_self_nonneg (a : Vec3 α) : 0 ≤ Vec3.dot a a := by
  unfold Vec3.dot
  nlinarith [mul_self_nonneg a.x, mul_self_nonneg a.y, mul_self_nonneg a.z]

theorem Vec3.dot_self_eq_zero {a : Vec3 α} (h : Vec3.dot a a = 0) : a = Vec3.zero := by
  unfold Vec3.dot at h
  have hx : a.x = 0 := by
    nlinarith [mul_self_nonneg a.x, mul_self_nonneg a.y, mul_self_nonneg a.z]
  have hy : a.y = 0 := by
    nlinarith [mul_self_nonneg a.x, mul_self_nonneg a.y, mul_self_nonneg a.z]
  have hz : a.z = 0 := by
    nlinarith [mul_self_nonneg a.x, mul_self_nonneg a.y, mul_self_nonneg a.z]
  ext <;> assumption

@[simp]
theorem length_toFlt (sq : α → α) (a : Vec3 α) :
    length sq a.toFlt = Flt.fin (sq (Vec3.dot a a)) := by
  unfold length
  rw [Vec3.dot_toFlt, Flt.sqrt_fin sq (Vec3.dot_self_nonneg a)]

theorem normalize_toFlt (sq : α → α) (a : Vec3 α) (h : sq (Vec3.dot a a) ≠ 0) :
    normalize sq a.toFlt = (a * (1 / sq (Vec3.dot a a))).toFlt := by
  unfold normalize inversesqrt
  rw [Vec3.dot_toFlt, Flt.sqrt_fin sq (Vec3.dot_self_nonneg a), Flt.fin_div _ h,
    Vec3.toFlt_smul]

theorem normalize_toFlt_of_zero (sq : α → α) (a : Vec3 α) (h : sq (Vec3.dot a a) = 0) :
    normalize sq a.toFlt = Vec3.nan := by
  unfold normalize inversesqrt
  rw [Vec3.dot_toFlt, Flt.sqrt_fin sq (Vec3.dot_self_nonneg a), h, Flt.fin_div_zero]
  show Vec3.smul _ _ = _
  simp [Vec3.smul, Vec3.nan]

theorem IsSqrt.zero {sq : α → α} (h : IsSqrt sq) : sq 0 = 0 := by
  have := (h 0 le_rfl).2
  simpa using this

theorem IsSqrt.eq_of_sq {sq : α → α} (h : IsSqrt sq) {x y : α} (hy : 0 ≤ y) (hxy : y * y = x) :
    sq x = y := by
  have hx : 0 ≤ x := hxy ▸ mul_self_nonneg y
  obtain ⟨h₁, h₂⟩ := h x hx
  nlinarith [mul_self_nonneg (sq x - y), mul_nonneg h₁ hy]

theorem IsSqrt.pos {sq : α → α} (h : IsSqrt sq) {x : α} (hx : 0 < x) : 0 < sq x := by
  obtain ⟨h₁, h₂⟩ := h x hx.le
  rcases h₁.lt_or_eq with h₃ | h₃
  · exact h₃
  · rw [← h₃] at h₂
    simp at h₂
    exact absurd h₂.symm hx.ne'

theorem isSqrt_real : IsSqrt Real.sqrt := fun x hx =>
  ⟨Real.sqrt_nonneg x, Real.mul_self_sqrt hx⟩

theorem sqrtQ_mul_self {q : ℚ} (hq : 0 ≤ q) : sqrtQ (q * q) = q := by
  unfold sqrtQ
  rw [Rat.mul_self_num, Rat.mul_self_den, Nat.sqrt_eq]
  obtain ⟨n, hn⟩ := Int.eq_ofNat_of_zero_le (Rat.num_nonneg.mpr hq)
  have h₁ : (q.num * q.num).toNat = n * n := by
    rw [hn]
    exact Int.toNat_ofNat (n * n)
  rw [h₁, Nat.sqrt_eq]
  have h₂ : (n : ℚ) = (q.num : ℚ) := by
    rw [hn]
    rfl
  rw [h₂]
  exact Rat.num_div_den q

end arithmetic

/-! ## Lists related position by position -/

section lists

variable {β : Type}

theorem forall₂_refl {R : β → β → Prop} (hR : ∀ a, R a a) (l : List β) : List.Forall₂ R l l := by
  induction l with
  | nil => exact List.Forall₂.nil
  | cons a l ih => exact List.Forall₂.cons (hR a) ih

theorem forall₂_comp {R S T : β → β → Prop} (h : ∀ a b c, R a b → S b c → T a c)
    {l₁ l₂ l₃ : List β} (h₁ : List.Forall₂ R l₁ l₂) (h₂ : List.Forall₂ S l₂ l₃) :
    List.Forall₂ T l₁ l₃ := by
  induction h₁ generalizing l₃ with
  | nil => cases h₂; exact List.Forall₂.nil
  | cons hab _ ih =>
    cases h₂ with
    | cons hbc h₂ => exact List.Forall₂.cons (h _ _ _ hab hbc) (ih h₂)

theorem forall₂_map {R : β → β → Prop} (f : β → β) (hf : ∀ a, R a (f a)) (l : List β) :
    List.Forall₂ R l (l.map f) := by
  induction l with
  | nil => exact List.Forall₂.nil
  | cons a l ih => exact List.Forall₂.cons (hf a) ih

theorem forall₂_modify {R : β → β → Prop} (hR : ∀ a, R a a) (f : β → β) (hf : ∀ a, R a (f a))
    (n : Nat) (l : List β) : List.Forall₂ R l (List.modify f n l) := by
  induction l generalizing n with
  | nil => simp
  | cons a l ih =>
    cases n with
    | zero =>
      rw [List.modify_zero_cons]
      exact List.Forall₂.cons (hf a) (forall₂_refl hR l)
    | succ n =>
      rw [List.modify_succ_cons]
      exact List.Forall₂.cons (hR a) (ih n)

theorem forall₂_getElem? {R : β → β → Prop} {l₁ l₂ : List β} (h : List.Forall₂ R l₁ l₂)
    (i : Nat) (a : β) (ha : l₁[i]? = some a) : ∃ b, l₂[i]? = some b ∧ R a b := by
  induction h generalizing i with
  | nil => simp at ha
  | cons hab _ ih =>
    cases i with
    | zero =>
      simp only [List.getElem?_cons_zero, Option.some.injEq] at ha
      subst ha
      exact ⟨_, by simp, hab⟩
    | succ i =>
      simp only [List.getElem?_cons_succ] at ha
      simpa using ih i ha

theorem forall₂_length {R : β → β → Prop} {l₁ l₂ : List β} (h : List.Forall₂ R l₁ l₂) :
    l₂.length = l₁.length := by
  induction h with
  | nil => rfl
  | cons _ _ ih => simp [ih]

theorem forall₂_map_eq {R : β → β → Prop} {γ : Type} (g : β → γ) (hg : ∀ a b, R a b → g b = g a)
    {l₁ l₂ : List β} (h : List.Forall₂ R l₁ l₂) : l₂.map g = l₁.map g := by
  induction h with
  | nil => rfl
  | cons hab _ ih => simp [ih, hg _ _ hab]

end lists

/-! ## Stable relations are maintained by the solver and by the normal recomputation -/

section stable

variable {α : Type} [LinearOrderedField α]
variable {R : Particle (Flt α) → Particle (Flt α) → Prop}

theorem Stable.forall₂_trans (hR : Stable R) {l₁ l₂ l₃ : List (Particle (Flt α))}
    (h₁ : List.Forall₂ R l₁ l₂) (h₂ : List.Forall₂ R l₂ l₃) : List.Forall₂ R l₁ l₃ :=
  forall₂_comp hR.trans h₁ h₂

theorem Stable.addCorrection (hR : Stable R) (v : Vec3 (Flt α)) (p : Particle (Flt α)) :
    R p (addCorrection v p) := by
  unfold Silk.addCorrection
  cases hp : p.isPinned
  · rw [if_pos (by simp)]
    exact hp ▸ hR.position p _ hp
  · rw [if_neg (by simp)]
    exact hR.refl p

theorem Stable.subCorrection (hR : Stable R) (v : Vec3 (Flt α)) (p : Particle (Flt α)) :
    R p (subCorrection v p) := by
  unfold Silk.subCorrection
  cases hp : p.isPinned
  · rw [if_pos (by simp)]
    exact hp ▸ hR.position p _ hp
  · rw [if_neg (by simp)]
    exact hR.refl p

theorem Stable.solve (hR : Stable R) (sq : α → α) (c : Constraint (Flt α))
    (ps : List (Particle (Flt α))) : List.Forall₂ R ps (c.solve sq ps) := by
  unfold Constraint.solve
  split
  · dsimp only
    split
    · exact forall₂_refl hR.refl ps
    · exact hR.forall₂_trans (forall₂_modify hR.refl _ (hR.addCorrection _) _ _)
        (forall₂_modify hR.refl _ (hR.subCorrection _) _ _)
  · exact forall₂_refl hR.refl ps

theorem Stable.solveAll (hR : Stable R) (sq : α → α) (cs : List (Constraint (Flt α)))
    (ps : List (Particle (Flt α))) : List.Forall₂ R ps (solveAll sq cs ps) := by
  unfold Silk.solveAll
  induction cs generalizing ps with
  | nil => exact forall₂_refl hR.refl ps
  | cons c cs ih => exact hR.forall₂_trans (hR.solve sq c ps) (ih _)

theorem Stable.solvePasses (hR : Stable R) (sq : α → α) (cs : List (Constraint (Flt α)))
    (n : Nat) (ps : List (Particle (Flt α))) : List.Forall₂ R ps (solvePasses sq cs n ps) := by
  induction n generalizing ps with
  | zero => exact forall₂_refl hR.refl ps
  | succ n ih => exact hR.forall₂_trans (hR.solveAll sq cs ps) (ih _)

theorem Stable.clearNormal (hR : Stable R) (p : Particle (Flt α)) : R p (clearNormal p) :=
  hR.trans _ _ _ (hR.normal p Vec3.zero) (hR.tangent _ Vec3.zero)

theorem Stable.normalizeNormal (hR : Stable R) (sq : α → α) (p : Particle (Flt α)) :
    R p (normalizeNormal sq p) :=
  hR.trans _ _ _ (hR.normal p (normalize sq p.normal)) (hR.tangent _ (normalize sq p.tangent))

theorem Stable.accumulateTriangle (hR : Stable R) (sq : α → α) (i0 i1 i2 : Nat)
    (ps : List (Particle (Flt α))) : List.Forall₂ R ps (accumulateTriangle sq i0 i1 i2 ps) := by
  have hn : ∀ v n l, List.Forall₂ R l (List.modify (addNormal v) n l) := fun v n l =>
    forall₂_modify hR.refl _ (fun p => hR.normal p _) n l
  have ht : ∀ v n l, List.Forall₂ R l (List.modify (addTangent v) n l) := fun v n l =>
    forall₂_modify hR.refl _ (fun p => hR.tangent p _) n l
  unfold Silk.accumulateTriangle
  split
  · dsimp only
    exact hR.forall₂_trans (hR.forall₂_trans (hR.forall₂_trans (hR.forall₂_trans
      (hR.forall₂_trans (hn _ _ _) (hn _ _ _)) (hn _ _ _)) (ht _ _ _)) (ht _ _ _)) (ht _ _ _)
  · exact forall₂_refl hR.refl ps

theorem Stable.accumulate (hR : Stable R) (sq : α → α) (idx : List Nat)
    (ps : List (Particle (Flt α))) : List.Forall₂ R ps (accumulate sq idx ps) := by
  induction idx, ps using accumulate.induct sq with
  | case1 i0 i1 i2 rest ps ih =>
    rw [Silk.accumulate]
    exact hR.forall₂_trans (hR.accumulateTriangle sq i0 i1 i2 ps) ih
  | case2 idx ps h =>
    rw [Silk.accumulate]
    · exact forall₂_refl hR.refl ps
    · exact h

theorem Stable.recalculateNormals (hR : Stable R) (sq : α → α) (c : Cloth (Flt α)) :
    List.Forall₂ R c.particles (c.recalculateNormals sq).particles := by
  unfold Cloth.recalculateNormals
  exact hR.forall₂_trans (hR.forall₂_trans (forall₂_map _ hR.clearNormal _)
    (hR.accumulate sq _ _)) (forall₂_map _ (hR.normalizeNormal sq) _)

/-- Phases C and D of `Cloth::update` maintain every stable relation. -/
theorem Stable.solveAndNormals (hR : Stable R) (sq : α → α) (c : Cloth (Flt α))
    (ps : List (Particle (Flt α))) :
    List.Forall₂ R ps (Cloth.recalculateNormals sq
      { c with particles := Silk.solvePasses sq c.constraints CONSTRAINT_ITERATIONS ps }).particles :=
  hR.forall₂_trans (hR.solvePasses sq c.constraints CONSTRAINT_ITERATIONS ps)
    (hR.recalculateNormals sq
      { c with particles := Silk.solvePasses sq c.constraints CONSTRAINT_ITERATIONS ps })

theorem stable_kept : Stable (Particle.Kept : Particle (Flt α) → Particle (Flt α) → Prop) where
  refl _ := ⟨rfl, rfl, rfl, fun _ => rfl⟩
  trans p q r h₁ h₂ := by
    obtain ⟨a₁, b₁, c₁, d₁⟩ := h₁
    obtain ⟨a₂, b₂, c₂, d₂⟩ := h₂
    refine ⟨a₂.trans a₁, b₂.trans b₁, c₂.trans c₁, fun hp => ?_⟩
    rw [d₂ (b₁.trans hp), d₁ hp]
  position p v hp := ⟨rfl, rfl, rfl, fun h => by simp [hp] at h⟩
  normal _ _ := ⟨rfl, rfl, rfl, fun _ => rfl⟩
  tangent _ _ := ⟨rfl, rfl, rfl, fun _ => rfl⟩

theorem stable_sameMotion :
    Stable (Particle.SameMotion : Particle (Flt α) → Particle (Flt α) → Prop) where
  refl _ := ⟨rfl, rfl, rfl⟩
  trans _ _ _ h₁ h₂ := ⟨h₂.1.trans h₁.1, h₂.2.1.trans h₁.2.1, h₂.2.2.trans h₁.2.2⟩
  position _ _ _ := ⟨rfl, rfl, rfl⟩
  normal _ _ := ⟨rfl, rfl, rfl⟩
  tangent _ _ := ⟨rfl, rfl, rfl⟩

end stable

/-! ## The pin invariant and the frame of `Cloth::update` -/

section frame

variable {α : Type} [LinearOrderedField α]

theorem kept_addForce (p : Particle (Flt α)) (f : Vec3 (Flt α)) :
    Particle.Kept p (p.addForce f) :=
  ⟨rfl, rfl, rfl, fun _ => rfl⟩

theorem kept_applyForces (sq : α → α) (wind : Vec3 (Flt α)) (p : Particle (Flt α)) :
    Particle.Kept p (applyForces sq wind p) := by
  unfold applyForces
  cases hp : p.isPinned
  · simpa using stable_kept.trans _ _ _ (kept_addForce p gravity) (kept_addForce _ _)
  · simpa using kept_addForce p _

theorem update_of_pinned (sq : α → α) (dt : Flt α) (p : Particle (Flt α))
    (hp : p.isPinned = true) : p.update sq dt = p := by
  simp [Particle.update, hp]

theorem kept_update (sq : α → α) (dt : Flt α) (p : Particle (Flt α)) :
    Particle.Kept p (p.update sq dt) := by
  cases hp : p.isPinned
  · simp [Particle.update, hp, Particle.Kept]
  · rw [update_of_pinned sq dt p hp]
    exact stable_kept.refl p

theorem keptAll_update (sq : α → α) (c : Cloth (Flt α)) (dt : Flt α) (wind : Vec3 (Flt α)) :
    List.Forall₂ Particle.Kept c.particles (c.update sq dt wind).particles := by
  unfold Cloth.update
  dsimp only
  refine stable_kept.forall₂_trans ?_ (stable_kept.solveAndNormals sq _ _)
  exact stable_kept.forall₂_trans (forall₂_map _ (kept_applyForces sq wind) _)
    (forall₂_map _ (kept_update sq dt) _)

/-- C1 (pin invariant): for every cloth state, time step and wind, a particle that is pinned
has exactly the same position after `Cloth::update(dt, wind)` as before it and is still
pinned; `Particle::update` does not move it, and no number of passes of `Constraint::solve`
over the constraints (in particular the 5 passes of the step) moves it. -/
theorem Cloth.update_pinned_position (sq : α → α) (c : Cloth (Flt α)) (dt : Flt α)
    (wind : Vec3 (Flt α)) (i : Nat) (p : Particle (Flt α))
    (hi : c.particles[i]? = some p) (hp : p.isPinned = true) :
    (p.update sq dt).position = p.position ∧
    (∀ n, ∃ q, (solvePasses sq c.constraints n c.particles)[i]? = some q ∧
      q.isPinned = true ∧ q.position = p.position) ∧
    ∃ q, (c.update sq dt wind).particles[i]? = some q ∧
      q.isPinned = true ∧ q.position = p.position := by
  refine ⟨by rw [update_of_pinned sq dt p hp], fun n => ?_, ?_⟩
  · obtain ⟨q, hq, hk⟩ := forall₂_getElem? (stable_kept.solvePasses sq c.constraints n _) i p hi
    exact ⟨q, hq, hk.2.1.trans hp, hk.2.2.2 hp⟩
  · obtain ⟨q, hq, hk⟩ := forall₂_getElem? (keptAll_update sq c dt wind) i p hi
    exact ⟨q, hq, hk.2.1.trans hp, hk.2.2.2 hp⟩

/-- Witness of C1: the pinned first particle of `demoCloth` stays at the origin. -/
theorem Cloth.update_pinned_position_witness :
    demoCloth.particles[0]? = some { particleAt 0 0 with isPinned := true } ∧
    ∃ q, (demoCloth.update sqrtQ (Flt.fin (1 / 100)) windX).particles[0]? = some q ∧
      q.isPinned = true ∧ q.position = ⟨Flt.fin 0, Flt.fin 0, Flt.fin 0⟩ :=
  ⟨rfl, (Cloth.update_pinned_position sqrtQ demoCloth (Flt.fin (1 / 100)) windX 0
    { particleAt 0 0 with isPinned := true } rfl rfl).2.2⟩

/-- C2 (frame of the step): `Cloth::update(dt, wind)` keeps the number of particles, every
particle's `uv`, `isPinned` and `mass`, the constraint list (so the number of constraints and
every constraint's endpoints, `restDistance` and `stiffness`), the triangle index list and the
grid dimensions; only `position`, `oldPosition`, `acceleration`, `normal` and `tangent` of
particles can differ. -/
theorem Cloth.update_frame (sq : α → α) (c : Cloth (Flt α)) (dt : Flt α)
    (wind : Vec3 (Flt α)) :
    (c.update sq dt wind).particles.length = c.particles.length ∧
    (c.update sq dt wind).particles.map (fun p => (p.uv, p.isPinned, p.mass)) =
      c.particles.map (fun p => (p.uv, p.isPinned, p.mass)) ∧
    (c.update sq dt wind).constraints = c.constraints ∧
    (c.update sq dt wind).constraints.length = c.constraints.length ∧
    (c.update sq dt wind).indices = c.indices ∧
    (c.update sq dt wind).width = c.width ∧ (c.update sq dt wind).height = c.height := by
  refine ⟨forall₂_length (keptAll_update sq c dt wind), ?_, rfl, rfl, rfl, rfl, rfl⟩
  refine forall₂_map_eq _ ?_ (keptAll_update sq c dt wind)
  rintro p q ⟨h₁, h₂, h₃, _⟩
  rw [h₁, h₂, h₃]

end frame

/-! ## Forces -/

section forces

variable {α : Type} [LinearOrderedField α]

theorem applyForces_of_pinned (sq : α → α) (wind : Vec3 (Flt α)) (p : Particle (Flt α))
    (hp : p.isPinned = true) :
    applyForces sq wind p = p.addForce (wind *
      (Vec3.dot p.normal (normalize sq wind) * (Flt.fin (8 / 10) : Flt α) + Flt.fin (2 / 10))) := by
  simp [applyForces, hp]

/-- A pinned particle leaves `Cloth::update` with the acceleration that loop A gave it: the
wind force is added to what it had, and nothing resets it. -/
theorem update_pinned_acceleration (sq : α → α) (c : Cloth (Flt α)) (dt : Flt α)
    (wind : Vec3 (Flt α)) (i : Nat) (p : Particle (Flt α))
    (hi : c.particles[i]? = some p) (hp : p.isPinned = true) :
    ∃ q, (c.update sq dt wind).particles[i]? = some q ∧ q.isPinned = true ∧
      q.acceleration = p.acceleration + (wind *
        (Vec3.dot p.normal (normalize sq wind) * (Flt.fin (8 / 10) : Flt α) + Flt.fin (2 / 10)))
          / p.mass := by
  have h₁ : List.Forall₂ (fun a b => b = (applyForces sq wind a).update sq dt) c.particles
      ((c.particles.map (applyForces sq wind)).map (fun p => p.update sq dt)) := by
    rw [List.map_map]
    exact @forall₂_map _ (fun a b => b = (applyForces sq wind a).update sq dt) _
      (fun _ => rfl) _
  have h₂ : List.Forall₂ (fun a b => Particle.SameMotion ((applyForces sq wind a).update sq dt) b)
      c.particles (c.update sq dt wind).particles :=
    forall₂_comp (fun a b d hab hbd => by subst hab; exact hbd) h₁
      (stable_sameMotion.solveAndNormals sq c _)
  obtain ⟨q, hq, hm⟩ := forall₂_getElem? h₂ i p hi
  have hf : (applyForces sq wind p).isPinned = true := by
    rw [applyForces_of_pinned sq wind p hp]
    exact hp
  rw [update_of_pinned sq dt _ hf] at hm
  refine ⟨q, hq, hm.1.trans hf, ?_⟩
  rw [hm.2.1, applyForces_of_pinned sq wind p hp]
  rfl

/-- An unpinned particle leaves `Cloth::update` with the zero acceleration. -/
theorem update_unpinned_acceleration (sq : α → α) (c : Cloth (Flt α)) (dt : Flt α)
    (wind : Vec3 (Flt α)) (i : Nat) (p : Particle (Flt α))
    (hi : c.particles[i]? = some p) (hp : p.isPinned = false) :
    ∃ q, (c.update sq dt wind).particles[i]? = some q ∧ q.isPinned = false ∧
      q.acceleration = Vec3.zero := by
  have h₁ : List.Forall₂ (fun a b => b = (applyForces sq wind a).update sq dt) c.particles
      ((c.particles.map (applyForces sq wind)).map (fun p => p.update sq dt)) := by
    rw [List.map_map]
    exact @forall₂_map _ (fun a b => b = (applyForces sq wind a).update sq dt) _
      (fun _ => rfl) _
  have h₂ : List.Forall₂ (fun a b => Particle.SameMotion ((applyForces sq wind a).update sq dt) b)
      c.particles (c.update sq dt wind).particles :=
    forall₂_comp (fun a b d hab hbd => by subst hab; exact hbd) h₁
      (stable_sameMotion.solveAndNormals sq c _)
  obtain ⟨q, hq, hm⟩ := forall₂_getElem? h₂ i p hi
  have hf : (applyForces sq wind p).isPinned = false :=
    ((kept_applyForces sq wind p).2.1).trans hp
  refine ⟨q, hq, ?_, ?_⟩
  · rw [hm.1, (kept_update sq dt _).2.1, hf]
  · rw [hm.2.1]
    simp [Particle.update, hf]

/-- C3 (the code at a failing input): after `Cloth::update` with the wind `(1, 0, 0)`, the
pinned first particle of `demoCloth`, whose acceleration was zero, has the acceleration
`(0.2, 0, 0)`, which is not the zero vector. -/
theorem Cloth.update_pinned_acceleration_nonzero :
    demoCloth.particles[0]? = some { particleAt 0 0 with isPinned := true } ∧
    ∃ q, (demoCloth.update sqrtQ (Flt.fin (1 / 100)) windX).particles[0]? = some q ∧
      q.isPinned = true ∧ q.acceleration = ⟨Flt.fin (1 / 5), Flt.fin 0, Flt.fin 0⟩ ∧
      q.acceleration ≠ Vec3.zero := by
  refine ⟨rfl, ?_⟩
  obtain ⟨q, hq, hpin, hacc⟩ := update_pinned_acceleration sqrtQ demoCloth (Flt.fin (1 / 100))
    windX 0 { particleAt 0 0 with isPinned := true } rfl rfl
  have hval : q.acceleration = ⟨Flt.fin (1 / 5), Flt.fin 0, Flt.fin 0⟩ := by
    rw [hacc]
    norm_num [particleAt, Particle.mk0, windX, normalize, inversesqrt, Vec3.dot, Vec3.zero_flt,
      Vec3.add_def, Vec3.smul_def, Vec3.sdiv_def, Flt.fin_div_eq, Flt.sqrt_fin_eq]
  refine ⟨q, hq, hpin, hval, ?_⟩
  rw [hval]
  norm_num [Vec3.zero_flt]

/-- C4 (the claim fails on a pinned particle): `addForce` with the force `(1, 0, 0)` on the
pinned particle at the origin, whose acceleration is zero and mass is one, gives it the
acceleration `(1, 0, 0)`. -/
theorem Particle.addForce_pinned_changes :
    ({ particleAt 0 0 with isPinned := true } : Particle (Flt ℚ)).isPinned = true ∧
    (Particle.addForce { particleAt 0 0 with isPinned := true } windX).acceleration =
      ⟨Flt.fin 1, Flt.fin 0, Flt.fin 0⟩ ∧
    Particle.addForce { particleAt 0 0 with isPinned := true } windX ≠
      { particleAt 0 0 with isPinned := true } := by
  have h : (Particle.addForce { particleAt 0 0 with isPinned := true } windX).acceleration =
      ⟨Flt.fin 1, Flt.fin 0, Flt.fin 0⟩ := by
    norm_num [Particle.addForce, particleAt, Particle.mk0, windX, Vec3.zero_flt, Vec3.add_def,
      Vec3.sdiv_def, Flt.fin_div_eq]
  refine ⟨rfl, h, fun hne => ?_⟩
  rw [hne] at h
  norm_num [particleAt, Particle.mk0, Vec3.zero_flt] at h

/-- C4 (amended): `addForce(f)` adds exactly `f / mass` to the acceleration and leaves every
other field unchanged, on a pinned particle as on an unpinned one (the mass being a non-zero
number). -/
theorem Particle.addForce_adds (p : Particle (Flt α)) (A F : Vec3 α) (m : α)
    (hA : p.acceleration = A.toFlt) (hm : p.mass = Flt.fin m) (hm0 : m ≠ 0) :
    p.addForce F.toFlt = { p with acceleration := (A + F / m).toFlt } := by
  unfold Particle.addForce
  rw [hA, hm, Vec3.toFlt_sdiv F hm0, Vec3.toFlt_add]

/-- Witness of C4 (amended): a pinned particle of mass 2 and the force `(1, 0, 0)`. -/
theorem Particle.addForce_adds_witness :
    ({ particleAt 0 0 with isPinned := true, mass := Flt.fin 2 } : Particle (Flt ℚ)).addForce
        (Vec3.toFlt ⟨1, 0, 0⟩) =
      { particleAt 0 0 with
        isPinned := true, mass := Flt.fin 2,
        acceleration := Vec3.toFlt ((⟨0, 0, 0⟩ : Vec3 ℚ) + (⟨1, 0, 0⟩ : Vec3 ℚ) / (2 : ℚ)) } :=
  Particle.addForce_adds { particleAt 0 0 with isPinned := true, mass := Flt.fin 2 }
    ⟨0, 0, 0⟩ ⟨1, 0, 0⟩ 2 rfl rfl (by norm_num)

end forces

/-! ## Integration -/

section integration

variable {α : Type} [LinearOrderedField α]

/-- The method `Particle::update` on an unpinned particle whose position, old position and
acceleration are numbers. -/
theorem update_of_unpinned (sq : α → α) (p : Particle (Flt α)) (P Q A : Vec3 α) (dt : α)
    (hP : p.position = P.toFlt) (hQ : p.oldPosition = Q.toFlt) (hA : p.acceleration = A.toFlt)
    (hpin : p.isPinned = false) :
    p.update sq (Flt.fin dt) =
      { p with
        oldPosition := P.toFlt
        position := (P + (if sq (Vec3.dot (P - Q) (P - Q)) ≤ 10 then P - Q
          else ((P - Q) * (10 : α)) / sq (Vec3.dot (P - Q) (P - Q))) * (98 / 100 : α)
          + A * dt ^ 2).toFlt
        acceleration := Vec3.zero } := by
  unfold Particle.update
  rw [if_neg (by simp [hpin])]
  simp only [hP, hQ, hA, Vec3.toFlt_sub, length_toFlt, Flt.gt_fin, DAMPING, decide_eq_true_eq]
  by_cases h : 10 < sq (Vec3.dot (P - Q) (P - Q))
  · have h0 : sq (Vec3.dot (P - Q) (P - Q)) ≠ 0 := by
      intro h0
      rw [h0] at h
      exact absurd h (by norm_num)
    rw [if_pos h, if_neg (not_le.mpr h), normalize_toFlt sq _ h0]
    simp only [Vec3.toFlt_smul, Vec3.toFlt_add]
    congr 2
    ext <;> simp <;> field_simp <;> ring
  · rw [if_neg h, if_pos (not_lt.mp h)]
    simp only [Vec3.toFlt_smul, Vec3.toFlt_add]
    congr 2
    ext <;> simp <;> ring

/-- The velocity of `Particle::update` after the speed limit has components that are not
larger in magnitude than those of `P - Q`. -/
theorem clamp_abs_le (d s : α) (hs : 10 < s) : |d * 10 / s| ≤ |d| := by
  have hs0 : 0 < s := lt_trans (by norm_num) hs
  rw [abs_div, abs_mul, abs_of_pos hs0, abs_of_pos (by norm_num : (0 : α) < 10),
    div_le_iff₀ hs0]
  exact mul_le_mul_of_nonneg_left hs.le (abs_nonneg d)

/-- The numbers of `Particle::update` for a position, an old position and an acceleration
with components of magnitude at most 1024 and `|dt| ≤ 1`: the scalar product of `P - Q` with
itself is at most `2^24` and the new position has components of magnitude at most 4096. -/
theorem update_range (sq : α → α) (P Q A : Vec3 α) (dt : α)
    (hPb : Vec3.Within 1024 P) (hQb : Vec3.Within 1024 Q) (hAb : Vec3.Within 1024 A)
    (hdt : |dt| ≤ 1) :
    Vec3.dot (P - Q) (P - Q) ≤ 2 ^ 24 ∧
    Vec3.Within 4096 (P + (if sq (Vec3.dot (P - Q) (P - Q)) ≤ 10 then P - Q
      else ((P - Q) * (10 : α)) / sq (Vec3.dot (P - Q) (P - Q))) * (98 / 100 : α)
      + A * dt ^ 2) := by
  obtain ⟨hPx, hPy, hPz⟩ := hPb
  obtain ⟨hQx, hQy, hQz⟩ := hQb
  obtain ⟨hAx, hAy, hAz⟩ := hAb
  have hd : ∀ a b : α, |a| ≤ 1024 → |b| ≤ 1024 → |a - b| ≤ 2048 := by
    intro a b ha hb
    have := abs_sub a b
    linarith
  have hsq : ∀ a : α, |a| ≤ 2048 → a * a ≤ 2048 * 2048 := by
    intro a ha
    have h := mul_le_mul ha ha (abs_nonneg a) (by norm_num)
    rwa [abs_mul_abs_self] at h
  have hdt2 : |dt ^ 2| ≤ 1 * 1 := by
    rw [pow_two, abs_mul]
    exact mul_le_mul hdt hdt (abs_nonneg dt) (by norm_num)
  have hacc : ∀ a : α, |a| ≤ 1024 → |a * dt ^ 2| ≤ 1024 * (1 * 1) := by
    intro a ha
    rw [abs_mul]
    exact mul_le_mul ha hdt2 (abs_nonneg _) (by norm_num)
  have hv : ∀ d : α, |d| ≤ 2048 →
      |(if sq (Vec3.dot (P - Q) (P - Q)) ≤ 10 then d
        else d * 10 / sq (Vec3.dot (P - Q) (P - Q))) * (98 / 100)| ≤ 2048 := by
    intro d hd'
    rw [abs_mul, abs_of_pos (by norm_num : (0 : α) < 98 / 100)]
    have h1 : |if sq (Vec3.dot (P - Q) (P - Q)) ≤ 10 then d
        else d * 10 / sq (Vec3.dot (P - Q) (P - Q))| ≤ 2048 := by
      split
      · exact hd'
      · rename_i h
        exact (clamp_abs_le d _ (not_le.mp h)).trans hd'
    have h0 := abs_nonneg (if sq (Vec3.dot (P - Q) (P - Q)) ≤ 10 then d
        else d * 10 / sq (Vec3.dot (P - Q) (P - Q)))
    generalize |if sq (Vec3.dot (P - Q) (P - Q)) ≤ 10 then d
        else d * 10 / sq (Vec3.dot (P - Q) (P - Q))| = t at h0 h1
    linarith
  have hsum : ∀ a b c : α, |a| ≤ 1024 → |b| ≤ 2048 → |c| ≤ 1024 * (1 * 1) →
      |a + b + c| ≤ 4096 := by
    intro a b c ha hb hc
    have h1 := abs_add (a + b) c
    have h2 := abs_add a b
    linarith
  refine ⟨?_, ?_, ?_, ?_⟩
  · have hx := hsq _ (hd _ _ hPx hQx)
    have hy := hsq _ (hd _ _ hPy hQy)
    have hz := hsq _ (hd _ _ hPz hQz)
    simp only [Vec3.dot, Vec3.sub_x, Vec3.sub_y, Vec3.sub_z]
    have h3 : (2048 : α) * 2048 + 2048 * 2048 + 2048 * 2048 ≤ 2 ^ 24 := by norm_num
    linarith
  · have h := hsum _ _ _ hPx (hv _ (hd _ _ hPx hQx)) (hacc _ hAx)
    split <;> simpa [Vec3.add_x, Vec3.smul_x, Vec3.sub_x, Vec3.sdiv_x, *] using h
  · have h := hsum _ _ _ hPy (hv _ (hd _ _ hPy hQy)) (hacc _ hAy)
    split <;> simpa [Vec3.add_y, Vec3.smul_y, Vec3.sub_y, Vec3.sdiv_y, *] using h
  · have h := hsum _ _ _ hPz (hv _ (hd _ _ hPz hQz)) (hacc _ hAz)
    split <;> simpa [Vec3.add_z, Vec3.smul_z, Vec3.sub_z, Vec3.sdiv_z, *] using h

/-- The integration step in exact arithmetic, the formula that the binary32 computation of
`Binary32.Particle.update` follows up to rounding: for a particle whose position `P`, old
position `Q` and
acceleration `A` are numbers with components of magnitude at most 1024, and every number
`dt` with `|dt| ≤ 1`, in exact arithmetic (what the floats compute up to rounding, every
number of the computation being well inside the range of binary32: the scalar product of
`P - Q` with itself is at most `2^24` and the new position is within 4096),
`Particle::update(dt)` changes nothing when the particle is pinned; when it is unpinned it
sets `oldPosition` to `P`, `position` to `P + 0.98 * v + A * dt^2` with `v = P - Q` if
`|P - Q| ≤ 10` and `v = 10 * (P - Q) / |P - Q|` otherwise, and `acceleration` to zero,
leaving the other fields as they were. -/
theorem Particle.update_in_range (sq : α → α) (p : Particle (Flt α)) (P Q A : Vec3 α) (dt : α)
    (hP : p.position = P.toFlt) (hQ : p.oldPosition = Q.toFlt)
    (hA : p.acceleration = A.toFlt)
    (hPb : Vec3.Within 1024 P) (hQb : Vec3.Within 1024 Q) (hAb : Vec3.Within 1024 A)
    (hdt : |dt| ≤ 1) :
    (p.isPinned = true → p.update sq (Flt.fin dt) = p) ∧
    (p.isPinned = false → p.update sq (Flt.fin dt) =
      { p with
        oldPosition := P.toFlt
        position := (P + (if sq (Vec3.dot (P - Q) (P - Q)) ≤ 10 then P - Q
          else ((P - Q) * (10 : α)) / sq (Vec3.dot (P - Q) (P - Q))) * (98 / 100 : α)
          + A * dt ^ 2).toFlt
        acceleration := Vec3.zero }) ∧
    Vec3.dot (P - Q) (P - Q) ≤ 2 ^ 24 ∧
    Vec3.Within 4096 (P + (if sq (Vec3.dot (P - Q) (P - Q)) ≤ 10 then P - Q
      else ((P - Q) * (10 : α)) / sq (Vec3.dot (P - Q) (P - Q))) * (98 / 100 : α)
      + A * dt ^ 2) :=
  ⟨update_of_pinned sq (Flt.fin dt) p, update_of_unpinned sq p P Q A dt hP hQ hA,
    update_range sq P Q A dt hPb hQb hAb hdt⟩

/-- Example of the integration step in exact arithmetic: an unpinned particle at
`(50, 0, 0)` that was at the origin one tick before moves to `(59.8, 0, 0)`. -/
theorem Particle.update_in_range_witness :
    (particleAt 50 0).position = Vec3.toFlt ⟨50, 0, 0⟩ ∧
    (Particle.update sqrtQ { particleAt 50 0 with oldPosition := Vec3.toFlt ⟨0, 0, 0⟩ }
      (Flt.fin (1 / 100))).position = Vec3.toFlt ⟨598 / 10, 0, 0⟩ := by
  refine ⟨rfl, ?_⟩
  have h := (Particle.update_in_range sqrtQ
    { particleAt 50 0 with oldPosition := Vec3.toFlt ⟨0, 0, 0⟩ }
    ⟨50, 0, 0⟩ ⟨0, 0, 0⟩ ⟨0, 0, 0⟩ (1 / 100) rfl rfl rfl
    (by norm_num [Vec3.Within, abs_le]) (by norm_num [Vec3.Within])
    (by norm_num [Vec3.Within]) (by norm_num [abs_le])).2.1 rfl
  have hs : sqrtQ 2500 = 50 := by
    rw [show (2500 : ℚ) = 50 * 50 by norm_num]
    exact sqrtQ_mul_self (by norm_num)
  rw [h]
  norm_num [Vec3.dot, Vec3.toFlt, Vec3.add_def, Vec3.sub_def, Vec3.smul_def, Vec3.sdiv_def, hs]

end integration

/-! ## The constraint solver -/

section solver

variable {α : Type} [LinearOrderedField α]

theorem addCorrection_toFlt (C A : Vec3 α) (a : Particle (Flt α)) (hA : a.position = A.toFlt) :
    addCorrection C.toFlt a =
      { a with position := (A + C * (if a.isPinned then (0 : α) else 1)).toFlt } := by
  obtain ⟨pos, old, acc, uv, nrm, tan, pin, mass⟩ := a
  simp only at hA
  subst hA
  cases pin
  · have : A + C * (1 : α) = A + C := by ext <;> simp
    simp [addCorrection, this]
  · have : A + C * (0 : α) = A := by ext <;> simp
    simp [addCorrection, this]

theorem subCorrection_toFlt (C B : Vec3 α) (b : Particle (Flt α)) (hB : b.position = B.toFlt) :
    subCorrection C.toFlt b =
      { b with position := (B - C * (if b.isPinned then (0 : α) else 1)).toFlt } := by
  obtain ⟨pos, old, acc, uv, nrm, tan, pin, mass⟩ := b
  simp only at hB
  subst hB
  cases pin
  · have : B - C * (1 : α) = B - C := by ext <;> simp
    simp [subCorrection, this]
  · have : B - C * (0 : α) = B := by ext <;> simp
    simp [subCorrection, this]

theorem Particle.with_position_self (a : Particle (Flt α)) (A : Vec3 (Flt α))
    (hA : a.position = A) : { a with position := A } = a := by
  cases a
  simp only at hA
  subst hA
  rfl

/-- The method `Constraint::solve` when the current length is a non-zero number. -/
theorem solve_of_ne_zero (sq : α → α) (c : Constraint (Flt α)) (ps : List (Particle (Flt α)))
    (a b : Particle (Flt α)) (A B : Vec3 α) (r k : α)
    (ha : ps[c.p1]? = some a) (hb : ps[c.p2]? = some b)
    (hA : a.position = A.toFlt) (hB : b.position = B.toFlt)
    (hr : c.restDistance = Flt.fin r) (hk : c.stiffness = Flt.fin k)
    (hz : sq (Vec3.dot (B - A) (B - A)) ≠ 0) :
    c.solve sq ps =
      List.modify (subCorrection ((B - A) * ((sq (Vec3.dot (B - A) (B - A)) - r) /
          sq (Vec3.dot (B - A) (B - A))) * (5 / 10 : α) * k).toFlt) c.p2
        (List.modify (addCorrection ((B - A) * ((sq (Vec3.dot (B - A) (B - A)) - r) /
          sq (Vec3.dot (B - A) (B - A))) * (5 / 10 : α) * k).toFlt) c.p1 ps) := by
  unfold Constraint.solve
  simp only [ha, hb, hA, hB, hr, hk, Vec3.toFlt_sub, length_toFlt, Flt.eq_fin, Flt.fin_sub,
    Flt.fin_div _ hz, Vec3.toFlt_smul, decide_eq_true_eq, if_neg hz]

/-- The method `Constraint::solve` when the current length is zero. -/
theorem solve_of_zero (sq : α → α) (c : Constraint (Flt α)) (ps : List (Particle (Flt α)))
    (a b : Particle (Flt α)) (A B : Vec3 α)
    (ha : ps[c.p1]? = some a) (hb : ps[c.p2]? = some b)
    (hA : a.position = A.toFlt) (hB : b.position = B.toFlt)
    (hz : sq (Vec3.dot (B - A) (B - A)) = 0) :
    c.solve sq ps = ps := by
  unfold Constraint.solve
  simp only [ha, hb, hA, hB, Vec3.toFlt_sub, length_toFlt, Flt.eq_fin, decide_eq_true_eq,
    if_pos hz]

/-- One call of `Constraint::solve` on two different particles whose positions are numbers:
the new positions are numbers, the other fields are kept, and the length error is
multiplied by `1 - k * m / 2`, with `m` the number of unpinned endpoints. -/
theorem solve_step (sq : α → α) (hsq : IsSqrt sq) (c : Constraint (Flt α))
    (ps : List (Particle (Flt α))) (a b : Particle (Flt α)) (A B : Vec3 α) (r k : α)
    (ha : ps[c.p1]? = some a) (hb : ps[c.p2]? = some b)
    (hA : a.position = A.toFlt) (hB : b.position = B.toFlt)
    (hr : c.restDistance = Flt.fin r) (hk : c.stiffness = Flt.fin k)
    (hij : c.p1 ≠ c.p2) (hr0 : 0 ≤ r) (hk0 : 0 ≤ k) (hk1 : k ≤ 1)
    (hd : sq (Vec3.dot (B - A) (B - A)) ≠ 0 ∨ r = 0) :
    ∃ A' B' : Vec3 α,
      (c.solve sq ps)[c.p1]? = some { a with position := A'.toFlt } ∧
      (c.solve sq ps)[c.p2]? = some { b with position := B'.toFlt } ∧
      sq (Vec3.dot (B' - A') (B' - A')) = r +
        (1 - k * ((if a.isPinned then (0 : α) else 1) + (if b.isPinned then (0 : α) else 1)) / 2)
          * (sq (Vec3.dot (B - A) (B - A)) - r) := by
  obtain ⟨hL0, hLL⟩ := hsq _ (Vec3.dot_self_nonneg (B - A))
  by_cases hz : sq (Vec3.dot (B - A) (B - A)) = 0
  · have hr' : r = 0 := hd.resolve_left (not_not.mpr hz)
    refine ⟨A, B, ?_, ?_, ?_⟩
    · rw [solve_of_zero sq c ps a b A B ha hb hA hB hz, ha, Particle.with_position_self a _ hA]
    · rw [solve_of_zero sq c ps a b A B ha hb hA hB hz, hb, Particle.with_position_self b _ hB]
    · rw [hz, hr']
      simp
  · rw [solve_of_ne_zero sq c ps a b A B r k ha hb hA hB hr hk hz]
    generalize hea : (if a.isPinned then (0 : α) else 1) = ea
    generalize heb : (if b.isPinned then (0 : α) else 1) = eb
    have hea' : ea = 0 ∨ ea = 1 := by
      rw [← hea]
      cases a.isPinned <;> simp
    have heb' : eb = 0 ∨ eb = 1 := by
      rw [← heb]
      cases b.isPinned <;> simp
    obtain ⟨C, hC⟩ : ∃ C : Vec3 α, C = (B - A) * ((sq (Vec3.dot (B - A) (B - A)) - r) /
      sq (Vec3.dot (B - A) (B - A))) * (5 / 10 : α) * k := ⟨_, rfl⟩
    rw [← hC]
    refine ⟨A + C * ea, B - C * eb, ?_, ?_, ?_⟩
    · rw [List.getElem?_modify_ne _ _ (Ne.symm hij), List.getElem?_modify_eq, ha,
        Option.map_eq_map, Option.map_some', addCorrection_toFlt _ A a hA, hea]
    · rw [List.getElem?_modify_eq, List.getElem?_modify_ne _ _ hij, hb,
        Option.map_eq_map, Option.map_some', subCorrection_toFlt _ B b hB, heb]
    · have hq : 0 ≤ 1 - k * (ea + eb) / 2 := by
        rcases hea' with h | h <;> rcases heb' with h' | h' <;> rw [h, h'] <;> linarith
      have hq' : 1 - k * (ea + eb) / 2 ≤ 1 := by
        rcases hea' with h | h <;> rcases heb' with h' | h' <;> rw [h, h'] <;> linarith
      apply hsq.eq_of_sq
      · nlinarith [mul_nonneg hq hL0, mul_nonneg (sub_nonneg.mpr hq') hr0]
      · rw [hC]
        generalize sq (Vec3.dot (B - A) (B - A)) = L at hLL hz
        have hu : (L - r) / L * L = L - r := div_mul_cancel₀ _ hz
        generalize (L - r) / L = u at hu
        have hr' : r = L - u * L := by linarith
        simp only [Vec3.dot, Vec3.add_x, Vec3.add_y, Vec3.add_z, Vec3.sub_x, Vec3.sub_y,
          Vec3.sub_z, Vec3.smul_x, Vec3.smul_y, Vec3.smul_z] at hLL ⊢
        rw [hr']
        linear_combination (1 - k * (ea + eb) * u / 2) ^ 2 * hLL

theorem dist_ne_zero_of_step {r q L d : α} (hr0 : 0 ≤ r)
    (hq0 : 0 ≤ q) (hq1 : q ≤ 1) (hL0 : 0 ≤ L) (hd : L ≠ 0 ∨ r = 0) (n : Nat)
    (h : d = r + q ^ n * (L - r)) : d ≠ 0 ∨ r = 0 := by
  rcases hd with hd | hd
  · by_cases hr : r = 0
    · exact Or.inr hr
    · left
      have hr' : 0 < r := lt_of_le_of_ne hr0 (Ne.symm hr)
      have hL' : 0 < L := lt_of_le_of_ne hL0 (Ne.symm hd)
      have h₁ : 0 ≤ q ^ n := pow_nonneg hq0 n
      have h₂ : q ^ n ≤ 1 := pow_le_one₀ hq0 hq1
      rcases h₁.lt_or_eq with h₃ | h₃
      · have : 0 < q ^ n * L := mul_pos h₃ hL'
        nlinarith [mul_nonneg (sub_nonneg.mpr h₂) hr0]
      · rw [← h₃] at h
        rw [h]
        simpa using hr
  · exact Or.inr hd

/-- Repeated calls of `Constraint::solve` on two different particles whose positions are
numbers: after `n` calls the length error has been multiplied by `(1 - k * m / 2) ^ n`. -/
theorem solve_iterate (sq : α → α) (hsq : IsSqrt sq) (c : Constraint (Flt α))
    (ps : List (Particle (Flt α))) (a b : Particle (Flt α)) (A B : Vec3 α) (r k : α)
    (ha : ps[c.p1]? = some a) (hb : ps[c.p2]? = some b)
    (hA : a.position = A.toFlt) (hB : b.position = B.toFlt)
    (hr : c.restDistance = Flt.fin r) (hk : c.stiffness = Flt.fin k)
    (hij : c.p1 ≠ c.p2) (hr0 : 0 ≤ r) (hk0 : 0 ≤ k) (hk1 : k ≤ 1)
    (hd : sq (Vec3.dot (B - A) (B - A)) ≠ 0 ∨ r = 0) (n : Nat) :
    ∃ A' B' : Vec3 α,
      (Nat.iterate (c.solve sq) n ps)[c.p1]? = some { a with position := A'.toFlt } ∧
      (Nat.iterate (c.solve sq) n ps)[c.p2]? = some { b with position := B'.toFlt } ∧
      sq (Vec3.dot (B' - A') (B' - A')) = r +
        (1 - k * ((if a.isPinned then (0 : α) else 1) + (if b.isPinned then (0 : α) else 1)) / 2)
          ^ n * (sq (Vec3.dot (B - A) (B - A)) - r) := by
  have hq0 : 0 ≤ 1 - k * ((if a.isPinned then (0 : α) else 1) +
      (if b.isPinned then (0 : α) else 1)) / 2 := by
    cases a.isPinned <;> cases b.isPinned <;> simp <;> linarith
  have hq1 : 1 - k * ((if a.isPinned then (0 : α) else 1) +
      (if b.isPinned then (0 : α) else 1)) / 2 ≤ 1 := by
    cases a.isPinned <;> cases b.isPinned <;> simp <;> linarith
  induction n with
  | zero =>
    refine ⟨A, B, ?_, ?_, ?_⟩
    · rw [Function.iterate_zero, id, ha, Particle.with_position_self a _ hA]
    · rw [Function.iterate_zero, id, hb, Particle.with_position_self b _ hB]
    · simp
  | succ n ih =>
    obtain ⟨A', B', h₁, h₂, h₃⟩ := ih
    have hd' := dist_ne_zero_of_step hr0 hq0 hq1
      (hsq _ (Vec3.dot_self_nonneg (B - A))).1 hd n h₃
    obtain ⟨A'', B'', h₄, h₅, h₆⟩ := solve_step sq hsq c _ _ _ A' B' r k h₁ h₂ rfl rfl hr hk hij
      hr0 hk0 hk1 hd'
    refine ⟨A'', B'', ?_, ?_, ?_⟩
    · rw [Function.iterate_succ_apply', h₄]
    · rw [Function.iterate_succ_apply', h₅]
    · rw [h₆, h₃]
      simp only []
      ring

theorem currentDist_of_getElem? (sq : α → α) (c : Constraint (Flt α))
    (ps : List (Particle (Flt α))) (a b : Particle (Flt α)) (A B : Vec3 α)
    (ha : ps[c.p1]? = some a) (hb : ps[c.p2]? = some b)
    (hA : a.position = A.toFlt) (hB : b.position = B.toFlt) :
    c.currentDist sq ps = Flt.fin (sq (Vec3.dot (B - A) (B - A))) := by
  unfold Constraint.currentDist
  simp only [ha, hb, hA, hB, Vec3.toFlt_sub, length_toFlt]

/-- The scalar product of `B - A` with itself, for two positions with components of
magnitude at most 1024. -/
theorem dot_sub_le (A B : Vec3 α) (hAb : Vec3.Within 1024 A) (hBb : Vec3.Within 1024 B) :
    Vec3.dot (B - A) (B - A) ≤ 2 ^ 24 := by
  obtain ⟨hAx, hAy, hAz⟩ := hAb
  obtain ⟨hBx, hBy, hBz⟩ := hBb
  have hd : ∀ a b : α, |a| ≤ 1024 → |b| ≤ 1024 → (b - a) * (b - a) ≤ 2048 * 2048 := by
    intro a b ha hb
    have h1 : |b - a| ≤ 2048 := by
      have := abs_sub b a
      linarith
    have h := mul_le_mul h1 h1 (abs_nonneg _) (by norm_num)
    rwa [abs_mul_abs_self] at h
  have hx := hd _ _ hAx hBx
  have hy := hd _ _ hAy hBy
  have hz := hd _ _ hAz hBz
  simp only [Vec3.dot, Vec3.sub_x, Vec3.sub_y, Vec3.sub_z]
  have h3 : (2048 : α) * 2048 + 2048 * 2048 + 2048 * 2048 ≤ 2 ^ 24 := by norm_num
  linarith

/-- The length error of a constraint in exact arithmetic, the relation that the binary32
computation of `Binary32.Constraint.solve` follows up to rounding: for a constraint with
rest distance `r` in `[0, 1024]` and
stiffness `k` in `[0, 1]` whose endpoints are at numeric positions with components of
magnitude at most 1024 at distance `L ≥ 1/1024`, with `m` the number of unpinned endpoints,
in exact arithmetic (what the floats compute up to rounding: the scalar product of the
difference of the positions with itself is between `2^-20` and `2^24`, inside the range of
binary32) the distance `L'` after one `solve()` satisfies
`L' - r = (1 - k * m / 2) * (L - r)` and is at most 4096; with `m = 1` and `k = 1` the error halves on every
call, and with `m = 2` and `k = 1` the distance is `r` after one call; `sq` is any square
root. -/
theorem Constraint.solve_error_in_range (sq : α → α) (hsq : IsSqrt sq) (c : Constraint (Flt α))
    (ps : List (Particle (Flt α))) (a b : Particle (Flt α)) (A B : Vec3 α) (r k : α)
    (ha : ps[c.p1]? = some a) (hb : ps[c.p2]? = some b)
    (hA : a.position = A.toFlt) (hB : b.position = B.toFlt)
    (hr : c.restDistance = Flt.fin r) (hk : c.stiffness = Flt.fin k)
    (hAb : Vec3.Within 1024 A) (hBb : Vec3.Within 1024 B)
    (hr0 : 0 ≤ r) (hr1 : r ≤ 1024) (hk0 : 0 ≤ k) (hk1 : k ≤ 1)
    (hL : 1 / 1024 ≤ sq (Vec3.dot (B - A) (B - A))) :
    c.currentDist sq ps = Flt.fin (sq (Vec3.dot (B - A) (B - A))) ∧
    (∃ L' : α, c.currentDist sq (c.solve sq ps) = Flt.fin L' ∧
      L' - r = (1 - k * ((if a.isPinned then (0 : α) else 1) +
        (if b.isPinned then (0 : α) else 1)) / 2) * (sq (Vec3.dot (B - A) (B - A)) - r) ∧
      0 ≤ L' ∧ L' ≤ 4096) ∧
    (a.isPinned ≠ b.isPinned → k = 1 → ∀ n : Nat,
      c.currentDist sq (Nat.iterate (c.solve sq) n ps) =
        Flt.fin (r + (sq (Vec3.dot (B - A) (B - A)) - r) / 2 ^ n)) ∧
    (a.isPinned = false → b.isPinned = false → k = 1 →
      c.currentDist sq (c.solve sq ps) = Flt.fin r) ∧
    1 / 2 ^ 20 ≤ Vec3.dot (B - A) (B - A) ∧ Vec3.dot (B - A) (B - A) ≤ 2 ^ 24 := by
  have hL0 : 0 < sq (Vec3.dot (B - A) (B - A)) := lt_of_lt_of_le (by norm_num) hL
  have hij : c.p1 ≠ c.p2 := by
    intro hij
    rw [hij, hb] at ha
    have hab : b = a := Option.some.inj ha
    rw [← hab, hB] at hA
    rw [Vec3.toFlt_injective hA] at hL0
    have h0 : Vec3.dot (A - A) (A - A) = 0 := by simp [Vec3.dot]
    rw [h0, hsq.zero] at hL0
    exact lt_irrefl _ hL0
  have hall : ∀ n : Nat, c.currentDist sq (Nat.iterate (c.solve sq) n ps) =
      Flt.fin (r + (1 - k * ((if a.isPinned then (0 : α) else 1) +
        (if b.isPinned then (0 : α) else 1)) / 2) ^ n *
          (sq (Vec3.dot (B - A) (B - A)) - r)) := by
    intro n
    obtain ⟨A', B', h₁, h₂, h₃⟩ := solve_iterate sq hsq c ps a b A B r k ha hb hA hB hr hk hij
      hr0 hk0 hk1 (Or.inl hL0.ne') n
    rw [currentDist_of_getElem? sq c _ _ _ A' B' h₁ h₂ rfl rfl, h₃]
  have hone := hall 1
  rw [Function.iterate_one, pow_one] at hone
  have hlow : 1 / 2 ^ 20 ≤ Vec3.dot (B - A) (B - A) := by
    obtain ⟨-, h₂⟩ := hsq _ (Vec3.dot_self_nonneg (B - A))
    rw [← h₂]
    have h := mul_le_mul hL hL (by norm_num) hL0.le
    have h1 : (1 : α) / 1024 * (1 / 1024) = 1 / 2 ^ 20 := by norm_num
    rwa [h1] at h
  have hhigh := dot_sub_le A B hAb hBb
  have hL4 : sq (Vec3.dot (B - A) (B - A)) ≤ 4096 := by
    obtain ⟨-, h₂⟩ := hsq _ (Vec3.dot_self_nonneg (B - A))
    by_contra h
    have h' := not_le.mp h
    have h3 := mul_lt_mul'' h' h' (by norm_num) (by norm_num)
    rw [h₂] at h3
    have h4 : (4096 : α) * 4096 = 2 ^ 24 := by norm_num
    rw [h4] at h3
    exact absurd hhigh (not_le.mpr h3)
  have hq0 : 0 ≤ 1 - k * ((if a.isPinned then (0 : α) else 1) +
      (if b.isPinned then (0 : α) else 1)) / 2 := by
    cases a.isPinned <;> cases b.isPinned <;> simp <;> linarith
  have hq1 : 1 - k * ((if a.isPinned then (0 : α) else 1) +
      (if b.isPinned then (0 : α) else 1)) / 2 ≤ 1 := by
    cases a.isPinned <;> cases b.isPinned <;> simp <;> linarith
  have hmix : ∀ q L : α, 0 ≤ q → q ≤ 1 → 0 ≤ L → L ≤ 4096 →
      0 ≤ r + q * (L - r) ∧ r + q * (L - r) ≤ 4096 := by
    intro q L h0 h1 hL0' hL1
    have e : r + q * (L - r) = (1 - q) * r + q * L := by ring
    rw [e]
    have h2 : 0 ≤ (1 - q) * r := mul_nonneg (by linarith) hr0
    have h3 : 0 ≤ q * L := mul_nonneg h0 hL0'
    have h4 : (1 - q) * r ≤ (1 - q) * 4096 :=
      mul_le_mul_of_nonneg_left (by linarith) (by linarith)
    have h5 : q * L ≤ q * 4096 := mul_le_mul_of_nonneg_left hL1 h0
    constructor <;> linarith
  obtain ⟨hm0, hm1⟩ := hmix _ _ hq0 hq1 hL0.le hL4
  refine ⟨currentDist_of_getElem? sq c ps a b A B ha hb hA hB, ⟨_, hone, by ring, hm0, hm1⟩,
    ?_, ?_, hlow, hhigh⟩
  · intro hab hk' n
    rw [hall n, hk']
    congr 2
    have hm : (if a.isPinned then (0 : α) else 1) + (if b.isPinned then (0 : α) else 1) = 1 := by
      revert hab
      cases a.isPinned <;> cases b.isPinned <;> simp
    rw [hm]
    have h2 : (1 - 1 * 1 / 2 : α) = 1 / 2 := by norm_num
    rw [h2, one_div, inv_pow]
    field_simp
  · intro hpa hpb hk'
    rw [hone, hpa, hpb, hk']
    congr 1
    simp

/-- Example of the length error in exact arithmetic: over the real numbers, a free particle
at distance 3 from a pinned one, with rest distance 1 and stiffness 1, is at distance 2
after one `solve()`. -/
theorem Constraint.solve_error_in_range_witness :
    (1 : ℝ) / 1024 ≤
      Real.sqrt (Vec3.dot ((⟨3, 0, 0⟩ : Vec3 ℝ) - ⟨0, 0, 0⟩) (⟨3, 0, 0⟩ - ⟨0, 0, 0⟩)) ∧
    Constraint.currentDist Real.sqrt unitConstraint [pinnedOrigin, freeAtThree] = Flt.fin 3 ∧
    Constraint.currentDist Real.sqrt unitConstraint
      (unitConstraint.solve Real.sqrt [pinnedOrigin, freeAtThree]) = Flt.fin 2 := by
  have h9 : Real.sqrt (Vec3.dot ((⟨3, 0, 0⟩ : Vec3 ℝ) - ⟨0, 0, 0⟩) (⟨3, 0, 0⟩ - ⟨0, 0, 0⟩)) = 3 := by
    rw [show Vec3.dot ((⟨3, 0, 0⟩ : Vec3 ℝ) - ⟨0, 0, 0⟩) (⟨3, 0, 0⟩ - ⟨0, 0, 0⟩) = 3 * 3 by
      norm_num [Vec3.dot]]
    exact Real.sqrt_mul_self (by norm_num)
  have hL : (1 : ℝ) / 1024 ≤
      Real.sqrt (Vec3.dot ((⟨3, 0, 0⟩ : Vec3 ℝ) - ⟨0, 0, 0⟩) (⟨3, 0, 0⟩ - ⟨0, 0, 0⟩)) := by
    rw [h9]
    norm_num
  obtain ⟨h₁, ⟨L', h₂, h₃, _⟩, _⟩ := Constraint.solve_error_in_range Real.sqrt isSqrt_real
    unitConstraint [pinnedOrigin, freeAtThree] pinnedOrigin freeAtThree ⟨0, 0, 0⟩ ⟨3, 0, 0⟩ 1 1
    rfl rfl rfl rfl rfl rfl (by norm_num [Vec3.Within]) (by norm_num [Vec3.Within, abs_le])
    (by norm_num) (by norm_num) (by norm_num) (by norm_num) hL
  rw [h9] at h₁ h₃
  refine ⟨hL, h₁, ?_⟩
  rw [h₂]
  congr 1
  have h₄ : L' - 1 = (1 - 1 * ((0 : ℝ) + 1) / 2) * (3 - 1) := by
    simpa [pinnedOrigin, freeAtThree, Particle.mk0] using h₃
  linarith

/-- C8 (degenerate edge): when the two endpoints of a constraint are at the same numeric
position, `Constraint::solve()` returns at its guard, before the division by the current
length: the whole particle vector is unchanged, whatever the pin states, the rest distance
and the stiffness; `sq` is any function with `sq 0 = 0`. -/
theorem Constraint.solve_degenerate (sq : α → α) (hs0 : sq 0 = 0) (c : Constraint (Flt α))
    (ps : List (Particle (Flt α))) (a b : Particle (Flt α)) (A : Vec3 α)
    (ha : ps[c.p1]? = some a) (hb : ps[c.p2]? = some b)
    (hA : a.position = A.toFlt) (hB : b.position = A.toFlt) :
    c.solve sq ps = ps := by
  apply solve_of_zero sq c ps a b A A ha hb hA hB
  have h0 : Vec3.dot (A - A) (A - A) = 0 := by simp [Vec3.dot]
  rw [h0, hs0]

/-- Witness of C8: two unpinned particles at `(1, 2, 0)` joined by a constraint of rest
distance 1 and stiffness 1. -/
theorem Constraint.solve_degenerate_witness :
    sqrtQ 0 = 0 ∧
    Constraint.solve sqrtQ unitConstraint [particleAt 1 2, particleAt 1 2] =
      [particleAt 1 2, particleAt 1 2] :=
  ⟨sqrtQ_zero, Constraint.solve_degenerate sqrtQ sqrtQ_zero unitConstraint
    [particleAt 1 2, particleAt 1 2] (particleAt 1 2) (particleAt 1 2) ⟨1, 2, 0⟩ rfl rfl rfl rfl⟩

end solver

/-! ## Normals and tangents -/

section normals

variable {α : Type} [LinearOrderedField α]

/-- What the triangle loop of `recalculateNormals` does to the particle `i` for one
triangle: it adds the vector product of the first two edges to the normal and the normalized
first edge to the tangent, once for each corner of the triangle that is the particle `i`,
and leaves the other particles and the other fields as they are. -/
theorem accumulateTriangle_corners (sq : α → α) (i0 i1 i2 : Nat) (ps : List (Particle (Flt α)))
    (p1 p2 p3 : Particle (Flt α)) (h1 : ps[i0]? = some p1) (h2 : ps[i1]? = some p2)
    (h3 : ps[i2]? = some p3) (i : Nat) :
    (accumulateTriangle sq i0 i1 i2 ps)[i]? = ps[i]?.map fun q =>
      { q with
        normal := ([i0, i1, i2].filter (fun j => j = i)).foldl (fun acc _ =>
          acc + Vec3.cross (p2.position - p1.position) (p3.position - p1.position)) q.normal
        tangent := ([i0, i1, i2].filter (fun j => j = i)).foldl (fun acc _ =>
          acc + normalize sq (p2.position - p1.position)) q.tangent } := by
  unfold accumulateTriangle
  rw [h1, h2, h3]
  simp only [List.getElem?_modify]
  cases hq : ps[i]? with
  | none => simp
  | some q =>
    by_cases e0 : i0 = i <;> by_cases e1 : i1 = i <;> by_cases e2 : i2 = i <;>
      simp [e0, e1, e2, addNormal, addTangent, List.filter]

/-- The normalization of the zero vector is not a vector of numbers. -/
theorem normalize_zero (sq : α → α) (hs0 : sq 0 = 0) :
    normalize sq (Vec3.zero : Vec3 (Flt α)) = Vec3.nan := by
  have h := normalize_toFlt_of_zero sq (Vec3.zero : Vec3 α) (by simp [Vec3.dot, Vec3.zero, hs0])
  rwa [Vec3.toFlt_zero] at h

/-- C10 (the code at a failing input): in `degenerateCloth`, whose only triangle has zero
area and a first edge of zero length, every particle has the zero vector as accumulated
normal; `recalculateNormals` normalizes it all the same, and every normal and every tangent
comes out as `nan` in each component, not as the zero vector. -/
theorem Cloth.recalculateNormals_degenerate :
    (degenerateCloth.accumulated sqrtQ).map (fun p => p.normal) =
      [Vec3.zero, Vec3.zero, Vec3.zero] ∧
    (Cloth.recalculateNormals sqrtQ degenerateCloth).particles.map
      (fun p => (p.normal, p.tangent)) =
      [(Vec3.nan, Vec3.nan), (Vec3.nan, Vec3.nan), (Vec3.nan, Vec3.nan)] ∧
    normalize sqrtQ (Vec3.zero : Vec3 (Flt ℚ)) = Vec3.nan ∧
    (Vec3.nan : Vec3 (Flt ℚ)) ≠ Vec3.zero := by
  refine ⟨?_, ?_, normalize_zero sqrtQ sqrtQ_zero, ?_⟩
  · norm_num [Cloth.accumulated, degenerateCloth, accumulate, accumulateTriangle, clearNormal,
      addNormal, addTangent, particleAt, Particle.mk0, Vec3.toFlt, Vec3.cross, normalize,
      inversesqrt, Vec3.dot, Vec3.zero_flt, Vec3.add_def, Vec3.sub_def, Vec3.smul_def,
      Flt.fin_div_eq, Flt.sqrt_fin_eq, Vec3.nan]
  · norm_num [Cloth.recalculateNormals, degenerateCloth, accumulate, accumulateTriangle,
      clearNormal, addNormal, addTangent, normalizeNormal, particleAt, Particle.mk0, Vec3.toFlt,
      Vec3.cross, normalize, inversesqrt, Vec3.dot, Vec3.zero_flt, Vec3.add_def, Vec3.sub_def,
      Vec3.smul_def, Flt.fin_div_eq, Flt.sqrt_fin_eq, Vec3.nan]
  · intro h
    have hx := congrArg Vec3.x h
    simp [Vec3.nan, Vec3.zero] at hx

end normals

/-! ## The zero wind -/

section zerowind

variable {α : Type} [LinearOrderedField α]

@[simp]
theorem Flt.nan_div (a : Flt α) : Flt.nan / a = Flt.nan := rfl

@[simp]
theorem Flt.div_nan (a : Flt α) : a / Flt.nan = Flt.nan := by
  cases a <;> rfl

@[simp]
theorem Flt.nan_sub (a : Flt α) : Flt.nan - a = Flt.nan := rfl

@[simp]
theorem Flt.sub_nan (a : Flt α) : a - Flt.nan = Flt.nan := by
  cases a <;> rfl

/-- With the zero wind, loop A of `Cloth::update` leaves no number in the acceleration of any
particle, pinned or not. -/
theorem applyForces_zero_wind (sq : α → α) (hs0 : sq 0 = 0) (p : Particle (Flt α)) :
    (applyForces sq Vec3.zero p).acceleration = Vec3.nan := by
  unfold applyForces
  rw [normalize_zero sq hs0]
  cases p.isPinned <;>
    simp [Particle.addForce, Vec3.dot, Vec3.nan, Vec3.zero_flt, Vec3.add_def, Vec3.smul_def,
      Vec3.sdiv_def]

/-- An unpinned particle whose acceleration is `nan` has the position `nan` after
`Particle::update`. -/
theorem update_nan_acceleration (sq : α → α) (dt : α) (p : Particle (Flt α))
    (hp : p.isPinned = false) (ha : p.acceleration = Vec3.nan) :
    (p.update sq (Flt.fin dt)).position = Vec3.nan := by
  simp [Particle.update, hp, ha, Vec3.nan, Vec3.add_def, Vec3.smul_def]

/-- C11 (the code at a failing input): with the zero wind, `glm::normalize(wind)` is `nan` in
each component, so loop A of `Cloth::update` gives the unpinned particle at `(1, 0, 0)` of
`demoCloth` the acceleration `nan`, not gravity `(0, -9.8, 0)`, and after the step the
positions of the two unpinned particles are `nan`. -/
theorem Cloth.update_zero_wind_nan :
    normalize sqrtQ (Vec3.zero : Vec3 (Flt ℚ)) = Vec3.nan ∧
    (applyForces sqrtQ Vec3.zero (particleAt 1 0)).acceleration = Vec3.nan ∧
    (Vec3.nan : Vec3 (Flt ℚ)) ≠ gravity ∧
    (demoCloth.update sqrtQ (Flt.fin (1 / 100)) Vec3.zero).particles.map (fun p => p.position) =
      [Vec3.toFlt ⟨0, 0, 0⟩, Vec3.nan, Vec3.nan] := by
  refine ⟨normalize_zero sqrtQ sqrtQ_zero, applyForces_zero_wind sqrtQ sqrtQ_zero _, ?_, ?_⟩
  · intro h
    have hx := congrArg Vec3.x h
    simp [Vec3.nan, gravity] at hx
  · norm_num [Cloth.update, Cloth.recalculateNormals, demoCloth, applyForces, Particle.update,
      Particle.addForce, solvePasses, solveAll, Constraint.solve, CONSTRAINT_ITERATIONS, gravity,
      DAMPING, length, addCorrection, subCorrection, accumulate, accumulateTriangle, clearNormal,
      addNormal, addTangent, normalizeNormal, particleAt, Particle.mk0, Vec3.toFlt, Vec3.cross,
      normalize, inversesqrt, Vec3.dot, Vec3.zero_flt, Vec3.add_def, Vec3.sub_def,
      Vec3.smul_def, Vec3.sdiv_def, Flt.fin_div_eq, Flt.sqrt_fin_eq, Vec3.nan, Flt.sqrt]

end zerowind

/-! ## The physics part of a frame -/

section renderloop

variable {α : Type} [LinearOrderedField α] {S : Type}

@[simp]
theorem Flt.ge_fin (a b : α) : Flt.ge (Flt.fin a) (Flt.fin b) = decide (b ≤ a) := rfl

@[simp]
theorem Flt.lt_fin (a b : α) : Flt.lt (Flt.fin a) (Flt.fin b) = decide (a < b) := rfl

@[simp]
theorem Flt.le_fin (a b : α) : Flt.le (Flt.fin a) (Flt.fin b) = decide (a ≤ b) := rfl

/-- The `while` loop ends within `n` iterations when the accumulator is below `n + 1` steps:
the accumulator it leaves is a number below one step, and more fuel changes nothing. -/
theorem whileSteps_drained (step : S → S) (p : α) (n : Nat) :
    ∀ (a : α) (s : S), a < (n + 1) * p →
      (∃ a' : α, (whileSteps step (Flt.fin p) n (Flt.fin a) s).2 = Flt.fin a' ∧ a' < p) ∧
      ∀ m, whileSteps step (Flt.fin p) (n + m) (Flt.fin a) s =
        whileSteps step (Flt.fin p) n (Flt.fin a) s := by
  induction n with
  | zero =>
    intro a s ha
    have ha' : a < p := by simpa using ha
    refine ⟨⟨a, rfl, ha'⟩, fun m => ?_⟩
    cases m with
    | zero => rfl
    | succ m => simp [whileSteps, not_le.mpr ha']
  | succ n ih =>
    intro a s ha
    by_cases h : p ≤ a
    · have ha' : a - p < (n + 1) * p := by
        push_cast at ha
        linarith
      obtain ⟨h₁, h₂⟩ := ih (a - p) (step s) ha'
      refine ⟨?_, fun m => ?_⟩
      · simpa [whileSteps, h] using h₁
      · rw [Nat.add_right_comm]
        simpa [whileSteps, h] using h₂ m
    · refine ⟨⟨a, by simp [whileSteps, h], not_le.mp h⟩, fun m => ?_⟩
      rw [Nat.add_right_comm]
      simp [whileSteps, h]

/-- After the physics part of a frame the accumulator is not `>=` one step, whatever the
frame time: five iterations of the `while` loop are enough. -/
theorem framePhysics_drained (step : S → S) (deltaTime : Flt α) (s : S) :
    Flt.ge (framePhysics step 5 deltaTime s).2 (Flt.fin (1 / 100)) = false ∧
    ∀ m, framePhysics step (5 + m) deltaTime s = framePhysics step 5 deltaTime s := by
  cases deltaTime with
  | nan =>
    refine ⟨rfl, fun m => ?_⟩
    have h5 : 5 + m = (4 + m) + 1 := by omega
    rw [h5]
    rfl
  | fin d =>
    unfold framePhysics
    simp only [Flt.gt_fin, decide_eq_true_eq]
    have key : ∀ a : α, a ≤ 5 / 100 →
        Flt.ge (whileSteps step (Flt.fin (1 / 100)) 5 (Flt.fin a) s).2 (Flt.fin (1 / 100 : α)) = false ∧
        ∀ m, whileSteps step (Flt.fin (1 / 100 : α)) (5 + m) (Flt.fin a) s =
          whileSteps step (Flt.fin (1 / 100)) 5 (Flt.fin a) s := by
      intro a ha
      obtain ⟨⟨a', h₁, h₂⟩, h₃⟩ := whileSteps_drained step (1 / 100 : α) 5 a s
        (by norm_num; linarith)
      refine ⟨?_, h₃⟩
      rw [h₁]
      simpa using h₂
    by_cases h : 5 / 100 < d
    · rw [if_pos h]
      exact key _ le_rfl
    · rw [if_neg h]
      exact key _ (not_lt.mp h)

/-- A frame whose time is a number below one step runs no physics step: the state is
unchanged, and the time of the frame is dropped at the next frame. -/
theorem framePhysics_of_lt (step : S → S) (fuel : Nat) (d : α) (hd : d < 1 / 100) (s : S) :
    framePhysics step fuel (Flt.fin d) s = (s, Flt.fin d) := by
  unfold framePhysics
  have h₁ : ¬ (5 / 100 : α) < d := by
    intro h
    linarith
  simp only [Flt.gt_fin, decide_eq_true_eq, if_neg h₁]
  cases fuel with
  | zero => rfl
  | succ n => simp only [whileSteps, Flt.ge_fin, decide_eq_true_eq, if_neg (not_le.mpr hd)]

/-- C17 (the code at a failing input): a frame of 0.006 s runs no physics step and leaves
0.006 in its local accumulator; the next frame of 0.006 s starts again from `deltaTime` and
runs no step either. Two such frames run 0 steps (counted by `step = (. + 1)` from 0), and
they leave `demoCloth` as it was, although 0.012 s have elapsed. -/
theorem framePhysics_not_accumulated :
    framePhysics (fun n : Nat => n + 1) 5 (Flt.fin (6 / 1000 : ℚ)) 0 = (0, Flt.fin (6 / 1000)) ∧
    runFrames (fun n : Nat => n + 1) 5 0 [Flt.fin (6 / 1000 : ℚ), Flt.fin (6 / 1000)] = 0 ∧
    runFrames (fun c => Cloth.update sqrtQ c (Flt.fin (1 / 100)) windX) 5 demoCloth
      [Flt.fin (6 / 1000 : ℚ), Flt.fin (6 / 1000)] = demoCloth := by
  have h : (6 / 1000 : ℚ) < 1 / 100 := by norm_num
  refine ⟨framePhysics_of_lt _ 5 _ h 0, ?_, ?_⟩
  · simp only [runFrames, List.foldl_cons, List.foldl_nil, framePhysics_of_lt _ 5 _ h]
  · simp only [runFrames, List.foldl_cons, List.foldl_nil, framePhysics_of_lt _ 5 _ h]

end renderloop

/-! ## Blocks of a list built by nested loops -/

section blocks

variable {β : Type}

theorem range_flatMap_succ (g : Nat → List β) (n : Nat) :
    (List.range (n + 1)).flatMap g = (List.range n).flatMap g ++ g n := by
  rw [List.range_succ, List.flatMap_append, List.flatMap_singleton]

/-- A list made of `n` blocks of `k` entries has `k * n` entries. -/
theorem length_blocks (g : Nat → List β) (k : Nat) (hk : ∀ i, (g i).length = k) (n : Nat) :
    ((List.range n).flatMap g).length = k * n := by
  induction n with
  | zero => simp
  | succ n ih => rw [range_flatMap_succ, List.length_append, ih, hk, Nat.mul_succ]

/-- Entry `j` of block `i` is entry `k * i + j` of the list. -/
theorem getElem?_blocks (g : Nat → List β) (k : Nat) (hk : ∀ i, (g i).length = k) (n : Nat)
    (i j : Nat) (hi : i < n) (hj : j < k) :
    ((List.range n).flatMap g)[k * i + j]? = (g i)[j]? := by
  induction n with
  | zero => omega
  | succ n ih =>
    rw [range_flatMap_succ]
    by_cases h : i < n
    · have hlt : k * i + j < ((List.range n).flatMap g).length := by
        rw [length_blocks g k hk n]
        calc k * i + j < k * i + k := by omega
          _ = k * (i + 1) := by rw [Nat.mul_succ]
          _ ≤ k * n := Nat.mul_le_mul_left k h
      rw [List.getElem?_append_left hlt]
      exact ih h
    · have hin : i = n := by omega
      subst hin
      have hle : ((List.range i).flatMap g).length ≤ k * i + j := by
        rw [length_blocks g k hk i]
        omega
      rw [List.getElem?_append_right hle, length_blocks g k hk i]
      congr 1
      omega

/-- Entry `j` of the block of the cell `(x, y)` in a list built row after row, cell after
cell. -/
theorem getElem?_grid (f : Nat → Nat → List β) (k : Nat) (hk : ∀ y x, (f y x).length = k)
    (w h x y j : Nat) (hx : x < w) (hy : y < h) (hj : j < k) :
    ((List.range h).flatMap fun y => (List.range w).flatMap fun x => f y x)[k * (y * w + x) + j]?
      = (f y x)[j]? := by
  have hrow : ∀ y, ((List.range w).flatMap fun x => f y x).length = k * w := fun y =>
    length_blocks (fun x => f y x) k (hk y) w
  have hidx : k * (y * w + x) + j = k * w * y + (k * x + j) := by ring
  have hlt : k * x + j < k * w := by
    calc k * x + j < k * x + k := by omega
      _ = k * (x + 1) := by rw [Nat.mul_succ]
      _ ≤ k * w := Nat.mul_le_mul_left k hx
  rw [hidx, getElem?_blocks (fun y => (List.range w).flatMap fun x => f y x) (k * w) hrow h y _ hy
    hlt]
  exact getElem?_blocks (fun x => f y x) k (hk y) w x j hx hj

theorem length_grid (f : Nat → Nat → List β) (k : Nat) (hk : ∀ y x, (f y x).length = k)
    (w h : Nat) :
    ((List.range h).flatMap fun y => (List.range w).flatMap fun x => f y x).length
      = k * (w * h) := by
  have hrow : ∀ y, ((List.range w).flatMap fun x => f y x).length = k * w := fun y =>
    length_blocks (fun x => f y x) k (hk y) w
  rw [length_blocks _ (k * w) hrow h, Nat.mul_assoc]

end blocks

/-! ## The grid of particles -/

section grid

variable {α : Type} [LinearOrderedField α]

theorem gridParticles_eq (w h : Nat) :
    (gridParticles w h : List (Particle (Flt α))) =
      (List.range h).flatMap fun y => (List.range w).flatMap fun x => [gridParticle w h x y] := by
  unfold gridParticles
  congr 1
  funext y
  rw [List.map_eq_flatMap]

theorem gridParticles_length (w h : Nat) :
    (gridParticles w h : List (Particle (Flt α))).length = w * h := by
  rw [gridParticles_eq, length_grid (fun y x => [gridParticle w h x y]) 1 (fun _ _ => rfl),
    Nat.one_mul]

theorem gridParticles_getElem? (w h x y : Nat) (hx : x < w) (hy : y < h) :
    (gridParticles w h : List (Particle (Flt α)))[y * w + x]? = some (gridParticle w h x y) := by
  have h₁ := getElem?_grid (fun y x => [(gridParticle w h x y : Particle (Flt α))]) 1
    (fun _ _ => rfl) w h x y 0 hx hy (by omega)
  rw [gridParticles_eq]
  simpa using h₁

/-- Position of the particle of the grid point `(x, y)`. -/
theorem gridParticle_position (w h x y : Nat) :
    (gridParticle w h x y : Particle (Flt α)).position =
      Vec3.toFlt ⟨((x : α) - (w : α) / 2) * (1 / 10), 3 + ((y : α) - (h : α) / 2) * (1 / 10), 0⟩ := by
  have h2 : (2 : α) ≠ 0 := by norm_num
  unfold gridParticle
  split <;> simp [Particle.mk0, Vec3.toFlt, Flt.fin_div _ h2]

theorem gridParticle_isPinned (w h x y : Nat) :
    (gridParticle w h x y : Particle (Flt α)).isPinned = true ↔
      (y : Int) = (h : Int) - 1 ∧ x % 5 = 0 := by
  unfold gridParticle
  split <;> simp_all [Particle.mk0]

/-- The other fields of the particle of the grid point `(x, y)`, for `w, h ≥ 2`. -/
theorem gridParticle_fields (w h x y : Nat) (hw : 2 ≤ w) (hh : 2 ≤ h) :
    (gridParticle w h x y : Particle (Flt α)).oldPosition =
      (gridParticle w h x y : Particle (Flt α)).position ∧
    (gridParticle w h x y : Particle (Flt α)).acceleration = Vec3.zero ∧
    (gridParticle w h x y : Particle (Flt α)).mass = Flt.fin 1 ∧
    (gridParticle w h x y : Particle (Flt α)).uv =
      ⟨Flt.fin ((x : α) / ((w : α) - 1)), Flt.fin ((y : α) / ((h : α) - 1))⟩ := by
  have hw' : ((((w : Int) - 1 : Int) : α)) = (w : α) - 1 := by push_cast; ring
  have hh' : ((((h : Int) - 1 : Int) : α)) = (h : α) - 1 := by push_cast; ring
  have hw0 : (w : α) - 1 ≠ 0 := by
    have : (2 : α) ≤ (w : α) := by exact_mod_cast hw
    intro h0
    linarith
  have hh0 : (h : α) - 1 ≠ 0 := by
    have : (2 : α) ≤ (h : α) := by exact_mod_cast hh
    intro h0
    linarith
  unfold gridParticle
  simp only [hw', hh', Flt.fin_div _ hw0, Flt.fin_div _ hh0]
  split <;> exact ⟨rfl, rfl, rfl, rfl⟩

/-- C12 (grid construction): for `W, H ≥ 2`, `Cloth(W, H)` has exactly `W * H` particles, and
the particle at index `y * W + x` (`x < W`, `y < H`) has the position
`((x - W/2) * 0.1, 3 + (y - H/2) * 0.1, 0)`, `oldPosition` equal to it, zero acceleration,
mass 1, `uv = (x / (W - 1), y / (H - 1))`, and is pinned if and only if `y = H - 1` and `x`
is a multiple of 5. -/
theorem Cloth.new_particles (sq : α → α) (W H : Nat) (hW : 2 ≤ W) (hH : 2 ≤ H) :
    (Cloth.new sq W H : Cloth (Flt α)).particles.length = W * H ∧
    ∀ x y : Nat, x < W → y < H →
      ∃ p, (Cloth.new sq W H : Cloth (Flt α)).particles[y * W + x]? = some p ∧
        p.position =
          Vec3.toFlt ⟨((x : α) - (W : α) / 2) * (1 / 10), 3 + ((y : α) - (H : α) / 2) * (1 / 10), 0⟩ ∧
        p.oldPosition = p.position ∧
        p.acceleration = Vec3.zero ∧
        p.mass = Flt.fin 1 ∧
        p.uv = ⟨Flt.fin ((x : α) / ((W : α) - 1)), Flt.fin ((y : α) / ((H : α) - 1))⟩ ∧
        (p.isPinned = true ↔ y + 1 = H ∧ x % 5 = 0) := by
  refine ⟨gridParticles_length W H, fun x y hx hy => ?_⟩
  obtain ⟨h₁, h₂, h₃, h₄⟩ := @gridParticle_fields α _ W H x y hW hH
  refine ⟨gridParticle W H x y, gridParticles_getElem? W H x y hx hy,
    gridParticle_position W H x y, h₁, h₂, h₃, h₄, ?_⟩
  rw [gridParticle_isPinned]
  constructor
  · rintro ⟨hy', hx'⟩
    exact ⟨by omega, hx'⟩
  · rintro ⟨hy', hx'⟩
    exact ⟨by omega, hx'⟩

/-- Witness of C12: in `Cloth(2, 2)` over the rationals, the particle at index `1 * 2 + 0` is
at `(-0.1, 3, 0)` and is pinned. -/
theorem Cloth.new_particles_witness :
    (2 ≤ 2) ∧ (0 < 2) ∧ (1 < 2) ∧
    ∃ p : Particle (Flt ℚ), (Cloth.new sqrtQ 2 2 : Cloth (Flt ℚ)).particles[1 * 2 + 0]? = some p ∧
      p.position = Vec3.toFlt (⟨-(1 / 10), 3, 0⟩ : Vec3 ℚ) ∧ p.isPinned = true := by
  refine ⟨le_refl 2, by norm_num, by norm_num, ?_⟩
  obtain ⟨p, hp, hpos, -, -, -, -, hpin⟩ :=
    (Cloth.new_particles sqrtQ 2 2 (le_refl 2) (le_refl 2)).2 0 1 (by norm_num) (by norm_num)
  refine ⟨p, hp, ?_, hpin.mpr ⟨rfl, rfl⟩⟩
  rw [hpos]
  norm_num [Vec3.toFlt]

end grid

/-! ## The triangle indices -/

section topology

variable {α : Type} [LinearOrderedField α]

theorem mem_gridIndices {w h i : Nat} :
    i ∈ gridIndices w h ↔ ∃ y, y < h - 1 ∧ ∃ x, x < w - 1 ∧ i ∈ cellIndices w x y := by
  simp [gridIndices, List.mem_flatMap, List.mem_range]

theorem lt_of_mem_cellIndices {w h x y i : Nat} (hx : x < w - 1) (hy : y < h - 1)
    (hi : i ∈ cellIndices w x y) : i < w * h := by
  have h₁ : (y + 1) * w + x + 1 < w * h := by
    calc (y + 1) * w + x + 1 < (y + 1) * w + w := by omega
      _ = (y + 2) * w := by ring
      _ ≤ h * w := Nat.mul_le_mul_right w (by omega)
      _ = w * h := Nat.mul_comm h w
  have h₂ : y * w ≤ (y + 1) * w := Nat.mul_le_mul_right w (by omega)
  simp only [cellIndices, List.mem_cons, List.mem_singleton, List.not_mem_nil, or_false] at hi
  rcases hi with hi | hi | hi | hi | hi | hi <;> omega

theorem mem_gridIndices_of_lt {w h i : Nat} (hw : 2 ≤ w) (hh : 2 ≤ h) (hi : i < w * h) :
    i ∈ gridIndices w h := by
  have hwpos : 0 < w := by omega
  have hx : i % w < w := Nat.mod_lt i hwpos
  have hy : i / w < h := Nat.div_lt_of_lt_mul hi
  have hi' : i = (i / w) * w + i % w := by
    rw [Nat.mul_comm]
    exact (Nat.div_add_mod i w).symm
  generalize i / w = y at hy hi'
  generalize i % w = x at hx hi'
  rw [mem_gridIndices]
  by_cases hyl : y < h - 1
  · by_cases hxl : x < w - 1
    · exact ⟨y, hyl, x, hxl, by simp [cellIndices, hi']⟩
    · refine ⟨y, hyl, x - 1, by omega, ?_⟩
      have : x - 1 + 1 = x := by omega
      simp only [cellIndices, List.mem_cons]
      right; right; left
      omega
  · have hy1 : y - 1 + 1 = y := by omega
    by_cases hxl : x < w - 1
    · refine ⟨y - 1, by omega, x, hxl, ?_⟩
      simp only [cellIndices, List.mem_cons]
      right; left
      rw [hy1]
      exact hi'
    · refine ⟨y - 1, by omega, x - 1, by omega, ?_⟩
      simp only [cellIndices, List.mem_cons, List.mem_singleton]
      right; right; right; right; right
      rw [hy1]
      omega

/-- C14 (topology): the index list of `Cloth(W, H)` has `6 * (W - 1) * (H - 1)` entries, every
entry is below `W * H`, the six entries of the cell `(x, y)` (`x < W - 1`, `y < H - 1`), which
start at the position `6 * (y * (W - 1) + x)` (row-major order), are the triangles
`(y*W + x, (y+1)*W + x, y*W + x + 1)` and `(y*W + x + 1, (y+1)*W + x, (y+1)*W + x + 1)`, and
for `W, H ≥ 2` every particle index is an entry of the list. -/
theorem Cloth.new_indices (sq : α → α) (W H : Nat) :
    (Cloth.new sq W H : Cloth (Flt α)).indices.length = 6 * (W - 1) * (H - 1) ∧
    (∀ i ∈ (Cloth.new sq W H : Cloth (Flt α)).indices, i < W * H) ∧
    (∀ x y j : Nat, x < W - 1 → y < H - 1 → j < 6 →
      (Cloth.new sq W H : Cloth (Flt α)).indices[6 * (y * (W - 1) + x) + j]? =
        [y * W + x, (y + 1) * W + x, y * W + x + 1,
          y * W + x + 1, (y + 1) * W + x, (y + 1) * W + x + 1][j]?) ∧
    (2 ≤ W → 2 ≤ H → ∀ i : Nat, i < W * H → i ∈ (Cloth.new sq W H : Cloth (Flt α)).indices) := by
  refine ⟨?_, ?_, ?_, ?_⟩
  · show (gridIndices W H).length = _
    unfold gridIndices
    rw [length_grid (fun y x => cellIndices W x y) 6 (fun _ _ => rfl), Nat.mul_assoc]
  · intro i hi
    obtain ⟨y, hy, x, hx, hmem⟩ := mem_gridIndices.mp hi
    exact lt_of_mem_cellIndices hx hy hmem
  · intro x y j hx hy hj
    show (gridIndices W H)[6 * (y * (W - 1) + x) + j]? = _
    unfold gridIndices
    rw [getElem?_grid (fun y x => cellIndices W x y) 6 (fun _ _ => rfl) (W - 1) (H - 1) x y j
      hx hy hj]
    rfl
  · intro hW hH i hi
    exact mem_gridIndices_of_lt hW hH hi

/-- Witness of C14: the index list of `Cloth(2, 2)` has 6 entries, and the particle 3 is a
corner of one of its triangles. -/
theorem Cloth.new_indices_witness :
    (Cloth.new sqrtQ 2 2 : Cloth (Flt ℚ)).indices.length = 6 ∧
    3 ∈ (Cloth.new sqrtQ 2 2 : Cloth (Flt ℚ)).indices :=
  ⟨(Cloth.new_indices sqrtQ 2 2).1,
    (Cloth.new_indices sqrtQ 2 2).2.2.2 (le_refl 2) (le_refl 2) 3 (by norm_num)⟩

end topology

/-! ## The winding of the triangles -/

section winding

variable {α : Type} [LinearOrderedField α]

theorem Vec3.cross_toFlt (a b : Vec3 α) :
    Vec3.cross a.toFlt b.toFlt = (Vec3.cross a b).toFlt := rfl

/-- In the freshly constructed cloth the two triangles of every cell have the face normal
`(0, 0, -0.01)`: seen from the side of positive `z`, `x` to the right and `y` up, their
corners are in clockwise order. -/
theorem faceNormal_cell (W H x y : Nat) (hx : x < W - 1) (hy : y < H - 1) :
    faceNormal (y * W + x) ((y + 1) * W + x) (y * W + x + 1)
      (gridParticles W H : List (Particle (Flt α))) = Vec3.toFlt ⟨0, 0, -(1 / 100)⟩ ∧
    faceNormal (y * W + x + 1) ((y + 1) * W + x) ((y + 1) * W + x + 1)
      (gridParticles W H : List (Particle (Flt α))) = Vec3.toFlt ⟨0, 0, -(1 / 100)⟩ := by
  have h₁ := @gridParticles_getElem? α _ W H x y (by omega) (by omega)
  have h₂ := @gridParticles_getElem? α _ W H x (y + 1) (by omega) (by omega)
  have h₃ := @gridParticles_getElem? α _ W H (x + 1) y (by omega) (by omega)
  have h₄ := @gridParticles_getElem? α _ W H (x + 1) (y + 1) (by omega) (by omega)
  rw [← Nat.add_assoc] at h₃ h₄
  unfold faceNormal
  simp only [h₁, h₂, h₃, h₄, gridParticle_position, Vec3.toFlt_sub, Vec3.cross_toFlt]
  constructor
  · congr 1
    ext <;> simp [Vec3.cross]
    ring
  · congr 1
    ext <;> simp [Vec3.cross]
    ring

/-- C15 (the code at a failing input): the index list of `Cloth(2, 2)` is the two triangles
`(0, 2, 1)` and `(1, 2, 3)`, and with the initial positions the cross product
`(P[i1] - P[i0]) × (P[i2] - P[i0])` of each of them is `(0, 0, -0.01)`: its `z` component
is negative, the triangles are in clockwise order. -/
theorem Cloth.new_winding_clockwise :
    (Cloth.new sqrtQ 2 2 : Cloth (Flt ℚ)).indices = [0, 2, 1, 1, 2, 3] ∧
    faceNormal 0 2 1 (Cloth.new sqrtQ 2 2 : Cloth (Flt ℚ)).particles =
      Vec3.toFlt ⟨0, 0, -(1 / 100)⟩ ∧
    faceNormal 1 2 3 (Cloth.new sqrtQ 2 2 : Cloth (Flt ℚ)).particles =
      Vec3.toFlt ⟨0, 0, -(1 / 100)⟩ ∧
    (-(1 / 100) : ℚ) < 0 := by
  have h := @faceNormal_cell ℚ _ 2 2 0 0 (by norm_num) (by norm_num)
  exact ⟨rfl, h.1, h.2, by norm_num⟩

end winding

/-! ## The constraints of the grid -/

section constraints

variable {α : Type} [LinearOrderedField α]

/-- The call `addConstraint(x, y, x2, y2, k)` for a grid point `(x, y)` that is in bounds and
a target `(x2, y2)` given by natural numbers. -/
theorem addConstraint_nat (sq : α → α) (ps : List (Particle (Flt α))) (W H x y x2 y2 : Nat)
    (k : Flt α) (hx : x < W) (hy : y < H) :
    addConstraint sq ps W H x y x2 y2 k =
      if x2 < W ∧ y2 < H then [Constraint.new sq ps (y * W + x) (y2 * W + x2) k] else [] := by
  unfold addConstraint
  have h₁ : ((y : Int) * (W : Int) + (x : Int)).toNat = y * W + x := by
    have : ((y : Int) * (W : Int) + (x : Int)) = ((y * W + x : Nat) : Int) := by push_cast; ring
    rw [this, Int.toNat_natCast]
  have h₂ : ((y2 : Int) * (W : Int) + (x2 : Int)).toNat = y2 * W + x2 := by
    have : ((y2 : Int) * (W : Int) + (x2 : Int)) = ((y2 * W + x2 : Nat) : Int) := by push_cast; ring
    rw [this, Int.toNat_natCast]
  rw [h₁, h₂]
  by_cases h : x2 < W ∧ y2 < H
  · rw [if_pos h, if_pos]
    obtain ⟨ha, hb⟩ := h
    refine ⟨?_, ?_, ?_, ?_, ?_, ?_, ?_, ?_⟩ <;> omega
  · rw [if_neg h, if_neg]
    rintro ⟨-, -, -, -, -, ha, -, hb⟩
    exact h ⟨by omega, by omega⟩

/-- The call `addConstraint(x, y, x - 1, y + 1, k)`. -/
theorem addConstraint_left (sq : α → α) (ps : List (Particle (Flt α))) (W H x y : Nat)
    (k : Flt α) (hx : x < W) (hy : y < H) :
    addConstraint sq ps W H x y ((x : Int) - 1) ((y : Int) + 1) k =
      if 1 ≤ x ∧ y + 1 < H then [Constraint.new sq ps (y * W + x) ((y + 1) * W + (x - 1)) k]
      else [] := by
  by_cases h1 : 1 ≤ x
  · have hcast : ((x : Int) - 1) = ((x - 1 : Nat) : Int) := by omega
    have hcast' : ((y : Int) + 1) = ((y + 1 : Nat) : Int) := by omega
    rw [hcast, hcast', addConstraint_nat sq ps W H x y (x - 1) (y + 1) k hx hy]
    by_cases h : y + 1 < H
    · rw [if_pos ⟨by omega, h⟩, if_pos ⟨h1, h⟩]
    · rw [if_neg (fun hh => h hh.2), if_neg (fun hh => h hh.2)]
  · rw [if_neg (fun hh => h1 hh.1)]
    unfold addConstraint
    rw [if_neg]
    rintro ⟨-, -, -, -, ha, -⟩
    omega

/-- The six calls of `addConstraint` for a grid point `(x, y)` that is in bounds. -/
theorem cellConstraints_eq (sq : α → α) (ps : List (Particle (Flt α))) (W H x y : Nat)
    (hx : x < W) (hy : y < H) :
    cellConstraints sq ps W H x y =
      (if x + 1 < W ∧ y < H then
        [Constraint.new sq ps (y * W + x) (y * W + (x + 1)) STRUCTURAL_STIFFNESS] else []) ++
      (if x < W ∧ y + 1 < H then
        [Constraint.new sq ps (y * W + x) ((y + 1) * W + x) STRUCTURAL_STIFFNESS] else []) ++
      (if x + 1 < W ∧ y + 1 < H then
        [Constraint.new sq ps (y * W + x) ((y + 1) * W + (x + 1)) SHEAR_STIFFNESS] else []) ++
      (if 1 ≤ x ∧ y + 1 < H then
        [Constraint.new sq ps (y * W + x) ((y + 1) * W + (x - 1)) SHEAR_STIFFNESS] else []) ++
      (if x + 2 < W ∧ y < H then
        [Constraint.new sq ps (y * W + x) (y * W + (x + 2)) BENDING_STIFFNESS] else []) ++
      (if x < W ∧ y + 2 < H then
        [Constraint.new sq ps (y * W + x) ((y + 2) * W + x) BENDING_STIFFNESS] else []) := by
  unfold cellConstraints
  have e1 : ((x : Int) + 1) = ((x + 1 : Nat) : Int) := by omega
  have e2 : ((y : Int) + 1) = ((y + 1 : Nat) : Int) := by omega
  have e3 : ((x : Int) + 2) = ((x + 2 : Nat) : Int) := by omega
  have e4 : ((y : Int) + 2) = ((y + 2 : Nat) : Int) := by omega
  rw [addConstraint_left sq ps W H x y _ hx hy, e1, e2, e3, e4]
  simp only [addConstraint_nat sq ps W H x y _ _ _ hx hy]

theorem mem_ite_singleton {β : Type} {p : Prop} [Decidable p] {a c : β} :
    c ∈ (if p then [a] else []) ↔ p ∧ c = a := by
  by_cases h : p <;> simp [h]

/-- The constraints that the grid point `(x, y)` adds. -/
theorem mem_cellConstraints (sq : α → α) (ps : List (Particle (Flt α))) (W H x y : Nat)
    (hx : x < W) (hy : y < H) (c : Constraint (Flt α)) :
    c ∈ cellConstraints sq ps W H x y ↔
      (x + 1 < W ∧
        c = Constraint.new sq ps (y * W + x) (y * W + (x + 1)) STRUCTURAL_STIFFNESS) ∨
      (y + 1 < H ∧
        c = Constraint.new sq ps (y * W + x) ((y + 1) * W + x) STRUCTURAL_STIFFNESS) ∨
      ((x + 1 < W ∧ y + 1 < H) ∧
        c = Constraint.new sq ps (y * W + x) ((y + 1) * W + (x + 1)) SHEAR_STIFFNESS) ∨
      ((1 ≤ x ∧ y + 1 < H) ∧
        c = Constraint.new sq ps (y * W + x) ((y + 1) * W + (x - 1)) SHEAR_STIFFNESS) ∨
      (x + 2 < W ∧
        c = Constraint.new sq ps (y * W + x) (y * W + (x + 2)) BENDING_STIFFNESS) ∨
      (y + 2 < H ∧
        c = Constraint.new sq ps (y * W + x) ((y + 2) * W + x) BENDING_STIFFNESS) := by
  rw [cellConstraints_eq sq ps W H x y hx hy]
  simp only [List.mem_append, mem_ite_singleton, hx, hy, and_true, true_and, or_assoc]

theorem mem_gridConstraints (sq : α → α) (ps : List (Particle (Flt α))) (W H : Nat)
    (c : Constraint (Flt α)) :
    c ∈ gridConstraints sq ps W H ↔
      ∃ y, y < H ∧ ∃ x, x < W ∧ c ∈ cellConstraints sq ps W H x y := by
  simp [gridConstraints, List.mem_flatMap, List.mem_range]

/-- Every constraint of the grid point `(x, y)` starts at the particle `y * W + x` and ends
at a particle of a higher index that is below `W * H`. -/
theorem cellConstraints_bounds (sq : α → α) (ps : List (Particle (Flt α))) (W H x y : Nat)
    (hx : x < W) (hy : y < H) (c : Constraint (Flt α))
    (hc : c ∈ cellConstraints sq ps W H x y) :
    c.p1 = y * W + x ∧ c.p1 < c.p2 ∧ c.p2 < W * H := by
  have h1 : (y + 1) * W = y * W + W := by ring
  have h2 : (y + 2) * W = y * W + 2 * W := by ring
  have hH1 : y + 1 < H → y * W + 2 * W ≤ W * H := by
    intro h
    calc y * W + 2 * W = (y + 2) * W := by ring
      _ ≤ H * W := Nat.mul_le_mul_right W (by omega)
      _ = W * H := Nat.mul_comm H W
  have hH2 : y + 2 < H → y * W + 3 * W ≤ W * H := by
    intro h
    calc y * W + 3 * W = (y + 3) * W := by ring
      _ ≤ H * W := Nat.mul_le_mul_right W (by omega)
      _ = W * H := Nat.mul_comm H W
  have hH0 : y * W + W ≤ W * H := by
    calc y * W + W = (y + 1) * W := by ring
      _ ≤ H * W := Nat.mul_le_mul_right W (by omega)
      _ = W * H := Nat.mul_comm H W
  rw [mem_cellConstraints sq ps W H x y hx hy] at hc
  rcases hc with ⟨h, rfl⟩ | ⟨h, rfl⟩ | ⟨⟨h, h'⟩, rfl⟩ | ⟨⟨h, h'⟩, rfl⟩ | ⟨h, rfl⟩ | ⟨h, rfl⟩ <;>
    simp only [Constraint.new, h1, h2] <;> refine ⟨trivial, ?_, ?_⟩ <;> omega

theorem nodup_ite_append {β : Type} {p : Prop} [Decidable p] {a : β} {l : List β}
    (ha : p → a ∉ l) (hl : l.Nodup) : ((if p then [a] else []) ++ l).Nodup := by
  by_cases h : p
  · rw [if_pos h]
    exact List.nodup_cons.mpr ⟨ha h, hl⟩
  · rw [if_neg h]
    exact hl

/-- No two constraints of the grid point `(x, y)` have the same endpoints `(p1, p2)`. -/
theorem cellConstraints_nodup (sq : α → α) (ps : List (Particle (Flt α))) (W H x y : Nat)
    (hx : x < W) (hy : y < H) :
    ((cellConstraints sq ps W H x y).map fun c => (c.p1, c.p2)).Nodup := by
  have h1 : (y + 1) * W = y * W + W := by ring
  have h2 : (y + 2) * W = y * W + 2 * W := by ring
  rw [cellConstraints_eq sq ps W H x y hx hy]
  simp only [List.map_append, apply_ite (List.map fun c : Constraint (Flt α) => (c.p1, c.p2)),
    List.map_cons, List.map_nil, List.append_assoc, Constraint.new, h1, h2]
  refine nodup_ite_append ?_ (nodup_ite_append ?_ (nodup_ite_append ?_ (nodup_ite_append ?_
    (nodup_ite_append ?_ ?_))))
  · simp only [List.mem_append, mem_ite_singleton, Prod.mk.injEq, true_and]
    omega
  · simp only [List.mem_append, mem_ite_singleton, Prod.mk.injEq, true_and]
    omega
  · simp only [List.mem_append, mem_ite_singleton, Prod.mk.injEq, true_and]
    omega
  · simp only [List.mem_append, mem_ite_singleton, Prod.mk.injEq, true_and]
    omega
  · simp only [mem_ite_singleton, Prod.mk.injEq, true_and]
    omega
  · split_ifs <;> simp

theorem idx_injective {W x y x' y' : Nat} (hx : x < W) (hx' : x' < W)
    (h : y * W + x = y' * W + x') : y = y' ∧ x = x' := by
  rcases Nat.lt_trichotomy y y' with hlt | heq | hgt
  · have h₁ : (y + 1) * W ≤ y' * W := Nat.mul_le_mul_right W hlt
    have h₂ : (y + 1) * W = y * W + W := by ring
    omega
  · subst heq
    exact ⟨rfl, by omega⟩
  · have h₁ : (y' + 1) * W ≤ y * W := Nat.mul_le_mul_right W hgt
    have h₂ : (y' + 1) * W = y' * W + W := by ring
    omega

theorem fst_of_mem_cell (sq : α → α) (ps : List (Particle (Flt α))) (W H x y : Nat)
    (hx : x < W) (hy : y < H) (q : Nat × Nat)
    (hq : q ∈ (cellConstraints sq ps W H x y).map fun c => (c.p1, c.p2)) : q.1 = y * W + x := by
  obtain ⟨c, hc, rfl⟩ := List.mem_map.mp hq
  exact (cellConstraints_bounds sq ps W H x y hx hy c hc).1

/-- No two constraints of the grid have the same endpoints `(p1, p2)`. -/
theorem gridConstraints_nodup (sq : α → α) (ps : List (Particle (Flt α))) (W H : Nat) :
    ((gridConstraints sq ps W H).map fun c => (c.p1, c.p2)).Nodup := by
  unfold gridConstraints
  rw [List.map_flatMap, List.nodup_flatMap]
  constructor
  · intro y hy
    have hy' : y < H := List.mem_range.mp hy
    rw [List.map_flatMap, List.nodup_flatMap]
    constructor
    · intro x hx
      exact cellConstraints_nodup sq ps W H x y (List.mem_range.mp hx) hy'
    · refine (List.pairwise_lt_range W).imp_of_mem ?_
      intro x x' hx hx' hlt q hq hq'
      have h₁ := fst_of_mem_cell sq ps W H x y (List.mem_range.mp hx) hy' q hq
      have h₂ := fst_of_mem_cell sq ps W H x' y (List.mem_range.mp hx') hy' q hq'
      omega
  · refine (List.pairwise_lt_range H).imp_of_mem ?_
    intro y y' hy hy' hlt q hq hq'
    simp only [List.map_flatMap, List.mem_flatMap, List.mem_range] at hq hq'
    obtain ⟨x, hx, hq⟩ := hq
    obtain ⟨x', hx', hq'⟩ := hq'
    have h₁ := fst_of_mem_cell sq ps W H x y hx (List.mem_range.mp hy) q hq
    have h₂ := fst_of_mem_cell sq ps W H x' y' hx' (List.mem_range.mp hy') q hq'
    have := idx_injective hx hx' (h₁.symm.trans h₂)
    omega

theorem sum_range_const (c n : Nat) : ((List.range n).map fun _ => c).sum = n * c := by
  induction n with
  | zero => simp
  | succ n ih => rw [List.range_succ, List.map_append, List.sum_append, ih]; simp; ring

theorem sum_range_below (m N K n : Nat) :
    ((List.range n).map fun x => if x + m < N then K else 0).sum = min n (N - m) * K := by
  induction n with
  | zero => simp
  | succ n ih =>
    rw [List.range_succ, List.map_append, List.sum_append, ih]
    by_cases h : n + m < N
    · have h₁ : min (n + 1) (N - m) = n + 1 := by omega
      have h₂ : min n (N - m) = n := by omega
      simp [h, h₁, h₂]
      ring
    · have h₁ : min (n + 1) (N - m) = min n (N - m) := by omega
      simp [h, h₁]

theorem sum_range_pos (K n : Nat) :
    ((List.range n).map fun x => if 1 ≤ x then K else 0).sum = (n - 1) * K := by
  induction n with
  | zero => simp
  | succ n ih =>
    rw [List.range_succ, List.map_append, List.sum_append, ih]
    cases n with
    | zero => simp
    | succ n => simp; ring

/-- Number of constraints that the grid point `(x, y)` adds. -/
theorem cellConstraints_length (sq : α → α) (ps : List (Particle (Flt α))) (W H x y : Nat)
    (hx : x < W) (hy : y < H) :
    (cellConstraints sq ps W H x y).length =
      (if x + 1 < W then 1 else 0) + (if y + 1 < H then 1 else 0) +
      (if x + 1 < W ∧ y + 1 < H then 1 else 0) + (if 1 ≤ x ∧ y + 1 < H then 1 else 0) +
      (if x + 2 < W then 1 else 0) + (if y + 2 < H then 1 else 0) := by
  rw [cellConstraints_eq sq ps W H x y hx hy]
  simp only [List.length_append, apply_ite List.length, List.length_singleton, List.length_nil,
    hx, hy, and_true, true_and]

/-- Number of constraints that the first `n` grid points of the row `y` add. -/
theorem rowConstraints_sum (sq : α → α) (ps : List (Particle (Flt α))) (W H y : Nat)
    (hy : y < H) (n : Nat) (hn : n ≤ W) :
    ((List.range n).map fun x => (cellConstraints sq ps W H x y).length).sum =
      min n (W - 1) + (if y + 1 < H then n + min n (W - 1) + (n - 1) else 0) +
      min n (W - 2) + (if y + 2 < H then n else 0) := by
  induction n with
  | zero => simp
  | succ n ih =>
    rw [List.range_succ, List.map_append, List.sum_append, ih (by omega), List.map_singleton,
      List.sum_singleton, cellConstraints_length sq ps W H n y (by omega) hy]
    split_ifs <;> omega

/-- Number of constraints that the row `y` adds. -/
theorem rowConstraints_length (sq : α → α) (ps : List (Particle (Flt α))) (W H y : Nat)
    (hy : y < H) :
    ((List.range W).flatMap fun x => cellConstraints sq ps W H x y).length =
      (W - 1) + (if y + 1 < H then W + (W - 1) + (W - 1) else 0) + (W - 2) +
      (if y + 2 < H then W else 0) := by
  rw [List.length_flatMap]
  have h := rowConstraints_sum sq ps W H y hy W le_rfl
  have h₁ : min W (W - 1) = W - 1 := by omega
  have h₂ : min W (W - 2) = W - 2 := by omega
  rw [h₁, h₂] at h
  exact h

/-- Number of constraints of the grid. -/
theorem gridConstraints_length (sq : α → α) (ps : List (Particle (Flt α))) (W H : Nat) :
    (gridConstraints sq ps W H).length =
      H * (W - 1) + W * (H - 1) + 2 * (W - 1) * (H - 1) + H * (W - 2) + W * (H - 2) := by
  unfold gridConstraints
  rw [List.length_flatMap]
  have hrow : (List.range H).map
      (List.length ∘ fun y => (List.range W).flatMap fun x => cellConstraints sq ps W H x y) =
      (List.range H).map fun y => (W - 1) +
        (if y + 1 < H then W + (W - 1) + (W - 1) else 0) + (W - 2) +
        (if y + 2 < H then W else 0) := by
    apply List.map_congr_left
    intro y hy
    exact rowConstraints_length sq ps W H y (List.mem_range.mp hy)
  rw [hrow, List.sum_map_add, List.sum_map_add, List.sum_map_add, sum_range_const,
    sum_range_const, sum_range_below, sum_range_below]
  have h₁ : min H (H - 1) = H - 1 := by omega
  have h₂ : min H (H - 2) = H - 2 := by omega
  rw [h₁, h₂]
  ring

theorem toNat_idx (W a b : Nat) (A B : Int) (hA : A = a) (hB : B = b) :
    (B * (W : Int) + A).toNat = b * W + a := by
  subst hA hB
  have : ((b : Int) * (W : Int) + (a : Int)) = ((b * W + a : Nat) : Int) := by push_cast; ring
  rw [this, Int.toNat_natCast]

/-- The constraints of the grid are the constraints of the six offsets at the grid points
where both ends are in bounds. -/
theorem mem_gridConstraints_iff (sq : α → α) (ps : List (Particle (Flt α))) (W H : Nat)
    (c : Constraint (Flt α)) :
    c ∈ gridConstraints sq ps W H ↔
      ∃ x y : Nat, ∃ o ∈ (constraintOffsets : List (Int × Int × Flt α)),
        x < W ∧ y < H ∧ 0 ≤ (x : Int) + o.1 ∧ (x : Int) + o.1 < W ∧ (y : Int) + o.2.1 < H ∧
        c = Constraint.new sq ps (y * W + x)
          (((y : Int) + o.2.1) * (W : Int) + ((x : Int) + o.1)).toNat o.2.2 := by
  rw [mem_gridConstraints]
  constructor
  · rintro ⟨y, hy, x, hx, hc⟩
    rw [mem_cellConstraints sq ps W H x y hx hy] at hc
    rcases hc with ⟨h, rfl⟩ | ⟨h, rfl⟩ | ⟨⟨h, h'⟩, rfl⟩ | ⟨⟨h, h'⟩, rfl⟩ | ⟨h, rfl⟩ | ⟨h, rfl⟩
    · refine ⟨x, y, (1, 0, STRUCTURAL_STIFFNESS), by simp [constraintOffsets], hx, hy,
        by simp only; omega, by simp only; omega, by simp only; omega, ?_⟩
      simp only
      rw [toNat_idx W (x + 1) y _ _ (by push_cast; ring) (by simp)]
    · refine ⟨x, y, (0, 1, STRUCTURAL_STIFFNESS), by simp [constraintOffsets], hx, hy,
        by simp only; omega, by simp only; omega, by simp only; omega, ?_⟩
      simp only
      rw [toNat_idx W x (y + 1) _ _ (by simp) (by push_cast; ring)]
    · refine ⟨x, y, (1, 1, SHEAR_STIFFNESS), by simp [constraintOffsets], hx, hy,
        by simp only; omega, by simp only; omega, by simp only; omega, ?_⟩
      simp only
      rw [toNat_idx W (x + 1) (y + 1) _ _ (by push_cast; ring) (by push_cast; ring)]
    · refine ⟨x, y, (-1, 1, SHEAR_STIFFNESS), by simp [constraintOffsets], hx, hy,
        by simp only; omega, by simp only; omega, by simp only; omega, ?_⟩
      simp only
      rw [toNat_idx W (x - 1) (y + 1) _ _ (by omega) (by push_cast; ring)]
    · refine ⟨x, y, (2, 0, BENDING_STIFFNESS), by simp [constraintOffsets], hx, hy,
        by simp only; omega, by simp only; omega, by simp only; omega, ?_⟩
      simp only
      rw [toNat_idx W (x + 2) y _ _ (by push_cast; ring) (by simp)]
    · refine ⟨x, y, (0, 2, BENDING_STIFFNESS), by simp [constraintOffsets], hx, hy,
        by simp only; omega, by simp only; omega, by simp only; omega, ?_⟩
      simp only
      rw [toNat_idx W x (y + 2) _ _ (by simp) (by push_cast; ring)]
  · rintro ⟨x, y, o, ho, hx, hy, h0, hxW, hyH, rfl⟩
    refine ⟨y, hy, x, hx, ?_⟩
    rw [mem_cellConstraints sq ps W H x y hx hy]
    simp only [constraintOffsets, List.mem_cons, List.mem_singleton, List.not_mem_nil,
      or_false] at ho
    rcases ho with rfl | rfl | rfl | rfl | rfl | rfl
    · left
      simp only at h0 hxW hyH ⊢
      rw [toNat_idx W (x + 1) y _ _ (by push_cast; ring) (by simp)]
      exact ⟨by omega, rfl⟩
    · right; left
      simp only at h0 hxW hyH ⊢
      rw [toNat_idx W x (y + 1) _ _ (by simp) (by push_cast; ring)]
      exact ⟨by omega, rfl⟩
    · right; right; left
      simp only at h0 hxW hyH ⊢
      rw [toNat_idx W (x + 1) (y + 1) _ _ (by push_cast; ring) (by push_cast; ring)]
      exact ⟨⟨by omega, by omega⟩, rfl⟩
    · right; right; right; left
      simp only at h0 hxW hyH ⊢
      rw [toNat_idx W (x - 1) (y + 1) _ _ (by omega) (by push_cast; ring)]
      exact ⟨⟨by omega, by omega⟩, rfl⟩
    · right; right; right; right; left
      simp only at h0 hxW hyH ⊢
      rw [toNat_idx W (x + 2) y _ _ (by push_cast; ring) (by simp)]
      exact ⟨by omega, rfl⟩
    · right; right; right; right; right
      simp only at h0 hxW hyH ⊢
      rw [toNat_idx W x (y + 2) _ _ (by simp) (by push_cast; ring)]
      exact ⟨by omega, rfl⟩

/-- Every constraint of the grid joins two grid points that the specification joins, with
the stiffness that the specification gives to the pair. -/
theorem gridConstraints_stiffness (sq : α → α) (ps : List (Particle (Flt α))) (W H : Nat)
    (c : Constraint (Flt α)) (hc : c ∈ gridConstraints sq ps W H) :
    ∃ (x y x2 y2 : Nat) (k : α), x < W ∧ y < H ∧ x2 < W ∧ y2 < H ∧
      specStiffness x y x2 y2 = some k ∧
      c.p1 = y * W + x ∧ c.p2 = y2 * W + x2 ∧ c.stiffness = Flt.fin k := by
  obtain ⟨y, hy, x, hx, hc'⟩ := (mem_gridConstraints sq ps W H c).mp hc
  rw [mem_cellConstraints sq ps W H x y hx hy] at hc'
  rcases hc' with ⟨h, rfl⟩ | ⟨h, rfl⟩ | ⟨⟨h, h'⟩, rfl⟩ | ⟨⟨h, h'⟩, rfl⟩ | ⟨h, rfl⟩ | ⟨h, rfl⟩
  · refine ⟨x, y, x + 1, y, 1, hx, hy, h, hy, ?_, rfl, rfl, rfl⟩
    rw [specStiffness, if_pos (by omega)]
  · refine ⟨x, y, x, y + 1, 1, hx, hy, hx, h, ?_, rfl, rfl, rfl⟩
    rw [specStiffness, if_pos (by omega)]
  · refine ⟨x, y, x + 1, y + 1, 8 / 10, hx, hy, h, h', ?_, rfl, rfl, rfl⟩
    rw [specStiffness, if_neg (by omega), if_pos (by omega)]
  · refine ⟨x, y, x - 1, y + 1, 8 / 10, hx, hy, by omega, h', ?_, rfl, rfl, rfl⟩
    rw [specStiffness, if_neg (by omega), if_pos (by omega)]
  · refine ⟨x, y, x + 2, y, 5 / 100, hx, hy, h, hy, ?_, rfl, rfl, rfl⟩
    rw [specStiffness, if_neg (by omega), if_neg (by omega), if_pos (by omega)]
  · refine ⟨x, y, x, y + 2, 5 / 100, hx, hy, hx, h, ?_, rfl, rfl, rfl⟩
    rw [specStiffness, if_neg (by omega), if_neg (by omega), if_pos (by omega)]

/-- Every pair of grid points in bounds that the specification joins is joined by a
constraint of the grid, with the stiffness that the specification gives to the pair. -/
theorem gridConstraints_complete (sq : α → α) (ps : List (Particle (Flt α))) (W H : Nat)
    (x y x2 y2 : Nat) (k : α) (hx : x < W) (hy : y < H) (hx2 : x2 < W) (hy2 : y2 < H)
    (hk : specStiffness x y x2 y2 = some k) :
    ∃ c ∈ gridConstraints sq ps W H,
      c.p1 = y * W + x ∧ c.p2 = y2 * W + x2 ∧ c.stiffness = Flt.fin k := by
  unfold specStiffness at hk
  split_ifs at hk with h₁ h₂ h₃
  · have hk' : k = 1 := (Option.some.inj hk).symm
    subst hk'
    rcases h₁ with ⟨rfl, rfl⟩ | ⟨rfl, rfl⟩
    · exact ⟨_, (mem_gridConstraints sq ps W H _).mpr ⟨y2, hy, x, hx,
        (mem_cellConstraints sq ps W H x y2 hx hy _).mpr (Or.inl ⟨hx2, rfl⟩)⟩, rfl, rfl, rfl⟩
    · exact ⟨_, (mem_gridConstraints sq ps W H _).mpr ⟨y, hy, x2, hx,
        (mem_cellConstraints sq ps W H x2 y hx hy _).mpr (Or.inr (Or.inl ⟨hy2, rfl⟩))⟩,
        rfl, rfl, rfl⟩
  · have hk' : k = 8 / 10 := (Option.some.inj hk).symm
    subst hk'
    rcases h₂ with ⟨rfl, rfl⟩ | ⟨h, rfl⟩
    · exact ⟨_, (mem_gridConstraints sq ps W H _).mpr ⟨y, hy, x, hx,
        (mem_cellConstraints sq ps W H x y hx hy _).mpr
          (Or.inr (Or.inr (Or.inl ⟨⟨hx2, hy2⟩, rfl⟩)))⟩, rfl, rfl, rfl⟩
    · have hx2' : x2 = x - 1 := by omega
      subst hx2'
      exact ⟨_, (mem_gridConstraints sq ps W H _).mpr ⟨y, hy, x, hx,
        (mem_cellConstraints sq ps W H x y hx hy _).mpr
          (Or.inr (Or.inr (Or.inr (Or.inl ⟨⟨by omega, hy2⟩, rfl⟩))))⟩, rfl, rfl, rfl⟩
  · have hk' : k = 5 / 100 := (Option.some.inj hk).symm
    subst hk'
    rcases h₃ with ⟨rfl, rfl⟩ | ⟨rfl, rfl⟩
    · exact ⟨_, (mem_gridConstraints sq ps W H _).mpr ⟨y2, hy, x, hx,
        (mem_cellConstraints sq ps W H x y2 hx hy _).mpr
          (Or.inr (Or.inr (Or.inr (Or.inr (Or.inl ⟨hx2, rfl⟩)))))⟩, rfl, rfl, rfl⟩
    · exact ⟨_, (mem_gridConstraints sq ps W H _).mpr ⟨y, hy, x2, hx,
        (mem_cellConstraints sq ps W H x2 y hx hy _).mpr
          (Or.inr (Or.inr (Or.inr (Or.inr (Or.inr ⟨hy2, rfl⟩)))))⟩, rfl, rfl, rfl⟩

/-- C13 (constraint generation): for all `W`, `H`, every constraint of `Cloth(W, H)` joins
the particle `y * W + x` of a grid point `(x, y)` to the particle `y2 * W + x2` of a grid
point `(x2, y2)`, both in bounds, where `(x2, y2)` is `(x + 1, y)` or `(x, y + 1)` and the
stiffness is 1.0, or `(x + 1, y + 1)` or `(x - 1, y + 1)` and the stiffness is 0.8, or
`(x + 2, y)` or `(x, y + 2)` and the stiffness is 0.05; every such pair of grid points in
bounds is joined by a constraint with that stiffness; the list is the list of the
constraints that `Constraint(p1, p2, k)` builds for these pairs; no two constraints have the
same endpoints, in either order; every constraint joins a particle to one of a higher index
below `W * H`; the list has `H*(W-1) + W*(H-1) + 2*(W-1)*(H-1) + H*(W-2) + W*(H-2)` entries
(differences cut off at 0), which is 21002 for the 60 x 60 cloth. -/
theorem Cloth.new_constraints (sq : α → α) (W H : Nat) :
    (∀ c ∈ (Cloth.new sq W H : Cloth (Flt α)).constraints,
      ∃ (x y x2 y2 : Nat) (k : α), x < W ∧ y < H ∧ x2 < W ∧ y2 < H ∧
        specStiffness x y x2 y2 = some k ∧
        c.p1 = y * W + x ∧ c.p2 = y2 * W + x2 ∧ c.stiffness = Flt.fin k) ∧
    (∀ (x y x2 y2 : Nat) (k : α), x < W → y < H → x2 < W → y2 < H →
      specStiffness x y x2 y2 = some k →
      ∃ c ∈ (Cloth.new sq W H : Cloth (Flt α)).constraints,
        c.p1 = y * W + x ∧ c.p2 = y2 * W + x2 ∧ c.stiffness = Flt.fin k) ∧
    (∀ c, c ∈ (Cloth.new sq W H : Cloth (Flt α)).constraints ↔
      ∃ x y : Nat, ∃ o ∈ (constraintOffsets : List (Int × Int × Flt α)),
        x < W ∧ y < H ∧ 0 ≤ (x : Int) + o.1 ∧ (x : Int) + o.1 < W ∧ (y : Int) + o.2.1 < H ∧
        c = Constraint.new sq (Cloth.new sq W H : Cloth (Flt α)).particles (y * W + x)
          (((y : Int) + o.2.1) * (W : Int) + ((x : Int) + o.1)).toNat o.2.2) ∧
    ((Cloth.new sq W H : Cloth (Flt α)).constraints.map fun c => (c.p1, c.p2)).Nodup ∧
    (∀ c ∈ (Cloth.new sq W H : Cloth (Flt α)).constraints, c.p1 < c.p2 ∧ c.p2 < W * H) ∧
    (∀ c ∈ (Cloth.new sq W H : Cloth (Flt α)).constraints,
      ∀ d ∈ (Cloth.new sq W H : Cloth (Flt α)).constraints, ¬ (c.p1 = d.p2 ∧ c.p2 = d.p1)) ∧
    (Cloth.new sq W H : Cloth (Flt α)).constraints.length =
      H * (W - 1) + W * (H - 1) + 2 * (W - 1) * (H - 1) + H * (W - 2) + W * (H - 2) ∧
    (Cloth.new sq 60 60 : Cloth (Flt α)).constraints.length = 21002 := by
  have hb : ∀ c ∈ (Cloth.new sq W H : Cloth (Flt α)).constraints,
      c.p1 < c.p2 ∧ c.p2 < W * H := by
    intro c hc
    obtain ⟨y, hy, x, hx, hc'⟩ := (mem_gridConstraints sq _ W H c).mp hc
    exact (cellConstraints_bounds sq _ W H x y hx hy c hc').2
  refine ⟨fun c hc => gridConstraints_stiffness sq _ W H c hc,
    fun x y x2 y2 k hx hy hx2 hy2 hk =>
      gridConstraints_complete sq _ W H x y x2 y2 k hx hy hx2 hy2 hk,
    fun c => mem_gridConstraints_iff sq _ W H c, gridConstraints_nodup sq _ W H, hb, ?_,
    gridConstraints_length sq _ W H, ?_⟩
  · rintro c hc d hd ⟨h₁, h₂⟩
    have := (hb c hc).1
    have := (hb d hd).1
    omega
  · show (gridConstraints sq _ 60 60).length = 21002
    rw [gridConstraints_length]

/-- Witness of C13: `Cloth(2, 2)` has 6 constraints, each from a particle to one of a higher
index below 4; the grid points `(0, 0)` and `(1, 1)` (the particles 0 and 3) are joined by a
constraint of stiffness 0.8, and the grid points `(1, 0)` and `(1, 1)` (the particles 1
and 3) by one of stiffness 1. -/
theorem Cloth.new_constraints_witness :
    (Cloth.new sqrtQ 2 2 : Cloth (Flt ℚ)).constraints.length = 6 ∧
    (∀ c ∈ (Cloth.new sqrtQ 2 2 : Cloth (Flt ℚ)).constraints, c.p1 < c.p2 ∧ c.p2 < 2 * 2) ∧
    (∃ c ∈ (Cloth.new sqrtQ 2 2 : Cloth (Flt ℚ)).constraints,
      c.p1 = 0 * 2 + 0 ∧ c.p2 = 1 * 2 + 1 ∧ c.stiffness = Flt.fin (8 / 10)) ∧
    (∃ c ∈ (Cloth.new sqrtQ 2 2 : Cloth (Flt ℚ)).constraints,
      c.p1 = 0 * 2 + 1 ∧ c.p2 = 1 * 2 + 1 ∧ c.stiffness = Flt.fin 1) :=
  ⟨(Cloth.new_constraints sqrtQ 2 2).2.2.2.2.2.2.1, (Cloth.new_constraints sqrtQ 2 2).2.2.2.2.1,
    (Cloth.new_constraints sqrtQ 2 2).2.1 0 0 1 1 (8 / 10) (by norm_num) (by norm_num)
      (by norm_num) (by norm_num) (by norm_num [specStiffness]),
    (Cloth.new_constraints sqrtQ 2 2).2.1 1 0 1 1 1 (by norm_num) (by norm_num)
      (by norm_num) (by norm_num) (by norm_num [specStiffness])⟩

end constraints

/-! ## The fresh cloth is at rest -/

section rest

variable {α : Type} [LinearOrderedField α]

theorem modify_of_fixed {β : Type} (f : β → β) (hf : ∀ a, f a = a) (n : Nat) (l : List β) :
    List.modify f n l = l := by
  induction l generalizing n with
  | nil => simp
  | cons a l ih =>
    cases n with
    | zero => rw [List.modify_zero_cons, hf]
    | succ n => rw [List.modify_succ_cons, ih]

theorem Flt.add_fin_zero (a : Flt α) : a + Flt.fin 0 = a := by
  cases a with
  | fin x => simp
  | nan => rfl

theorem Flt.sub_fin_zero (a : Flt α) : a - Flt.fin 0 = a := by
  cases a with
  | fin x => simp
  | nan => rfl

theorem addCorrection_zero (p : Particle (Flt α)) :
    addCorrection (Vec3.toFlt (⟨0, 0, 0⟩ : Vec3 α)) p = p := by
  unfold addCorrection
  split
  · cases p
    simp [Vec3.add_def, Vec3.toFlt, Flt.add_fin_zero]
  · rfl

theorem subCorrection_zero (p : Particle (Flt α)) :
    subCorrection (Vec3.toFlt (⟨0, 0, 0⟩ : Vec3 α)) p = p := by
  unfold subCorrection
  split
  · cases p
    simp [Vec3.sub_def, Vec3.toFlt, Flt.sub_fin_zero]
  · rfl

/-- A constraint whose rest distance is the current distance of its endpoints moves
nothing: `Constraint::solve()` returns the particle vector as it was. -/
theorem solve_at_rest (sq : α → α) (c : Constraint (Flt α)) (ps : List (Particle (Flt α)))
    (a b : Particle (Flt α)) (A B : Vec3 α) (k : α)
    (ha : ps[c.p1]? = some a) (hb : ps[c.p2]? = some b)
    (hA : a.position = A.toFlt) (hB : b.position = B.toFlt)
    (hr : c.restDistance = Flt.fin (sq (Vec3.dot (B - A) (B - A))))
    (hk : c.stiffness = Flt.fin k) : c.solve sq ps = ps := by
  by_cases hz : sq (Vec3.dot (B - A) (B - A)) = 0
  · exact solve_of_zero sq c ps a b A B ha hb hA hB hz
  · rw [solve_of_ne_zero sq c ps a b A B _ k ha hb hA hB hr hk hz]
    have h0 : (B - A) * ((sq (Vec3.dot (B - A) (B - A)) - sq (Vec3.dot (B - A) (B - A))) /
        sq (Vec3.dot (B - A) (B - A))) * (5 / 10 : α) * k = ⟨0, 0, 0⟩ := by
      ext <;> simp
    rw [h0, modify_of_fixed _ addCorrection_zero, modify_of_fixed _ subCorrection_zero]

theorem solveAll_of_fixed (sq : α → α) (cs : List (Constraint (Flt α)))
    (ps : List (Particle (Flt α))) (h : ∀ c ∈ cs, c.solve sq ps = ps) :
    solveAll sq cs ps = ps := by
  unfold solveAll
  induction cs with
  | nil => rfl
  | cons c cs ih =>
    rw [List.foldl_cons, h c (List.mem_cons_self c cs)]
    exact ih fun d hd => h d (List.mem_cons_of_mem c hd)

theorem solvePasses_of_fixed (sq : α → α) (cs : List (Constraint (Flt α)))
    (ps : List (Particle (Flt α))) (h : ∀ c ∈ cs, c.solve sq ps = ps) (n : Nat) :
    solvePasses sq cs n ps = ps := by
  induction n with
  | zero => rfl
  | succ n ih => rw [solvePasses, solveAll_of_fixed sq cs ps h, ih]

/-- The constructor `Constraint(pi, pj, stiff)` between two grid points that are in bounds:
the rest distance is the distance of the two initial positions, a number. -/
theorem new_restDistance (sq : α → α) (W H x y x2 y2 : Nat) (k : Flt α)
    (hx : x < W) (hy : y < H) (hx2 : x2 < W) (hy2 : y2 < H) :
    (Constraint.new sq (gridParticles W H) (y * W + x) (y2 * W + x2) k).restDistance =
      Flt.fin (sq (Vec3.dot
        ((⟨((x2 : α) - (x : α)) * (1 / 10), ((y2 : α) - (y : α)) * (1 / 10), 0⟩ : Vec3 α))
        ⟨((x2 : α) - (x : α)) * (1 / 10), ((y2 : α) - (y : α)) * (1 / 10), 0⟩)) := by
  unfold Constraint.new distance
  simp only [gridParticles_getElem? W H x y hx hy, gridParticles_getElem? W H x2 y2 hx2 hy2,
    gridParticle_position, Vec3.toFlt_sub, length_toFlt]
  congr 3 <;> (ext <;> simp <;> ring)

theorem constraint_new_fixed (sq : α → α) (ps : List (Particle (Flt α))) (i j : Nat) (k : α)
    (a b : Particle (Flt α)) (A B : Vec3 α) (ha : ps[i]? = some a) (hb : ps[j]? = some b)
    (hA : a.position = A.toFlt) (hB : b.position = B.toFlt) :
    (Constraint.new sq ps i j (Flt.fin k)).solve sq ps = ps := by
  refine solve_at_rest sq _ ps a b A B k ha hb hA hB ?_ rfl
  unfold Constraint.new distance
  simp only [ha, hb, hA, hB, Vec3.toFlt_sub, length_toFlt]

/-- Every constraint of the fresh grid leaves the fresh particles as they are. -/
theorem gridConstraints_at_rest (sq : α → α) (W H : Nat) (c : Constraint (Flt α))
    (hc : c ∈ gridConstraints sq (gridParticles W H) W H) :
    c.solve sq (gridParticles W H) = gridParticles W H := by
  obtain ⟨y, hy, x, hx, hc'⟩ := (mem_gridConstraints sq _ W H c).mp hc
  have key : ∀ (x2 y2 : Nat) (k : α), x2 < W → y2 < H →
      (Constraint.new sq (gridParticles W H) (y * W + x) (y2 * W + x2) (Flt.fin k)).solve sq
        (gridParticles W H) = gridParticles W H := by
    intro x2 y2 k hx2 hy2
    exact constraint_new_fixed sq _ _ _ k _ _ _ _ (gridParticles_getElem? W H x y hx hy)
      (gridParticles_getElem? W H x2 y2 hx2 hy2) (gridParticle_position W H x y)
      (gridParticle_position W H x2 y2)
  rw [mem_cellConstraints sq _ W H x y hx hy] at hc'
  rcases hc' with ⟨h, rfl⟩ | ⟨h, rfl⟩ | ⟨⟨h, h'⟩, rfl⟩ | ⟨⟨h, h'⟩, rfl⟩ | ⟨h, rfl⟩ | ⟨h, rfl⟩
  · exact key (x + 1) y 1 h hy
  · exact key x (y + 1) 1 hx h
  · exact key (x + 1) (y + 1) (8 / 10) h h'
  · exact key (x - 1) (y + 1) (8 / 10) (by omega) h'
  · exact key (x + 2) y (5 / 100) h hy
  · exact key x (y + 2) (5 / 100) hx h

/-- Rest distances of the fresh grid: 0.1 for the structural constraints, `0.1 * sqrt 2` for
the shear constraints and 0.2 for the bending constraints. -/
theorem gridConstraints_restDistance (sq : α → α) (hsq : IsSqrt sq) (W H : Nat)
    (c : Constraint (Flt α)) (hc : c ∈ gridConstraints sq (gridParticles W H) W H) :
    (c.stiffness = STRUCTURAL_STIFFNESS ∧ c.restDistance = Flt.fin (1 / 10)) ∨
    (c.stiffness = SHEAR_STIFFNESS ∧ c.restDistance = Flt.fin (1 / 10 * sq 2)) ∨
    (c.stiffness = BENDING_STIFFNESS ∧ c.restDistance = Flt.fin (2 / 10)) := by
  obtain ⟨y, hy, x, hx, hc'⟩ := (mem_gridConstraints sq _ W H c).mp hc
  obtain ⟨h20, h22⟩ := hsq 2 (by norm_num)
  rw [mem_cellConstraints sq _ W H x y hx hy] at hc'
  rcases hc' with ⟨h, rfl⟩ | ⟨h, rfl⟩ | ⟨⟨h, h'⟩, rfl⟩ | ⟨⟨h, h'⟩, rfl⟩ | ⟨h, rfl⟩ | ⟨h, rfl⟩
  · left
    refine ⟨rfl, ?_⟩
    rw [new_restDistance sq W H x y (x + 1) y _ hx hy h hy]
    congr 1
    apply hsq.eq_of_sq (by norm_num)
    simp only [Vec3.dot]
    push_cast
    ring
  · left
    refine ⟨rfl, ?_⟩
    rw [new_restDistance sq W H x y x (y + 1) _ hx hy hx h]
    congr 1
    apply hsq.eq_of_sq (by norm_num)
    simp only [Vec3.dot]
    push_cast
    ring
  · right; left
    refine ⟨rfl, ?_⟩
    rw [new_restDistance sq W H x y (x + 1) (y + 1) _ hx hy h h']
    congr 1
    apply hsq.eq_of_sq (by positivity)
    simp only [Vec3.dot]
    push_cast
    linear_combination (1 / 100 : α) * h22
  · right; left
    refine ⟨rfl, ?_⟩
    rw [new_restDistance sq W H x y (x - 1) (y + 1) _ hx hy (by omega) h']
    congr 1
    apply hsq.eq_of_sq (by positivity)
    simp only [Vec3.dot]
    rw [Nat.cast_sub h]
    push_cast
    linear_combination (1 / 100 : α) * h22
  · right; right
    refine ⟨rfl, ?_⟩
    rw [new_restDistance sq W H x y (x + 2) y _ hx hy h hy]
    congr 1
    apply hsq.eq_of_sq (by norm_num)
    simp only [Vec3.dot]
    push_cast
    ring
  · right; right
    refine ⟨rfl, ?_⟩
    rw [new_restDistance sq W H x y x (y + 2) _ hx hy hx h]
    congr 1
    apply hsq.eq_of_sq (by norm_num)
    simp only [Vec3.dot]
    push_cast
    ring

/-- C20 (the fresh cloth is at rest): for all `W`, `H`, every constraint of `Cloth(W, H)` has
a rest distance equal to the current distance of its endpoints, which is 0.1 for the
structural constraints, `0.1 * sqrt 2` for the shear constraints and 0.2 for the bending
constraints, and any number of passes of `Constraint::solve` over all the constraints leaves
the particle vector of the initial state as it is (so every position); `sq` is any square
root. -/
theorem Cloth.new_at_rest (sq : α → α) (hsq : IsSqrt sq) (W H : Nat) :
    (∀ c ∈ (Cloth.new sq W H : Cloth (Flt α)).constraints,
      c.restDistance = c.currentDist sq (Cloth.new sq W H : Cloth (Flt α)).particles ∧
      ((c.stiffness = STRUCTURAL_STIFFNESS ∧ c.restDistance = Flt.fin (1 / 10)) ∨
        (c.stiffness = SHEAR_STIFFNESS ∧ c.restDistance = Flt.fin (1 / 10 * sq 2)) ∨
        (c.stiffness = BENDING_STIFFNESS ∧ c.restDistance = Flt.fin (2 / 10)))) ∧
    ∀ n : Nat, solvePasses sq (Cloth.new sq W H : Cloth (Flt α)).constraints n
      (Cloth.new sq W H : Cloth (Flt α)).particles =
        (Cloth.new sq W H : Cloth (Flt α)).particles := by
  refine ⟨fun c hc => ⟨?_, gridConstraints_restDistance sq hsq W H c hc⟩, fun n => ?_⟩
  · obtain ⟨y, hy, x, hx, hc'⟩ := (mem_gridConstraints sq _ W H c).mp hc
    rw [mem_cellConstraints sq _ W H x y hx hy] at hc'
    rcases hc' with ⟨h, rfl⟩ | ⟨h, rfl⟩ | ⟨⟨h, h'⟩, rfl⟩ | ⟨⟨h, h'⟩, rfl⟩ | ⟨h, rfl⟩ | ⟨h, rfl⟩ <;>
      rfl
  · exact solvePasses_of_fixed sq _ _ (fun c hc => gridConstraints_at_rest sq W H c hc) n

/-- Witness of C20: five passes on the 2 x 2 cloth over the real numbers. -/
theorem Cloth.new_at_rest_witness :
    solvePasses Real.sqrt (Cloth.new Real.sqrt 2 2 : Cloth (Flt ℝ)).constraints 5
      (Cloth.new Real.sqrt 2 2 : Cloth (Flt ℝ)).particles =
        (Cloth.new Real.sqrt 2 2 : Cloth (Flt ℝ)).particles :=
  (Cloth.new_at_rest Real.sqrt isSqrt_real 2 2).2 5

end rest

/-! ## Picking -/

section picking

variable {α : Type} [LinearOrderedField α]

/-- One iteration of the loop of `getParticleIndexUnderCursor` when the projection, the
cursor and the current best distance are numbers. -/
theorem pickStep_fin (proj : Vec3 (Flt α) → Vec3 α) (X Y M : α) (height : Int) (k : Int)
    (i : Nat) (p : Particle (Flt α)) :
    pickStep (fun v => (proj v).toFlt) (Flt.fin X) (Flt.fin ((height : α) - Y)) (Flt.fin M, k) i p =
      if Pickable height X Y (proj p.position) ∧ screenDistSq height X Y (proj p.position) < M
      then (Flt.fin (screenDistSq height X Y (proj p.position)), (i : Int))
      else (Flt.fin M, k) := by
  unfold pickStep Pickable screenDistSq
  simp only [Vec3.toFlt, Flt.lt_fin, Flt.gt_fin, Flt.fin_sub, Flt.fin_mul, Flt.fin_add,
    Bool.or_eq_true, Bool.and_eq_true, decide_eq_true_eq]
  by_cases hz : (proj p.position).z < 0 ∨ 1 < (proj p.position).z
  · rw [if_pos hz, if_neg]
    rintro ⟨⟨h₁, h₂, -⟩, -⟩
    rcases hz with hz | hz
    · exact absurd h₁ (not_le.mpr hz)
    · exact absurd h₂ (not_le.mpr hz)
  · rw [if_neg hz]
    push_neg at hz
    simp only [hz.1, hz.2, true_and]

/-- The loop of `getParticleIndexUnderCursor` from the position `i` on, started with the
best distance `M` and the index `k`: it ends with a best distance `M'` that no pickable
particle of the list beats, and either nothing was taken, or the index is that of the first
pickable particle of distance `M' < M`, every pickable particle before it being farther. -/
theorem pickLoop_spec (proj : Vec3 (Flt α) → Vec3 α) (X Y : α) (height : Int)
    (ps : List (Particle (Flt α))) :
    ∀ (i : Nat) (M : α) (k : Int), ∃ (M' : α) (k' : Int),
      pickLoop (fun v => (proj v).toFlt) (Flt.fin X) (Flt.fin ((height : α) - Y)) ps i
        (Flt.fin M, k) = (Flt.fin M', k') ∧
      (∀ (j : Nat) (q : Particle (Flt α)), ps[j]? = some q → Pickable height X Y (proj q.position) →
        M' ≤ screenDistSq height X Y (proj q.position)) ∧
      M' ≤ M ∧
      ((M' = M ∧ k' = k) ∨
        (M' < M ∧ ∃ (j : Nat) (q : Particle (Flt α)), ps[j]? = some q ∧ Pickable height X Y (proj q.position) ∧
          screenDistSq height X Y (proj q.position) = M' ∧ k' = ((i + j : Nat) : Int) ∧
          ∀ (j' : Nat) (q' : Particle (Flt α)), j' < j → ps[j']? = some q' → Pickable height X Y (proj q'.position) →
            M' < screenDistSq height X Y (proj q'.position))) := by
  induction ps with
  | nil =>
    intro i M k
    exact ⟨M, k, rfl, fun j q hq => by simp at hq, le_rfl, Or.inl ⟨rfl, rfl⟩⟩
  | cons p rest ih =>
    intro i M k
    rw [pickLoop, pickStep_fin]
    by_cases htake : Pickable height X Y (proj p.position) ∧
        screenDistSq height X Y (proj p.position) < M
    · rw [if_pos htake]
      obtain ⟨M', k', hloop, hmin, hle, hcase⟩ :=
        ih (i + 1) (screenDistSq height X Y (proj p.position)) (i : Int)
      refine ⟨M', k', hloop, ?_, le_trans hle htake.2.le, Or.inr ⟨lt_of_le_of_lt hle htake.2, ?_⟩⟩
      · intro j q hq hok
        cases j with
        | zero =>
          simp only [List.getElem?_cons_zero, Option.some.injEq] at hq
          subst hq
          exact hle
        | succ j =>
          simp only [List.getElem?_cons_succ] at hq
          exact hmin j q hq hok
      · rcases hcase with ⟨h₁, h₂⟩ | ⟨h₁, j, q, hq, hok, hd, hk, hbefore⟩
        · refine ⟨0, p, by simp, htake.1, h₁.symm, by simpa using h₂, ?_⟩
          intro j' q' hj'
          omega
        · refine ⟨j + 1, q, by simpa using hq, hok, hd, ?_, ?_⟩
          · rw [hk]
            push_cast
            ring
          · intro j' q' hj' hq' hok'
            cases j' with
            | zero =>
              simp only [List.getElem?_cons_zero, Option.some.injEq] at hq'
              subst hq'
              exact h₁
            | succ j' =>
              simp only [List.getElem?_cons_succ] at hq'
              exact hbefore j' q' (by omega) hq' hok'
    · rw [if_neg htake]
      obtain ⟨M', k', hloop, hmin, hle, hcase⟩ := ih (i + 1) M k
      have hp : Pickable height X Y (proj p.position) →
          M ≤ screenDistSq height X Y (proj p.position) := by
        intro hok
        by_contra hlt
        exact htake ⟨hok, not_le.mp hlt⟩
      refine ⟨M', k', hloop, ?_, hle, ?_⟩
      · intro j q hq hok
        cases j with
        | zero =>
          simp only [List.getElem?_cons_zero, Option.some.injEq] at hq
          subst hq
          exact le_trans hle (hp hok)
        | succ j =>
          simp only [List.getElem?_cons_succ] at hq
          exact hmin j q hq hok
      · rcases hcase with h | ⟨h₁, j, q, hq, hok, hd, hk, hbefore⟩
        · exact Or.inl h
        · refine Or.inr ⟨h₁, j + 1, q, by simpa using hq, hok, hd, ?_, ?_⟩
          · rw [hk]
            push_cast
            ring
          · intro j' q' hj' hq' hok'
            cases j' with
            | zero =>
              simp only [List.getElem?_cons_zero, Option.some.injEq] at hq'
              subst hq'
              exact lt_of_lt_of_le h₁ (hp hok')
            | succ j' =>
              simp only [List.getElem?_cons_succ] at hq'
              exact hbefore j' q' (by omega) hq' hok'

/-- C16 (picking): for every cursor point `(X, Y)`, every projection with numeric values and
every particle list, `getParticleIndexUnderCursor` returns -1 if and only if no particle is
pickable (projected depth in `[0, 1]` and squared screen distance to the cursor below
`50 * 50`, the cursor's `y` flipped to `height - Y`); otherwise it returns the index of a
pickable particle whose screen distance is minimal among the pickable ones, the lowest
index when several tie. -/
theorem getParticleIndexUnderCursor_spec (proj : Vec3 (Flt α) → Vec3 α) (X Y : α)
    (height : Int) (ps : List (Particle (Flt α))) :
    (getParticleIndexUnderCursor (fun v => (proj v).toFlt) (Flt.fin X) (Flt.fin Y) ps height = -1 ↔
      ∀ p ∈ ps, ¬ Pickable height X Y (proj p.position)) ∧
    (getParticleIndexUnderCursor (fun v => (proj v).toFlt) (Flt.fin X) (Flt.fin Y) ps height ≠ -1 →
      ∃ (i : Nat) (p : Particle (Flt α)),
        getParticleIndexUnderCursor (fun v => (proj v).toFlt) (Flt.fin X) (Flt.fin Y) ps height
          = (i : Int) ∧
        ps[i]? = some p ∧ Pickable height X Y (proj p.position) ∧
        (∀ (j : Nat) (q : Particle (Flt α)), ps[j]? = some q → Pickable height X Y (proj q.position) →
          screenDistSq height X Y (proj p.position) ≤ screenDistSq height X Y (proj q.position)) ∧
        (∀ (j : Nat) (q : Particle (Flt α)), ps[j]? = some q → Pickable height X Y (proj q.position) →
          screenDistSq height X Y (proj q.position) = screenDistSq height X Y (proj p.position) →
          i ≤ j)) := by
  obtain ⟨M', k', hloop, hmin, hle, hcase⟩ := pickLoop_spec proj X Y height ps 0 1000000 (-1)
  have hres : getParticleIndexUnderCursor (fun v => (proj v).toFlt) (Flt.fin X) (Flt.fin Y) ps
      height = k' := by
    unfold getParticleIndexUnderCursor
    simp only [Flt.fin_sub]
    rw [hloop]
  rw [hres]
  have hfar : ∀ q : Particle (Flt α), Pickable height X Y (proj q.position) →
      screenDistSq height X Y (proj q.position) < 1000000 := by
    intro q hq
    have := hq.2.2
    linarith
  constructor
  · constructor
    · intro hk p hp hok
      obtain ⟨j, hj⟩ := List.getElem?_of_mem hp
      rcases hcase with ⟨h₁, -⟩ | ⟨-, j', q, -, -, -, hk', -⟩
      · have h₂ := hmin j p hj hok
        have h₃ := hfar p hok
        rw [h₁] at h₂
        exact absurd h₃ (not_lt.mpr h₂)
      · rw [hk] at hk'
        omega
    · intro hno
      rcases hcase with ⟨-, h₂⟩ | ⟨-, j, q, hq, hok, -⟩
      · exact h₂
      · exact absurd hok (hno q (List.getElem?_mem hq))
  · intro hne
    rcases hcase with ⟨-, h₂⟩ | ⟨-, j, q, hq, hok, hd, hk, hbefore⟩
    · exact absurd h₂ hne
    · refine ⟨j, q, by rw [hk]; simp, hq, hok, ?_, ?_⟩
      · intro j₂ q₂ hq₂ hok₂
        rw [hd]
        exact hmin j₂ q₂ hq₂ hok₂
      · intro j₂ q₂ hq₂ hok₂ heq
        by_contra hlt
        have := hbefore j₂ q₂ (not_le.mp hlt) hq₂ hok₂
        rw [heq, hd] at this
        exact lt_irrefl _ this

/-- Witness of C16: particles at `(0, 0, 0)` and `(1, 0, 0)`, seen at the pixels `(0, 0)` and
`(100, 0)` of a window of height 600; the cursor at `(90, 600)` is 10 pixels from the second
particle, so the result is not -1. -/
theorem getParticleIndexUnderCursor_spec_witness :
    Pickable 600 (90 : ℚ) 600 (flatScreen (particleAt 1 0).position) ∧
    getParticleIndexUnderCursor (fun v => (flatScreen v).toFlt) (Flt.fin 90) (Flt.fin 600)
      [particleAt 0 0, particleAt 1 0] 600 ≠ -1 := by
  have hp : Pickable 600 (90 : ℚ) 600 (flatScreen (particleAt 1 0).position) := by
    norm_num [Pickable, screenDistSq, flatScreen, particleAt, Particle.mk0]
  exact ⟨hp, fun h => (getParticleIndexUnderCursor_spec flatScreen 90 600 600
    [particleAt 0 0, particleAt 1 0]).1.mp h (particleAt 1 0) (by simp) hp⟩

end picking

/-! ## The second demo: the pin invariant of `SilkSimulation` -/

namespace SilkSimulation

variable {α : Type} [LinearOrderedField α]

theorem Particle.Kept.refl (p : Particle (Flt α)) : Particle.Kept p p := ⟨rfl, fun _ => rfl⟩

theorem Particle.Kept.trans (p q r : Particle (Flt α)) (h₁ : Particle.Kept p q)
    (h₂ : Particle.Kept q r) : Particle.Kept p r :=
  ⟨h₂.1.trans h₁.1, fun hp => (h₂.2 (h₁.1.trans hp)).trans (h₁.2 hp)⟩

theorem kept_of_unpinned (p q : Particle (Flt α)) (hp : p.pinned = false)
    (hq : q.pinned = p.pinned) : Particle.Kept p q :=
  ⟨hq, fun h => by rw [hp] at h; exact absurd h (by simp)⟩

theorem kept_integrate (dt2 : Flt α) (p : Particle (Flt α)) :
    Particle.Kept p (integrate dt2 p) := by
  unfold integrate
  cases hp : p.pinned
  · exact kept_of_unpinned _ _ hp (by simp [hp])
  · simpa using Particle.Kept.refl p

theorem kept_pull (dx dy diff : Flt α) (p : Particle (Flt α)) :
    Particle.Kept p (pull dx dy diff p) := by
  unfold pull
  cases hp : p.pinned
  · exact kept_of_unpinned _ _ hp (by simp [hp])
  · simpa using Particle.Kept.refl p

theorem kept_push (dx dy diff : Flt α) (p : Particle (Flt α)) :
    Particle.Kept p (push dx dy diff p) := by
  unfold push
  cases hp : p.pinned
  · exact kept_of_unpinned _ _ hp (by simp [hp])
  · simpa using Particle.Kept.refl p

theorem forall₂_foldl {β γ : Type} {R : β → β → Prop} (hrefl : ∀ a, R a a)
    (htrans : ∀ a b c, R a b → R b c → R a c) (f : List β → γ → List β)
    (hf : ∀ l c, List.Forall₂ R l (f l c)) (cs : List γ) (l : List β) :
    List.Forall₂ R l (cs.foldl f l) := by
  induction cs generalizing l with
  | nil => exact forall₂_refl hrefl l
  | cons c cs ih => exact forall₂_comp htrans (hf l c) (ih (f l c))

theorem kept_relax (sq : α → α) (target : Flt α) (a b : Nat) (ps : List (Particle (Flt α))) :
    List.Forall₂ Particle.Kept ps (relax sq target a b ps) := by
  unfold relax
  split
  · dsimp only
    split
    · exact forall₂_refl Particle.Kept.refl ps
    · exact forall₂_comp Particle.Kept.trans
        (forall₂_modify Particle.Kept.refl _ (kept_pull _ _ _) _ _)
        (forall₂_modify Particle.Kept.refl _ (kept_push _ _ _) _ _)
  · exact forall₂_refl Particle.Kept.refl ps

theorem kept_relaxAll (sq : α → α) (w h : Nat) (ps : List (Particle (Flt α))) :
    List.Forall₂ Particle.Kept ps (relaxAll sq w h ps) := by
  have hrows : ∀ (target : Flt α) (g : Nat → Nat → Nat × Nat) (n m : Nat)
      (l : List (Particle (Flt α))),
      List.Forall₂ Particle.Kept l ((List.range n).foldl (fun ps y =>
        (List.range m).foldl (fun ps x => relax sq target (g x y).1 (g x y).2 ps) ps) l) :=
    fun target g n m l => forall₂_foldl Particle.Kept.refl Particle.Kept.trans _
      (fun l y => forall₂_foldl Particle.Kept.refl Particle.Kept.trans _
        (fun l' x => kept_relax sq _ _ _ l') _ l) _ l
  unfold relaxAll
  dsimp only
  exact forall₂_comp Particle.Kept.trans
    (hrows _ (fun x y => (idx x y w, idx (x + 1) y w)) h (w - 1) ps)
    (hrows _ (fun x y => (idx x y w, idx x (y + 1) w)) (h - 1) w _)

theorem kept_iterate (sq : α → α) (w h n : Nat) (ps : List (Particle (Flt α))) :
    List.Forall₂ Particle.Kept ps (Nat.iterate (relaxAll sq w h) n ps) := by
  induction n generalizing ps with
  | zero => exact forall₂_refl Particle.Kept.refl ps
  | succ n ih =>
    rw [Function.iterate_succ_apply]
    exact forall₂_comp Particle.Kept.trans (kept_relaxAll sq w h ps) (ih _)

theorem kept_step (sq : α → α) (s : SilkSimulation (Flt α)) (dt : Flt α) :
    List.Forall₂ Particle.Kept s.m_particles (step sq s dt).m_particles := by
  unfold step
  split
  · exact forall₂_refl Particle.Kept.refl _
  · dsimp only
    exact forall₂_comp Particle.Kept.trans (forall₂_map _ (kept_integrate _) _)
      (kept_iterate sq _ _ _ _)

theorem kept_steps (sq : α → α) (dts : List (Flt α)) (s : SilkSimulation (Flt α)) :
    List.Forall₂ Particle.Kept s.m_particles (dts.foldl (step sq) s).m_particles := by
  induction dts generalizing s with
  | nil => exact forall₂_refl Particle.Kept.refl _
  | cons dt dts ih =>
    exact forall₂_comp Particle.Kept.trans (kept_step sq s dt) (ih (step sq s dt))

theorem initParticle_pinned (w h x y : Nat) (p : Particle (Flt α)) :
    (initParticle w h x y p).pinned = decide (y = 0) := rfl

/-- Rows of `initialize`: after the first `k` grid points of the row `y`, the first
`y * w + k` particles are pinned exactly when their index is below `w`. -/
theorem init_row (w h y : Nat) (k : Nat) (hk : k ≤ w) (ps : List (Particle (Flt α)))
    (hps : ∀ i p, i < y * w → ps[i]? = some p → p.pinned = decide (i < w)) :
    ∀ i p, i < y * w + k →
      ((List.range k).foldl (fun ps x =>
        List.modify (initParticle w h x y) (idx x y w) ps) ps)[i]? = some p →
      p.pinned = decide (i < w) := by
  induction k with
  | zero => simpa using hps
  | succ k ih =>
    intro i p hi hp
    rw [List.range_succ, List.foldl_append, List.foldl_cons, List.foldl_nil] at hp
    by_cases hik : i = y * w + k
    · subst hik
      unfold idx at hp
      rw [List.getElem?_modify_eq] at hp
      obtain ⟨q, -, rfl⟩ := Option.map_eq_some'.mp hp
      rw [initParticle_pinned]
      congr 1
      apply propext
      constructor
      · intro hy
        subst hy
        omega
      · intro hlt
        by_contra hy
        have : 1 * w ≤ y * w := Nat.mul_le_mul_right w (by omega)
        omega
    · unfold idx at hp
      rw [List.getElem?_modify_ne _ _ (Ne.symm hik)] at hp
      exact ih (by omega) i p (by omega) hp

theorem init_rows (w h : Nat) (m : Nat) (ps : List (Particle (Flt α))) :
    ∀ i p, i < m * w →
      ((List.range m).foldl (fun ps y => (List.range w).foldl (fun ps x =>
        List.modify (initParticle w h x y) (idx x y w) ps) ps) ps)[i]? = some p →
      p.pinned = decide (i < w) := by
  induction m with
  | zero =>
    intro i p hi
    omega
  | succ m ih =>
    intro i p hi hp
    rw [List.range_succ, List.foldl_append, List.foldl_cons, List.foldl_nil] at hp
    have hm : (m + 1) * w = m * w + w := by ring
    exact init_row w h m w le_rfl _ ih i p (by omega) hp

theorem foldl_modify_length {β γ : Type} (g : γ → β → β) (ix : γ → Nat) (l : List γ)
    (ps : List β) : (l.foldl (fun ps c => List.modify (g c) (ix c) ps) ps).length = ps.length := by
  induction l generalizing ps with
  | nil => rfl
  | cons c l ih => rw [List.foldl_cons, ih, List.length_modify]

theorem init_particles_length (s : SilkSimulation (Flt α)) :
    (init s).m_particles.length = s.m_width * s.m_height := by
  unfold init
  dsimp only
  have hrow : ∀ (y : Nat) (ps : List (Particle (Flt α))),
      ((List.range s.m_width).foldl (fun ps x =>
        List.modify (initParticle s.m_width s.m_height x y) (idx x y s.m_width) ps) ps).length
        = ps.length := fun y ps => foldl_modify_length _ _ _ ps
  have hrows : ∀ (m : Nat) (ps : List (Particle (Flt α))),
      ((List.range m).foldl (fun ps y => (List.range s.m_width).foldl (fun ps x =>
        List.modify (initParticle s.m_width s.m_height x y) (idx x y s.m_width) ps) ps) ps).length
        = ps.length := by
    intro m
    induction m with
    | zero => intro ps; rfl
    | succ m ih =>
      intro ps
      rw [List.range_succ, List.foldl_append, List.foldl_cons, List.foldl_nil, hrow, ih]
  rw [hrows, List.length_replicate]

/-- C18 (the second demo): after `initialize()` there are `m_width * m_height` particles and
the particle of the grid point `(x, y)` is pinned if and only if `y = 0`; for every `dt`,
`step(dt)` leaves every pinned particle pinned and with the same `pos`, and so does every
sequence of `step` calls; for a number `dt ≤ 0`, `step(dt)` leaves the whole state
unchanged. -/
theorem pin_invariant (sq : α → α) (s : SilkSimulation (Flt α)) :
    ((init s).m_particles.length = s.m_width * s.m_height ∧
      ∀ x y : Nat, x < s.m_width → y < s.m_height →
        ∃ p, (init s).m_particles[idx x y s.m_width]? = some p ∧ (p.pinned = true ↔ y = 0)) ∧
    (∀ (dt : Flt α) (i : Nat) (p : Particle (Flt α)), s.m_particles[i]? = some p →
      p.pinned = true →
      ∃ q, (step sq s dt).m_particles[i]? = some q ∧ q.pinned = true ∧ q.pos = p.pos) ∧
    (∀ (dts : List (Flt α)) (i : Nat) (p : Particle (Flt α)), s.m_particles[i]? = some p →
      p.pinned = true →
      ∃ q, (dts.foldl (step sq) s).m_particles[i]? = some q ∧ q.pinned = true ∧ q.pos = p.pos) ∧
    (∀ dt : α, dt ≤ 0 → step sq s (Flt.fin dt) = s) := by
  refine ⟨⟨init_particles_length s, ?_⟩, ?_, ?_, ?_⟩
  · intro x y hx hy
    have hlt : idx x y s.m_width < s.m_height * s.m_width := by
      unfold idx
      calc y * s.m_width + x < y * s.m_width + s.m_width := by omega
        _ = (y + 1) * s.m_width := by ring
        _ ≤ s.m_height * s.m_width := Nat.mul_le_mul_right _ hy
    have hlen : idx x y s.m_width < (init s).m_particles.length := by
      rw [init_particles_length, Nat.mul_comm]
      exact hlt
    refine ⟨(init s).m_particles[idx x y s.m_width], List.getElem?_eq_getElem hlen, ?_⟩
    have h := init_rows s.m_width s.m_height s.m_height
      (List.replicate (s.m_width * s.m_height) Particle.default) (idx x y s.m_width)
      ((init s).m_particles[idx x y s.m_width]) hlt (List.getElem?_eq_getElem hlen)
    rw [h]
    unfold idx
    simp only [decide_eq_true_eq]
    constructor
    · intro hlt'
      by_contra hy0
      have : 1 * s.m_width ≤ y * s.m_width := Nat.mul_le_mul_right _ (by omega)
      omega
    · intro hy0
      subst hy0
      omega
  · intro dt i p hi hp
    obtain ⟨q, hq, hk⟩ := forall₂_getElem? (kept_step sq s dt) i p hi
    exact ⟨q, hq, hk.1.trans hp, hk.2 hp⟩
  · intro dts i p hi hp
    obtain ⟨q, hq, hk⟩ := forall₂_getElem? (kept_steps sq dts s) i p hi
    exact ⟨q, hq, hk.1.trans hp, hk.2 hp⟩
  · intro dt hdt
    simp [step, hdt]

/-- Witness of C18: the 2 x 2 grid over the rationals; the particle 0 is pinned after
`initialize()`, and `step(0.01)` leaves it pinned and at its place. -/
theorem pin_invariant_witness :
    ∃ p q : Particle (Flt ℚ),
      (init (⟨2, 2, []⟩ : SilkSimulation (Flt ℚ))).m_particles[0]? = some p ∧ p.pinned = true ∧
      (step sqrtQ (init (⟨2, 2, []⟩ : SilkSimulation (Flt ℚ))) (Flt.fin (1 / 100))).m_particles[0]?
        = some q ∧ q.pinned = true ∧ q.pos = p.pos := by
  obtain ⟨p, hp, hpin⟩ := (pin_invariant sqrtQ (⟨2, 2, []⟩ : SilkSimulation (Flt ℚ))).1.2 0 0
    (by norm_num) (by norm_num)
  obtain ⟨q, hq, h₁, h₂⟩ := (pin_invariant sqrtQ (init (⟨2, 2, []⟩ : SilkSimulation (Flt ℚ)))).2.1
    (Flt.fin (1 / 100)) 0 p hp (hpin.mpr rfl)
  exact ⟨p, q, hp, hpin.mpr rfl, hq, h₁, h₂⟩

end SilkSimulation

/-! # Properties of the binary32 model -/

/-! ## Rounding to binary32 -/

namespace F32

theorem bitsAux_spec : ∀ (fuel n : Nat), n ≤ fuel → n ≠ 0 →
    2 ^ (bitsAux fuel n - 1) ≤ n ∧ n < 2 ^ bitsAux fuel n := by
  intro fuel
  induction fuel with
  | zero =>
    intro n hle hn
    omega
  | succ fuel ih =>
    intro n hle hn
    rw [bitsAux, if_neg hn]
    by_cases h2 : n / 2 = 0
    · have h1 : n = 1 := by omega
      subst h1
      have h0 : bitsAux fuel (1 / 2) = 0 := by
        cases fuel <;> simp [bitsAux]
      rw [h0]
      norm_num
    · obtain ⟨h₁, h₂⟩ := ih (n / 2) (by omega) h2
      have hb : 1 ≤ bitsAux fuel (n / 2) := by
        by_contra hb
        have hb0 : bitsAux fuel (n / 2) = 0 := by omega
        rw [hb0] at h₂
        simp at h₂
        omega
      have hpow : 2 ^ bitsAux fuel (n / 2) = 2 * 2 ^ (bitsAux fuel (n / 2) - 1) := by
        rw [← pow_succ']
        congr 1
        omega
      constructor
      · rw [Nat.add_sub_cancel, hpow]
        omega
      · rw [pow_succ]
        omega

theorem bits_spec (n : Nat) (hn : n ≠ 0) : 2 ^ (bits n - 1) ≤ n ∧ n < 2 ^ bits n :=
  bitsAux_spec n n le_rfl hn

theorem bits_pos (n : Nat) (hn : n ≠ 0) : 1 ≤ bits n := by
  by_contra h
  have h0 : bits n = 0 := by omega
  have := (bits_spec n hn).2
  rw [h0] at this
  simp at this
  exact hn this

theorem lt_two_pow_bits (n : Nat) : n < 2 ^ bits n := by
  by_cases hn : n = 0
  · subst hn
    exact Nat.one_le_two_pow
  · exact (bits_spec n hn).2

theorem isqrtAux_spec (n : Nat) : ∀ (b r : Nat), r * r ≤ n → n < (r + 2 ^ b) * (r + 2 ^ b) →
    isqrtAux n b r * isqrtAux n b r ≤ n ∧ n < (isqrtAux n b r + 1) * (isqrtAux n b r + 1) := by
  intro b
  induction b with
  | zero =>
    intro r h₁ h₂
    simpa [isqrtAux] using ⟨h₁, h₂⟩
  | succ b ih =>
    intro r h₁ h₂
    rw [isqrtAux]
    by_cases h : (r + 2 ^ b) * (r + 2 ^ b) ≤ n
    · rw [if_pos h]
      apply ih _ h
      have : r + 2 ^ b + 2 ^ b = r + 2 ^ (b + 1) := by rw [pow_succ]; omega
      rw [this]
      exact h₂
    · rw [if_neg h]
      exact ih _ h₁ (not_le.mp h)

/-- The integer square root `isqrt n` is the largest `r` with `r * r ≤ n`. -/
theorem isqrt_spec (n : Nat) : isqrt n * isqrt n ≤ n ∧ n < (isqrt n + 1) * (isqrt n + 1) := by
  apply isqrtAux_spec n (bits n) 0 (by simp)
  have h := lt_two_pow_bits n
  have h1 : 1 ≤ 2 ^ bits n := Nat.one_le_two_pow
  calc n < 2 ^ bits n := h
    _ = 2 ^ bits n * 1 := (Nat.mul_one _).symm
    _ ≤ 2 ^ bits n * 2 ^ bits n := Nat.mul_le_mul_left _ h1
    _ = (0 + 2 ^ bits n) * (0 + 2 ^ bits n) := by rw [Nat.zero_add]

/-- The integer square root `isqrt` is the function `Nat.sqrt` of the library. -/
theorem isqrt_eq_sqrt (n : Nat) : isqrt n = Nat.sqrt n := by
  obtain ⟨h₁, h₂⟩ := isqrt_spec n
  exact (Nat.eq_sqrt.mpr ⟨h₁, h₂⟩)

end F32
namespace F32

theorem round_spec (s : Bool) (n : Nat) (st : Bool) (e : Int) (hn : n ≠ 0) :
    ∃ (m : Nat) (e' : Int), round s n st e = pack s m e' ∧
      |(m : ℚ) * 2 ^ e' - (n : ℚ) * 2 ^ e| ≤ (n : ℚ) * 2 ^ e / 2 ^ 23 + 1 / 2 ^ 149 ∧
      (e' = -149 ∨ 2 ^ 23 ≤ m) := by
  obtain ⟨hL1, hL2⟩ := bits_spec n hn
  have hLpos := bits_pos n hn
  have hnq : (0 : ℚ) ≤ (n : ℚ) * 2 ^ e := by positivity
  have hbound0 : (0 : ℚ) ≤ (n : ℚ) * 2 ^ e / 2 ^ 23 + 1 / 2 ^ 149 := by positivity
  unfold round
  rw [if_neg hn]
  dsimp only
  by_cases hs : max ((bits n : Int) - 24) (-149 - e) ≤ 0
  · rw [if_pos hs]
    refine ⟨_, _, rfl, ?_, ?_⟩
    · have ht : (((-max ((bits n : Int) - 24) (-149 - e)).toNat : Nat) : Int) =
          -max ((bits n : Int) - 24) (-149 - e) := Int.toNat_of_nonneg (by omega)
      have h2 : (2 : ℚ) ^ e = 2 ^ (((-max ((bits n : Int) - 24) (-149 - e)).toNat : Nat) : Int) *
          2 ^ (e + max ((bits n : Int) - 24) (-149 - e)) := by
        rw [← zpow_add₀ (by norm_num : (2 : ℚ) ≠ 0), ht]
        congr 1
        omega
      rw [zpow_natCast] at h2
      have : ((n * 2 ^ (-max ((bits n : Int) - 24) (-149 - e)).toNat : Nat) : ℚ) *
          2 ^ (e + max ((bits n : Int) - 24) (-149 - e)) = (n : ℚ) * 2 ^ e := by
        rw [h2]
        push_cast
        ring
      rw [this, sub_self, abs_zero]
      exact hbound0
    · rcases max_cases ((bits n : Int) - 24) (-149 - e) with ⟨h₁, h₂⟩ | ⟨h₁, h₂⟩
      · right
        rw [h₁]
        have ht : (-((bits n : Int) - 24)).toNat = 24 - bits n := by omega
        rw [ht]
        calc 2 ^ 23 = 2 ^ (bits n - 1) * 2 ^ (24 - bits n) := by
              rw [← pow_add]
              congr 1
              omega
          _ ≤ n * 2 ^ (24 - bits n) := Nat.mul_le_mul_right _ hL1
      · left
        rw [h₁]
        ring
  · rw [if_neg hs]
    have hs' : 0 < max ((bits n : Int) - 24) (-149 - e) := not_le.mp hs
    generalize hsd : max ((bits n : Int) - 24) (-149 - e) = sh at hs hs'
    obtain ⟨k, rfl⟩ : ∃ k : Nat, sh = (k : Int) := ⟨sh.toNat, (Int.toNat_of_nonneg hs'.le).symm⟩
    rw [Int.toNat_natCast]
    have hk : 1 ≤ k := by omega
    generalize hup : (decide (2 ^ (k - 1) < n % 2 ^ k) ||
      (decide (n % 2 ^ k = 2 ^ (k - 1)) && (st || decide (n / 2 ^ k % 2 = 1)))) = up
    have hdiv := Nat.div_add_mod n (2 ^ k)
    have hmod : n % 2 ^ k < 2 ^ k := Nat.mod_lt _ (by positivity)
    generalize hq : n / 2 ^ k = q at hdiv
    generalize hr : n % 2 ^ k = r at hdiv hmod
    -- the rounded mantissa
    obtain ⟨q', hq', hq1, hq2⟩ : ∃ q' : Nat, (if up = true then q + 1 else q) = q' ∧
        q ≤ q' ∧ q' ≤ q + 1 := by
      cases up
      · exact ⟨q, by simp, le_rfl, by omega⟩
      · exact ⟨q + 1, by simp, by omega, le_rfl⟩
    rw [hq']
    have h2k : (2 : ℚ) ^ (e + (k : Int)) = 2 ^ k * 2 ^ e := by
      rw [zpow_add₀ (by norm_num : (2 : ℚ) ≠ 0), zpow_natCast]
      ring
    have hnq' : (n : ℚ) = 2 ^ k * q + r := by
      rw [← hdiv]
      push_cast
      ring
    have hval : |(q' : ℚ) * 2 ^ (e + (k : Int)) - (n : ℚ) * 2 ^ e| ≤ 2 ^ (e + (k : Int)) := by
      rw [h2k, hnq']
      have he : (0 : ℚ) < 2 ^ e := by positivity
      have hr0 : (0 : ℚ) ≤ r := by positivity
      have hr1 : (r : ℚ) < 2 ^ k := by exact_mod_cast hmod
      have hq1' : (q : ℚ) ≤ q' := by exact_mod_cast hq1
      have hq2' : (q' : ℚ) ≤ q + 1 := by exact_mod_cast hq2
      have hk0 : (0 : ℚ) < 2 ^ k := by positivity
      have : (q' : ℚ) * (2 ^ k * 2 ^ e) - (2 ^ k * q + r) * 2 ^ e =
          (((q' : ℚ) - q) * 2 ^ k - r) * 2 ^ e := by ring
      rw [this, abs_mul, abs_of_pos he]
      apply mul_le_mul_of_nonneg_right _ he.le
      rw [abs_le]
      constructor
      · nlinarith
      · nlinarith
    have hbnd : (2 : ℚ) ^ (e + (k : Int)) ≤ (n : ℚ) * 2 ^ e / 2 ^ 23 + 1 / 2 ^ 149 := by
      rcases max_cases ((bits n : Int) - 24) (-149 - e) with ⟨h₁, h₂⟩ | ⟨h₁, h₂⟩
      · have hkL : k + 23 = bits n - 1 := by omega
        have h1 : (2 : ℚ) ^ k * 2 ^ 23 ≤ n := by
          have : 2 ^ k * 2 ^ 23 ≤ n := by
            rw [← pow_add, hkL]
            exact hL1
          exact_mod_cast this
        have he : (0 : ℚ) < 2 ^ e := by positivity
        rw [h2k]
        have h3 : (2 : ℚ) ^ k * 2 ^ e ≤ (n : ℚ) * 2 ^ e / 2 ^ 23 := by
          rw [le_div_iff₀ (by positivity)]
          nlinarith
        have : (0 : ℚ) ≤ 1 / 2 ^ 149 := by positivity
        linarith
      · have hke : e + (k : Int) = -149 := by omega
        rw [hke]
        have : (2 : ℚ) ^ (-149 : Int) = 1 / 2 ^ 149 := by
          rw [zpow_neg, one_div]
          norm_cast
        rw [this]
        have : (0 : ℚ) ≤ (n : ℚ) * 2 ^ e / 2 ^ 23 := by positivity
        linarith
    have hnorm : e + (k : Int) = -149 ∨ 2 ^ 23 ≤ q := by
      rcases max_cases ((bits n : Int) - 24) (-149 - e) with ⟨h₁, h₂⟩ | ⟨h₁, h₂⟩
      · right
        have hkL : k + 23 = bits n - 1 := by omega
        rw [← hq, Nat.le_div_iff_mul_le (by positivity), ← pow_add, Nat.add_comm, hkL]
        exact hL1
      · left
        omega
    by_cases h24 : q' = 2 ^ 24
    · rw [if_pos h24]
      refine ⟨_, _, rfl, ?_, Or.inr le_rfl⟩
      have : ((2 ^ 23 : Nat) : ℚ) * 2 ^ (e + (k : Int) + 1) = (q' : ℚ) * 2 ^ (e + (k : Int)) := by
        rw [h24, zpow_add₀ (by norm_num : (2 : ℚ) ≠ 0)]
        push_cast
        ring
      rw [this]
      exact hval.trans hbnd
    · rw [if_neg h24]
      refine ⟨_, _, rfl, hval.trans hbnd, ?_⟩
      rcases hnorm with h | h
      · exact Or.inl h
      · exact Or.inr (h.trans hq1)

end F32
namespace F32

theorem isFin_fin (s : Bool) (m : Nat) (e : Int) : IsFin (fin s m e) := ⟨s, m, e, rfl⟩

theorem not_isFin_inf (s : Bool) : ¬ IsFin (inf s) := by
  rintro ⟨s', m, e, h⟩
  cases h

theorem not_isFin_nan : ¬ IsFin nan := by
  rintro ⟨s', m, e, h⟩
  cases h

theorem abs_sgn_mul (s : Bool) (x : ℚ) : |(if s then (-1 : ℚ) else 1) * x| = |x| := by
  cases s <;> simp

theorem two_zpow_le (a b : Int) (h : a ≤ b) : (2 : ℚ) ^ a ≤ 2 ^ b :=
  zpow_le_zpow_right₀ (by norm_num) h

/-- Rounding gives the infinity only from `2^127` on; below, it gives a finite number next
to the number that is rounded. -/
theorem round_near (s : Bool) (n : Nat) (st : Bool) (e : Int) (X : ℚ)
    (h₁ : (n : ℚ) * 2 ^ e ≤ X) (h₂ : X < ((n : ℚ) + 1) * 2 ^ e)
    (hst : st = false → X = (n : ℚ) * 2 ^ e) (hbig : st = true → 2 ^ 26 ≤ n) :
    (round s n st e = inf s ∧ 2 ^ 127 ≤ X) ∨
      Near ((if s then (-1 : ℚ) else 1) * X) (round s n st e) := by
  have he : (0 : ℚ) < 2 ^ e := by positivity
  by_cases hn : n = 0
  · subst hn
    have hst' : st = false := by
      cases st
      · rfl
      · have := hbig rfl
        norm_num at this
    have hX : X = 0 := by
      rw [hst hst']
      simp
    right
    refine ⟨⟨s, 0, -149, by simp [round]⟩, ?_⟩
    subst hX
    simp [round, val]
  · obtain ⟨m, e', hr, hb, hnorm⟩ := round_spec s n st e hn
    have hX0 : 0 ≤ X := le_trans (by positivity) h₁
    have hgap : X - (n : ℚ) * 2 ^ e ≤ (n : ℚ) * 2 ^ e / 2 ^ 26 := by
      cases st
      · rw [hst rfl, sub_self]
        positivity
      · have hn26 : (2 : ℚ) ^ 26 ≤ n := by exact_mod_cast hbig rfl
        rw [le_div_iff₀ (by positivity)]
        nlinarith
    have hclose : |(m : ℚ) * 2 ^ e' - X| ≤ X / 2 ^ 22 + 1 / 2 ^ 149 := by
      have h3 : |(m : ℚ) * 2 ^ e' - X| ≤
          |(m : ℚ) * 2 ^ e' - (n : ℚ) * 2 ^ e| + |(n : ℚ) * 2 ^ e - X| := by
        have : (m : ℚ) * 2 ^ e' - X =
            ((m : ℚ) * 2 ^ e' - (n : ℚ) * 2 ^ e) + ((n : ℚ) * 2 ^ e - X) := by ring
        rw [this]
        exact abs_add _ _
      have h4 : |(n : ℚ) * 2 ^ e - X| = X - (n : ℚ) * 2 ^ e := by
        rw [abs_sub_comm, abs_of_nonneg (by linarith)]
      have h5 : (n : ℚ) * 2 ^ e / 2 ^ 23 + (n : ℚ) * 2 ^ e / 2 ^ 26 ≤ X / 2 ^ 22 := by
        have : (0 : ℚ) ≤ (n : ℚ) * 2 ^ e := by positivity
        have h6 : (n : ℚ) * 2 ^ e / 2 ^ 23 + (n : ℚ) * 2 ^ e / 2 ^ 26 =
            (n : ℚ) * 2 ^ e * (9 / 2 ^ 26) := by ring
        have h7 : X / 2 ^ 22 = X * (16 / 2 ^ 26) := by ring
        rw [h6, h7]
        nlinarith
      linarith
    rw [hr]
    unfold pack
    by_cases he' : e' > 104
    · rw [if_pos he']
      left
      refine ⟨rfl, ?_⟩
      have hm : 2 ^ 23 ≤ m := by
        rcases hnorm with h | h
        · omega
        · exact h
      have hm' : (2 : ℚ) ^ 23 ≤ m := by exact_mod_cast hm
      have hpow : (2 : ℚ) ^ (105 : Int) ≤ 2 ^ e' := two_zpow_le _ _ (by omega)
      have h105 : (2 : ℚ) ^ (105 : Int) = 2 ^ 105 := by norm_cast
      rw [h105] at hpow
      have hbig' : (2 : ℚ) ^ 128 ≤ (m : ℚ) * 2 ^ e' := by
        have : (2 : ℚ) ^ 128 = 2 ^ 23 * 2 ^ 105 := by norm_num
        rw [this]
        exact mul_le_mul hm' hpow (by positivity) (by positivity)
      have h8 := (abs_le.mp hclose).2
      by_contra hlt
      have hlt' : X < 2 ^ 127 := not_le.mp hlt
      have h9 : X / 2 ^ 22 ≤ 2 ^ 127 / 2 ^ 22 := by
        apply div_le_div_of_nonneg_right hlt'.le (by positivity)
      norm_num at h8 h9 hbig' hlt'
      linarith
    · rw [if_neg he']
      right
      refine ⟨⟨s, m, e', rfl⟩, ?_⟩
      rw [abs_sgn_mul, abs_of_nonneg hX0]
      have : val (fin s m e') - (if s then (-1 : ℚ) else 1) * X =
          (if s then (-1 : ℚ) else 1) * ((m : ℚ) * 2 ^ e' - X) := by
        unfold val
        ring
      rw [this, abs_sgn_mul]
      exact hclose

end F32
namespace F32

theorem val_fin (s : Bool) (m : Nat) (e : Int) :
    val (fin s m e) = (if s then (-1 : ℚ) else 1) * (m : ℚ) * 2 ^ e := rfl

theorem val_zero (s : Bool) (e : Int) : val (fin s 0 e) = 0 := by simp [val]

theorem sgn_xor (s₁ s₂ : Bool) :
    (if xor s₁ s₂ then (-1 : ℚ) else 1) =
      (if s₁ then (-1 : ℚ) else 1) * (if s₂ then (-1 : ℚ) else 1) := by
  cases s₁ <;> cases s₂ <;> simp

theorem signed_cast (s : Bool) (m : Nat) :
    ((signed s m : Int) : ℚ) = (if s then (-1 : ℚ) else 1) * (m : ℚ) := by
  cases s <;> simp [signed]

theorem val_eq_scaled (s : Bool) (m : Nat) (e₁ e : Int) (h : e ≤ e₁) :
    val (fin s m e₁) = ((signed s (m * 2 ^ (e₁ - e).toNat) : Int) : ℚ) * 2 ^ e := by
  have ht : (((e₁ - e).toNat : Nat) : Int) = e₁ - e := Int.toNat_of_nonneg (by omega)
  have h2 : (2 : ℚ) ^ e₁ = 2 ^ (((e₁ - e).toNat : Nat) : Int) * 2 ^ e := by
    rw [← zpow_add₀ (by norm_num : (2 : ℚ) ≠ 0), ht]
    congr 1
    omega
  rw [zpow_natCast] at h2
  rw [signed_cast, val_fin, h2]
  push_cast
  ring

theorem val_aligned_fst (s₁ : Bool) (m₁ : Nat) (e₁ : Int) (s₂ : Bool) (m₂ : Nat) (e₂ : Int) :
    val (fin s₁ m₁ e₁) = (((aligned s₁ m₁ e₁ s₂ m₂ e₂).1 : Int) : ℚ) * 2 ^ (min e₁ e₂) :=
  val_eq_scaled s₁ m₁ e₁ _ (min_le_left _ _)

theorem val_aligned_snd (s₁ : Bool) (m₁ : Nat) (e₁ : Int) (s₂ : Bool) (m₂ : Nat) (e₂ : Int) :
    val (fin s₂ m₂ e₂) = (((aligned s₁ m₁ e₁ s₂ m₂ e₂).2 : Int) : ℚ) * 2 ^ (min e₁ e₂) :=
  val_eq_scaled s₂ m₂ e₂ _ (min_le_right _ _)

theorem near_exact (c : F32) (hc : IsFin c) : Near (val c) c := by
  refine ⟨hc, ?_⟩
  rw [sub_self, abs_zero]
  positivity

/-- The product of two finite floats is an infinity only when the product of the numbers is
`2^127` or more in magnitude; otherwise it is a finite float next to that product. -/
theorem mul_cases (a b : F32) (ha : IsFin a) (hb : IsFin b) :
    ((∃ s, a * b = inf s) ∧ 2 ^ 127 ≤ |val a * val b|) ∨ Near (val a * val b) (a * b) := by
  obtain ⟨s₁, m₁, e₁, rfl⟩ := ha
  obtain ⟨s₂, m₂, e₂, rfl⟩ := hb
  have hX : val (fin s₁ m₁ e₁) * val (fin s₂ m₂ e₂) =
      (if xor s₁ s₂ then (-1 : ℚ) else 1) * (((m₁ * m₂ : Nat) : ℚ) * 2 ^ (e₁ + e₂)) := by
    rw [val_fin, val_fin, sgn_xor, zpow_add₀ (by norm_num : (2 : ℚ) ≠ 0)]
    push_cast
    ring
  have hpos : (0 : ℚ) < 2 ^ (e₁ + e₂) := by positivity
  show ((∃ s, mul (fin s₁ m₁ e₁) (fin s₂ m₂ e₂) = inf s) ∧ _) ∨
    Near _ (mul (fin s₁ m₁ e₁) (fin s₂ m₂ e₂))
  rw [hX, abs_sgn_mul, abs_of_nonneg (by positivity)]
  unfold mul
  rcases round_near (xor s₁ s₂) (m₁ * m₂) false (e₁ + e₂) (((m₁ * m₂ : Nat) : ℚ) * 2 ^ (e₁ + e₂))
    le_rfl (by nlinarith) (fun _ => rfl) (fun h => by cases h) with ⟨h, h'⟩ | h
  · exact Or.inl ⟨⟨_, h⟩, h'⟩
  · exact Or.inr h

/-- The sum of two finite floats is an infinity only when the sum of the numbers is `2^127`
or more in magnitude; otherwise it is a finite float next to that sum. -/
theorem add_cases (a b : F32) (ha : IsFin a) (hb : IsFin b) :
    ((∃ s, a + b = inf s) ∧ 2 ^ 127 ≤ |val a + val b|) ∨ Near (val a + val b) (a + b) := by
  obtain ⟨s₁, m₁, e₁, rfl⟩ := ha
  obtain ⟨s₂, m₂, e₂, rfl⟩ := hb
  have h₁ := val_aligned_fst s₁ m₁ e₁ s₂ m₂ e₂
  have h₂ := val_aligned_snd s₁ m₁ e₁ s₂ m₂ e₂
  show ((∃ s, add (fin s₁ m₁ e₁) (fin s₂ m₂ e₂) = inf s) ∧ _) ∨
    Near _ (add (fin s₁ m₁ e₁) (fin s₂ m₂ e₂))
  unfold add
  dsimp only
  generalize (aligned s₁ m₁ e₁ s₂ m₂ e₂).1 = A at h₁
  generalize (aligned s₁ m₁ e₁ s₂ m₂ e₂).2 = B at h₂
  have hsum : val (fin s₁ m₁ e₁) + val (fin s₂ m₂ e₂) = ((A + B : Int) : ℚ) * 2 ^ (min e₁ e₂) := by
    rw [h₁, h₂]
    push_cast
    ring
  rw [hsum]
  by_cases hc : A + B = 0
  · rw [if_pos hc]
    right
    refine ⟨isFin_fin _ _ _, ?_⟩
    rw [hc, val_zero]
    simp
  · rw [if_neg hc]
    have hpos : (0 : ℚ) < 2 ^ (min e₁ e₂) := by positivity
    have habs : (((A + B).natAbs : Nat) : ℚ) = |((A + B : Int) : ℚ)| := by
      rw [Nat.cast_natAbs, Int.cast_abs]
    have hsgn : ((A + B : Int) : ℚ) =
        (if decide (A + B < 0) then (-1 : ℚ) else 1) * |((A + B : Int) : ℚ)| := by
      by_cases hneg : A + B < 0
      · have : ((A + B : Int) : ℚ) < 0 := by exact_mod_cast hneg
        rw [abs_of_neg this, decide_eq_true hneg, if_pos rfl]
        ring
      · have : (0 : ℚ) ≤ ((A + B : Int) : ℚ) := by exact_mod_cast not_lt.mp hneg
        rw [abs_of_nonneg this, decide_eq_false hneg]
        simp
    have hX : ((A + B : Int) : ℚ) * 2 ^ (min e₁ e₂) =
        (if decide (A + B < 0) then (-1 : ℚ) else 1) *
          ((((A + B).natAbs : Nat) : ℚ) * 2 ^ (min e₁ e₂)) := by
      rw [habs]
      conv_lhs => rw [hsgn]
      ring
    rw [hX, abs_sgn_mul, abs_of_nonneg (by positivity)]
    rcases round_near (decide (A + B < 0)) (A + B).natAbs false (min e₁ e₂)
      ((((A + B).natAbs : Nat) : ℚ) * 2 ^ (min e₁ e₂))
      le_rfl (by nlinarith) (fun _ => rfl) (fun h => by cases h) with ⟨h, h'⟩ | h
    · exact Or.inl ⟨⟨_, h⟩, h'⟩
    · exact Or.inr h

theorem isFin_neg (a : F32) (ha : IsFin a) : IsFin (neg a) := by
  obtain ⟨s, m, e, rfl⟩ := ha
  exact ⟨!s, m, e, rfl⟩

theorem val_neg (a : F32) : val (neg a) = -val a := by
  cases a with
  | fin s m e => cases s <;> simp [neg, val]
  | inf s => simp [neg, val]
  | nan => simp [neg, val]

/-- The difference of two finite floats is an infinity only when the difference of the
numbers is `2^127` or more in magnitude; otherwise it is a finite float next to that
difference. -/
theorem sub_cases (a b : F32) (ha : IsFin a) (hb : IsFin b) :
    ((∃ s, a - b = inf s) ∧ 2 ^ 127 ≤ |val a - val b|) ∨ Near (val a - val b) (a - b) := by
  have h := add_cases a (neg b) ha (isFin_neg b hb)
  rw [val_neg, ← sub_eq_add_neg] at h
  exact h

end F32
namespace F32

theorem val_ne_zero_iff (s : Bool) (m : Nat) (e : Int) : val (fin s m e) ≠ 0 ↔ m ≠ 0 := by
  rw [val_fin]
  have he : (2 : ℚ) ^ e ≠ 0 := by positivity
  cases s <;> simp [he]

/-- The quotient of two finite floats, the divisor not zero, is an infinity only when the
quotient of the numbers is `2^127` or more in magnitude; otherwise it is a finite float next
to that quotient. -/
theorem div_cases (a b : F32) (ha : IsFin a) (hb : IsFin b) (hb0 : val b ≠ 0) :
    ((∃ s, a / b = inf s) ∧ 2 ^ 127 ≤ |val a / val b|) ∨ Near (val a / val b) (a / b) := by
  obtain ⟨s₁, m₁, e₁, rfl⟩ := ha
  obtain ⟨s₂, m₂, e₂, rfl⟩ := hb
  have hm₂ : m₂ ≠ 0 := (val_ne_zero_iff s₂ m₂ e₂).mp hb0
  have hm₂' : (0 : ℚ) < m₂ := by exact_mod_cast Nat.pos_of_ne_zero hm₂
  show ((∃ s, div (fin s₁ m₁ e₁) (fin s₂ m₂ e₂) = inf s) ∧ _) ∨
    Near _ (div (fin s₁ m₁ e₁) (fin s₂ m₂ e₂))
  unfold div
  dsimp only
  rw [if_neg hm₂]
  generalize hk : bits m₂ + 27 = k
  have hE : (2 : ℚ) ^ (e₁ - e₂) = 2 ^ k * 2 ^ (e₁ - e₂ - (k : Int)) := by
    rw [← zpow_natCast, ← zpow_add₀ (by norm_num : (2 : ℚ) ≠ 0)]
    congr 1
    omega
  have hdiv := Nat.div_add_mod (m₁ * 2 ^ k) m₂
  have hmod : m₁ * 2 ^ k % m₂ < m₂ := Nat.mod_lt _ (Nat.pos_of_ne_zero hm₂)
  have hpos : (0 : ℚ) < 2 ^ (e₁ - e₂ - (k : Int)) := by positivity
  have hN : ((m₁ : ℚ) * 2 ^ k) = m₂ * ((m₁ * 2 ^ k / m₂ : Nat) : ℚ) + ((m₁ * 2 ^ k % m₂ : Nat) : ℚ) := by
    have := congrArg (fun n : Nat => (n : ℚ)) hdiv
    simp only [Nat.cast_add, Nat.cast_mul, Nat.cast_pow, Nat.cast_ofNat] at this
    rw [← this]
  have hX : val (fin s₁ m₁ e₁) / val (fin s₂ m₂ e₂) =
      (if xor s₁ s₂ then (-1 : ℚ) else 1) *
        ((m₁ : ℚ) * 2 ^ k / m₂ * 2 ^ (e₁ - e₂ - (k : Int))) := by
    rw [val_fin, val_fin, sgn_xor]
    have h1 : (2 : ℚ) ^ e₁ = 2 ^ (e₁ - e₂) * 2 ^ e₂ := by
      rw [← zpow_add₀ (by norm_num : (2 : ℚ) ≠ 0)]
      congr 1
      omega
    rw [h1, hE]
    have he₂ : (2 : ℚ) ^ e₂ ≠ 0 := by positivity
    cases s₁ <;> cases s₂ <;> field_simp <;> ring
  have hXnn : (0 : ℚ) ≤ (m₁ : ℚ) * 2 ^ k / m₂ * 2 ^ (e₁ - e₂ - (k : Int)) := by positivity
  rw [hX, abs_sgn_mul, abs_of_nonneg hXnn]
  have hr0 : (0 : ℚ) ≤ ((m₁ * 2 ^ k % m₂ : Nat) : ℚ) := by positivity
  have hr1 : ((m₁ * 2 ^ k % m₂ : Nat) : ℚ) < m₂ := by exact_mod_cast hmod
  rcases round_near (xor s₁ s₂) (m₁ * 2 ^ k / m₂) (decide (m₁ * 2 ^ k % m₂ ≠ 0))
    (e₁ - e₂ - (k : Int)) ((m₁ : ℚ) * 2 ^ k / m₂ * 2 ^ (e₁ - e₂ - (k : Int)))
    (by
      apply mul_le_mul_of_nonneg_right _ hpos.le
      rw [le_div_iff₀ hm₂', hN]
      nlinarith)
    (by
      apply mul_lt_mul_of_pos_right _ hpos
      rw [div_lt_iff₀ hm₂', hN]
      nlinarith)
    (by
      intro hst
      have h0 : m₁ * 2 ^ k % m₂ = 0 := by
        by_contra h
        simp [h] at hst
      congr 1
      rw [div_eq_iff hm₂'.ne', hN, h0]
      push_cast
      ring)
    (by
      intro hst
      have h0 : m₁ * 2 ^ k % m₂ ≠ 0 := by
        intro h
        simp [h] at hst
      have hm₁ : 1 ≤ m₁ := by
        rcases Nat.eq_zero_or_pos m₁ with h | h
        · subst h
          simp at h0
        · exact h
      rw [Nat.le_div_iff_mul_le (Nat.pos_of_ne_zero hm₂)]
      have hb := lt_two_pow_bits m₂
      calc 2 ^ 26 * m₂ ≤ 2 ^ 27 * 2 ^ bits m₂ := by
            have : 2 ^ 26 * m₂ ≤ 2 ^ 27 * m₂ := Nat.mul_le_mul_right _ (by norm_num)
            exact this.trans (Nat.mul_le_mul_left _ hb.le)
        _ = 2 ^ k := by rw [← hk, pow_add, Nat.mul_comm]
        _ ≤ m₁ * 2 ^ k := Nat.le_mul_of_pos_left _ hm₁) with ⟨h, h'⟩ | h
  · exact Or.inl ⟨⟨_, h⟩, h'⟩
  · exact Or.inr h

/-- Rounding gives a float of the sign that it is given. -/
theorem round_sign (s : Bool) (n : Nat) (st : Bool) (e : Int) :
    round s n st e = inf s ∨ ∃ m e', round s n st e = fin s m e' := by
  by_cases hn : n = 0
  · right
    exact ⟨0, -149, by simp [round, hn]⟩
  · obtain ⟨m, e', hr, -, -⟩ := round_spec s n st e hn
    rw [hr]
    unfold pack
    by_cases he' : e' > 104
    · left
      rw [if_pos he']
    · right
      exact ⟨m, e', by rw [if_neg he']⟩

/-- The square root of a positive finite float `y`: there is a number `R` with
`R^2 ≤ y < (R * (1 + 2^-26))^2` such that the result is a finite float next to `R`, or an
infinity when `R` is `2^127` or more; the result is not negative. -/
theorem sqrt_cases (m : Nat) (e : Int) (hm : m ≠ 0) :
    0 ≤ val (sqrt (fin false m e)) ∧
    ∃ R : ℚ, 0 < R ∧ R ^ 2 ≤ val (fin false m e) ∧
      val (fin false m e) < (R * (1 + 1 / 2 ^ 26)) ^ 2 ∧
      ((sqrt (fin false m e) = inf false ∧ 2 ^ 127 ≤ R) ∨ Near R (sqrt (fin false m e))) := by
  unfold sqrt
  dsimp only
  rw [if_neg hm]
  try simp only [Bool.false_eq_true, if_false]
  constructor
  · rcases round_sign false (isqrt (m * 2 ^ (54 + (e % 2).toNat)))
      (decide (isqrt (m * 2 ^ (54 + (e % 2).toNat)) * isqrt (m * 2 ^ (54 + (e % 2).toNat)) ≠
        m * 2 ^ (54 + (e % 2).toNat))) ((e - ((54 + (e % 2).toNat : Nat) : Int)) / 2) with h | ⟨m', e', h⟩
    · rw [h]
      simp [val]
    · rw [h, val_fin]
      try simp only [Bool.false_eq_true, if_false]
      positivity
  · generalize hk : 54 + (e % 2).toNat = k
    obtain ⟨hr₁, hr₂⟩ := isqrt_spec (m * 2 ^ k)
    generalize hr : isqrt (m * 2 ^ k) = r at hr₁ hr₂
    generalize hE : (e - (k : Int)) / 2 = E
    have hEe : e = (k : Int) + 2 * E := by omega
    have hk54 : 54 ≤ k := by omega
    have hEpos : (0 : ℚ) < 2 ^ E := by positivity
    have hY : val (fin false m e) = ((m * 2 ^ k : Nat) : ℚ) * (2 ^ E) ^ 2 := by
      rw [val_fin, hEe, zpow_add₀ (by norm_num : (2 : ℚ) ≠ 0), zpow_natCast, two_mul,
        zpow_add₀ (by norm_num : (2 : ℚ) ≠ 0)]
      push_cast
      try simp only [Bool.false_eq_true, if_false]
      ring
    have hx54 : 2 ^ 54 ≤ m * 2 ^ k := by
      calc 2 ^ 54 ≤ 2 ^ k := Nat.pow_le_pow_right (by norm_num) hk54
        _ ≤ m * 2 ^ k := Nat.le_mul_of_pos_left _ (Nat.pos_of_ne_zero hm)
    have hr27 : 2 ^ 27 ≤ r := by
      by_contra h
      have h' : r + 1 ≤ 2 ^ 27 := by omega
      have : (r + 1) * (r + 1) ≤ 2 ^ 27 * 2 ^ 27 := Nat.mul_le_mul h' h'
      have h54 : (2 : Nat) ^ 27 * 2 ^ 27 = 2 ^ 54 := by norm_num
      omega
    have hr27' : (2 : ℚ) ^ 27 ≤ r := by exact_mod_cast hr27
    have hr₁' : (r : ℚ) * r ≤ ((m * 2 ^ k : Nat) : ℚ) := by exact_mod_cast hr₁
    have hr₂' : ((m * 2 ^ k : Nat) : ℚ) < ((r : ℚ) + 1) * (r + 1) := by exact_mod_cast hr₂
    refine ⟨(r : ℚ) * 2 ^ E, by positivity, ?_, ?_, ?_⟩
    · rw [hY, mul_pow, pow_two (r : ℚ)]
      exact mul_le_mul_of_nonneg_right hr₁' (by positivity)
    · rw [hY]
      have h1 : ((r : ℚ) * 2 ^ E * (1 + 1 / 2 ^ 26)) ^ 2 =
          ((r : ℚ) * (1 + 1 / 2 ^ 26)) ^ 2 * (2 ^ E) ^ 2 := by ring
      rw [h1]
      apply mul_lt_mul_of_pos_right _ (by positivity)
      have h2 : (r : ℚ) + 1 ≤ (r : ℚ) * (1 + 1 / 2 ^ 26) := by
        have : (1 : ℚ) ≤ (r : ℚ) * (1 / 2 ^ 26) := by
          rw [mul_one_div, le_div_iff₀ (by positivity)]
          have : (2 : ℚ) ^ 26 ≤ 2 ^ 27 := by norm_num
          linarith
        linarith
      have h3 : ((r : ℚ) + 1) * (r + 1) ≤ ((r : ℚ) * (1 + 1 / 2 ^ 26)) ^ 2 := by
        rw [pow_two]
        exact mul_le_mul h2 h2 (by positivity) (by positivity)
      linarith
    · have h := round_near false r (decide (r * r ≠ m * 2 ^ k)) E ((r : ℚ) * 2 ^ E)
        le_rfl (by nlinarith) (fun _ => rfl)
        (fun _ => le_trans (by norm_num : 2 ^ 26 ≤ 2 ^ 27) hr27)
      simp only [Bool.false_eq_true, if_false, one_mul] at h
      exact h

theorem sqrt_zero (s : Bool) (e : Int) : sqrt (fin s 0 e) = fin s 0 (-149) := by
  simp [sqrt]

/-- Comparison of two finite floats is the comparison of the numbers. -/
theorem lt_iff (a b : F32) (ha : IsFin a) (hb : IsFin b) : lt a b = true ↔ val a < val b := by
  obtain ⟨s₁, m₁, e₁, rfl⟩ := ha
  obtain ⟨s₂, m₂, e₂, rfl⟩ := hb
  rw [val_aligned_fst s₁ m₁ e₁ s₂ m₂ e₂, val_aligned_snd s₁ m₁ e₁ s₂ m₂ e₂]
  have hpos : (0 : ℚ) < 2 ^ (min e₁ e₂) := by positivity
  unfold lt
  rw [decide_eq_true_iff, mul_lt_mul_right hpos]
  exact Int.cast_lt.symm

theorem gt_iff (a b : F32) (ha : IsFin a) (hb : IsFin b) : gt a b = true ↔ val b < val a :=
  lt_iff b a hb ha

theorem isFin_of_add (a b : F32) (h : IsFin (a + b)) : IsFin a ∧ IsFin b := by
  change IsFin (add a b) at h
  cases a with
  | fin s₁ m₁ e₁ =>
    cases b with
    | fin s₂ m₂ e₂ => exact ⟨isFin_fin _ _ _, isFin_fin _ _ _⟩
    | inf s₂ => exact absurd h (not_isFin_inf _)
    | nan => exact absurd h not_isFin_nan
  | inf s₁ =>
    cases b with
    | fin s₂ m₂ e₂ => exact absurd h (not_isFin_inf _)
    | inf s₂ =>
      unfold add at h
      dsimp only at h
      by_cases hs : s₁ = s₂
      · rw [if_pos hs] at h
        exact absurd h (not_isFin_inf _)
      · rw [if_neg hs] at h
        exact absurd h not_isFin_nan
    | nan => exact absurd h not_isFin_nan
  | nan =>
    cases b <;> exact absurd h not_isFin_nan

theorem isFin_of_mul (a b : F32) (h : IsFin (a * b)) : IsFin a ∧ IsFin b := by
  change IsFin (mul a b) at h
  cases a with
  | fin s₁ m₁ e₁ =>
    cases b with
    | fin s₂ m₂ e₂ => exact ⟨isFin_fin _ _ _, isFin_fin _ _ _⟩
    | inf s₂ =>
      unfold mul at h
      dsimp only at h
      by_cases hm : m₁ = 0
      · rw [if_pos hm] at h
        exact absurd h not_isFin_nan
      · rw [if_neg hm] at h
        exact absurd h (not_isFin_inf _)
    | nan => exact absurd h not_isFin_nan
  | inf s₁ =>
    cases b with
    | fin s₂ m₂ e₂ =>
      unfold mul at h
      dsimp only at h
      by_cases hm : m₂ = 0
      · rw [if_pos hm] at h
        exact absurd h not_isFin_nan
      · rw [if_neg hm] at h
        exact absurd h (not_isFin_inf _)
    | inf s₂ => exact absurd h (not_isFin_inf _)
    | nan => exact absurd h not_isFin_nan
  | nan =>
    cases b <;> exact absurd h not_isFin_nan

end F32

/-! ## Rounding errors of the scalar product and of the normalization -/

section analysis

set_option maxRecDepth 10000

/-- The rounding error of the sum of three rounded squares, as `glm::dot(v, v)` computes it. -/
theorem dot_bound (a b c A B C S D : ℚ) (ha : 0 ≤ a) (hb : 0 ≤ b) (hc : 0 ≤ c)
    (hA : |A - a| ≤ |a| / 2 ^ 22 + 1 / 2 ^ 149)
    (hB : |B - b| ≤ |b| / 2 ^ 22 + 1 / 2 ^ 149)
    (hC : |C - c| ≤ |c| / 2 ^ 22 + 1 / 2 ^ 149)
    (hS : |S - (A + B)| ≤ |A + B| / 2 ^ 22 + 1 / 2 ^ 149)
    (hD : |D - (S + C)| ≤ |S + C| / 2 ^ 22 + 1 / 2 ^ 149) :
    |D - (a + b + c)| ≤ (a + b + c) / 2 ^ 19 + 6 / 2 ^ 149 := by
  rw [abs_of_nonneg ha] at hA
  rw [abs_of_nonneg hb] at hB
  rw [abs_of_nonneg hc] at hC
  obtain ⟨hA1, hA2⟩ := abs_le.mp hA
  obtain ⟨hB1, hB2⟩ := abs_le.mp hB
  obtain ⟨hC1, hC2⟩ := abs_le.mp hC
  have hAB : |A + B| ≤ 2 * (a + b) + 2 / 2 ^ 149 := by
    rw [abs_le]
    constructor <;> linarith
  have hS' : |S - (A + B)| ≤ (2 * (a + b) + 2 / 2 ^ 149) / 2 ^ 22 + 1 / 2 ^ 149 := by
    linarith
  obtain ⟨hS1, hS2⟩ := abs_le.mp hS'
  have hSC : |S + C| ≤ 4 * (a + b + c) + 6 / 2 ^ 149 := by
    rw [abs_le]
    constructor <;> linarith
  have hD' : |D - (S + C)| ≤ (4 * (a + b + c) + 6 / 2 ^ 149) / 2 ^ 22 + 1 / 2 ^ 149 := by
    linarith
  obtain ⟨hD1, hD2⟩ := abs_le.mp hD'
  rw [abs_le]
  constructor <;> linarith

/-- The rounding errors of `sqrt` and of `1 / sqrt`: with `D` the exact and `Dv` the rounded
squared length, `R` next to the square root of `Dv`, `Vs` the rounded square root and `Vi`
the rounded inverse, the product `D * Vi^2` is next to 1. -/
theorem inverse_bound (D Dv R Vs Vi : ℚ) (hD0 : 0 ≤ D)
    (hDv : |Dv - D| ≤ D / 2 ^ 19 + 6 / 2 ^ 149)
    (hlo : 1 / 2 ^ 100 ≤ Dv) (hhi : Dv ≤ 2 ^ 100)
    (hR0 : 0 < R) (hR1 : R ^ 2 ≤ Dv) (hR2 : Dv < (R * (1 + 1 / 2 ^ 26)) ^ 2)
    (hVs : |Vs - R| ≤ |R| / 2 ^ 22 + 1 / 2 ^ 149) :
    0 < Vs ∧ |1 / Vs| < 2 ^ 127 ∧
    (|Vi - 1 / Vs| ≤ |1 / Vs| / 2 ^ 22 + 1 / 2 ^ 149 →
      0 < Vi ∧ 1 - 1 / 2 ^ 17 ≤ D * Vi ^ 2 ∧ D * Vi ^ 2 ≤ 1 + 1 / 2 ^ 17) := by
  -- the size of `R`
  have hR50 : R ≤ 2 ^ 50 := by
    by_contra h
    have h' : (2 : ℚ) ^ 50 < R := not_le.mp h
    have : (2 : ℚ) ^ 50 * 2 ^ 50 < R * R := mul_lt_mul'' h' h' (by positivity) (by positivity)
    have h100 : (2 : ℚ) ^ 50 * 2 ^ 50 = 2 ^ 100 := by norm_num
    nlinarith
  have hR51 : 1 / 2 ^ 51 ≤ R := by
    by_contra h
    have h' : R < 1 / 2 ^ 51 := not_le.mp h
    have ht : R * (1 + 1 / 2 ^ 26) < 1 / 2 ^ 50 := by
      have : R * (1 + 1 / 2 ^ 26) < 1 / 2 ^ 51 * (1 + 1 / 2 ^ 26) :=
        mul_lt_mul_of_pos_right h' (by norm_num)
      have h2 : (1 : ℚ) / 2 ^ 51 * (1 + 1 / 2 ^ 26) ≤ 1 / 2 ^ 50 := by norm_num
      linarith
    have ht0 : 0 < R * (1 + 1 / 2 ^ 26) := mul_pos hR0 (by norm_num)
    have : (R * (1 + 1 / 2 ^ 26)) ^ 2 < (1 / 2 ^ 50) ^ 2 := by
      rw [pow_two, pow_two]
      exact mul_lt_mul'' ht ht ht0.le ht0.le
    have h100 : ((1 : ℚ) / 2 ^ 50) ^ 2 = 1 / 2 ^ 100 := by norm_num
    linarith
  -- the rounded square root
  rw [abs_of_pos hR0] at hVs
  obtain ⟨hVs1, hVs2⟩ := abs_le.mp hVs
  have hη : (1 : ℚ) / 2 ^ 149 ≤ R / 2 ^ 22 := by
    have : (1 : ℚ) / 2 ^ 51 / 2 ^ 22 ≤ R / 2 ^ 22 :=
      div_le_div_of_nonneg_right hR51 (by positivity)
    have h2 : (1 : ℚ) / 2 ^ 149 ≤ 1 / 2 ^ 51 / 2 ^ 22 := by norm_num
    linarith
  have hVsl : R * (1 - 1 / 2 ^ 21) ≤ Vs := by linarith
  have hVsu : Vs ≤ R * (1 + 1 / 2 ^ 21) := by linarith
  have hVs0 : 0 < Vs := lt_of_lt_of_le (mul_pos hR0 (by norm_num)) hVsl
  have hq0 : 0 < 1 / Vs := one_div_pos.mpr hVs0
  have hqVs : 1 / Vs * Vs = 1 := by field_simp
  have hVs52 : 1 / 2 ^ 52 ≤ Vs := by
    have : (1 : ℚ) / 2 ^ 51 * (1 - 1 / 2 ^ 21) ≤ R * (1 - 1 / 2 ^ 21) :=
      mul_le_mul_of_nonneg_right hR51 (by norm_num)
    have h2 : (1 : ℚ) / 2 ^ 52 ≤ 1 / 2 ^ 51 * (1 - 1 / 2 ^ 21) := by norm_num
    linarith
  have hVs51 : Vs ≤ 2 ^ 51 := by
    have : R * (1 + 1 / 2 ^ 21) ≤ 2 ^ 50 * (1 + 1 / 2 ^ 21) :=
      mul_le_mul_of_nonneg_right hR50 (by norm_num)
    have h2 : (2 : ℚ) ^ 50 * (1 + 1 / 2 ^ 21) ≤ 2 ^ 51 := by norm_num
    linarith
  have hq52 : 1 / Vs ≤ 2 ^ 52 := by
    rw [div_le_iff₀ hVs0]
    have : (2 : ℚ) ^ 52 * (1 / 2 ^ 52) ≤ 2 ^ 52 * Vs := mul_le_mul_of_nonneg_left hVs52 (by positivity)
    have h2 : (2 : ℚ) ^ 52 * (1 / 2 ^ 52) = 1 := by norm_num
    linarith
  have hq51 : 1 / 2 ^ 51 ≤ 1 / Vs := by
    rw [le_div_iff₀ hVs0]
    have : 1 / 2 ^ 51 * Vs ≤ 1 / 2 ^ 51 * 2 ^ 51 := mul_le_mul_of_nonneg_left hVs51 (by positivity)
    have h2 : (1 : ℚ) / 2 ^ 51 * 2 ^ 51 = 1 := by norm_num
    linarith
  refine ⟨hVs0, ?_, ?_⟩
  · rw [abs_of_pos hq0]
    have : (2 : ℚ) ^ 52 < 2 ^ 127 := by norm_num
    linarith
  intro hVi
  rw [abs_of_pos hq0] at hVi
  obtain ⟨hVi1, hVi2⟩ := abs_le.mp hVi
  have hη' : (1 : ℚ) / 2 ^ 149 ≤ 1 / Vs / 2 ^ 22 := by
    have : (1 : ℚ) / 2 ^ 51 / 2 ^ 22 ≤ 1 / Vs / 2 ^ 22 :=
      div_le_div_of_nonneg_right hq51 (by positivity)
    have h2 : (1 : ℚ) / 2 ^ 149 ≤ 1 / 2 ^ 51 / 2 ^ 22 := by norm_num
    linarith
  -- the product `p = Vs * Vi` is next to 1
  have hpl : 1 - 1 / 2 ^ 21 ≤ Vs * Vi := by
    have h1 : 1 / Vs * (1 - 1 / 2 ^ 21) ≤ Vi := by linarith
    have h2 : Vs * (1 / Vs * (1 - 1 / 2 ^ 21)) ≤ Vs * Vi := mul_le_mul_of_nonneg_left h1 hVs0.le
    have h3 : Vs * (1 / Vs * (1 - 1 / 2 ^ 21)) = 1 - 1 / 2 ^ 21 := by
      rw [← mul_assoc, mul_comm Vs, hqVs, one_mul]
    linarith
  have hpu : Vs * Vi ≤ 1 + 1 / 2 ^ 21 := by
    have h1 : Vi ≤ 1 / Vs * (1 + 1 / 2 ^ 21) := by linarith
    have h2 : Vs * Vi ≤ Vs * (1 / Vs * (1 + 1 / 2 ^ 21)) := mul_le_mul_of_nonneg_left h1 hVs0.le
    have h3 : Vs * (1 / Vs * (1 + 1 / 2 ^ 21)) = 1 + 1 / 2 ^ 21 := by
      rw [← mul_assoc, mul_comm Vs, hqVs, one_mul]
    linarith
  have hVi0 : 0 < Vi := by
    have h1 : 1 / Vs * (1 - 1 / 2 ^ 21) ≤ Vi := by linarith
    have h2 : 0 < 1 / Vs * (1 - 1 / 2 ^ 21) := mul_pos hq0 (by norm_num)
    linarith
  have hp0 : 0 < Vs * Vi := mul_pos hVs0 hVi0
  -- the exact squared length against the rounded one
  obtain ⟨hDv1, hDv2⟩ := abs_le.mp hDv
  have hη6 : (6 : ℚ) / 2 ^ 149 ≤ Dv / 2 ^ 40 := by
    have : (1 : ℚ) / 2 ^ 100 / 2 ^ 40 ≤ Dv / 2 ^ 40 :=
      div_le_div_of_nonneg_right hlo (by positivity)
    have h2 : (6 : ℚ) / 2 ^ 149 ≤ 1 / 2 ^ 100 / 2 ^ 40 := by norm_num
    linarith
  have hDv0 : 0 < Dv := lt_of_lt_of_le (by norm_num) hlo
  have hDu : D ≤ Dv * (1 + 1 / 2 ^ 18) := by
    linarith
  have hDl : Dv * (1 - 1 / 2 ^ 18) ≤ D := by
    linarith
  have hR2' : Dv ≤ R ^ 2 * (1 + 1 / 2 ^ 26) ^ 2 := by
    rw [← mul_pow]
    exact hR2.le
  have hVsq_l : R ^ 2 * (1 - 1 / 2 ^ 21) ^ 2 ≤ Vs ^ 2 := by
    rw [← mul_pow]
    exact pow_le_pow_left₀ (by positivity) hVsl 2
  have hVsq_u : Vs ^ 2 ≤ R ^ 2 * (1 + 1 / 2 ^ 21) ^ 2 := by
    rw [← mul_pow]
    exact pow_le_pow_left₀ hVs0.le hVsu 2
  have hpsq_l : (1 - 1 / 2 ^ 21) ^ 2 ≤ (Vs * Vi) ^ 2 :=
    pow_le_pow_left₀ (by norm_num) hpl 2
  have hpsq_u : (Vs * Vi) ^ 2 ≤ (1 + 1 / 2 ^ 21) ^ 2 :=
    pow_le_pow_left₀ hp0.le hpu 2
  have hR2pos : 0 < R ^ 2 := by positivity
  have hVs2pos : 0 < Vs ^ 2 := by positivity
  have hkey : D * Vi ^ 2 * Vs ^ 2 = D * (Vs * Vi) ^ 2 := by ring
  refine ⟨hVi0, ?_, ?_⟩
  · -- lower bound
    have h1 : R ^ 2 * (1 - 1 / 2 ^ 18) ≤ D := by
      have : R ^ 2 * (1 - 1 / 2 ^ 18) ≤ Dv * (1 - 1 / 2 ^ 18) :=
        mul_le_mul_of_nonneg_right hR1 (by norm_num)
      linarith
    have h2 : R ^ 2 * (1 - 1 / 2 ^ 18) * (1 - 1 / 2 ^ 21) ^ 2 ≤ D * (Vs * Vi) ^ 2 :=
      mul_le_mul h1 hpsq_l (by norm_num) hD0
    have h3 : (1 - 1 / 2 ^ 17) * Vs ^ 2 ≤ (1 - 1 / 2 ^ 17) * (R ^ 2 * (1 + 1 / 2 ^ 21) ^ 2) :=
      mul_le_mul_of_nonneg_left hVsq_u (by norm_num)
    have h4 : (1 - 1 / 2 ^ 17) * (R ^ 2 * (1 + 1 / 2 ^ 21) ^ 2) ≤
        R ^ 2 * (1 - 1 / 2 ^ 18) * (1 - 1 / 2 ^ 21) ^ 2 := by
      have : ((1 : ℚ) - 1 / 2 ^ 17) * (1 + 1 / 2 ^ 21) ^ 2 ≤
          (1 - 1 / 2 ^ 18) * (1 - 1 / 2 ^ 21) ^ 2 := by norm_num
      have h' := mul_le_mul_of_nonneg_left this hR2pos.le
      calc (1 - 1 / 2 ^ 17) * (R ^ 2 * (1 + 1 / 2 ^ 21) ^ 2)
          = R ^ 2 * ((1 - 1 / 2 ^ 17) * (1 + 1 / 2 ^ 21) ^ 2) := by ring
        _ ≤ R ^ 2 * ((1 - 1 / 2 ^ 18) * (1 - 1 / 2 ^ 21) ^ 2) := h'
        _ = R ^ 2 * (1 - 1 / 2 ^ 18) * (1 - 1 / 2 ^ 21) ^ 2 := by ring
    have h5 : (1 - 1 / 2 ^ 17) * Vs ^ 2 ≤ D * Vi ^ 2 * Vs ^ 2 := by
      rw [hkey]
      exact (h3.trans h4).trans h2
    exact le_of_mul_le_mul_right h5 hVs2pos
  · -- upper bound
    have h1 : D ≤ R ^ 2 * (1 + 1 / 2 ^ 26) ^ 2 * (1 + 1 / 2 ^ 18) := by
      have : Dv * (1 + 1 / 2 ^ 18) ≤ R ^ 2 * (1 + 1 / 2 ^ 26) ^ 2 * (1 + 1 / 2 ^ 18) :=
        mul_le_mul_of_nonneg_right hR2' (by norm_num)
      linarith
    have h2 : D * (Vs * Vi) ^ 2 ≤
        R ^ 2 * (1 + 1 / 2 ^ 26) ^ 2 * (1 + 1 / 2 ^ 18) * (1 + 1 / 2 ^ 21) ^ 2 :=
      mul_le_mul h1 hpsq_u (by positivity) (by positivity)
    have h3 : (1 + 1 / 2 ^ 17) * (R ^ 2 * (1 - 1 / 2 ^ 21) ^ 2) ≤ (1 + 1 / 2 ^ 17) * Vs ^ 2 :=
      mul_le_mul_of_nonneg_left hVsq_l (by norm_num)
    have h4 : R ^ 2 * (1 + 1 / 2 ^ 26) ^ 2 * (1 + 1 / 2 ^ 18) * (1 + 1 / 2 ^ 21) ^ 2 ≤
        (1 + 1 / 2 ^ 17) * (R ^ 2 * (1 - 1 / 2 ^ 21) ^ 2) := by
      have : ((1 : ℚ) + 1 / 2 ^ 26) ^ 2 * (1 + 1 / 2 ^ 18) * (1 + 1 / 2 ^ 21) ^ 2 ≤
          (1 + 1 / 2 ^ 17) * (1 - 1 / 2 ^ 21) ^ 2 := by norm_num
      have h' := mul_le_mul_of_nonneg_left this hR2pos.le
      calc R ^ 2 * (1 + 1 / 2 ^ 26) ^ 2 * (1 + 1 / 2 ^ 18) * (1 + 1 / 2 ^ 21) ^ 2
          = R ^ 2 * ((1 + 1 / 2 ^ 26) ^ 2 * (1 + 1 / 2 ^ 18) * (1 + 1 / 2 ^ 21) ^ 2) := by ring
        _ ≤ R ^ 2 * ((1 + 1 / 2 ^ 17) * (1 - 1 / 2 ^ 21) ^ 2) := h'
        _ = (1 + 1 / 2 ^ 17) * (R ^ 2 * (1 - 1 / 2 ^ 21) ^ 2) := by ring
    have h5 : D * Vi ^ 2 * Vs ^ 2 ≤ (1 + 1 / 2 ^ 17) * Vs ^ 2 := by
      rw [hkey]
      exact (h2.trans h4).trans h3
    exact le_of_mul_le_mul_right h5 hVs2pos

end analysis

section analysis2

set_option maxRecDepth 10000

/-- The square of a number `n` next to `w`, for `|w| ≤ 16`. -/
theorem square_bound (w n η : ℚ) (hη0 : 0 ≤ η) (hη1 : η ≤ 1) (hw : |w| ≤ 16)
    (h : |n - w| ≤ |w| / 2 ^ 22 + η) : |n ^ 2 - w ^ 2| ≤ w ^ 2 / 2 ^ 20 + 34 * η := by
  have ht0 : 0 ≤ |w| := abs_nonneg w
  have hd0 : 0 ≤ |n - w| := abs_nonneg _
  have hsum : |n + w| ≤ |n - w| + 2 * |w| := by
    have : n + w = (n - w) + 2 * w := by ring
    rw [this]
    calc |n - w + 2 * w| ≤ |n - w| + |2 * w| := abs_add _ _
      _ = |n - w| + 2 * |w| := by rw [abs_mul, abs_two]
  have hfac : |n ^ 2 - w ^ 2| = |n - w| * |n + w| := by
    rw [← abs_mul]
    congr 1
    ring
  have hw2 : |w| * |w| = w ^ 2 := by rw [← abs_mul, ← pow_two, abs_of_nonneg (sq_nonneg w)]
  have he0 : 0 ≤ |w| / 2 ^ 22 + η := by positivity
  have h1 : |n - w| * |n + w| ≤ (|w| / 2 ^ 22 + η) * (|w| / 2 ^ 22 + η + 2 * |w|) :=
    mul_le_mul h (by linarith) (abs_nonneg _) he0
  have h2 : (|w| / 2 ^ 22 + η) * (|w| / 2 ^ 22 + η + 2 * |w|) =
      (|w| * |w|) * (1 / 2 ^ 44 + 2 / 2 ^ 22) + |w| * η * (2 / 2 ^ 22 + 2) + η * η := by ring
  have h3 : |w| * η ≤ 16 * η := mul_le_mul_of_nonneg_right hw hη0
  have h4 : η * η ≤ η := by
    have := mul_le_mul_of_nonneg_left hη1 hη0
    linarith
  have h5 : |w| * η * (2 / 2 ^ 22 + 2) ≤ 16 * η * (2 / 2 ^ 22 + 2) :=
    mul_le_mul_of_nonneg_right h3 (by norm_num)
  have h6 : (w ^ 2) * (1 / 2 ^ 44 + 2 / 2 ^ 22) ≤ w ^ 2 / 2 ^ 20 := by
    have : (w ^ 2) * (1 / 2 ^ 44 + 2 / 2 ^ 22) ≤ w ^ 2 * (1 / 2 ^ 20) :=
      mul_le_mul_of_nonneg_left (by norm_num) (sq_nonneg w)
    linarith
  rw [hfac]
  rw [h2, hw2] at h1
  linarith

/-- A number whose square is at most 256 is at most 16 in magnitude. -/
theorem abs_le_of_sq_le (w : ℚ) (h : w ^ 2 ≤ 256) : |w| ≤ 16 := by
  rw [abs_le]
  constructor <;> nlinarith

/-- The squares of three numbers `b` next to three numbers `a` add up to little more than
the squares of `a`. -/
theorem sum_sq_near (ax ay az bx b_y bz : ℚ) (hA : ax ^ 2 + ay ^ 2 + az ^ 2 ≤ 256)
    (hx : |bx - ax| ≤ |ax| / 2 ^ 22 + 1 / 2 ^ 149)
    (hy : |b_y - ay| ≤ |ay| / 2 ^ 22 + 1 / 2 ^ 149)
    (hz : |bz - az| ≤ |az| / 2 ^ 22 + 1 / 2 ^ 149) :
    |bx ^ 2 + b_y ^ 2 + bz ^ 2 - (ax ^ 2 + ay ^ 2 + az ^ 2)| ≤
      (ax ^ 2 + ay ^ 2 + az ^ 2) / 2 ^ 20 + 1 / 2 ^ 100 := by
  have hwx : |ax| ≤ 16 := abs_le_of_sq_le ax (by nlinarith [sq_nonneg ay, sq_nonneg az])
  have hwy : |ay| ≤ 16 := abs_le_of_sq_le ay (by nlinarith [sq_nonneg ax, sq_nonneg az])
  have hwz : |az| ≤ 16 := abs_le_of_sq_le az (by nlinarith [sq_nonneg ax, sq_nonneg ay])
  have hη0 : (0 : ℚ) ≤ 1 / 2 ^ 149 := by positivity
  have hη1 : (1 : ℚ) / 2 ^ 149 ≤ 1 := by norm_num
  have hη2 : (102 : ℚ) * (1 / 2 ^ 149) ≤ 1 / 2 ^ 100 := by norm_num
  generalize (1 : ℚ) / 2 ^ 149 = η at *
  generalize (1 : ℚ) / 2 ^ 100 = ζ at *
  obtain ⟨hx1, hx2⟩ := abs_le.mp (square_bound ax bx η hη0 hη1 hwx hx)
  obtain ⟨hy1, hy2⟩ := abs_le.mp (square_bound ay b_y η hη0 hη1 hwy hy)
  obtain ⟨hz1, hz2⟩ := abs_le.mp (square_bound az bz η hη0 hη1 hwz hz)
  rw [abs_le]
  constructor <;> linarith

/-- A number whose square is at most 2 is at most 2 in magnitude. -/
theorem abs_le_two_of_sq (w : ℚ) (h : w ^ 2 ≤ 2) : |w| ≤ 2 := by
  rw [abs_le]
  constructor <;> nlinarith

/-- The squared length of the rounded products `v * Vi`, when `D * Vi^2` is next to 1 for
the squared length `D` of `v`. -/
theorem unit_bound (vx vy vz Vi nx ny nz : ℚ)
    (hWl : 1 - 1 / 2 ^ 17 ≤ (vx * vx + vy * vy + vz * vz) * Vi ^ 2)
    (hWu : (vx * vx + vy * vy + vz * vz) * Vi ^ 2 ≤ 1 + 1 / 2 ^ 17)
    (hx : |nx - vx * Vi| ≤ |vx * Vi| / 2 ^ 22 + 1 / 2 ^ 149)
    (hy : |ny - vy * Vi| ≤ |vy * Vi| / 2 ^ 22 + 1 / 2 ^ 149)
    (hz : |nz - vz * Vi| ≤ |vz * Vi| / 2 ^ 22 + 1 / 2 ^ 149) :
    |nx ^ 2 + ny ^ 2 + nz ^ 2 - 1| ≤ 1 / 2 ^ 16 := by
  have hW : (vx * vx + vy * vy + vz * vz) * Vi ^ 2 =
      (vx * Vi) ^ 2 + (vy * Vi) ^ 2 + (vz * Vi) ^ 2 := by ring
  rw [hW] at hWl hWu
  have h2 : (1 : ℚ) + 1 / 2 ^ 17 ≤ 256 := by norm_num
  obtain ⟨h₁, h₂⟩ := abs_le.mp
    (sum_sq_near (vx * Vi) (vy * Vi) (vz * Vi) nx ny nz (hWu.trans h2) hx hy hz)
  have h100 : (1 : ℚ) / 2 ^ 100 ≤ 1 / 2 ^ 20 := by norm_num
  generalize (vx * Vi) ^ 2 + (vy * Vi) ^ 2 + (vz * Vi) ^ 2 = W at *
  generalize (1 : ℚ) / 2 ^ 100 = ζ at *
  rw [abs_le]
  constructor <;> linarith

/-- The squared distance that the last addition of `Particle::update` leaves between the new
and the old position: `P` is the old position, `e` the displacement and `r` the rounded
sum. -/
theorem step_bound (Px Py Pz ex ey ez rx ry rz : ℚ)
    (hPx : |Px| ≤ 2 ^ 16) (hPy : |Py| ≤ 2 ^ 16) (hPz : |Pz| ≤ 2 ^ 16)
    (he : ex ^ 2 + ey ^ 2 + ez ^ 2 ≤ 98)
    (hx : |rx - (Px + ex)| ≤ |Px + ex| / 2 ^ 22 + 1 / 2 ^ 149)
    (hy : |ry - (Py + ey)| ≤ |Py + ey| / 2 ^ 22 + 1 / 2 ^ 149)
    (hz : |rz - (Pz + ez)| ≤ |Pz + ez| / 2 ^ 22 + 1 / 2 ^ 149) :
    (rx - Px) ^ 2 + (ry - Py) ^ 2 + (rz - Pz) ^ 2 ≤ 995 / 10 := by
  have hη : (1 : ℚ) / 2 ^ 149 ≤ 1 / 2 ^ 22 := by norm_num
  generalize (1 : ℚ) / 2 ^ 149 = η at *
  have key : ∀ P e r : ℚ, |P| ≤ 2 ^ 16 → e ^ 2 ≤ 98 → |r - (P + e)| ≤ |P + e| / 2 ^ 22 + η →
      (r - P) ^ 2 ≤ e ^ 2 + 1 / 2 := by
    intro P e r hP he hr
    have he10 : |e| ≤ 10 := by
      rw [abs_le]
      constructor <;> nlinarith
    have hPe : |P + e| ≤ 2 ^ 16 + 10 := (abs_add _ _).trans (by linarith)
    have hθ : |r - (P + e)| ≤ 1 / 60 := by
      have : |P + e| / 2 ^ 22 ≤ (2 ^ 16 + 10) / 2 ^ 22 :=
        div_le_div_of_nonneg_right hPe (by positivity)
      have h2 : ((2 : ℚ) ^ 16 + 10) / 2 ^ 22 + 1 / 2 ^ 22 ≤ 1 / 60 := by norm_num
      linarith
    have : r - P = e + (r - (P + e)) := by ring
    rw [this]
    generalize r - (P + e) = θ at hθ
    have h1 : e * θ ≤ 10 * (1 / 60) := by
      calc e * θ ≤ |e * θ| := le_abs_self _
        _ = |e| * |θ| := abs_mul _ _
        _ ≤ 10 * (1 / 60) := mul_le_mul he10 hθ (abs_nonneg _) (by norm_num)
    have h2 : θ ^ 2 ≤ (1 / 60) ^ 2 := by
      rw [← sq_abs θ]
      exact pow_le_pow_left₀ (abs_nonneg _) hθ 2
    have h3 : (e + θ) ^ 2 = e ^ 2 + 2 * (e * θ) + θ ^ 2 := by ring
    rw [h3]
    norm_num at h1 h2
    linarith
  have hx' := key Px ex rx hPx (by nlinarith [sq_nonneg ey, sq_nonneg ez]) hx
  have hy' := key Py ey ry hPy (by nlinarith [sq_nonneg ex, sq_nonneg ez]) hy
  have hz' := key Pz ez rz hPz (by nlinarith [sq_nonneg ex, sq_nonneg ey]) hz
  linarith

end analysis2

namespace F32

set_option maxRecDepth 100000

theorem mul_near (a b : F32) (h : IsFin (a * b)) : Near (val a * val b) (a * b) := by
  obtain ⟨ha, hb⟩ := isFin_of_mul a b h
  rcases mul_cases a b ha hb with ⟨⟨s, hs⟩, -⟩ | h'
  · rw [hs] at h
    exact absurd h (not_isFin_inf s)
  · exact h'

theorem add_near (a b : F32) (h : IsFin (a + b)) : Near (val a + val b) (a + b) := by
  obtain ⟨ha, hb⟩ := isFin_of_add a b h
  rcases add_cases a b ha hb with ⟨⟨s, hs⟩, -⟩ | h'
  · rw [hs] at h
    exact absurd h (not_isFin_inf s)
  · exact h'

theorem mul_near_of_lt (a b : F32) (ha : IsFin a) (hb : IsFin b)
    (h : |val a * val b| < 2 ^ 127) : Near (val a * val b) (a * b) := by
  rcases mul_cases a b ha hb with ⟨-, h'⟩ | h'
  · exact absurd h (not_lt.mpr h')
  · exact h'

theorem add_near_of_lt (a b : F32) (ha : IsFin a) (hb : IsFin b)
    (h : |val a + val b| < 2 ^ 127) : Near (val a + val b) (a + b) := by
  rcases add_cases a b ha hb with ⟨-, h'⟩ | h'
  · exact absurd h (not_lt.mpr h')
  · exact h'

theorem sub_near_of_lt (a b : F32) (ha : IsFin a) (hb : IsFin b)
    (h : |val a - val b| < 2 ^ 127) : Near (val a - val b) (a - b) := by
  rcases sub_cases a b ha hb with ⟨-, h'⟩ | h'
  · exact absurd h (not_lt.mpr h')
  · exact h'

theorem div_near_of_lt (a b : F32) (ha : IsFin a) (hb : IsFin b) (hb0 : val b ≠ 0)
    (h : |val a / val b| < 2 ^ 127) : Near (val a / val b) (a / b) := by
  rcases div_cases a b ha hb hb0 with ⟨-, h'⟩ | h'
  · exact absurd h (not_lt.mpr h')
  · exact h'

/-- A finite float that stands for a positive number has the sign `false` and a mantissa
that is not zero. -/
theorem pos_fin (s : Bool) (m : Nat) (e : Int) (h : 0 < val (fin s m e)) :
    s = false ∧ m ≠ 0 := by
  rw [val_fin] at h
  have he : (0 : ℚ) < 2 ^ e := by positivity
  constructor
  · cases s
    · rfl
    · exfalso
      have : (-1 : ℚ) * (m : ℚ) * 2 ^ e ≤ 0 := by
        have hm : (0 : ℚ) ≤ (m : ℚ) := by positivity
        nlinarith [mul_nonneg hm he.le]
      simp only [if_true] at h
      linarith
  · rintro rfl
    simp at h

theorem lit_one : lit 1 1 = fin false 8388608 (-23) := by decide

theorem val_lit_one : val (lit 1 1) = 1 := by
  rw [lit_one, val_fin]
  norm_num [zpow_neg]

/-- A square is not negative: the product `a * a` of a finite float with itself, when it
is finite, stands for a number that is not negative. -/
theorem val_mul_self_nonneg (a : F32) : 0 ≤ val a * val a := mul_self_nonneg _

end F32

namespace Binary32

open F32

set_option maxRecDepth 100000

/-- The normalization in binary32: when the scalar product `dot(v, v)`, as the floats
compute it, is a finite number between `2^-100` and `2^100`, the vector `glm::normalize(v)`
has finite components, and the square of its length differs from 1 by at most `2^-16`. -/
theorem normalize_sqNorm (v : Vec3 F32) (hd : IsFin (Vec3.dot v v))
    (hlo : 1 / 2 ^ 100 ≤ val (Vec3.dot v v)) (hhi : val (Vec3.dot v v) ≤ 2 ^ 100) :
    IsFin (normalize v).x ∧ IsFin (normalize v).y ∧ IsFin (normalize v).z ∧
      |sqNorm (normalize v) - 1| ≤ 1 / 2 ^ 16 := by
  obtain ⟨x, y, z⟩ := v
  have hd' : IsFin (x * x + y * y + z * z) := hd
  obtain ⟨hS, hzz⟩ := isFin_of_add _ _ hd'
  obtain ⟨hxx, hyy⟩ := isFin_of_add _ _ hS
  have hx := (isFin_of_mul _ _ hxx).1
  have hy := (isFin_of_mul _ _ hyy).1
  have hz := (isFin_of_mul _ _ hzz).1
  have hDv := dot_bound (val x * val x) (val y * val y) (val z * val z)
    (val (x * x)) (val (y * y)) (val (z * z)) (val (x * x + y * y)) (val (x * x + y * y + z * z))
    (mul_self_nonneg _) (mul_self_nonneg _) (mul_self_nonneg _)
    (mul_near x x hxx).2 (mul_near y y hyy).2 (mul_near z z hzz).2
    (add_near _ _ hS).2 (add_near _ _ hd').2
  have hlo' : 1 / 2 ^ 100 ≤ val (x * x + y * y + z * z) := hlo
  have hhi' : val (x * x + y * y + z * z) ≤ 2 ^ 100 := hhi
  have hnorm : normalize (⟨x, y, z⟩ : Vec3 F32) =
      ⟨x * (lit 1 1 / F32.sqrt (x * x + y * y + z * z)),
        y * (lit 1 1 / F32.sqrt (x * x + y * y + z * z)),
        z * (lit 1 1 / F32.sqrt (x * x + y * y + z * z))⟩ := rfl
  rw [hnorm]
  generalize x * x + y * y + z * z = d at hd' hDv hlo' hhi'
  obtain ⟨sd, md, ed, rfl⟩ := hd'
  have hpos : 0 < val (fin sd md ed) := lt_of_lt_of_le (by norm_num) hlo'
  obtain ⟨rfl, hmd⟩ := pos_fin sd md ed hpos
  obtain ⟨-, R, hR0, hR1, hR2, hcase⟩ := sqrt_cases md ed hmd
  have hD0 : 0 ≤ val x * val x + val y * val y + val z * val z := by
    have := mul_self_nonneg (val x)
    have := mul_self_nonneg (val y)
    have := mul_self_nonneg (val z)
    linarith
  have hsq : Near R (F32.sqrt (fin false md ed)) := by
    rcases hcase with ⟨-, h127⟩ | h
    · exfalso
      have h1 : (2 : ℚ) ^ 127 * 2 ^ 127 ≤ R * R :=
        mul_le_mul h127 h127 (by positivity) hR0.le
      have h2 : (2 : ℚ) ^ 100 < 2 ^ 127 * 2 ^ 127 := by norm_num
      nlinarith
    · exact h
  obtain ⟨hs0, hq127, hrest⟩ := inverse_bound _ _ R (val (F32.sqrt (fin false md ed)))
    (val (lit 1 1 / F32.sqrt (fin false md ed))) hD0 hDv hlo' hhi' hR0 hR1 hR2 hsq.2
  have hinv : Near (val (lit 1 1) / val (F32.sqrt (fin false md ed)))
      (lit 1 1 / F32.sqrt (fin false md ed)) := by
    apply div_near_of_lt _ _ (by rw [lit_one]; exact isFin_fin _ _ _) hsq.1 hs0.ne'
    rw [val_lit_one]
    exact hq127
  rw [val_lit_one] at hinv
  obtain ⟨hi0, hWl, hWu⟩ := hrest hinv.2
  generalize lit 1 1 / F32.sqrt (fin false md ed) = i at hinv hi0 hWl hWu
  have hW2 : (val x * val x + val y * val y + val z * val z) * val i ^ 2 ≤ 2 := by
    have : (1 : ℚ) + 1 / 2 ^ 17 ≤ 2 := by norm_num
    linarith
  have hsmall : ∀ c : F32, val c * val c ≤ val x * val x + val y * val y + val z * val z →
      |val c * val i| < 2 ^ 127 := by
    intro c hc
    have h1 : (val c * val i) ^ 2 ≤ 2 := by
      have : (val c * val i) ^ 2 = val c * val c * val i ^ 2 := by ring
      rw [this]
      exact (mul_le_mul_of_nonneg_right hc (sq_nonneg _)).trans hW2
    have h2 := abs_le_two_of_sq _ h1
    have : (2 : ℚ) < 2 ^ 127 := by norm_num
    linarith
  have hnx := mul_near_of_lt x i hx hinv.1 (hsmall x (by
    have := mul_self_nonneg (val y)
    have := mul_self_nonneg (val z)
    linarith))
  have hny := mul_near_of_lt y i hy hinv.1 (hsmall y (by
    have := mul_self_nonneg (val x)
    have := mul_self_nonneg (val z)
    linarith))
  have hnz := mul_near_of_lt z i hz hinv.1 (hsmall z (by
    have := mul_self_nonneg (val x)
    have := mul_self_nonneg (val y)
    linarith))
  exact ⟨hnx.1, hny.1, hnz.1,
    unit_bound (val x) (val y) (val z) (val i) _ _ _ hWl hWu hnx.2 hny.2 hnz.2⟩

end Binary32

/-! ## The accumulated normals and tangents in binary32 -/

namespace Binary32

open F32

/-- What the triangle loop does to a particle for one triangle: it adds `n` to the normal
and `t` to the tangent, once for each corner of the triangle that is the particle `i`. -/
theorem accumulateTriangle_getElem? (i0 i1 i2 : Nat) (ps : List (Particle F32))
    (p1 p2 p3 : Particle F32) (h1 : ps[i0]? = some p1) (h2 : ps[i1]? = some p2)
    (h3 : ps[i2]? = some p3) (i : Nat) :
    (accumulateTriangle i0 i1 i2 ps)[i]? = ps[i]?.map fun q =>
      { q with
        normal := vsum q.normal (([i0, i1, i2].filter (fun j => j = i)).map fun _ =>
          Vec3.cross (p2.position - p1.position) (p3.position - p1.position))
        tangent := vsum q.tangent (([i0, i1, i2].filter (fun j => j = i)).map fun _ =>
          normalize (p2.position - p1.position)) } := by
  unfold accumulateTriangle
  rw [h1, h2, h3]
  simp only [List.getElem?_modify]
  cases hq : ps[i]? with
  | none => simp
  | some q =>
    by_cases e0 : i0 = i <;> by_cases e1 : i1 = i <;> by_cases e2 : i2 = i <;>
      simp [e0, e1, e2, vsum, addNormal, addTangent, List.filter]

theorem accumulateTriangle_position (i0 i1 i2 : Nat) (ps : List (Particle F32)) :
    (accumulateTriangle i0 i1 i2 ps).map (fun p => p.position) = ps.map (fun p => p.position) := by
  unfold accumulateTriangle
  split
  · apply List.ext_getElem?
    intro i
    simp only [List.getElem?_map, List.getElem?_modify]
    cases hq : ps[i]? with
    | none => simp
    | some q =>
      rename_i j0 j1 j2 _ _ _ _ _ _
      by_cases e0 : i0 = i <;> by_cases e1 : i1 = i <;> by_cases e2 : i2 = i <;>
        simp [e0, e1, e2, addNormal, addTangent]
  · rfl

theorem accumulateTriangle_skip (i0 i1 i2 : Nat) (ps : List (Particle F32))
    (h : faceNormal (ps.map (fun p => p.position)) (i0, i1, i2) = none) :
    accumulateTriangle i0 i1 i2 ps = ps := by
  unfold faceNormal at h
  unfold accumulateTriangle
  simp only [List.getElem?_map] at h
  cases h1 : ps[i0]? <;> cases h2 : ps[i1]? <;> cases h3 : ps[i2]? <;> simp_all

theorem faceTangent_none (pos : List (Vec3 F32)) (t : Nat × Nat × Nat)
    (h : faceNormal pos t = none) : faceTangent pos t = none := by
  unfold faceNormal at h
  unfold faceTangent
  cases h1 : pos[t.1]? <;> cases h2 : pos[t.2.1]? <;> cases h3 : pos[t.2.2]? <;> simp_all

theorem vsum_append (acc : Vec3 F32) (l₁ l₂ : List (Vec3 F32)) :
    vsum acc (l₁ ++ l₂) = vsum (vsum acc l₁) l₂ := by
  unfold vsum
  rw [List.foldl_append]

/-- The triangle loop of `recalculateNormals` adds to the normal of the particle `i` the
face normals of the triangles incident to `i`, and to its tangent their normalized first
edges, in the order of the index list; it leaves the other fields as they are. -/
theorem accumulate_getElem? (idx : List Nat) : ∀ (ps : List (Particle F32)) (i : Nat),
    (accumulate idx ps)[i]? = ps[i]?.map fun q =>
      { q with
        normal := vsum q.normal (incident (faceNormal (ps.map (fun p => p.position))) i idx)
        tangent := vsum q.tangent (incident (faceTangent (ps.map (fun p => p.position))) i idx) } := by
  induction idx using triangles.induct with
  | case1 i0 i1 i2 rest ih =>
    intro ps i
    rw [accumulate, ih, accumulateTriangle_position]
    have hinc : ∀ f : Nat × Nat × Nat → Option (Vec3 F32),
        incident f i (i0 :: i1 :: i2 :: rest) =
          (match f (i0, i1, i2) with
            | some v => ([i0, i1, i2].filter (fun j => j = i)).map (fun _ => v)
            | none => []) ++ incident f i rest := by
      intro f
      simp [incident, triangles]
    simp only [hinc, vsum_append]
    cases hf : faceNormal (ps.map (fun p => p.position)) (i0, i1, i2) with
    | none =>
      have hft := faceTangent_none _ _ hf
      rw [accumulateTriangle_skip i0 i1 i2 ps hf, hft]
      simp [vsum]
    | some v =>
      unfold faceNormal at hf
      simp only [List.getElem?_map] at hf
      cases h1 : ps[i0]? with
      | none => simp [h1] at hf
      | some p1 =>
        cases h2 : ps[i1]? with
        | none => simp [h1, h2] at hf
        | some p2 =>
          cases h3 : ps[i2]? with
          | none => simp [h1, h2, h3] at hf
          | some p3 =>
            simp only [h1, h2, h3, Option.map_some', Option.some.injEq] at hf
            have hft : faceTangent (ps.map (fun p => p.position)) (i0, i1, i2) =
                some (normalize (p2.position - p1.position)) := by
              simp [faceTangent, h1, h2, h3]
            rw [hft, accumulateTriangle_getElem? i0 i1 i2 ps p1 p2 p3 h1 h2 h3 i, ← hf]
            cases hq : ps[i]? with
            | none => simp
            | some q => simp
  | case2 idx h =>
    intro ps i
    have hacc : accumulate idx ps = ps := by
      unfold accumulate
      split
      · rename_i i0 i1 i2 rest
        exact absurd rfl (h i0 i1 i2 rest)
      · rfl
    have htri : triangles idx = [] := by
      unfold triangles
      split
      · rename_i i0 i1 i2 rest
        exact absurd rfl (h i0 i1 i2 rest)
      · rfl
    rw [hacc]
    cases hq : ps[i]? with
    | none => simp
    | some q => simp [incident, htri, vsum]

end Binary32

/-! ## The speed limit in binary32 -/

namespace F32

set_option maxRecDepth 100000

theorem mul_self_sign (a : F32) (h : IsFin (a * a)) : ∃ m e, a * a = fin false m e := by
  obtain ⟨ha, -⟩ := isFin_of_mul a a h
  obtain ⟨s, m, e, rfl⟩ := ha
  have hx : xor s s = false := by cases s <;> rfl
  have hdef : fin s m e * fin s m e = round (xor s s) (m * m) false (e + e) := rfl
  rw [hdef, hx] at h ⊢
  rcases round_sign false (m * m) false (e + e) with h' | h'
  · rw [h'] at h
    exact absurd h (not_isFin_inf _)
  · exact h'

theorem add_sign (m₁ : Nat) (e₁ : Int) (m₂ : Nat) (e₂ : Int)
    (h : IsFin (fin false m₁ e₁ + fin false m₂ e₂)) :
    ∃ m e, fin false m₁ e₁ + fin false m₂ e₂ = fin false m e := by
  change IsFin (add (fin false m₁ e₁) (fin false m₂ e₂)) at h
  change ∃ m e, add (fin false m₁ e₁) (fin false m₂ e₂) = fin false m e
  unfold add at h ⊢
  dsimp only at h ⊢
  have hA : 0 ≤ (aligned false m₁ e₁ false m₂ e₂).1 := by
    simp only [aligned, signed, Bool.false_eq_true, if_false]
    positivity
  have hB : 0 ≤ (aligned false m₁ e₁ false m₂ e₂).2 := by
    simp only [aligned, signed, Bool.false_eq_true, if_false]
    positivity
  generalize (aligned false m₁ e₁ false m₂ e₂).1 = A at *
  generalize (aligned false m₁ e₁ false m₂ e₂).2 = B at *
  by_cases hc : A + B = 0
  · rw [if_pos hc]
    exact ⟨0, -149, rfl⟩
  · rw [if_neg hc] at h ⊢
    have hneg : decide (A + B < 0) = false := decide_eq_false (by omega)
    rw [hneg] at h ⊢
    rcases round_sign false (A + B).natAbs false (min e₁ e₂) with h' | h'
    · rw [h'] at h
      exact absurd h (not_isFin_inf _)
    · exact h'

theorem zero_mul_fin (s₀ : Bool) (e₀ : Int) (b : F32) (hb : IsFin b) :
    ∃ s, fin s₀ 0 e₀ * b = fin s 0 (-149) := by
  obtain ⟨s, m, e, rfl⟩ := hb
  refine ⟨xor s₀ s, ?_⟩
  show mul (fin s₀ 0 e₀) (fin s m e) = _
  simp [mul, round]

theorem lit_ten : lit 10 1 = fin false 10485760 (-20) := by decide

theorem val_lit_ten : val (lit 10 1) = 10 := by
  rw [lit_ten, val_fin]
  norm_num [zpow_neg]

theorem lit_damping : lit 98 100 = fin false 16441672 (-24) := by decide

theorem val_lit_damping : val (lit 98 100) = 16441672 / 16777216 := by
  rw [lit_damping, val_fin]
  norm_num [zpow_neg]

theorem near_abs_le (x : ℚ) (c : F32) (h : Near x c) (b : ℚ) (hx : |x| ≤ b) :
    |val c| ≤ b + b / 2 ^ 22 + 1 / 2 ^ 149 := by
  have h1 : |val c| ≤ |val c - x| + |x| := by
    have : val c = (val c - x) + x := by ring
    conv_lhs => rw [this]
    exact abs_add _ _
  have h2 : |x| / 2 ^ 22 ≤ b / 2 ^ 22 := div_le_div_of_nonneg_right hx (by positivity)
  have := h.2
  linarith

end F32

namespace Binary32

open F32

set_option maxRecDepth 100000

theorem sqNorm_nonneg (v : Vec3 F32) : 0 ≤ sqNorm v := by
  unfold sqNorm
  positivity

theorem abs_le_of_sqNorm (v : Vec3 F32) (b : ℚ) (hb : 0 ≤ b) (h : sqNorm v ≤ b ^ 2) :
    |val v.x| ≤ b ∧ |val v.y| ≤ b ∧ |val v.z| ≤ b := by
  unfold sqNorm at h
  have hx := sq_nonneg (val v.x)
  have hy := sq_nonneg (val v.y)
  have hz := sq_nonneg (val v.z)
  refine ⟨abs_le_of_sq_le_sq' ?_ hb |> abs_le.mpr, abs_le_of_sq_le_sq' ?_ hb |> abs_le.mpr,
    abs_le_of_sq_le_sq' ?_ hb |> abs_le.mpr⟩ <;> linarith

/-- A vector of finite floats times a finite float `k`, when the product is of length at
most 16: the components are finite, and the squared length is next to `k^2` times the
squared length of the vector. -/
theorem smul_sqNorm (v : Vec3 F32) (k : F32) (hv : Fin3 v) (hk : IsFin k)
    (h : val k ^ 2 * sqNorm v ≤ 256) :
    Fin3 (v * k) ∧
      |sqNorm (v * k) - val k ^ 2 * sqNorm v| ≤ val k ^ 2 * sqNorm v / 2 ^ 20 + 1 / 2 ^ 100 := by
  obtain ⟨x, y, z⟩ := v
  obtain ⟨hx, hy, hz⟩ := hv
  have hexp : val k ^ 2 * sqNorm (⟨x, y, z⟩ : Vec3 F32) =
      (val x * val k) ^ 2 + (val y * val k) ^ 2 + (val z * val k) ^ 2 := by
    unfold sqNorm
    ring
  rw [hexp] at h ⊢
  have hlt : ∀ c : ℚ, c ^ 2 ≤ 256 → |c| < 2 ^ 127 := by
    intro c hc
    have := abs_le_of_sq_le c hc
    have h2 : (16 : ℚ) < 2 ^ 127 := by norm_num
    linarith
  have hnx := mul_near_of_lt x k hx hk (hlt _ (by
    nlinarith [sq_nonneg (val y * val k), sq_nonneg (val z * val k)]))
  have hny := mul_near_of_lt y k hy hk (hlt _ (by
    nlinarith [sq_nonneg (val x * val k), sq_nonneg (val z * val k)]))
  have hnz := mul_near_of_lt z k hz hk (hlt _ (by
    nlinarith [sq_nonneg (val x * val k), sq_nonneg (val y * val k)]))
  exact ⟨⟨hnx.1, hny.1, hnz.1⟩, sum_sq_near _ _ _ _ _ _ h hnx.2 hny.2 hnz.2⟩

/-- A vector of finite floats of length at most 16 plus a vector of zeros. -/
theorem add_zero_sqNorm (u t : Vec3 F32) (hu : Fin3 u) (ht : Fin3 t)
    (htx : val t.x = 0) (hty : val t.y = 0) (htz : val t.z = 0) (h : sqNorm u ≤ 256) :
    Fin3 (u + t) ∧ |sqNorm (u + t) - sqNorm u| ≤ sqNorm u / 2 ^ 20 + 1 / 2 ^ 100 := by
  obtain ⟨x, y, z⟩ := u
  obtain ⟨tx, ty, tz⟩ := t
  obtain ⟨hx, hy, hz⟩ := hu
  obtain ⟨hx', hy', hz'⟩ := ht
  simp only at htx hty htz
  have hlt : ∀ c : ℚ, c ^ 2 ≤ 256 → |c + 0| < 2 ^ 127 := by
    intro c hc
    have := abs_le_of_sq_le c hc
    have h2 : (16 : ℚ) < 2 ^ 127 := by norm_num
    rw [add_zero]
    linarith
  unfold sqNorm at h
  simp only at h
  have hnx := add_near_of_lt x tx hx hx' (by
    rw [htx]
    exact hlt _ (by nlinarith [sq_nonneg (val y), sq_nonneg (val z)]))
  have hny := add_near_of_lt y ty hy hy' (by
    rw [hty]
    exact hlt _ (by nlinarith [sq_nonneg (val x), sq_nonneg (val z)]))
  have hnz := add_near_of_lt z tz hz hz' (by
    rw [htz]
    exact hlt _ (by nlinarith [sq_nonneg (val x), sq_nonneg (val y)]))
  rw [htx, add_zero] at hnx
  rw [hty, add_zero] at hny
  rw [htz, add_zero] at hnz
  exact ⟨⟨hnx.1, hny.1, hnz.1⟩, sum_sq_near _ _ _ _ _ _ h hnx.2 hny.2 hnz.2⟩

end Binary32

namespace Binary32

open F32

set_option maxRecDepth 100000

/-- The scalar product `dot(v, v)` of a vector of finite floats of magnitude at most `2^18`:
it is a finite float that is not negative, next to the squared length of the vector. -/
theorem dot_self_fin (v : Vec3 F32) (hv : Bounded (2 ^ 18) v) :
    (∃ m e, Vec3.dot v v = fin false m e) ∧
      |val (Vec3.dot v v) - sqNorm v| ≤ sqNorm v / 2 ^ 19 + 6 / 2 ^ 149 := by
  obtain ⟨x, y, z⟩ := v
  obtain ⟨⟨hx, hy, hz⟩, hbx, hby, hbz⟩ := hv
  simp only at hx hy hz hbx hby hbz
  have hsq : ∀ c : ℚ, |c| ≤ 2 ^ 18 → |c * c| ≤ 2 ^ 36 := by
    intro c hc
    rw [abs_mul]
    calc |c| * |c| ≤ 2 ^ 18 * 2 ^ 18 := mul_le_mul hc hc (abs_nonneg _) (by positivity)
      _ = 2 ^ 36 := by norm_num
  have h127 : ∀ c : ℚ, |c| ≤ 2 ^ 40 → |c| < 2 ^ 127 := by
    intro c hc
    have : (2 : ℚ) ^ 40 < 2 ^ 127 := by norm_num
    linarith
  have h36 : (2 : ℚ) ^ 36 ≤ 2 ^ 40 := by norm_num
  have hxx := mul_near_of_lt x x hx hx (h127 _ ((hsq _ hbx).trans h36))
  have hyy := mul_near_of_lt y y hy hy (h127 _ ((hsq _ hby).trans h36))
  have hzz := mul_near_of_lt z z hz hz (h127 _ ((hsq _ hbz).trans h36))
  have hη : (1 : ℚ) / 2 ^ 149 ≤ 1 := by norm_num
  have bxx := near_abs_le _ _ hxx _ (hsq _ hbx)
  have byy := near_abs_le _ _ hyy _ (hsq _ hby)
  have bzz := near_abs_le _ _ hzz _ (hsq _ hbz)
  have b37 : (2 : ℚ) ^ 36 + 2 ^ 36 / 2 ^ 22 + 1 ≤ 2 ^ 37 := by norm_num
  have hS := add_near_of_lt (x * x) (y * y) hxx.1 hyy.1 (h127 _ (by
    have := abs_add (val (x * x)) (val (y * y))
    have : (2 : ℚ) ^ 37 + 2 ^ 37 ≤ 2 ^ 40 := by norm_num
    linarith))
  have bS := near_abs_le _ _ hS (2 ^ 38) (by
    have := abs_add (val (x * x)) (val (y * y))
    have : (2 : ℚ) ^ 37 + 2 ^ 37 = 2 ^ 38 := by norm_num
    linarith)
  have b39 : (2 : ℚ) ^ 38 + 2 ^ 38 / 2 ^ 22 + 1 ≤ 2 ^ 39 := by norm_num
  have hd := add_near_of_lt (x * x + y * y) (z * z) hS.1 hzz.1 (h127 _ (by
    have := abs_add (val (x * x + y * y)) (val (z * z))
    have : (2 : ℚ) ^ 39 + 2 ^ 37 ≤ 2 ^ 40 := by norm_num
    linarith))
  constructor
  · obtain ⟨m₁, e₁, h₁⟩ := mul_self_sign x hxx.1
    obtain ⟨m₂, e₂, h₂⟩ := mul_self_sign y hyy.1
    obtain ⟨m₃, e₃, h₃⟩ := mul_self_sign z hzz.1
    have hS1 := hS.1
    have hd1 := hd.1
    show ∃ m e, x * x + y * y + z * z = fin false m e
    rw [h₁, h₂] at hS1 hd1 ⊢
    obtain ⟨m₄, e₄, h₄⟩ := add_sign m₁ e₁ m₂ e₂ hS1
    rw [h₄, h₃] at hd1 ⊢
    exact add_sign m₄ e₄ m₃ e₃ hd1
  · have := dot_bound (val x * val x) (val y * val y) (val z * val z)
      (val (x * x)) (val (y * y)) (val (z * z)) (val (x * x + y * y)) (val (x * x + y * y + z * z))
      (mul_self_nonneg _) (mul_self_nonneg _) (mul_self_nonneg _)
      hxx.2 hyy.2 hzz.2 hS.2 hd.2
    have hs : sqNorm (⟨x, y, z⟩ : Vec3 F32) = val x * val x + val y * val y + val z * val z := by
      unfold sqNorm
      ring
    rw [hs]
    exact this

/-- The scalar product `dot(v, v)` of a vector of finite floats of magnitude at most `2^50`:
it is a finite float that is not negative, next to the squared length of the vector. -/
theorem dot_self_wide (v : Vec3 F32) (hv : Bounded (2 ^ 50) v) :
    (∃ m e, Vec3.dot v v = fin false m e) ∧
      |val (Vec3.dot v v) - sqNorm v| ≤ sqNorm v / 2 ^ 19 + 6 / 2 ^ 149 := by
  obtain ⟨x, y, z⟩ := v
  obtain ⟨⟨hx, hy, hz⟩, hbx, hby, hbz⟩ := hv
  simp only at hx hy hz hbx hby hbz
  have hsq : ∀ c : ℚ, |c| ≤ 2 ^ 50 → |c * c| ≤ 2 ^ 100 := by
    intro c hc
    rw [abs_mul]
    calc |c| * |c| ≤ 2 ^ 50 * 2 ^ 50 := mul_le_mul hc hc (abs_nonneg _) (by positivity)
      _ = 2 ^ 100 := by norm_num
  have h127 : ∀ c : ℚ, |c| ≤ 2 ^ 104 → |c| < 2 ^ 127 := by
    intro c hc
    have : (2 : ℚ) ^ 104 < 2 ^ 127 := by norm_num
    linarith
  have h36 : (2 : ℚ) ^ 100 ≤ 2 ^ 104 := by norm_num
  have hxx := mul_near_of_lt x x hx hx (h127 _ ((hsq _ hbx).trans h36))
  have hyy := mul_near_of_lt y y hy hy (h127 _ ((hsq _ hby).trans h36))
  have hzz := mul_near_of_lt z z hz hz (h127 _ ((hsq _ hbz).trans h36))
  have hη : (1 : ℚ) / 2 ^ 149 ≤ 1 := by norm_num
  have bxx := near_abs_le _ _ hxx _ (hsq _ hbx)
  have byy := near_abs_le _ _ hyy _ (hsq _ hby)
  have bzz := near_abs_le _ _ hzz _ (hsq _ hbz)
  have b37 : (2 : ℚ) ^ 100 + 2 ^ 100 / 2 ^ 22 + 1 ≤ 2 ^ 101 := by norm_num
  have hS := add_near_of_lt (x * x) (y * y) hxx.1 hyy.1 (h127 _ (by
    have := abs_add (val (x * x)) (val (y * y))
    have : (2 : ℚ) ^ 101 + 2 ^ 101 ≤ 2 ^ 104 := by norm_num
    linarith))
  have bS := near_abs_le _ _ hS (2 ^ 102) (by
    have := abs_add (val (x * x)) (val (y * y))
    have : (2 : ℚ) ^ 101 + 2 ^ 101 = 2 ^ 102 := by norm_num
    linarith)
  have b39 : (2 : ℚ) ^ 102 + 2 ^ 102 / 2 ^ 22 + 1 ≤ 2 ^ 103 := by norm_num
  have hd := add_near_of_lt (x * x + y * y) (z * z) hS.1 hzz.1 (h127 _ (by
    have := abs_add (val (x * x + y * y)) (val (z * z))
    have : (2 : ℚ) ^ 103 + 2 ^ 101 ≤ 2 ^ 104 := by norm_num
    linarith))
  constructor
  · obtain ⟨m₁, e₁, h₁⟩ := mul_self_sign x hxx.1
    obtain ⟨m₂, e₂, h₂⟩ := mul_self_sign y hyy.1
    obtain ⟨m₃, e₃, h₃⟩ := mul_self_sign z hzz.1
    have hS1 := hS.1
    have hd1 := hd.1
    show ∃ m e, x * x + y * y + z * z = fin false m e
    rw [h₁, h₂] at hS1 hd1 ⊢
    obtain ⟨m₄, e₄, h₄⟩ := add_sign m₁ e₁ m₂ e₂ hS1
    rw [h₄, h₃] at hd1 ⊢
    exact add_sign m₄ e₄ m₃ e₃ hd1
  · have := dot_bound (val x * val x) (val y * val y) (val z * val z)
      (val (x * x)) (val (y * y)) (val (z * z)) (val (x * x + y * y)) (val (x * x + y * y + z * z))
      (mul_self_nonneg _) (mul_self_nonneg _) (mul_self_nonneg _)
      hxx.2 hyy.2 hzz.2 hS.2 hd.2
    have hs : sqNorm (⟨x, y, z⟩ : Vec3 F32) = val x * val x + val y * val y + val z * val z := by
      unfold sqNorm
      ring
    rw [hs]
    exact this

/-- The scalar product with itself of a vector that can be normalized is a finite float
between `2^-100` and `2^100`. -/
theorem normalizable_dot (v : Vec3 F32) (h : Normalizable v) :
    IsFin (Vec3.dot v v) ∧ 1 / 2 ^ 100 ≤ val (Vec3.dot v v) ∧ val (Vec3.dot v v) ≤ 2 ^ 100 := by
  obtain ⟨hf, hlo, hhi⟩ := h
  have h49 : (2 : ℚ) ^ 98 = (2 ^ 49) ^ 2 := by norm_num
  obtain ⟨hx, hy, hz⟩ := abs_le_of_sqNorm v (2 ^ 49) (by positivity) (by rw [← h49]; exact hhi)
  have h50 : (2 : ℚ) ^ 49 ≤ 2 ^ 50 := by norm_num
  obtain ⟨⟨m, e, hd⟩, hD⟩ := dot_self_wide v ⟨hf, hx.trans h50, hy.trans h50, hz.trans h50⟩
  obtain ⟨h1, h2⟩ := abs_le.mp hD
  have h3 : sqNorm v / 2 ^ 19 ≤ 2 ^ 98 / 2 ^ 19 := div_le_div_of_nonneg_right hhi (by positivity)
  have h4 : (1 : ℚ) / 2 ^ 98 * (1 - 1 / 2 ^ 19) ≤ sqNorm v * (1 - 1 / 2 ^ 19) :=
    mul_le_mul_of_nonneg_right hlo (by norm_num)
  have h5 : sqNorm v * (1 - 1 / 2 ^ 19) = sqNorm v - sqNorm v / 2 ^ 19 := by ring
  have h6 : (1 : ℚ) / 2 ^ 100 ≤ 1 / 2 ^ 98 * (1 - 1 / 2 ^ 19) - 6 / 2 ^ 149 := by norm_num
  have h7 : (2 : ℚ) ^ 98 + 2 ^ 98 / 2 ^ 19 + 6 / 2 ^ 149 ≤ 2 ^ 100 := by norm_num
  refine ⟨⟨false, m, e, hd⟩, ?_, ?_⟩
  · rw [h5] at h4
    linarith
  · linarith

/-- The velocity that `Particle::update` uses, for positions of magnitude at most `2^16`: it
has finite components, and the square of its length is at most 100.02. -/
theorem velocity_sqNorm (P Q : Vec3 F32) (hP : Bounded (2 ^ 16) P) (hQ : Bounded (2 ^ 16) Q) :
    Fin3 (if F32.gt (length (P - Q)) (lit 10 1) then normalize (P - Q) * lit 10 1 else P - Q) ∧
    sqNorm (if F32.gt (length (P - Q)) (lit 10 1) then normalize (P - Q) * lit 10 1 else P - Q)
      ≤ 10002 / 100 := by
  -- the difference of the positions
  have hv : Bounded (2 ^ 18) (P - Q) := by
    obtain ⟨px, py, pz⟩ := P
    obtain ⟨qx, qy, qz⟩ := Q
    obtain ⟨⟨hx, hy, hz⟩, hbx, hby, hbz⟩ := hP
    obtain ⟨⟨hx', hy', hz'⟩, hbx', hby', hbz'⟩ := hQ
    simp only at hx hy hz hbx hby hbz hx' hy' hz' hbx' hby' hbz'
    have hsub : ∀ a b : F32, IsFin a → IsFin b → |val a| ≤ 2 ^ 16 → |val b| ≤ 2 ^ 16 →
        IsFin (a - b) ∧ |val (a - b)| ≤ 2 ^ 18 := by
      intro a b ha hb hba hbb
      have h17 : |val a - val b| ≤ 2 ^ 17 := by
        have := abs_sub (val a) (val b)
        have : (2 : ℚ) ^ 16 + 2 ^ 16 = 2 ^ 17 := by norm_num
        linarith
      have hn := sub_near_of_lt a b ha hb (by
        have : (2 : ℚ) ^ 17 < 2 ^ 127 := by norm_num
        linarith)
      have := near_abs_le _ _ hn _ h17
      have h2 : (2 : ℚ) ^ 17 + 2 ^ 17 / 2 ^ 22 + 1 / 2 ^ 149 ≤ 2 ^ 18 := by norm_num
      exact ⟨hn.1, by linarith⟩
    exact ⟨⟨(hsub px qx hx hx' hbx hbx').1, (hsub py qy hy hy' hby hby').1,
      (hsub pz qz hz hz' hbz hbz').1⟩, (hsub px qx hx hx' hbx hbx').2,
      (hsub py qy hy hy' hby hby').2, (hsub pz qz hz hz' hbz hbz').2⟩
  generalize P - Q = v at hv
  obtain ⟨⟨md, ed, hd⟩, hDv⟩ := dot_self_fin v hv
  have hD0 := sqNorm_nonneg v
  have hDhi : sqNorm v ≤ 2 ^ 38 := by
    obtain ⟨-, hbx, hby, hbz⟩ := hv
    unfold sqNorm
    have h1 : val v.x ^ 2 ≤ (2 ^ 18) ^ 2 := by
      rw [← sq_abs]
      exact pow_le_pow_left₀ (abs_nonneg _) hbx 2
    have h2 : val v.y ^ 2 ≤ (2 ^ 18) ^ 2 := by
      rw [← sq_abs]
      exact pow_le_pow_left₀ (abs_nonneg _) hby 2
    have h3 : val v.z ^ 2 ≤ (2 ^ 18) ^ 2 := by
      rw [← sq_abs]
      exact pow_le_pow_left₀ (abs_nonneg _) hbz 2
    norm_num at h1 h2 h3 ⊢
    linarith
  obtain ⟨hDv1, hDv2⟩ := abs_le.mp hDv
  have hη6 : (6 : ℚ) / 2 ^ 149 ≤ 1 / 2 ^ 100 := by norm_num
  have hlen : length v = F32.sqrt (Vec3.dot v v) := rfl
  rw [hlen]
  by_cases hmd : md = 0
  · -- the scalar product is zero: no clamp
    subst hmd
    have hs : F32.sqrt (Vec3.dot v v) = fin false 0 (-149) := by
      rw [hd]
      exact sqrt_zero _ _
    have hgt : F32.gt (F32.sqrt (Vec3.dot v v)) (lit 10 1) = false := by
      rw [hs, lit_ten]
      decide
    rw [hgt]
    simp only [Bool.false_eq_true, if_false]
    refine ⟨hv.1, ?_⟩
    rw [hd, val_zero] at hDv1
    have : sqNorm v / 2 ^ 19 ≤ sqNorm v / 2 := by
      apply div_le_div_of_nonneg_left hD0 (by norm_num) (by norm_num)
    have h100 : (1 : ℚ) / 2 ^ 100 ≤ 1 := by norm_num
    linarith
  · obtain ⟨hs0, R, hR0, hR1, hR2, hcase⟩ := sqrt_cases md ed hmd
    rw [← hd] at hs0 hR1 hR2 hcase
    have hDvhi : val (Vec3.dot v v) ≤ 2 ^ 39 := by
      have : sqNorm v / 2 ^ 19 ≤ 2 ^ 38 / 2 ^ 19 :=
        div_le_div_of_nonneg_right hDhi (by positivity)
      have h1 : (2 : ℚ) ^ 38 + 2 ^ 38 / 2 ^ 19 + 1 / 2 ^ 100 ≤ 2 ^ 39 := by norm_num
      linarith
    have hR20 : R ≤ 2 ^ 20 := by
      by_contra h
      have h' : (2 : ℚ) ^ 20 < R := not_le.mp h
      have h1 : (2 : ℚ) ^ 20 * 2 ^ 20 < R * R := mul_lt_mul'' h' h' (by positivity) (by positivity)
      have h2 : (2 : ℚ) ^ 20 * 2 ^ 20 = 2 ^ 40 := by norm_num
      have h3 : (2 : ℚ) ^ 39 ≤ 2 ^ 40 := by norm_num
      nlinarith
    have hsq : Near R (F32.sqrt (Vec3.dot v v)) := by
      rcases hcase with ⟨-, h127⟩ | h
      · exfalso
        have : (2 : ℚ) ^ 20 < 2 ^ 127 := by norm_num
        linarith
      · exact h
    have hsq2 := hsq.2
    rw [abs_of_pos hR0] at hsq2
    obtain ⟨hsq3, hsq4⟩ := abs_le.mp hsq2
    have hη : (1 : ℚ) / 2 ^ 149 ≤ 1 / 2 ^ 100 := by norm_num
    by_cases hgt : F32.gt (F32.sqrt (Vec3.dot v v)) (lit 10 1) = true
    · -- the speed limit applies
      rw [if_pos hgt]
      rw [gt_iff _ _ hsq.1 (by rw [lit_ten]; exact isFin_fin _ _ _), val_lit_ten] at hgt
      have hR9 : 9 ≤ R := by
        have h1 : R / 2 ^ 22 ≤ R / 4 := by
          apply div_le_div_of_nonneg_left hR0.le (by norm_num) (by norm_num)
        have h2 : (1 : ℚ) / 2 ^ 100 ≤ 1 / 4 := by norm_num
        linarith
      have hDv81 : 81 ≤ val (Vec3.dot v v) := by
        have : (9 : ℚ) ^ 2 ≤ R ^ 2 := pow_le_pow_left₀ (by norm_num) hR9 2
        norm_num at this
        linarith
      have hnz : IsFin (Vec3.dot v v) ∧ 1 / 2 ^ 100 ≤ val (Vec3.dot v v) ∧
          val (Vec3.dot v v) ≤ 2 ^ 100 := by
        refine ⟨⟨false, md, ed, hd⟩, ?_, ?_⟩
        · have : (1 : ℚ) / 2 ^ 100 ≤ 81 := by norm_num
          linarith
        · have : (2 : ℚ) ^ 39 ≤ 2 ^ 100 := by norm_num
          linarith
      obtain ⟨hnx, hny, hnz', hn1⟩ := normalize_sqNorm v hnz.1 hnz.2.1 hnz.2.2
      obtain ⟨hn2, hn3⟩ := abs_le.mp hn1
      have hk : val (lit 10 1) ^ 2 * sqNorm (normalize v) ≤ 256 := by
        rw [val_lit_ten]
        have : (1 : ℚ) / 2 ^ 16 ≤ 1 := by norm_num
        linarith
      obtain ⟨hf, hb⟩ := smul_sqNorm (normalize v) (lit 10 1) ⟨hnx, hny, hnz'⟩
        (by rw [lit_ten]; exact isFin_fin _ _ _) hk
      refine ⟨hf, ?_⟩
      obtain ⟨-, hb2⟩ := abs_le.mp hb
      rw [val_lit_ten] at hb2
      have h16 : (1 : ℚ) / 2 ^ 16 ≤ 2 / 100000 := by norm_num
      have h20 : ((10 : ℚ) ^ 2 * (1 + 2 / 100000)) / 2 ^ 20 ≤ 1 / 1000 := by norm_num
      have h100 : (1 : ℚ) / 2 ^ 100 ≤ 1 / 1000 := by norm_num
      have h3 : (10 : ℚ) ^ 2 * sqNorm (normalize v) ≤ 10 ^ 2 * (1 + 2 / 100000) := by
        apply mul_le_mul_of_nonneg_left _ (by norm_num)
        linarith
      have h4 : (10 : ℚ) ^ 2 * sqNorm (normalize v) / 2 ^ 20 ≤
          ((10 : ℚ) ^ 2 * (1 + 2 / 100000)) / 2 ^ 20 :=
        div_le_div_of_nonneg_right h3 (by positivity)
      norm_num at h3 h4 h20 ⊢
      linarith
    · -- the speed limit does not apply
      rw [if_neg hgt]
      refine ⟨hv.1, ?_⟩
      have hle : val (F32.sqrt (Vec3.dot v v)) ≤ 10 := by
        by_contra h
        exact hgt ((gt_iff _ _ hsq.1 (by rw [lit_ten]; exact isFin_fin _ _ _)).mpr
          (by rw [val_lit_ten]; exact not_le.mp h))
      have hR10 : R ≤ 100001 / 10000 := by
        have h1 : R / 2 ^ 22 ≤ R / 4 := by
          apply div_le_div_of_nonneg_left hR0.le (by norm_num) (by norm_num)
        have hR14 : R ≤ 14 := by
          have h2 : (1 : ℚ) / 2 ^ 100 ≤ 1 / 4 := by norm_num
          linarith
        have h3 : R / 2 ^ 22 ≤ 14 / 2 ^ 22 := div_le_div_of_nonneg_right hR14 (by positivity)
        have h4 : (10 : ℚ) + 14 / 2 ^ 22 + 1 / 2 ^ 100 ≤ 100001 / 10000 := by norm_num
        linarith
      have hDv : val (Vec3.dot v v) ≤ 10001 / 100 := by
        have h1 : R * (1 + 1 / 2 ^ 26) ≤ 100001 / 10000 * (1 + 1 / 2 ^ 26) :=
          mul_le_mul_of_nonneg_right hR10 (by norm_num)
        have h2 : (R * (1 + 1 / 2 ^ 26)) ^ 2 ≤ (100001 / 10000 * (1 + 1 / 2 ^ 26)) ^ 2 :=
          pow_le_pow_left₀ (by positivity) h1 2
        have h3 : ((100001 : ℚ) / 10000 * (1 + 1 / 2 ^ 26)) ^ 2 ≤ 10001 / 100 := by norm_num
        linarith
      have h19 : sqNorm v / 2 ^ 19 ≤ sqNorm v / 2 ^ 19 := le_rfl
      have h5 : sqNorm v * (1 - 1 / 2 ^ 19) ≤ 10001 / 100 + 1 / 2 ^ 100 := by
        have : sqNorm v * (1 - 1 / 2 ^ 19) = sqNorm v - sqNorm v / 2 ^ 19 := by ring
        rw [this]
        linarith
      have h6 : (10001 : ℚ) / 100 + 1 / 2 ^ 100 ≤ 10002 / 100 * (1 - 1 / 2 ^ 19) := by norm_num
      have h7 : sqNorm v * (1 - 1 / 2 ^ 19) ≤ 10002 / 100 * (1 - 1 / 2 ^ 19) := h5.trans h6
      exact le_of_mul_le_mul_right h7 (by norm_num)

end Binary32

namespace Binary32

open F32

set_option maxRecDepth 100000

/-- The term `acceleration * dt * dt` of `Particle::update` for a zero acceleration and a
finite `dt`: its components are (signed) zeros. -/
theorem zero_acceleration (dt : F32) (hdt : IsFin dt) :
    Fin3 ((Vec3.zero : Vec3 F32) * dt * dt) ∧
      val ((Vec3.zero : Vec3 F32) * dt * dt).x = 0 ∧
      val ((Vec3.zero : Vec3 F32) * dt * dt).y = 0 ∧
      val ((Vec3.zero : Vec3 F32) * dt * dt).z = 0 := by
  have key : IsFin ((0 : F32) * dt * dt) ∧ val ((0 : F32) * dt * dt) = 0 := by
    obtain ⟨s₁, h₁⟩ := zero_mul_fin false (-149) dt hdt
    obtain ⟨s₂, h₂⟩ := zero_mul_fin s₁ (-149) dt hdt
    have h0 : (0 : F32) = fin false 0 (-149) := rfl
    rw [h0, h₁, h₂]
    exact ⟨isFin_fin _ _ _, by rw [val_fin]; simp⟩
  exact ⟨⟨key.1, key.1, key.1⟩, key.2, key.2, key.2⟩

end Binary32

namespace F32

theorem isFin_of_neg (a : F32) (h : IsFin (neg a)) : IsFin a := by
  cases a with
  | fin s m e => exact isFin_fin _ _ _
  | inf s => exact absurd h (not_isFin_inf _)
  | nan => exact absurd h not_isFin_nan

theorem isFin_of_sub (a b : F32) (h : IsFin (a - b)) : IsFin a ∧ IsFin b := by
  obtain ⟨h₁, h₂⟩ := isFin_of_add a (neg b) h
  exact ⟨h₁, isFin_of_neg b h₂⟩

/-- The distance of a finite float from the number it is next to, in terms of the float. -/
theorem near_back (x : ℚ) (c : F32) (h : Near x c) :
    |val c - x| ≤ |val c| / 2 ^ 21 + 2 / 2 ^ 149 := by
  have h1 : |x| ≤ |val c| + |val c - x| := by
    have : x = val c - (val c - x) := by ring
    conv_lhs => rw [this]
    exact abs_sub _ _
  have h2 := h.2
  have h3 := abs_nonneg (val c)
  have he := abs_nonneg (val c - x)
  have h5 : (0 : ℚ) ≤ 1 / 2 ^ 149 := by positivity
  have h6 : (2 : ℚ) / 2 ^ 149 = 2 * (1 / 2 ^ 149) := by ring
  rw [h6]
  generalize (1 : ℚ) / 2 ^ 149 = η at h2 h5 ⊢
  generalize |val c - x| = e at h1 h2 he ⊢
  generalize |val c| = A at h1 h3 ⊢
  generalize |x| = X at h1 h2
  have h7 : X / 2 ^ 22 ≤ (A + e) / 2 ^ 22 := div_le_div_of_nonneg_right h1 (by positivity)
  have h8 : (A + e) / 2 ^ 22 = A / 2 ^ 22 + e / 2 ^ 22 := by ring
  have h9 : A / 2 ^ 22 = A / 2 ^ 21 / 2 := by ring
  have h10 : e / 2 ^ 22 ≤ e / 2 :=
    div_le_div_of_nonneg_left he (by norm_num) (by norm_num)
  generalize A / 2 ^ 21 = A1 at h9 ⊢
  generalize A / 2 ^ 22 = A2 at h8 h9
  generalize e / 2 ^ 22 = e2 at h8 h10
  generalize (A + e) / 2 ^ 22 = S at h7 h8
  generalize X / 2 ^ 22 = X2 at h2 h7
  linarith

end F32

namespace Binary32

open F32

/-- The method `Constraint::solve` on two different unpinned particles: either it returns
at its guard and leaves them as they are, or it adds one float vector to the position of the
first and subtracts the same vector from the position of the second. -/
theorem solve_free (c : Constraint F32) (ps : List (Particle F32)) (a b : Particle F32)
    (ha : ps[c.p1]? = some a) (hb : ps[c.p2]? = some b) (hij : c.p1 ≠ c.p2)
    (hpa : a.isPinned = false) (hpb : b.isPinned = false) :
    ∃ corr : Vec3 F32,
      ((Constraint.solve c ps)[c.p1]? = some a ∧ (Constraint.solve c ps)[c.p2]? = some b) ∨
      ((Constraint.solve c ps)[c.p1]? = some { a with position := a.position + corr } ∧
        (Constraint.solve c ps)[c.p2]? = some { b with position := b.position - corr }) := by
  unfold Constraint.solve
  rw [ha, hb]
  dsimp only
  split
  · exact ⟨Vec3.zero, Or.inl ⟨ha, hb⟩⟩
  · refine ⟨(b.position - a.position) * ((length (b.position - a.position) - c.restDistance) /
      length (b.position - a.position)) * lit 5 10 * c.stiffness, Or.inr ⟨?_, ?_⟩⟩
    · rw [List.getElem?_modify_ne _ _ (Ne.symm hij), List.getElem?_modify_eq, ha]
      simp [addCorrection, hpa]
    · rw [List.getElem?_modify_eq, List.getElem?_modify_ne _ _ hij, hb]
      simp [subCorrection, hpb]

/-- Two finite floats `a + c` and `b - c` add up to `a + b`, up to their rounding. -/
theorem sameSum_of_fin (a b c : F32) (h₁ : IsFin (a + c)) (h₂ : IsFin (b - c)) :
    SameSum a b (a + c) (b - c) := by
  obtain ⟨ha, hc⟩ := isFin_of_add a c h₁
  obtain ⟨hb, -⟩ := isFin_of_sub b c h₂
  have n₁ : Near (val a + val c) (a + c) := by
    rcases add_cases a c ha hc with ⟨⟨s, hs⟩, -⟩ | h
    · rw [hs] at h₁
      exact absurd h₁ (not_isFin_inf _)
    · exact h
  have n₂ : Near (val b - val c) (b - c) := by
    rcases sub_cases b c hb hc with ⟨⟨s, hs⟩, -⟩ | h
    · rw [hs] at h₂
      exact absurd h₂ (not_isFin_inf _)
    · exact h
  have e₁ := near_back _ _ n₁
  have e₂ := near_back _ _ n₂
  unfold SameSum
  have hsplit : val (a + c) + val (b - c) - (val a + val b) =
      (val (a + c) - (val a + val c)) + (val (b - c) - (val b - val c)) := by ring
  rw [hsplit]
  have h3 := abs_add (val (a + c) - (val a + val c)) (val (b - c) - (val b - val c))
  have h4 : (|val (a + c)| + |val (b - c)|) / 2 ^ 21 =
      |val (a + c)| / 2 ^ 21 + |val (b - c)| / 2 ^ 21 := by ring
  have h5 : (1 : ℚ) / 2 ^ 147 = 2 / 2 ^ 149 + 2 / 2 ^ 149 := by norm_num
  rw [h4, h5]
  linarith

end Binary32

/-! ## The claims at inputs outside the range of binary32 -/

namespace Binary32

open F32

set_option maxRecDepth 100000

/-- C5 (the claim fails when the scalar product overflows): an unpinned particle at the origin that was at `(-2^64, 0, 0)` one
tick before, with zero acceleration. The claim gives the new position `(9.8, 0, 0)`; in
binary32 the scalar product of `position - oldPosition` with itself overflows, `length` is
an infinity (larger than 10), `normalize` returns the zero vector, and the particle stays at
the origin. -/
theorem Particle.update_overflow :
    farParticle.isPinned = false ∧ farParticle.acceleration = Vec3.zero ∧
    length (farParticle.position - farParticle.oldPosition) = inf false ∧
    F32.gt (length (farParticle.position - farParticle.oldPosition)) (F32.lit 10 1) = true ∧
    normalize (farParticle.position - farParticle.oldPosition) = ⟨0, 0, 0⟩ ∧
    (Particle.update farParticle (F32.lit 1 100)).position = ⟨0, 0, 0⟩ := by
  decide

/-- C6 (the claim fails at large coordinates): an unpinned particle at `(2^27, 0, 0)` that was at
`(2^27 - 56, 0, 0)` one tick before, with zero acceleration: the positions differ by 56,
more than 10 units, and after `Particle::update` the position is `(2^27 + 16, 0, 0)`, so
that `|position - oldPosition|` is 16, more than 10. -/
theorem Particle.update_speed_exceeded :
    bigParticle.isPinned = false ∧ bigParticle.acceleration = Vec3.zero ∧
    length (bigParticle.position - bigParticle.oldPosition) = F32.lit 56 1 ∧
    (Particle.update bigParticle (F32.lit 1 100)).oldPosition = ⟨F32.lit (2 ^ 27) 1, 0, 0⟩ ∧
    (Particle.update bigParticle (F32.lit 1 100)).position = ⟨F32.lit (2 ^ 27 + 16) 1, 0, 0⟩ ∧
    length ((Particle.update bigParticle (F32.lit 1 100)).position -
      (Particle.update bigParticle (F32.lit 1 100)).oldPosition) = F32.lit 16 1 ∧
    F32.gt (F32.lit 16 1) (F32.lit 10 1) = true := by
  decide

/-- C7 (the claim fails when the scalar product underflows): two unpinned particles at distance `2^-80 > 0`, joined by a
constraint of rest distance 1 and stiffness 1. The claim gives the distance 1 after one
`solve()`; in binary32 the scalar product underflows, `length` is zero, `solve()` returns at
its guard and the particles stay where they are. -/
theorem Constraint.solve_underflow :
    F32.lit 1 (2 ^ 80) = fin false 8388608 (-103) ∧
    length (⟨F32.lit 1 (2 ^ 80), 0, 0⟩ - ⟨0, 0, 0⟩) = 0 ∧
    closePair.map (fun p => p.isPinned) = [false, false] ∧
    Constraint.solve unitSpring closePair = closePair := by
  decide

/-- C9 (the claim fails in binary32): in the triangle with corners `(0, 0, 0)`, `(2^-40, 0, 0)` and
`(0, 2^-40, 0)` the sum of the face normals of every particle is `(0, 0, 2^-80)`, which is
not zero, and the normals after `recalculateNormals` are `(nan, nan, inf)`; in the triangle
with corners `(0, 0, 0)`, `(1, 0, 0)` and `(0, 1, -1)` the sum is `(0, 1, 1)` and the
normals have the length `16777215 / 2^24`, which is not 1. -/
theorem Cloth.recalculateNormals_not_unit :
    normalSum tinyTriangle 0 = ⟨0, 0, F32.lit 1 (2 ^ 80)⟩ ∧
    (Cloth.recalculateNormals tinyTriangle).particles.map (fun p => p.normal) =
      [⟨nan, nan, inf false⟩, ⟨nan, nan, inf false⟩, ⟨nan, nan, inf false⟩] ∧
    normalSum skewTriangle 0 = ⟨0, F32.lit 1 1, F32.lit 1 1⟩ ∧
    (Cloth.recalculateNormals skewTriangle).particles.map (fun p => length p.normal) =
      [fin false 16777215 (-24), fin false 16777215 (-24), fin false 16777215 (-24)] ∧
    F32.lit 1 1 = fin false 8388608 (-23) := by
  decide

/-- C19 (the claim fails when the scalar product overflows): two unpinned particles at `(-2^64, 0, 0)` and `(2^64, 0, 0)`,
whose positions add up to zero, joined by a constraint of rest distance 1 and stiffness 1:
in binary32 the scalar product overflows, the correction is `inf / inf = nan`, and after
`solve()` every component of the two positions is a NaN. -/
theorem Constraint.solve_midpoint_lost :
    farPair.map (fun p => p.isPinned) = [false, false] ∧
    F32.neg (F32.lit (2 ^ 64) 1) + F32.lit (2 ^ 64) 1 = 0 ∧
    (Constraint.solve unitSpring farPair).map (fun p => p.position) =
      [⟨nan, nan, nan⟩, ⟨nan, nan, nan⟩] := by
  decide

end Binary32

namespace Binary32

open F32

set_option maxRecDepth 100000

/-- The float length of a vector of finite floats whose squared length is at most 99.7 is
not larger than `10.0f`. -/
theorem length_not_gt_ten (d : Vec3 F32) (hf : Fin3 d) (h : sqNorm d ≤ 997 / 10) :
    F32.gt (length d) (lit 10 1) = false := by
  obtain ⟨hx, hy, hz⟩ := abs_le_of_sqNorm d 10 (by norm_num) (h.trans (by norm_num))
  have h18 : (10 : ℚ) ≤ 2 ^ 18 := by norm_num
  obtain ⟨⟨m, e, hd⟩, hD⟩ := dot_self_fin d ⟨hf, hx.trans h18, hy.trans h18, hz.trans h18⟩
  have hDv : val (Vec3.dot d d) ≤ 998 / 10 := by
    obtain ⟨-, h2⟩ := abs_le.mp hD
    have h3 : sqNorm d / 2 ^ 19 ≤ 997 / 10 / 2 ^ 19 := div_le_div_of_nonneg_right h (by positivity)
    have h4 : (997 : ℚ) / 10 + 997 / 10 / 2 ^ 19 + 6 / 2 ^ 149 ≤ 998 / 10 := by norm_num
    linarith
  have hlen : length d = F32.sqrt (Vec3.dot d d) := rfl
  rw [hlen, hd]
  rw [hd] at hDv
  by_cases hm : m = 0
  · subst hm
    rw [sqrt_zero, lit_ten]
    decide
  · obtain ⟨-, R, hR0, hR1, -, hcase⟩ := sqrt_cases m e hm
    have hR : R ≤ 999 / 100 := by
      by_contra hc
      have hc' : (999 : ℚ) / 100 < R := not_le.mp hc
      have h1 : ((999 : ℚ) / 100) ^ 2 < R ^ 2 := pow_lt_pow_left₀ hc' (by norm_num) (by norm_num)
      have h2 : (998 : ℚ) / 10 ≤ (999 / 100) ^ 2 := by norm_num
      linarith
    have hn : Near R (F32.sqrt (fin false m e)) := by
      rcases hcase with ⟨-, h127⟩ | hn
      · exfalso
        have : (999 : ℚ) / 100 < 2 ^ 127 := by norm_num
        linarith
      · exact hn
    have hv : val (F32.sqrt (fin false m e)) ≤ 10 := by
      have h1 := hn.2
      rw [abs_of_pos hR0] at h1
      obtain ⟨-, h2⟩ := abs_le.mp h1
      have h3 : R / 2 ^ 22 ≤ 999 / 100 / 2 ^ 22 := div_le_div_of_nonneg_right hR (by positivity)
      have h4 : (999 : ℚ) / 100 + 999 / 100 / 2 ^ 22 + 1 / 2 ^ 149 ≤ 10 := by norm_num
      linarith
    cases hg : F32.gt (F32.sqrt (fin false m e)) (lit 10 1) with
    | false => rfl
    | true =>
      rw [gt_iff _ _ hn.1 (by rw [lit_ten]; exact isFin_fin _ _ _), val_lit_ten] at hg
      exact absurd hv (not_le.mpr hg)

/-- C6 (amended): in binary32, for every unpinned particle with zero accumulated acceleration
whose position and oldPosition have finite components of magnitude at most `2^16`, and every
finite `dt`, after `Particle::update(dt)` oldPosition is the position before the call, the
position is finite, the implicit velocity magnitude `|position - oldPosition|` is at most 10
(its square is at most 100), and the float `glm::length(position - oldPosition)` that the
next call computes is not larger than `10.0f`. -/
theorem Particle.update_speed_limit (p : Particle F32) (dt : F32)
    (hpin : p.isPinned = false) (hacc : p.acceleration = Vec3.zero) (hdt : IsFin dt)
    (hP : Bounded (2 ^ 16) p.position) (hQ : Bounded (2 ^ 16) p.oldPosition) :
    (Particle.update p dt).oldPosition = p.position ∧
      Fin3 (Particle.update p dt).position ∧
      sqDist (Particle.update p dt).position (Particle.update p dt).oldPosition ≤ 100 ∧
      F32.gt (length ((Particle.update p dt).position - (Particle.update p dt).oldPosition))
        (lit 10 1) = false := by
  obtain ⟨hvf, hvn⟩ := velocity_sqNorm p.position p.oldPosition hP hQ
  obtain ⟨htf, htx, hty, htz⟩ := zero_acceleration dt hdt
  unfold Particle.update
  rw [hpin, hacc]
  simp only [Bool.false_eq_true, if_false]
  generalize (if F32.gt (length (p.position - p.oldPosition)) (lit 10 1) then
    normalize (p.position - p.oldPosition) * lit 10 1 else p.position - p.oldPosition) = vel
    at hvf hvn
  generalize (Vec3.zero : Vec3 F32) * dt * dt = t at htf htx hty htz
  have hk : IsFin DAMPING := ⟨false, 16441672, -24, lit_damping⟩
  have hkv : val DAMPING = 16441672 / 16777216 := val_lit_damping
  have hD0 := sqNorm_nonneg vel
  have hk2 : val DAMPING ^ 2 * sqNorm vel ≤ 9607 / 100 := by
    rw [hkv]
    have : ((16441672 : ℚ) / 16777216) ^ 2 * sqNorm vel ≤
        (16441672 / 16777216) ^ 2 * (10002 / 100) :=
      mul_le_mul_of_nonneg_left hvn (by positivity)
    have h2 : ((16441672 : ℚ) / 16777216) ^ 2 * (10002 / 100) ≤ 9607 / 100 := by norm_num
    exact this.trans h2
  obtain ⟨huf, hun⟩ := smul_sqNorm vel DAMPING hvf hk (hk2.trans (by norm_num))
  have hu : sqNorm (vel * DAMPING) ≤ 9608 / 100 := by
    obtain ⟨-, h⟩ := abs_le.mp hun
    have h1 : val DAMPING ^ 2 * sqNorm vel / 2 ^ 20 ≤ 9607 / 100 / 2 ^ 20 :=
      div_le_div_of_nonneg_right hk2 (by positivity)
    have h2 : (9607 : ℚ) / 100 + 9607 / 100 / 2 ^ 20 + 1 / 2 ^ 100 ≤ 9608 / 100 := by norm_num
    linarith
  generalize vel * DAMPING = u at huf hu
  obtain ⟨hwf, hwn⟩ := add_zero_sqNorm u t huf htf htx hty htz (hu.trans (by norm_num))
  have hw : sqNorm (u + t) ≤ 98 := by
    obtain ⟨-, h⟩ := abs_le.mp hwn
    have h1 : sqNorm u / 2 ^ 20 ≤ 9608 / 100 / 2 ^ 20 :=
      div_le_div_of_nonneg_right hu (by positivity)
    have h2 : (9608 : ℚ) / 100 + 9608 / 100 / 2 ^ 20 + 1 / 2 ^ 100 ≤ 98 := by norm_num
    linarith
  generalize u + t = w at hwf hw
  obtain ⟨hw10x, hw10y, hw10z⟩ := abs_le_of_sqNorm w 10 (by norm_num) (hw.trans (by norm_num))
  obtain ⟨⟨hPx, hPy, hPz⟩, hbx, hby, hbz⟩ := hP
  obtain ⟨hwx, hwy, hwz⟩ := hwf
  have hlt : ∀ a b : ℚ, |a| ≤ 2 ^ 16 → |b| ≤ 10 → |a + b| < 2 ^ 127 := by
    intro a b ha hb
    have := abs_add a b
    have h2 : (2 : ℚ) ^ 16 + 10 < 2 ^ 127 := by norm_num
    linarith
  have hx := add_near_of_lt p.position.x w.x hPx hwx (hlt _ _ hbx hw10x)
  have hy := add_near_of_lt p.position.y w.y hPy hwy (hlt _ _ hby hw10y)
  have hz := add_near_of_lt p.position.z w.z hPz hwz (hlt _ _ hbz hw10z)
  have hstep : sqDist (p.position + w) p.position ≤ 995 / 10 :=
    step_bound _ _ _ _ _ _ _ _ _ hbx hby hbz hw hx.2 hy.2 hz.2
  refine ⟨trivial, ⟨hx.1, hy.1, hz.1⟩, hstep.trans (by norm_num), ?_⟩
  -- the velocity that the next call computes
  have hs10 : ∀ a b c : ℚ, a ^ 2 + b ^ 2 + c ^ 2 ≤ 995 / 10 → |a| < 2 ^ 127 := by
    intro a b c h
    have h1 : a ^ 2 ≤ 256 := by nlinarith [sq_nonneg b, sq_nonneg c]
    have h2 := abs_le_of_sq_le a h1
    have h3 : (16 : ℚ) < 2 ^ 127 := by norm_num
    linarith
  have hsd : (val (p.position + w).x - val p.position.x) ^ 2 +
      (val (p.position + w).y - val p.position.y) ^ 2 +
      (val (p.position + w).z - val p.position.z) ^ 2 ≤ 995 / 10 := hstep
  have dx := sub_near_of_lt (p.position + w).x p.position.x hx.1 hPx (hs10 _ _ _ hsd)
  have dy := sub_near_of_lt (p.position + w).y p.position.y hy.1 hPy
    (hs10 (val (p.position + w).y - val p.position.y)
      (val (p.position + w).x - val p.position.x)
      (val (p.position + w).z - val p.position.z) (by linarith [hsd]))
  have dz := sub_near_of_lt (p.position + w).z p.position.z hz.1 hPz
    (hs10 (val (p.position + w).z - val p.position.z)
      (val (p.position + w).x - val p.position.x)
      (val (p.position + w).y - val p.position.y) (by linarith [hsd]))
  have hsum := sum_sq_near _ _ _ _ _ _ (hsd.trans (by norm_num)) dx.2 dy.2 dz.2
  apply length_not_gt_ten _ ⟨dx.1, dy.1, dz.1⟩
  obtain ⟨-, h⟩ := abs_le.mp hsum
  have h1 : ((val (p.position + w).x - val p.position.x) ^ 2 +
      (val (p.position + w).y - val p.position.y) ^ 2 +
      (val (p.position + w).z - val p.position.z) ^ 2) / 2 ^ 20 ≤ 995 / 10 / 2 ^ 20 :=
    div_le_div_of_nonneg_right hsd (by positivity)
  have h2 : (995 : ℚ) / 10 + 995 / 10 / 2 ^ 20 + 1 / 2 ^ 100 ≤ 997 / 10 := by norm_num
  have h3 : sqNorm (p.position + w - p.position) =
      val ((p.position + w).x - p.position.x) ^ 2 +
      val ((p.position + w).y - p.position.y) ^ 2 +
      val ((p.position + w).z - p.position.z) ^ 2 := rfl
  rw [h3]
  linarith

/-- Witness of C6: a particle whose position was moved by 50 units in one tick, more than
10 units; after `Particle::update` it is within 10 units of its old position, and the
speed limit does not apply in the next call. -/
theorem Particle.update_speed_limit_witness :
    F32.gt (length (fastParticle.position - fastParticle.oldPosition)) (lit 10 1) = true ∧
    sqDist (Particle.update fastParticle (lit 1 60)).position
      (Particle.update fastParticle (lit 1 60)).oldPosition ≤ 100 ∧
    F32.gt (length ((Particle.update fastParticle (lit 1 60)).position -
      (Particle.update fastParticle (lit 1 60)).oldPosition)) (lit 10 1) = false := by
  have h50 : lit 50 1 = fin false 13107200 (-18) := by decide
  have h60 : lit 1 60 = fin false 8947849 (-29) := by decide
  have hz : (0 : F32) = fin false 0 (-149) := rfl
  have hb0 : Bounded (2 ^ 16) (⟨0, 0, 0⟩ : Vec3 F32) := by
    refine ⟨⟨isFin_fin _ _ _, isFin_fin _ _ _, isFin_fin _ _ _⟩, ?_, ?_, ?_⟩ <;>
      simp [hz, val_fin]
  have hb50 : Bounded (2 ^ 16) (⟨lit 50 1, 0, 0⟩ : Vec3 F32) := by
    rw [h50]
    refine ⟨⟨isFin_fin _ _ _, isFin_fin _ _ _, isFin_fin _ _ _⟩, ?_, ?_, ?_⟩
    · rw [val_fin]
      norm_num [zpow_neg, abs_of_nonneg]
    · simp [hz, val_fin]
    · simp [hz, val_fin]
  exact ⟨by decide, (Particle.update_speed_limit fastParticle (lit 1 60) rfl rfl
    (by rw [h60]; exact isFin_fin _ _ _) hb50 hb0).2.2⟩

end Binary32

namespace Binary32

open F32

set_option maxRecDepth 100000

/-- What `recalculateNormals` leaves in the particle `i`: the normalized sum of the face
normals of its incident triangles and the normalized sum of their normalized first edges;
the other fields are as before. -/
theorem recalculateNormals_getElem? (c : Cloth F32) (i : Nat) :
    (Cloth.recalculateNormals c).particles[i]? = c.particles[i]?.map fun q =>
      { q with normal := normalize (normalSum c i), tangent := normalize (tangentSum c i) } := by
  unfold Cloth.recalculateNormals
  simp only [List.getElem?_map, accumulate_getElem?, List.map_map]
  have hpos : ((fun p : Particle F32 => p.position) ∘ clearNormal) = fun p => p.position := by
    funext p
    rfl
  rw [hpos]
  cases hq : c.particles[i]? with
  | none => rfl
  | some q => rfl

/-- C9 (amended): in binary32, after `Cloth::recalculateNormals`, and so after
`Cloth::update`, every particle whose sum of incident un-normalized face normals has finite
components and a length between `2^-49` and `2^49` has a normal with finite components whose
squared length is within `2^-16` of 1, and every particle whose sum of incident normalized
first-edge tangents is such a vector has such a tangent.  The sums are those of the index
list and the positions (`normalSum`, `tangentSum`), added in binary32 in the order of the
list. -/
theorem Cloth.recalculateNormals_unit_length (c : Cloth F32) (dt : F32) (wind : Vec3 F32)
    (i : Nat) :
    (∀ q, (Cloth.recalculateNormals c).particles[i]? = some q →
      (Normalizable (normalSum c i) → Fin3 q.normal ∧ |sqNorm q.normal - 1| ≤ 1 / 2 ^ 16) ∧
      (Normalizable (tangentSum c i) → Fin3 q.tangent ∧ |sqNorm q.tangent - 1| ≤ 1 / 2 ^ 16)) ∧
    (∀ q, (Cloth.update c dt wind).particles[i]? = some q →
      (Normalizable (normalSum (Cloth.beforeNormals c dt wind) i) →
        Fin3 q.normal ∧ |sqNorm q.normal - 1| ≤ 1 / 2 ^ 16) ∧
      (Normalizable (tangentSum (Cloth.beforeNormals c dt wind) i) →
        Fin3 q.tangent ∧ |sqNorm q.tangent - 1| ≤ 1 / 2 ^ 16)) := by
  have key : ∀ (c : Cloth F32) (q : Particle F32),
      (Cloth.recalculateNormals c).particles[i]? = some q →
      (Normalizable (normalSum c i) → Fin3 q.normal ∧ |sqNorm q.normal - 1| ≤ 1 / 2 ^ 16) ∧
      (Normalizable (tangentSum c i) → Fin3 q.tangent ∧ |sqNorm q.tangent - 1| ≤ 1 / 2 ^ 16) := by
    intro c q hq
    rw [recalculateNormals_getElem?] at hq
    cases hp : c.particles[i]? with
    | none => simp [hp] at hq
    | some p =>
      rw [hp] at hq
      simp only [Option.map_some', Option.some.injEq] at hq
      subst hq
      constructor
      · intro h
        obtain ⟨hd, hlo, hhi⟩ := normalizable_dot _ h
        obtain ⟨h1, h2, h3, h4⟩ := normalize_sqNorm _ hd hlo hhi
        exact ⟨⟨h1, h2, h3⟩, h4⟩
      · intro h
        obtain ⟨hd, hlo, hhi⟩ := normalizable_dot _ h
        obtain ⟨h1, h2, h3, h4⟩ := normalize_sqNorm _ hd hlo hhi
        exact ⟨⟨h1, h2, h3⟩, h4⟩
  exact ⟨key c, key (Cloth.beforeNormals c dt wind)⟩

/-- Witness of C9: in the cloth of one triangle, the particle 0 has the face normal
`(0, 0, 1)` as its sum, and its normal after `recalculateNormals` is of length 1 within the
bound. -/
theorem Cloth.recalculateNormals_unit_length_witness :
    normalSum unitTriangle 0 = ⟨0, 0, F32.lit 1 1⟩ ∧
    ∃ q, (Cloth.recalculateNormals unitTriangle).particles[0]? = some q ∧
      Fin3 q.normal ∧ |sqNorm q.normal - 1| ≤ 1 / 2 ^ 16 := by
  have hs : normalSum unitTriangle 0 = ⟨0, 0, F32.lit 1 1⟩ := by decide
  have hn : Normalizable (normalSum unitTriangle 0) := by
    rw [hs, lit_one]
    refine ⟨⟨isFin_fin _ _ _, isFin_fin _ _ _, isFin_fin _ _ _⟩, ?_, ?_⟩ <;>
      norm_num [sqNorm, val, zpow_neg]
  cases hq : (Cloth.recalculateNormals unitTriangle).particles[0]? with
  | none => exact absurd hq (by decide)
  | some q =>
    exact ⟨hs, q, rfl, ((Cloth.recalculateNormals_unit_length unitTriangle 0 ⟨0, 0, 0⟩ 0).1
      q hq).1 hn⟩

end Binary32

namespace Binary32

open F32

set_option maxRecDepth 100000

/-- C19 (amended): in binary32, when `Constraint::solve()` acts on two different unpinned
particles and leaves them at positions with finite components, it either changes nothing or
adds one float vector to the first position and subtracts the same vector from the second,
and each component of the sum of the two positions is the same after the call as before up
to the rounding of the two new positions: it changes by at most `2^-21` times the sum of the
magnitudes of the two new components, plus `2^-147`. -/
theorem Constraint.solve_midpoint_rounded (c : Constraint F32) (ps : List (Particle F32))
    (a b a' b' : Particle F32) (ha : ps[c.p1]? = some a) (hb : ps[c.p2]? = some b)
    (hij : c.p1 ≠ c.p2) (hpa : a.isPinned = false) (hpb : b.isPinned = false)
    (ha' : (Constraint.solve c ps)[c.p1]? = some a')
    (hb' : (Constraint.solve c ps)[c.p2]? = some b')
    (hfa : Fin3 a'.position) (hfb : Fin3 b'.position) :
    (∃ corr : Vec3 F32, (a' = a ∧ b' = b) ∨
      (a' = { a with position := a.position + corr } ∧
        b' = { b with position := b.position - corr })) ∧
    SameSum a.position.x b.position.x a'.position.x b'.position.x ∧
    SameSum a.position.y b.position.y a'.position.y b'.position.y ∧
    SameSum a.position.z b.position.z a'.position.z b'.position.z := by
  obtain ⟨corr, ⟨h₁, h₂⟩ | ⟨h₁, h₂⟩⟩ := solve_free c ps a b ha hb hij hpa hpb
  · rw [h₁] at ha'
    rw [h₂] at hb'
    have e₁ : a' = a := (Option.some.inj ha').symm
    have e₂ : b' = b := (Option.some.inj hb').symm
    subst e₁ e₂
    refine ⟨⟨corr, Or.inl ⟨rfl, rfl⟩⟩, ?_, ?_, ?_⟩ <;>
    · unfold SameSum
      rw [sub_self, abs_zero]
      positivity
  · rw [h₁] at ha'
    rw [h₂] at hb'
    have e₁ := (Option.some.inj ha').symm
    have e₂ := (Option.some.inj hb').symm
    subst e₁ e₂
    exact ⟨⟨corr, Or.inr ⟨rfl, rfl⟩⟩, sameSum_of_fin _ _ _ hfa.1 hfb.1,
      sameSum_of_fin _ _ _ hfa.2.1 hfb.2.1, sameSum_of_fin _ _ _ hfa.2.2 hfb.2.2⟩

/-- Witness of C19: the constraint of rest distance 1 and stiffness 1 between free
particles at `(0, 0, 0)` and `(3, 0, 0)`; `solve()` moves them to `(1, 0, 0)` and
`(2, 0, 0)`. -/
theorem Constraint.solve_midpoint_rounded_witness :
    (Constraint.solve unitSpring loosePair).map (fun p => p.position) =
      [⟨F32.lit 1 1, 0, 0⟩, ⟨F32.lit 2 1, 0, 0⟩] ∧
    SameSum 0 (F32.lit 3 1) (F32.lit 1 1) (F32.lit 2 1) := by
  have h1 : F32.lit 1 1 = fin false 8388608 (-23) := by decide
  have h2 : F32.lit 2 1 = fin false 8388608 (-22) := by decide
  have hf : ∀ x : F32, IsFin x → Fin3 (⟨x, 0, 0⟩ : Vec3 F32) := fun x hx =>
    ⟨hx, isFin_fin _ _ _, isFin_fin _ _ _⟩
  exact ⟨by decide, (Constraint.solve_midpoint_rounded unitSpring loosePair
    (Binary32.particleAt 0 0 0) (Binary32.particleAt (F32.lit 3 1) 0 0)
    { Binary32.particleAt 0 0 0 with position := ⟨F32.lit 1 1, 0, 0⟩ }
    { Binary32.particleAt (F32.lit 3 1) 0 0 with position := ⟨F32.lit 2 1, 0, 0⟩ }
    rfl rfl (by decide) rfl rfl (by decide) (by decide)
    (hf _ (by rw [h1]; exact isFin_fin _ _ _)) (hf _ (by rw [h2]; exact isFin_fin _ _ _))).2.1⟩

end Binary32

/-! ## Absolute rounding errors -/

namespace F32

set_option maxRecDepth 10000

theorem approx_val (c : F32) (hc : IsFin c) : Approx 0 (val c) c := by
  refine ⟨hc, ?_⟩
  rw [sub_self, abs_zero]

theorem Approx.mono {ε ε' x : ℚ} {c : F32} (h : Approx ε x c) (hε : ε ≤ ε') : Approx ε' x c :=
  ⟨h.1, h.2.trans hε⟩

theorem Approx.nonneg {ε x : ℚ} {c : F32} (h : Approx ε x c) : 0 ≤ ε :=
  (abs_nonneg _).trans h.2

theorem Approx.abs_le {ε x M : ℚ} {c : F32} (h : Approx ε x c) (hx : |x| ≤ M) :
    |val c| ≤ M + ε := by
  have e : val c = (val c - x) + x := by ring
  have h1 := abs_add (val c - x) x
  rw [← e] at h1
  have h2 := h.2
  linarith

/-- A finite float next to `y`, for `y` within `δ` of `x` and of magnitude at most `B`. -/
theorem approx_of_near {x y δ B : ℚ} {c : F32} (h : Near y c) (hy : |y - x| ≤ δ)
    (hB : |y| ≤ B) : Approx (δ + B / 2 ^ 22 + 1 / 2 ^ 149) x c := by
  refine ⟨h.1, ?_⟩
  have e : val c - x = (val c - y) + (y - x) := by ring
  have h1 := abs_add (val c - y) (y - x)
  rw [← e] at h1
  have h2 := h.2
  have h3 : |y| / 2 ^ 22 ≤ B / 2 ^ 22 := div_le_div_of_nonneg_right hB (by positivity)
  linarith

/-- The sum of two floats that are within `εa` of `xa` and within `εb` of `xb`. -/
theorem approx_add {εa εb xa xb Ma Mb : ℚ} {a b : F32} (ha : Approx εa xa a)
    (hb : Approx εb xb b) (hMa : |xa| ≤ Ma) (hMb : |xb| ≤ Mb)
    (hB : Ma + εa + (Mb + εb) < 2 ^ 127) :
    Approx (εa + εb + (Ma + εa + (Mb + εb)) / 2 ^ 22 + 1 / 2 ^ 149) (xa + xb) (a + b) := by
  have va := ha.abs_le hMa
  have vb := hb.abs_le hMb
  have hs : |val a + val b| ≤ Ma + εa + (Mb + εb) := (abs_add _ _).trans (by linarith)
  have hn := add_near_of_lt a b ha.1 hb.1 (lt_of_le_of_lt hs hB)
  have hy : |val a + val b - (xa + xb)| ≤ εa + εb := by
    have e : val a + val b - (xa + xb) = (val a - xa) + (val b - xb) := by ring
    rw [e]
    exact (abs_add _ _).trans (by linarith [ha.2, hb.2])
  exact (approx_of_near hn hy hs).mono (by linarith)

/-- The difference of two floats that are within `εa` of `xa` and within `εb` of `xb`. -/
theorem approx_sub {εa εb xa xb Ma Mb : ℚ} {a b : F32} (ha : Approx εa xa a)
    (hb : Approx εb xb b) (hMa : |xa| ≤ Ma) (hMb : |xb| ≤ Mb)
    (hB : Ma + εa + (Mb + εb) < 2 ^ 127) :
    Approx (εa + εb + (Ma + εa + (Mb + εb)) / 2 ^ 22 + 1 / 2 ^ 149) (xa - xb) (a - b) := by
  have va := ha.abs_le hMa
  have vb := hb.abs_le hMb
  have hs : |val a - val b| ≤ Ma + εa + (Mb + εb) := (abs_sub _ _).trans (by linarith)
  have hn := sub_near_of_lt a b ha.1 hb.1 (lt_of_le_of_lt hs hB)
  have hy : |val a - val b - (xa - xb)| ≤ εa + εb := by
    have e : val a - val b - (xa - xb) = (val a - xa) - (val b - xb) := by ring
    rw [e]
    exact (abs_sub _ _).trans (by linarith [ha.2, hb.2])
  exact (approx_of_near hn hy hs).mono (by linarith)

/-- The product of two floats that are within `εa` of `xa` and within `εb` of `xb`. -/
theorem approx_mul {εa εb xa xb Ma Mb : ℚ} {a b : F32} (ha : Approx εa xa a)
    (hb : Approx εb xb b) (hMa : |xa| ≤ Ma) (hMb : |xb| ≤ Mb)
    (hB : (Ma + εa) * (Mb + εb) < 2 ^ 127) :
    Approx (εa * (Mb + εb) + Ma * εb + (Ma + εa) * (Mb + εb) / 2 ^ 22 + 1 / 2 ^ 149)
      (xa * xb) (a * b) := by
  have va := ha.abs_le hMa
  have vb := hb.abs_le hMb
  have hεa := ha.nonneg
  have hεb := hb.nonneg
  have hMa0 : 0 ≤ Ma := (abs_nonneg _).trans hMa
  have hMb0 : 0 ≤ Mb := (abs_nonneg _).trans hMb
  have hs : |val a * val b| ≤ (Ma + εa) * (Mb + εb) := by
    rw [abs_mul]
    exact mul_le_mul va vb (abs_nonneg _) (by linarith)
  have hn := mul_near_of_lt a b ha.1 hb.1 (lt_of_le_of_lt hs hB)
  have hy : |val a * val b - xa * xb| ≤ εa * (Mb + εb) + Ma * εb := by
    have e : val a * val b - xa * xb = (val a - xa) * val b + xa * (val b - xb) := by ring
    rw [e]
    have h1 : |(val a - xa) * val b| ≤ εa * (Mb + εb) := by
      rw [abs_mul]
      exact mul_le_mul ha.2 vb (abs_nonneg _) hεa
    have h2 : |xa * (val b - xb)| ≤ Ma * εb := by
      rw [abs_mul]
      exact mul_le_mul hMa hb.2 (abs_nonneg _) hMa0
    exact (abs_add _ _).trans (by linarith)
  exact (approx_of_near hn hy hs).mono (by linarith)

end F32

/-! ## The float length of a vector -/

section analysis3

set_option maxRecDepth 10000

/-- The square of a number `n` next to `w`, for `|w| ≤ 64`. -/
theorem square_bound_wide (w n η : ℚ) (hη0 : 0 ≤ η) (hη1 : η ≤ 1) (hw : |w| ≤ 64)
    (h : |n - w| ≤ |w| / 2 ^ 22 + η) : |n ^ 2 - w ^ 2| ≤ w ^ 2 / 2 ^ 20 + 130 * η := by
  have ht0 : 0 ≤ |w| := abs_nonneg w
  have hd0 : 0 ≤ |n - w| := abs_nonneg _
  have hsum : |n + w| ≤ |n - w| + 2 * |w| := by
    have : n + w = (n - w) + 2 * w := by ring
    rw [this]
    calc |n - w + 2 * w| ≤ |n - w| + |2 * w| := abs_add _ _
      _ = |n - w| + 2 * |w| := by rw [abs_mul, abs_two]
  have hfac : |n ^ 2 - w ^ 2| = |n - w| * |n + w| := by
    rw [← abs_mul]
    congr 1
    ring
  have hw2 : |w| * |w| = w ^ 2 := by rw [← abs_mul, ← pow_two, abs_of_nonneg (sq_nonneg w)]
  have he0 : 0 ≤ |w| / 2 ^ 22 + η := by positivity
  have h1 : |n - w| * |n + w| ≤ (|w| / 2 ^ 22 + η) * (|w| / 2 ^ 22 + η + 2 * |w|) :=
    mul_le_mul h (by linarith) (abs_nonneg _) he0
  have h2 : (|w| / 2 ^ 22 + η) * (|w| / 2 ^ 22 + η + 2 * |w|) =
      (|w| * |w|) * (1 / 2 ^ 44 + 2 / 2 ^ 22) + |w| * η * (2 / 2 ^ 22 + 2) + η * η := by ring
  have h3 : |w| * η ≤ 64 * η := mul_le_mul_of_nonneg_right hw hη0
  have h4 : η * η ≤ η := by
    have := mul_le_mul_of_nonneg_left hη1 hη0
    linarith
  have h5 : |w| * η * (2 / 2 ^ 22 + 2) ≤ 64 * η * (2 / 2 ^ 22 + 2) :=
    mul_le_mul_of_nonneg_right h3 (by norm_num)
  have h6 : (w ^ 2) * (1 / 2 ^ 44 + 2 / 2 ^ 22) ≤ w ^ 2 / 2 ^ 20 := by
    have : (w ^ 2) * (1 / 2 ^ 44 + 2 / 2 ^ 22) ≤ w ^ 2 * (1 / 2 ^ 20) :=
      mul_le_mul_of_nonneg_left (by norm_num) (sq_nonneg w)
    linarith
  rw [hfac]
  rw [h2, hw2] at h1
  linarith

/-- The squares of three numbers `b` next to three numbers `a` of magnitude at most 64 add up
to little more than the squares of `a`. -/
theorem sum_sq_wide (ax ay az bx b_y bz : ℚ) (hwx : |ax| ≤ 64) (hwy : |ay| ≤ 64)
    (hwz : |az| ≤ 64)
    (hx : |bx - ax| ≤ |ax| / 2 ^ 22 + 1 / 2 ^ 149)
    (hy : |b_y - ay| ≤ |ay| / 2 ^ 22 + 1 / 2 ^ 149)
    (hz : |bz - az| ≤ |az| / 2 ^ 22 + 1 / 2 ^ 149) :
    |bx ^ 2 + b_y ^ 2 + bz ^ 2 - (ax ^ 2 + ay ^ 2 + az ^ 2)| ≤
      (ax ^ 2 + ay ^ 2 + az ^ 2) / 2 ^ 20 + 1 / 2 ^ 100 := by
  have hη0 : (0 : ℚ) ≤ 1 / 2 ^ 149 := by positivity
  have hη1 : (1 : ℚ) / 2 ^ 149 ≤ 1 := by norm_num
  have hη2 : (390 : ℚ) * (1 / 2 ^ 149) ≤ 1 / 2 ^ 100 := by norm_num
  generalize (1 : ℚ) / 2 ^ 149 = η at *
  generalize (1 : ℚ) / 2 ^ 100 = ζ at *
  obtain ⟨hx1, hx2⟩ := abs_le.mp (square_bound_wide ax bx η hη0 hη1 hwx hx)
  obtain ⟨hy1, hy2⟩ := abs_le.mp (square_bound_wide ay b_y η hη0 hη1 hwy hy)
  obtain ⟨hz1, hz2⟩ := abs_le.mp (square_bound_wide az bz η hη0 hη1 hwz hz)
  rw [abs_le]
  constructor <;> linarith

/-- The square of the float square root `ℓ` of a float `Dv`, with the number `R` between
them. -/
theorem sqrt_sq_bound (Dv R ℓ : ℚ) (hR0 : 0 < R) (hR : R ≤ 2 ^ 20) (hR1 : R ^ 2 ≤ Dv)
    (hR2 : Dv < (R * (1 + 1 / 2 ^ 26)) ^ 2) (hℓ : |ℓ - R| ≤ |R| / 2 ^ 22 + 1 / 2 ^ 149) :
    |ℓ ^ 2 - Dv| ≤ Dv / 2 ^ 20 + 1 / 2 ^ 126 := by
  rw [abs_of_pos hR0] at hℓ
  have hη0 : (0 : ℚ) ≤ 1 / 2 ^ 149 := by positivity
  have hη1 : (1 : ℚ) / 2 ^ 149 ≤ 1 := by norm_num
  have hη2 : (2 : ℚ) ^ 22 * (1 / 2 ^ 149) ≤ 1 / 2 ^ 126 := by norm_num
  generalize (1 : ℚ) / 2 ^ 149 = η at *
  generalize (1 : ℚ) / 2 ^ 126 = ζ at *
  have hsum : |ℓ + R| ≤ |ℓ - R| + 2 * R := by
    have : ℓ + R = (ℓ - R) + 2 * R := by ring
    rw [this]
    calc |ℓ - R + 2 * R| ≤ |ℓ - R| + |2 * R| := abs_add _ _
      _ = |ℓ - R| + 2 * R := by rw [abs_of_pos (by linarith : (0 : ℚ) < 2 * R)]
  have hfac : |ℓ ^ 2 - R ^ 2| = |ℓ - R| * |ℓ + R| := by
    rw [← abs_mul]
    congr 1
    ring
  have he0 : 0 ≤ R / 2 ^ 22 + η := by positivity
  have h1 : |ℓ - R| * |ℓ + R| ≤ (R / 2 ^ 22 + η) * (R / 2 ^ 22 + η + 2 * R) :=
    mul_le_mul hℓ (by linarith) (abs_nonneg _) he0
  have h2 : (R / 2 ^ 22 + η) * (R / 2 ^ 22 + η + 2 * R) =
      R ^ 2 * (1 / 2 ^ 44 + 2 / 2 ^ 22) + R * η * (2 / 2 ^ 22 + 2) + η * η := by ring
  have h3 : R * η ≤ 2 ^ 20 * η := mul_le_mul_of_nonneg_right hR hη0
  have h4 : η * η ≤ η := by
    have := mul_le_mul_of_nonneg_left hη1 hη0
    linarith
  have h5 : R * η * (2 / 2 ^ 22 + 2) ≤ 2 ^ 20 * η * (2 / 2 ^ 22 + 2) :=
    mul_le_mul_of_nonneg_right h3 (by norm_num)
  have h7 : (R * (1 + 1 / 2 ^ 26)) ^ 2 = R ^ 2 + R ^ 2 * (2 / 2 ^ 26 + 1 / 2 ^ 52) := by ring
  have h8 : |ℓ ^ 2 - Dv| ≤ |ℓ ^ 2 - R ^ 2| + |R ^ 2 - Dv| := by
    have : ℓ ^ 2 - Dv = (ℓ ^ 2 - R ^ 2) + (R ^ 2 - Dv) := by ring
    rw [this]
    exact abs_add _ _
  have h9 : |R ^ 2 - Dv| = Dv - R ^ 2 := by
    rw [abs_of_nonpos (by linarith)]
    ring
  have hR20 : 0 ≤ R ^ 2 := sq_nonneg R
  have h10 : R ^ 2 * (1 / 2 ^ 44 + 2 / 2 ^ 22) + R ^ 2 * (2 / 2 ^ 26 + 1 / 2 ^ 52) ≤
      R ^ 2 * (1 / 2 ^ 20) := by
    rw [← mul_add]
    exact mul_le_mul_of_nonneg_left (by norm_num) hR20
  have h11 : R ^ 2 * (1 / 2 ^ 20) ≤ Dv * (1 / 2 ^ 20) :=
    mul_le_mul_of_nonneg_right hR1 (by norm_num)
  rw [hfac] at h8
  rw [h2] at h1
  rw [h7] at hR2
  rw [h9] at h8
  have h12 : 2 ^ 20 * η * (2 / 2 ^ 22 + 2) + η ≤ 2 ^ 22 * η := by
    have : (2 : ℚ) ^ 20 * η * (2 / 2 ^ 22 + 2) + η = η * (2 ^ 20 * (2 / 2 ^ 22 + 2) + 1) := by ring
    rw [this, mul_comm]
    exact mul_le_mul_of_nonneg_right (by norm_num) hη0
  have h13 : Dv / 2 ^ 20 = Dv * (1 / 2 ^ 20) := by ring
  rw [h13]
  linarith

end analysis3

namespace Binary32

open F32

set_option maxRecDepth 100000

/-- The float `glm::length(d)` of a vector of finite floats of magnitude at most `2^18`: it
is a finite float that is not negative, and its square is next to the squared length of the
vector. -/
theorem length_sq (d : Vec3 F32) (hd : Bounded (2 ^ 18) d) :
    IsFin (length d) ∧ 0 ≤ val (length d) ∧
      |val (length d) ^ 2 - sqNorm d| ≤ sqNorm d / 2 ^ 18 + 1 / 2 ^ 120 := by
  obtain ⟨⟨m, e, hD⟩, hDv⟩ := dot_self_fin d hd
  have hS0 := sqNorm_nonneg d
  have hShi : sqNorm d ≤ 2 ^ 38 := by
    obtain ⟨-, hbx, hby, hbz⟩ := hd
    unfold sqNorm
    have h1 : val d.x ^ 2 ≤ (2 ^ 18) ^ 2 := by
      rw [← sq_abs]
      exact pow_le_pow_left₀ (abs_nonneg _) hbx 2
    have h2 : val d.y ^ 2 ≤ (2 ^ 18) ^ 2 := by
      rw [← sq_abs]
      exact pow_le_pow_left₀ (abs_nonneg _) hby 2
    have h3 : val d.z ^ 2 ≤ (2 ^ 18) ^ 2 := by
      rw [← sq_abs]
      exact pow_le_pow_left₀ (abs_nonneg _) hbz 2
    norm_num at h1 h2 h3 ⊢
    linarith
  obtain ⟨hDv1, hDv2⟩ := abs_le.mp hDv
  have hlen : length d = F32.sqrt (Vec3.dot d d) := rfl
  rw [hlen, hD]
  rw [hD] at hDv1 hDv2
  have h19 : sqNorm d / 2 ^ 19 ≤ 2 ^ 38 / 2 ^ 19 := div_le_div_of_nonneg_right hShi (by positivity)
  by_cases hm : m = 0
  · subst hm
    rw [sqrt_zero, val_zero]
    rw [val_zero] at hDv1 hDv2
    refine ⟨isFin_fin _ _ _, le_rfl, ?_⟩
    have h1 : (0 : ℚ) ^ 2 - sqNorm d = -sqNorm d := by ring
    rw [h1, abs_neg, abs_of_nonneg hS0]
    have h2 : sqNorm d / 2 ^ 19 ≤ sqNorm d / 2 := by
      apply div_le_div_of_nonneg_left hS0 (by norm_num) (by norm_num)
    have h3 : (12 : ℚ) / 2 ^ 149 ≤ 1 / 2 ^ 120 := by norm_num
    have h4 : 0 ≤ sqNorm d / 2 ^ 18 := by positivity
    linarith
  · obtain ⟨hs0, R, hR0, hR1, hR2, hcase⟩ := sqrt_cases m e hm
    have hDhi : val (fin false m e) ≤ 2 ^ 39 := by
      have h1 : (2 : ℚ) ^ 38 + 2 ^ 38 / 2 ^ 19 + 6 / 2 ^ 149 ≤ 2 ^ 39 := by norm_num
      linarith
    have hR20 : R ≤ 2 ^ 20 := by
      by_contra h
      have h' : (2 : ℚ) ^ 20 < R := not_le.mp h
      have h1 : ((2 : ℚ) ^ 20) ^ 2 < R ^ 2 := pow_lt_pow_left₀ h' (by positivity) (by norm_num)
      have h2 : ((2 : ℚ) ^ 20) ^ 2 = 2 ^ 40 := by norm_num
      have h3 : (2 : ℚ) ^ 39 ≤ 2 ^ 40 := by norm_num
      linarith
    have hn : Near R (F32.sqrt (fin false m e)) := by
      rcases hcase with ⟨-, h127⟩ | h
      · exfalso
        have : (2 : ℚ) ^ 20 < 2 ^ 127 := by norm_num
        linarith
      · exact h
    have hb := sqrt_sq_bound _ R _ hR0 hR20 hR1 hR2 hn.2
    refine ⟨hn.1, hs0, ?_⟩
    have h1 : |val (F32.sqrt (fin false m e)) ^ 2 - sqNorm d| ≤
        |val (F32.sqrt (fin false m e)) ^ 2 - val (fin false m e)| +
          |val (fin false m e) - sqNorm d| := by
      have : val (F32.sqrt (fin false m e)) ^ 2 - sqNorm d =
          (val (F32.sqrt (fin false m e)) ^ 2 - val (fin false m e)) +
            (val (fin false m e) - sqNorm d) := by ring
      rw [this]
      exact abs_add _ _
    have h2 : val (fin false m e) / 2 ^ 20 ≤ (sqNorm d + sqNorm d / 2 ^ 19 + 6 / 2 ^ 149) / 2 ^ 20 :=
      div_le_div_of_nonneg_right (by linarith) (by positivity)
    have hDv' : |val (fin false m e) - sqNorm d| ≤ sqNorm d / 2 ^ 19 + 6 / 2 ^ 149 :=
      abs_le.mpr ⟨hDv1, hDv2⟩
    have h3 : (sqNorm d + sqNorm d / 2 ^ 19 + 6 / 2 ^ 149) / 2 ^ 20 + sqNorm d / 2 ^ 19 =
        sqNorm d * (1 / 2 ^ 20 + 1 / 2 ^ 39 + 1 / 2 ^ 19) + 6 / 2 ^ 169 := by ring
    have h4 : sqNorm d * (1 / 2 ^ 20 + 1 / 2 ^ 39 + 1 / 2 ^ 19) ≤ sqNorm d * (1 / 2 ^ 18) :=
      mul_le_mul_of_nonneg_left (by norm_num) hS0
    have h5 : (6 : ℚ) / 2 ^ 169 + 1 / 2 ^ 126 + 6 / 2 ^ 149 ≤ 1 / 2 ^ 120 := by norm_num
    have h6 : sqNorm d / 2 ^ 18 = sqNorm d * (1 / 2 ^ 18) := by ring
    rw [h6]
    linarith

end Binary32

/-! ## The constraint solver in binary32 -/

namespace F32

set_option maxRecDepth 100000

/-- Equality of two finite floats is the equality of the numbers. -/
theorem eq_iff (a b : F32) (ha : IsFin a) (hb : IsFin b) : F32.eq a b = true ↔ val a = val b := by
  obtain ⟨s₁, m₁, e₁, rfl⟩ := ha
  obtain ⟨s₂, m₂, e₂, rfl⟩ := hb
  rw [val_aligned_fst s₁ m₁ e₁ s₂ m₂ e₂, val_aligned_snd s₁ m₁ e₁ s₂ m₂ e₂]
  have hpos : (2 : ℚ) ^ (min e₁ e₂) ≠ 0 := by positivity
  unfold F32.eq
  rw [decide_eq_true_iff, mul_left_inj' hpos]
  exact Int.cast_inj.symm

theorem lit_zero : lit 0 1 = fin false 0 (-149) := by decide

theorem lit_half : lit 5 10 = fin false 8388608 (-24) := by decide

theorem val_lit_half : val (lit 5 10) = 1 / 2 := by
  rw [lit_half, val_fin]
  norm_num [zpow_neg]

end F32

section analysis4

set_option maxRecDepth 10000

/-- A component of a vector is not longer than the vector. -/
theorem comp_le_len (x S ℓ : ℚ) (hx : x ^ 2 ≤ S) (hℓ0 : 0 ≤ ℓ)
    (hS : S ≤ ℓ ^ 2 * (1 + 1 / 2 ^ 17)) : |x| ≤ ℓ * (1 + 1 / 2 ^ 17) := by
  have h1 : ℓ ^ 2 * (1 + 1 / 2 ^ 17) ≤ (ℓ * (1 + 1 / 2 ^ 17)) ^ 2 := by
    have h2 : (ℓ * (1 + 1 / 2 ^ 17)) ^ 2 = ℓ ^ 2 * (1 + 1 / 2 ^ 17) * (1 + 1 / 2 ^ 17) := by ring
    rw [h2]
    have h3 : 0 ≤ ℓ ^ 2 * (1 + 1 / 2 ^ 17) := by positivity
    have := mul_le_mul_of_nonneg_left (by norm_num : (1 : ℚ) ≤ 1 + 1 / 2 ^ 17) h3
    linarith
  exact abs_le_of_sq_le_sq' (by linarith) (by positivity) |> abs_le.mpr

/-- The sum of the magnitudes of the components of a vector of length about `ℓ`. -/
theorem sum_abs_le (x y z ℓ : ℚ) (hℓ0 : 0 ≤ ℓ)
    (hS : x ^ 2 + y ^ 2 + z ^ 2 ≤ ℓ ^ 2 * (1 + 1 / 2 ^ 17)) :
    |x| + |y| + |z| ≤ 7 / 4 * ℓ := by
  have h1 : (|x| + |y| + |z|) ^ 2 ≤ 3 * (x ^ 2 + y ^ 2 + z ^ 2) := by
    have hx := sq_abs x
    have hy := sq_abs y
    have hz := sq_abs z
    nlinarith [sq_nonneg (|x| - |y|), sq_nonneg (|x| - |z|), sq_nonneg (|y| - |z|)]
  have h2 : 3 * (ℓ ^ 2 * (1 + 1 / 2 ^ 17)) ≤ (7 / 4 * ℓ) ^ 2 := by
    have h3 : (7 / 4 * ℓ) ^ 2 = ℓ ^ 2 * (49 / 16) := by ring
    have h4 : 3 * (ℓ ^ 2 * (1 + 1 / 2 ^ 17)) = ℓ ^ 2 * (3 * (1 + 1 / 2 ^ 17)) := by ring
    rw [h3, h4]
    exact mul_le_mul_of_nonneg_left (by norm_num) (sq_nonneg ℓ)
  have h5 : 0 ≤ |x| + |y| + |z| := by positivity
  have h6 := abs_le_of_sq_le_sq' (by linarith : (|x| + |y| + |z|) ^ 2 ≤ (7 / 4 * ℓ) ^ 2)
    (by positivity)
  exact h6.2

end analysis4

section analysis5

set_option maxRecDepth 10000

/-- Two numbers that are not negative and whose squares are close are close. -/
theorem sqrt_close (T ℓ' η₁ : ℚ) (hT0 : 0 ≤ T) (hη : 0 < η₁) (hℓ' : 0 ≤ ℓ')
    (hup : ℓ' ^ 2 ≤ T ^ 2 + T ^ 2 / 2 ^ 16 + 4 * (η₁ * T) + 4 * η₁ ^ 2)
    (hlo : T ^ 2 - T ^ 2 / 2 ^ 16 - 4 * (η₁ * T) - 4 * η₁ ^ 2 ≤ ℓ' ^ 2) :
    |ℓ' - T| ≤ T / 2 ^ 16 + 5 * η₁ := by
  have hT2 : 0 ≤ T ^ 2 := sq_nonneg T
  have hηT : 0 ≤ η₁ * T := mul_nonneg hη.le hT0
  have hηη : 0 < η₁ ^ 2 := by positivity
  have he0 : 0 ≤ T / 2 ^ 16 + 5 * η₁ := by positivity
  rw [abs_le]
  constructor
  · -- the lower bound
    by_cases hTe : T ≤ T / 2 ^ 16 + 5 * η₁
    · linarith
    · have hTe' : T / 2 ^ 16 + 5 * η₁ < T := not_le.mp hTe
      by_contra hc
      have hc' : ℓ' < T - (T / 2 ^ 16 + 5 * η₁) := by linarith [not_le.mp hc]
      have h1 : ℓ' ^ 2 < (T - (T / 2 ^ 16 + 5 * η₁)) ^ 2 :=
        pow_lt_pow_left₀ hc' hℓ' (by norm_num)
      have h2 : (T - (T / 2 ^ 16 + 5 * η₁)) ^ 2 =
          T ^ 2 - T * (T / 2 ^ 16 + 5 * η₁) -
            (T - (T / 2 ^ 16 + 5 * η₁)) * (T / 2 ^ 16 + 5 * η₁) := by ring
      have h3 : 0 ≤ (T - (T / 2 ^ 16 + 5 * η₁)) * (T / 2 ^ 16 + 5 * η₁) :=
        mul_nonneg (by linarith) he0
      have h4 : T * (T / 2 ^ 16 + 5 * η₁) = T ^ 2 / 2 ^ 16 + 5 * (η₁ * T) := by ring
      have h5 : η₁ * (5 * η₁) ≤ η₁ * T := by
        apply mul_le_mul_of_nonneg_left _ hη.le
        have : 0 ≤ T / 2 ^ 16 := by positivity
        linarith
      have h6 : η₁ * (5 * η₁) = 5 * η₁ ^ 2 := by ring
      rw [h2, h4] at h1
      rw [h6] at h5
      linarith
  · -- the upper bound
    by_contra hc
    have hc' : T + (T / 2 ^ 16 + 5 * η₁) < ℓ' := by linarith [not_le.mp hc]
    have h1 : (T + (T / 2 ^ 16 + 5 * η₁)) ^ 2 < ℓ' ^ 2 :=
      pow_lt_pow_left₀ hc' (by linarith) (by norm_num)
    have h2 : (T + (T / 2 ^ 16 + 5 * η₁)) ^ 2 =
        T ^ 2 + 2 * (T ^ 2 / 2 ^ 16) + 10 * (η₁ * T) + T ^ 2 / 2 ^ 32 + 10 * (η₁ * T) / 2 ^ 16 +
          25 * η₁ ^ 2 := by ring
    rw [h2] at h1
    have h3 : 0 ≤ T ^ 2 / 2 ^ 16 := by positivity
    have h4 : 0 ≤ T ^ 2 / 2 ^ 32 := by positivity
    have h5 : 0 ≤ 10 * (η₁ * T) / 2 ^ 16 := by positivity
    linarith


/-- The float length `ℓ'` of a vector `(u, v, w)` whose components are within `η₁` of those
of `τ * (x, y, z)`, for a vector `(x, y, z)` of float length `ℓ`: it is next to `τ * ℓ`. -/
theorem dist_after (x y z u v w τ ℓ ℓ' η₁ : ℚ)
    (hτ : 0 ≤ τ) (hℓ : 1 / 2 ^ 11 ≤ ℓ) (hη0 : 1 / 2 ^ 40 ≤ η₁)
    (hS : |ℓ ^ 2 - (x ^ 2 + y ^ 2 + z ^ 2)| ≤ (x ^ 2 + y ^ 2 + z ^ 2) / 2 ^ 18 + 1 / 2 ^ 120)
    (hu : |u - τ * x| ≤ η₁) (hv : |v - τ * y| ≤ η₁) (hw : |w - τ * z| ≤ η₁)
    (hℓ' : 0 ≤ ℓ')
    (hS' : |ℓ' ^ 2 - (u ^ 2 + v ^ 2 + w ^ 2)| ≤ (u ^ 2 + v ^ 2 + w ^ 2) / 2 ^ 18 + 1 / 2 ^ 120) :
    |ℓ' - τ * ℓ| ≤ τ * ℓ / 2 ^ 16 + 5 * η₁ := by
  have hℓ0 : 0 < ℓ := lt_of_lt_of_le (by norm_num) hℓ
  have hη : 0 < η₁ := lt_of_lt_of_le (by norm_num) hη0
  have hL2 : (1 / 2 ^ 11) ^ 2 ≤ ℓ ^ 2 := pow_le_pow_left₀ (by norm_num) hℓ 2
  have hζ : (1 : ℚ) / 2 ^ 120 ≤ ℓ ^ 2 * (1 / 2 ^ 98) := by
    have := mul_le_mul_of_nonneg_right hL2 (by norm_num : (0 : ℚ) ≤ 1 / 2 ^ 98)
    have h2 : ((1 : ℚ) / 2 ^ 11) ^ 2 * (1 / 2 ^ 98) = 1 / 2 ^ 120 := by norm_num
    linarith
  have hη2 : (1 / 2 ^ 40) ^ 2 ≤ η₁ ^ 2 := pow_le_pow_left₀ (by norm_num) hη0 2
  have hζ' : (1 : ℚ) / 2 ^ 120 ≤ η₁ ^ 2 * (1 / 2 ^ 40) := by
    have := mul_le_mul_of_nonneg_right hη2 (by norm_num : (0 : ℚ) ≤ 1 / 2 ^ 40)
    have h2 : ((1 : ℚ) / 2 ^ 40) ^ 2 * (1 / 2 ^ 40) = 1 / 2 ^ 120 := by norm_num
    linarith
  obtain ⟨s1, s2⟩ := abs_le.mp hS
  obtain ⟨t1, t2⟩ := abs_le.mp hS'
  generalize (1 : ℚ) / 2 ^ 120 = ζ at hζ hζ' s1 s2 t1 t2
  have hSu : x ^ 2 + y ^ 2 + z ^ 2 ≤ ℓ ^ 2 * (1 + 1 / 2 ^ 17) := by
    have h0 := sq_nonneg ℓ
    linarith
  have hSl : ℓ ^ 2 * (1 - 1 / 2 ^ 17) ≤ x ^ 2 + y ^ 2 + z ^ 2 := by
    have h0 := sq_nonneg ℓ
    linarith
  have hA := sum_abs_le x y z ℓ hℓ0.le hSu
  -- the errors of the components
  obtain ⟨Eu, rfl⟩ : ∃ E, u = τ * x + E := ⟨u - τ * x, by ring⟩
  obtain ⟨Ev, rfl⟩ : ∃ E, v = τ * y + E := ⟨v - τ * y, by ring⟩
  obtain ⟨Ew, rfl⟩ : ∃ E, w = τ * z + E := ⟨w - τ * z, by ring⟩
  rw [add_sub_cancel_left] at hu hv hw
  have hT0 : 0 ≤ τ * ℓ := mul_nonneg hτ hℓ0.le
  have hcross : |x * Eu + y * Ev + z * Ew| ≤ η₁ * (7 / 4 * ℓ) := by
    have h1 : |x * Eu| ≤ |x| * η₁ := by
      rw [abs_mul]
      exact mul_le_mul_of_nonneg_left hu (abs_nonneg _)
    have h2 : |y * Ev| ≤ |y| * η₁ := by
      rw [abs_mul]
      exact mul_le_mul_of_nonneg_left hv (abs_nonneg _)
    have h3 : |z * Ew| ≤ |z| * η₁ := by
      rw [abs_mul]
      exact mul_le_mul_of_nonneg_left hw (abs_nonneg _)
    have h4 := abs_add (x * Eu + y * Ev) (z * Ew)
    have h5 := abs_add (x * Eu) (y * Ev)
    have h6 : (|x| + |y| + |z|) * η₁ ≤ 7 / 4 * ℓ * η₁ := mul_le_mul_of_nonneg_right hA hη.le
    linarith
  have hEu : Eu ^ 2 ≤ η₁ ^ 2 := by
    rw [← sq_abs Eu]
    exact pow_le_pow_left₀ (abs_nonneg _) hu 2
  have hEv : Ev ^ 2 ≤ η₁ ^ 2 := by
    rw [← sq_abs Ev]
    exact pow_le_pow_left₀ (abs_nonneg _) hv 2
  have hEw : Ew ^ 2 ≤ η₁ ^ 2 := by
    rw [← sq_abs Ew]
    exact pow_le_pow_left₀ (abs_nonneg _) hw 2
  obtain ⟨c1, c2⟩ := abs_le.mp hcross
  have hid : (τ * x + Eu) ^ 2 + (τ * y + Ev) ^ 2 + (τ * z + Ew) ^ 2 =
      τ ^ 2 * (x ^ 2 + y ^ 2 + z ^ 2) + 2 * τ * (x * Eu + y * Ev + z * Ew) +
        (Eu ^ 2 + Ev ^ 2 + Ew ^ 2) := by ring
  rw [hid] at t1 t2
  have hτ2 : 0 ≤ τ ^ 2 := sq_nonneg τ
  have hTS1 : τ ^ 2 * (x ^ 2 + y ^ 2 + z ^ 2) ≤ τ ^ 2 * (ℓ ^ 2 * (1 + 1 / 2 ^ 17)) :=
    mul_le_mul_of_nonneg_left hSu hτ2
  have hTS2 : τ ^ 2 * (ℓ ^ 2 * (1 - 1 / 2 ^ 17)) ≤ τ ^ 2 * (x ^ 2 + y ^ 2 + z ^ 2) :=
    mul_le_mul_of_nonneg_left hSl hτ2
  have hx1 : 2 * τ * (x * Eu + y * Ev + z * Ew) ≤ 2 * τ * (η₁ * (7 / 4 * ℓ)) :=
    mul_le_mul_of_nonneg_left c2 (by linarith)
  have hx2 : 2 * τ * (-(η₁ * (7 / 4 * ℓ))) ≤ 2 * τ * (x * Eu + y * Ev + z * Ew) :=
    mul_le_mul_of_nonneg_left c1 (by linarith)
  -- everything in terms of T = τ * ℓ
  obtain ⟨T, hT⟩ : ∃ T, T = τ * ℓ := ⟨_, rfl⟩
  have e1 : τ ^ 2 * (ℓ ^ 2 * (1 + 1 / 2 ^ 17)) = T ^ 2 * (1 + 1 / 2 ^ 17) := by
    rw [hT]
    ring
  have e2 : τ ^ 2 * (ℓ ^ 2 * (1 - 1 / 2 ^ 17)) = T ^ 2 * (1 - 1 / 2 ^ 17) := by
    rw [hT]
    ring
  have e3 : 2 * τ * (η₁ * (7 / 4 * ℓ)) = 7 / 2 * (η₁ * T) := by
    rw [hT]
    ring
  have e4 : 2 * τ * (-(η₁ * (7 / 4 * ℓ))) = -(7 / 2 * (η₁ * T)) := by
    rw [hT]
    ring
  rw [e1] at hTS1
  rw [e2] at hTS2
  rw [e3] at hx1
  rw [e4] at hx2
  rw [← hT] at hT0 ⊢
  have hE0 : 0 ≤ Eu ^ 2 + Ev ^ 2 + Ew ^ 2 := by positivity
  have hG : Eu ^ 2 + Ev ^ 2 + Ew ^ 2 ≤ 3 * η₁ ^ 2 := by linarith
  generalize τ ^ 2 * (x ^ 2 + y ^ 2 + z ^ 2) = M at t1 t2 hTS1 hTS2
  generalize 2 * τ * (x * Eu + y * Ev + z * Ew) = C at t1 t2 hx1 hx2
  generalize Eu ^ 2 + Ev ^ 2 + Ew ^ 2 = G at t1 t2 hE0 hG
  have hT2 : 0 ≤ T ^ 2 := sq_nonneg T
  have hηT : 0 ≤ η₁ * T := mul_nonneg hη.le hT0
  have hηη : 0 < η₁ ^ 2 := by positivity
  have hup : ℓ' ^ 2 ≤ T ^ 2 + T ^ 2 / 2 ^ 16 + 4 * (η₁ * T) + 4 * η₁ ^ 2 := by linarith
  have hlo : T ^ 2 - T ^ 2 / 2 ^ 16 - 4 * (η₁ * T) - 4 * η₁ ^ 2 ≤ ℓ' ^ 2 := by linarith
  exact sqrt_close T ℓ' η₁ hT0 hη hℓ' hup hlo

end analysis5

/-! ## The integration step in binary32 -/

/-! ## The integration step in binary32 -/

namespace Binary32

open F32

set_option maxRecDepth 100000

/-- The constant `DAMPING = 0.98f` is within `2^-25` of 0.98. -/
theorem approx_damping : Approx (1 / 2 ^ 25) (98 / 100) DAMPING := by
  refine ⟨⟨false, 16441672, -24, lit_damping⟩, ?_⟩
  have h : val DAMPING = 16441672 / 16777216 := val_lit_damping
  rw [h]
  norm_num [abs_le]

/-- One component of the position update of `Particle::update`: for a velocity component
within `2^-14` of `V`, the new position is within `2^-13` of `P + 0.98 * V + A * dt^2`. -/
theorem step_component (Pc Ac dt vc : F32) (V : ℚ) (hP : IsFin Pc) (hPb : |val Pc| ≤ 16)
    (hA : IsFin Ac) (hAb : |val Ac| ≤ 16) (hdt : IsFin dt) (hdt1 : |val dt| ≤ 1)
    (hv : Approx (1 / 2 ^ 14) V vc) (hV : |V| ≤ 32) :
    Approx (1 / 2 ^ 13) (val Pc + V * (98 / 100) + val Ac * val dt ^ 2)
      (Pc + (vc * DAMPING + Ac * dt * dt)) := by
  have hk1 : |(98 : ℚ) / 100| ≤ 1 := by norm_num [abs_le]
  have hu := (approx_mul hv approx_damping hV hk1 (by norm_num)).mono
    (by norm_num : _ ≤ (74 : ℚ) / 2 ^ 20)
  have hs1 := (approx_mul (approx_val Ac hA) (approx_val dt hdt) hAb hdt1 (by norm_num)).mono
    (by norm_num : _ ≤ (5 : ℚ) / 2 ^ 20)
  have hAd : |val Ac * val dt| ≤ 16 := by
    rw [abs_mul]
    have := mul_le_mul hAb hdt1 (abs_nonneg _) (by norm_num : (0 : ℚ) ≤ 16)
    linarith
  have hs2 := (approx_mul hs1 (approx_val dt hdt) hAd hdt1 (by norm_num)).mono
    (by norm_num : _ ≤ (10 : ℚ) / 2 ^ 20)
  have hVk : |V * (98 / 100)| ≤ 32 := by
    rw [abs_mul]
    have := mul_le_mul hV hk1 (abs_nonneg _) (by norm_num : (0 : ℚ) ≤ 32)
    linarith
  have hAdd : |val Ac * val dt * val dt| ≤ 16 := by
    rw [abs_mul]
    have := mul_le_mul hAd hdt1 (abs_nonneg _) (by norm_num : (0 : ℚ) ≤ 16)
    linarith
  have hw := (approx_add hu hs2 hVk hAdd (by norm_num)).mono
    (by norm_num : _ ≤ (97 : ℚ) / 2 ^ 20)
  have hsum : |V * (98 / 100) + val Ac * val dt * val dt| ≤ 48 :=
    (abs_add _ _).trans (by linarith)
  have hp := (approx_add (approx_val Pc hP) hw hPb hsum (by norm_num)).mono
    (by norm_num : _ ≤ (1 : ℚ) / 2 ^ 13)
  have e : val Pc + V * (98 / 100) + val Ac * val dt ^ 2 =
      val Pc + (V * (98 / 100) + val Ac * val dt * val dt) := by ring
  rw [e]
  exact hp

end Binary32

namespace Binary32

open F32

set_option maxRecDepth 100000

/-- One component of `position - oldPosition` for components of magnitude at most 16. -/
theorem velocity_component (Pc Qc : F32) (hP : IsFin Pc) (hPb : |val Pc| ≤ 16)
    (hQ : IsFin Qc) (hQb : |val Qc| ≤ 16) :
    Approx (9 / 2 ^ 20) (val Pc - val Qc) (Pc - Qc) ∧ |val Pc - val Qc| ≤ 32 ∧
      Near (val Pc - val Qc) (Pc - Qc) := by
  have h32 : |val Pc - val Qc| ≤ 32 := (abs_sub _ _).trans (by linarith)
  refine ⟨(approx_sub (approx_val Pc hP) (approx_val Qc hQ) hPb hQb (by norm_num)).mono
    (by norm_num), h32, ?_⟩
  exact sub_near_of_lt Pc Qc hP hQ (lt_of_le_of_lt h32 (by norm_num))

/-- One component of `glm::normalize(v) * 10.0f` for a vector `v` of float length `L > 10`:
the component `dc` of `v`, within `9 / 2^20` of `x`, gives a float within `2^-14` of
`10 * x / L`. -/
theorem clamped_component (dc L : F32) (x : ℚ) (hd : Approx (9 / 2 ^ 20) x dc) (hx : |x| ≤ 32)
    (hL : IsFin L) (hℓ : 10 < val L) :
    Approx (1 / 2 ^ 14) (x * 10 / val L) (dc * (lit 1 1 / L) * lit 10 1) ∧
      |x * 10 / val L| ≤ 32 := by
  have hℓ0 : 0 < val L := lt_trans (by norm_num) hℓ
  have hinv0 : 0 < 1 / val L := one_div_pos.mpr hℓ0
  have hinv1 : 1 / val L ≤ 1 / 10 := one_div_le_one_div_of_le (by norm_num) hℓ.le
  have hinvb : |1 / val L| ≤ 1 / 10 := by rwa [abs_of_pos hinv0]
  have h1 : IsFin (lit 1 1) := by
    rw [lit_one]
    exact isFin_fin _ _ _
  have hn := div_near_of_lt (lit 1 1) L h1 hL hℓ0.ne' (by
    rw [val_lit_one]
    exact lt_of_le_of_lt hinvb (by norm_num))
  rw [val_lit_one] at hn
  have hinv := (approx_of_near hn (by rw [sub_self, abs_zero] : |1 / val L - 1 / val L| ≤ 0)
    hinvb).mono (by norm_num : _ ≤ (1 : ℚ) / 2 ^ 25)
  have hprod := (approx_mul hd hinv hx hinvb (by norm_num)).mono
    (by norm_num : _ ≤ (3 : ℚ) / 2 ^ 20)
  have hxl : |x * (1 / val L)| ≤ 32 / 10 := by
    rw [abs_mul]
    have := mul_le_mul hx hinvb (abs_nonneg _) (by norm_num : (0 : ℚ) ≤ 32)
    linarith
  have h10 : IsFin (lit 10 1) := by
    rw [lit_ten]
    exact isFin_fin _ _ _
  have hten := approx_val (lit 10 1) h10
  rw [val_lit_ten] at hten
  have hv := (approx_mul hprod hten hxl (by norm_num [abs_le] : |(10 : ℚ)| ≤ 10)
    (by norm_num)).mono (by norm_num : _ ≤ (1 : ℚ) / 2 ^ 14)
  have e : x * 10 / val L = x * (1 / val L) * 10 := by ring
  rw [e]
  refine ⟨hv, ?_⟩
  rw [abs_mul]
  have := mul_le_mul hxl (by norm_num [abs_le] : |(10 : ℚ)| ≤ 10) (abs_nonneg _)
    (by norm_num : (0 : ℚ) ≤ 32 / 10)
  linarith

/-- The float length of `P - Q` for positions of magnitude at most 16: a finite float that is
not negative, whose square is next to the squared distance of the two positions. -/
theorem length_sub (P Q : Vec3 F32) (hP : Bounded 16 P) (hQ : Bounded 16 Q) :
    IsFin (length (P - Q)) ∧ 0 ≤ val (length (P - Q)) ∧
      |val (length (P - Q)) ^ 2 - sqDist P Q| ≤ sqDist P Q / 2 ^ 17 + 1 / 2 ^ 99 := by
  obtain ⟨⟨hPx, hPy, hPz⟩, hbx, hby, hbz⟩ := hP
  obtain ⟨⟨hQx, hQy, hQz⟩, hcx, hcy, hcz⟩ := hQ
  obtain ⟨ax, bx, nx⟩ := velocity_component P.x Q.x hPx hbx hQx hcx
  obtain ⟨ay, b_y, ny⟩ := velocity_component P.y Q.y hPy hby hQy hcy
  obtain ⟨az, bz, nz⟩ := velocity_component P.z Q.z hPz hbz hQz hcz
  have h33 : (32 : ℚ) + 9 / 2 ^ 20 ≤ 2 ^ 18 := by norm_num
  have hd : Bounded (2 ^ 18) (P - Q) :=
    ⟨⟨ax.1, ay.1, az.1⟩, (ax.abs_le bx).trans h33, (ay.abs_le b_y).trans h33,
      (az.abs_le bz).trans h33⟩
  obtain ⟨hf, h0, hsq⟩ := length_sq (P - Q) hd
  have h64 : (32 : ℚ) ≤ 64 := by norm_num
  have hsum := sum_sq_wide _ _ _ _ _ _ (bx.trans h64) (b_y.trans h64) (bz.trans h64)
    nx.2 ny.2 nz.2
  have hS : sqNorm (P - Q) = val (P.x - Q.x) ^ 2 + val (P.y - Q.y) ^ 2 + val (P.z - Q.z) ^ 2 :=
    rfl
  have hD : sqDist P Q = (val P.x - val Q.x) ^ 2 + (val P.y - val Q.y) ^ 2 +
      (val P.z - val Q.z) ^ 2 := rfl
  rw [← hS, ← hD] at hsum
  have hD0 : 0 ≤ sqDist P Q := by
    rw [hD]
    positivity
  refine ⟨hf, h0, ?_⟩
  obtain ⟨s1, s2⟩ := abs_le.mp hsum
  obtain ⟨t1, t2⟩ := abs_le.mp hsq
  have h1 : sqNorm (P - Q) / 2 ^ 18 ≤ (sqDist P Q + sqDist P Q / 2 ^ 20 + 1 / 2 ^ 100) / 2 ^ 18 :=
    div_le_div_of_nonneg_right (by linarith) (by positivity)
  have h2 : (sqDist P Q + sqDist P Q / 2 ^ 20 + 1 / 2 ^ 100) / 2 ^ 18 + sqDist P Q / 2 ^ 20 =
      sqDist P Q * (1 / 2 ^ 18 + 1 / 2 ^ 38 + 1 / 2 ^ 20) + 1 / 2 ^ 118 := by ring
  have h3 : sqDist P Q * (1 / 2 ^ 18 + 1 / 2 ^ 38 + 1 / 2 ^ 20) ≤ sqDist P Q * (1 / 2 ^ 17) :=
    mul_le_mul_of_nonneg_left (by norm_num) hD0
  have h4 : (1 : ℚ) / 2 ^ 118 + 1 / 2 ^ 100 + 1 / 2 ^ 120 ≤ 1 / 2 ^ 99 := by norm_num
  have h5 : sqDist P Q / 2 ^ 17 = sqDist P Q * (1 / 2 ^ 17) := by ring
  rw [h5, abs_le]
  constructor <;> linarith

end Binary32

namespace Binary32

open F32

set_option maxRecDepth 100000

/-- The velocity of `Particle::update` after the speed limit, component by component: each
component is a finite float within `2^-14` of the component of the limited velocity
`clampSpeed ℓ (P - Q)`, with `ℓ` the float length of `P - Q`. -/
theorem velocity_approx (P Q : Vec3 F32) (hP : Bounded 16 P) (hQ : Bounded 16 Q) :
    (Approx (1 / 2 ^ 14) (clampSpeed (val (length (P - Q))) (vals P - vals Q)).x
        (if F32.gt (length (P - Q)) (lit 10 1) then normalize (P - Q) * lit 10 1 else P - Q).x ∧
      |(clampSpeed (val (length (P - Q))) (vals P - vals Q)).x| ≤ 32) ∧
    (Approx (1 / 2 ^ 14) (clampSpeed (val (length (P - Q))) (vals P - vals Q)).y
        (if F32.gt (length (P - Q)) (lit 10 1) then normalize (P - Q) * lit 10 1 else P - Q).y ∧
      |(clampSpeed (val (length (P - Q))) (vals P - vals Q)).y| ≤ 32) ∧
    (Approx (1 / 2 ^ 14) (clampSpeed (val (length (P - Q))) (vals P - vals Q)).z
        (if F32.gt (length (P - Q)) (lit 10 1) then normalize (P - Q) * lit 10 1 else P - Q).z ∧
      |(clampSpeed (val (length (P - Q))) (vals P - vals Q)).z| ≤ 32) := by
  obtain ⟨hL, -, -⟩ := length_sub P Q hP hQ
  obtain ⟨⟨hPx, hPy, hPz⟩, hbx, hby, hbz⟩ := hP
  obtain ⟨⟨hQx, hQy, hQz⟩, hcx, hcy, hcz⟩ := hQ
  obtain ⟨ax, bx, -⟩ := velocity_component P.x Q.x hPx hbx hQx hcx
  obtain ⟨ay, b_y, -⟩ := velocity_component P.y Q.y hPy hby hQy hcy
  obtain ⟨az, bz, -⟩ := velocity_component P.z Q.z hPz hbz hQz hcz
  have h10 : IsFin (lit 10 1) := by
    rw [lit_ten]
    exact isFin_fin _ _ _
  have hgt := gt_iff (length (P - Q)) (lit 10 1) hL h10
  rw [val_lit_ten] at hgt
  by_cases hc : F32.gt (length (P - Q)) (lit 10 1) = true
  · have hℓ := hgt.mp hc
    have hcl : clampSpeed (val (length (P - Q))) (vals P - vals Q) =
        ((vals P - vals Q) * (10 : ℚ)) / val (length (P - Q)) := by
      unfold clampSpeed
      rw [if_neg (not_le.mpr hℓ)]
    rw [if_pos hc, hcl]
    exact ⟨clamped_component _ _ _ ax bx hL hℓ, clamped_component _ _ _ ay b_y hL hℓ,
      clamped_component _ _ _ az bz hL hℓ⟩
  · have hℓ : val (length (P - Q)) ≤ 10 := by
      by_contra h
      exact hc (hgt.mpr (not_le.mp h))
    have hcl : clampSpeed (val (length (P - Q))) (vals P - vals Q) = vals P - vals Q := by
      unfold clampSpeed
      rw [if_pos hℓ]
    rw [if_neg hc, hcl]
    exact ⟨⟨ax.mono (by norm_num), bx⟩, ⟨ay.mono (by norm_num), b_y⟩,
      ⟨az.mono (by norm_num), bz⟩⟩

/-- C5 (amended): in binary32, for a particle whose position `p`, oldPosition `q` and
acceleration `a` have finite components of magnitude at most 16, and a finite `dt` with
`|dt| ≤ 1`, `Particle::update(dt)` changes nothing when the particle is pinned; when it is
unpinned it sets `oldPosition` to `p` and `acceleration` to zero, leaves the other fields as
they were, and sets `position` to a vector of finite floats each component of which is
within `2^-13` of the component of `p + 0.98 * v + a * dt^2`, where `v = p - q` if `ℓ ≤ 10`
and `v = 10 * (p - q) / ℓ` otherwise; here `ℓ` is the float `glm::length(p - q)`, whose
square is the squared distance of `p` and `q` up to the factor `1 ± 2^-17`. -/
theorem Particle.update_formula (p : Particle F32) (dt : F32)
    (hP : Bounded 16 p.position) (hQ : Bounded 16 p.oldPosition)
    (hA : Bounded 16 p.acceleration) (hdt : IsFin dt) (hdt1 : |val dt| ≤ 1) :
    (p.isPinned = true → Particle.update p dt = p) ∧
    (p.isPinned = false →
      Particle.update p dt =
        { p with
          oldPosition := p.position
          position := (Particle.update p dt).position
          acceleration := Vec3.zero } ∧
      Fin3 (Particle.update p dt).position ∧
      Vec3.Within (1 / 2 ^ 13) (vals (Particle.update p dt).position -
        stepFormula (vals p.position) (vals p.oldPosition) (vals p.acceleration) (val dt)
          (val (length (p.position - p.oldPosition))))) ∧
    0 ≤ val (length (p.position - p.oldPosition)) ∧
    |val (length (p.position - p.oldPosition)) ^ 2 - sqDist p.position p.oldPosition| ≤
      sqDist p.position p.oldPosition / 2 ^ 17 + 1 / 2 ^ 99 := by
  obtain ⟨-, hℓ0, hℓ⟩ := length_sub p.position p.oldPosition hP hQ
  refine ⟨?_, ?_, hℓ0, hℓ⟩
  · intro hpin
    unfold Particle.update
    rw [if_pos hpin]
  · intro hpin
    obtain ⟨⟨vx, wx⟩, ⟨vy, wy⟩, ⟨vz, wz⟩⟩ := velocity_approx p.position p.oldPosition hP hQ
    obtain ⟨⟨hPx, hPy, hPz⟩, hbx, hby, hbz⟩ := hP
    obtain ⟨⟨hAx, hAy, hAz⟩, hax, hay, haz⟩ := hA
    have cx := step_component p.position.x p.acceleration.x dt _ _ hPx hbx hAx hax hdt hdt1 vx wx
    have cy := step_component p.position.y p.acceleration.y dt _ _ hPy hby hAy hay hdt hdt1 vy wy
    have cz := step_component p.position.z p.acceleration.z dt _ _ hPz hbz hAz haz hdt hdt1 vz wz
    have hpos : (Particle.update p dt).position = p.position +
        ((if F32.gt (length (p.position - p.oldPosition)) (lit 10 1) then
            normalize (p.position - p.oldPosition) * lit 10 1
          else p.position - p.oldPosition) * DAMPING + p.acceleration * dt * dt) := by
      unfold Particle.update
      rw [hpin]
      rfl
    refine ⟨?_, ?_, ?_⟩
    · unfold Particle.update
      rw [hpin]
      rfl
    · rw [hpos]
      exact ⟨cx.1, cy.1, cz.1⟩
    · rw [hpos]
      exact ⟨cx.2, cy.2, cz.2⟩

end Binary32

namespace Binary32

open F32

set_option maxRecDepth 100000

/-- Witness of C5: a particle at `(12, 0, 0)` that was at the origin one tick before, with
no acceleration; the velocity, of length 12, is limited to `(10, 0, 0)`, and the new
position is within `2^-13` of `(12 + 0.98 * 10, 0, 0)`. -/
theorem Particle.update_formula_witness :
    length (quickParticle.position - quickParticle.oldPosition) = lit 12 1 ∧
    |val (Particle.update quickParticle (lit 1 60)).position.x - 218 / 10| ≤ 1 / 2 ^ 13 := by
  have h12 : lit 12 1 = fin false 12582912 (-20) := by decide
  have h60 : lit 1 60 = fin false 8947849 (-29) := by decide
  have hz : (0 : F32) = fin false 0 (-149) := rfl
  have hl : length (quickParticle.position - quickParticle.oldPosition) = lit 12 1 := by decide
  have hb0 : Bounded 16 (⟨0, 0, 0⟩ : Vec3 F32) := by
    refine ⟨⟨isFin_fin _ _ _, isFin_fin _ _ _, isFin_fin _ _ _⟩, ?_, ?_, ?_⟩ <;>
      simp [hz, val_fin]
  have hv12 : val (lit 12 1) = 12 := by
    rw [h12, val_fin]
    norm_num [zpow_neg]
  have hb12 : Bounded 16 (⟨lit 12 1, 0, 0⟩ : Vec3 F32) := by
    refine ⟨⟨by rw [h12]; exact isFin_fin _ _ _, isFin_fin _ _ _, isFin_fin _ _ _⟩, ?_, ?_, ?_⟩
    · rw [hv12]
      norm_num
    · simp [hz, val_fin]
    · simp [hz, val_fin]
  have hdt : |val (lit 1 60)| ≤ 1 := by
    rw [h60, val_fin]
    norm_num [zpow_neg, abs_of_nonneg]
  have key := ((Particle.update_formula quickParticle (lit 1 60) hb12 hb0 hb0
    (by rw [h60]; exact isFin_fin _ _ _) hdt).2.1 rfl).2.2.1
  rw [hl, hv12] at key
  have e : (stepFormula (vals quickParticle.position) (vals quickParticle.oldPosition)
      (vals quickParticle.acceleration) (val (lit 1 60)) 12).x = 218 / 10 := by
    have hz0 : val (0 : F32) = 0 := by simp [hz, val_fin]
    have hc : clampSpeed 12 (vals quickParticle.position - vals quickParticle.oldPosition) =
        (vals quickParticle.position - vals quickParticle.oldPosition) * (10 : ℚ) / (12 : ℚ) :=
      if_neg (by norm_num)
    unfold stepFormula
    rw [hc]
    show val (lit 12 1) + (val (lit 12 1) - val (0 : F32)) * 10 / 12 * (98 / 100) +
      val (0 : F32) * val (lit 1 60) ^ 2 = 218 / 10
    rw [hv12, hz0]
    norm_num
  have key2 : |val (Particle.update quickParticle (lit 1 60)).position.x -
      (stepFormula (vals quickParticle.position) (vals quickParticle.oldPosition)
      (vals quickParticle.acceleration) (val (lit 1 60)) 12).x| ≤ 1 / 2 ^ 13 := key
  rw [e] at key2
  exact ⟨hl, key2⟩

end Binary32

/-! ## One call of the constraint solver in binary32 -/

namespace Binary32

open F32

set_option maxRecDepth 100000

/-- One component of the correction `delta * correctionAmount * 0.5f * stiffness` of
`Constraint::solve`, for a current length `L` between `2^-11` and 28, a rest distance in
`[0, 8]`, a stiffness in `[0, 1]` and a component of `delta` that is not longer than `L`:
a finite float within `20 / 2^20` of `x * ((L - r) / L) * (1 / 2) * k`. -/
theorem correction_component (dc L r k : F32) (hd : IsFin dc) (hL : IsFin L) (hr : IsFin r)
    (hk : IsFin k) (hℓ1 : 1 / 2 ^ 11 ≤ val L) (hℓ2 : val L ≤ 28) (hr0 : 0 ≤ val r)
    (hr1 : val r ≤ 8) (hk0 : 0 ≤ val k) (hk1 : val k ≤ 1)
    (hx : |val dc| ≤ val L * (1 + 1 / 2 ^ 17)) :
    Approx (20 / 2 ^ 20) (val dc * ((val L - val r) / val L) * (1 / 2) * val k)
      (dc * ((L - r) / L) * lit 5 10 * k) ∧
    |val dc * ((val L - val r) / val L) * (1 / 2) * val k| ≤ 15 := by
  have hℓ0 : 0 < val L := lt_of_lt_of_le (by norm_num) hℓ1
  have hlr : |val L - val r| ≤ 28 := by
    rw [abs_le]
    constructor <;> linarith
  -- the difference `currentDist - restDistance`
  have ht := sub_near_of_lt L r hL hr (lt_of_le_of_lt hlr (by norm_num))
  have ht2 : |val (L - r) - (val L - val r)| ≤ 7 / 2 ^ 20 + 1 / 2 ^ 149 := by
    have h1 := ht.2
    have h2 : |val L - val r| / 2 ^ 22 ≤ 28 / 2 ^ 22 := div_le_div_of_nonneg_right hlr (by positivity)
    have h3 : (28 : ℚ) / 2 ^ 22 = 7 / 2 ^ 20 := by norm_num
    linarith
  have ht3 : |val (L - r)| ≤ 29 := by
    have h1 := near_abs_le _ _ ht 28 hlr
    have h2 : (28 : ℚ) + 28 / 2 ^ 22 + 1 / 2 ^ 149 ≤ 29 := by norm_num
    linarith
  -- the quotient `correctionAmount`
  have hq : |val (L - r) / val L| ≤ 29 * 2 ^ 11 := by
    rw [abs_div, abs_of_pos hℓ0, div_le_iff₀ hℓ0]
    have h1 : (29 : ℚ) * 2 ^ 11 * (1 / 2 ^ 11) ≤ 29 * 2 ^ 11 * val L :=
      mul_le_mul_of_nonneg_left hℓ1 (by norm_num)
    have h2 : (29 : ℚ) * 2 ^ 11 * (1 / 2 ^ 11) = 29 := by norm_num
    linarith
  have hc := div_near_of_lt (L - r) L ht.1 hL hℓ0.ne' (lt_of_le_of_lt hq (by norm_num))
  -- the product `delta * correctionAmount`
  have hxl : |val dc| / val L ≤ 1 + 1 / 2 ^ 17 := by
    rw [div_le_iff₀ hℓ0]
    linarith
  have hx29 : |val dc| ≤ 29 := by
    have h1 : val L * (1 + 1 / 2 ^ 17) ≤ 28 * (1 + 1 / 2 ^ 17) :=
      mul_le_mul_of_nonneg_right hℓ2 (by norm_num)
    have h2 : (28 : ℚ) * (1 + 1 / 2 ^ 17) ≤ 29 := by norm_num
    linarith
  have hg : |val dc * ((val L - val r) / val L)| ≤ 29 := by
    have e : val dc * ((val L - val r) / val L) = val dc / val L * (val L - val r) := by
      field_simp
    rw [e, abs_mul, abs_div, abs_of_pos hℓ0]
    have h1 := mul_le_mul hxl hlr (abs_nonneg _) (by norm_num : (0 : ℚ) ≤ 1 + 1 / 2 ^ 17)
    have h2 : ((1 : ℚ) + 1 / 2 ^ 17) * 28 ≤ 29 := by norm_num
    linarith
  have hD1 : |val dc * val ((L - r) / L) - val dc * ((val L - val r) / val L)| ≤
      15 / 2 ^ 20 := by
    have e : val dc * val ((L - r) / L) - val dc * ((val L - val r) / val L) =
        val dc * (val ((L - r) / L) - val (L - r) / val L) +
          val dc / val L * (val (L - r) - (val L - val r)) := by
      field_simp
      ring
    rw [e]
    have h1 : |val dc * (val ((L - r) / L) - val (L - r) / val L)| ≤
        (1 + 1 / 2 ^ 17) * (29 / 2 ^ 22) + 29 * (1 / 2 ^ 149) := by
      rw [abs_mul]
      have h2 := hc.2
      have h3 : |val dc| * |val ((L - r) / L) - val (L - r) / val L| ≤
          |val dc| * (|val (L - r) / val L| / 2 ^ 22 + 1 / 2 ^ 149) :=
        mul_le_mul_of_nonneg_left h2 (abs_nonneg _)
      have h4 : |val dc| * (|val (L - r) / val L| / 2 ^ 22 + 1 / 2 ^ 149) =
          |val dc| / val L * (|val (L - r)| / 2 ^ 22) + |val dc| * (1 / 2 ^ 149) := by
        rw [abs_div, abs_of_pos hℓ0]
        field_simp
        ring
      have h5 : |val dc| / val L * (|val (L - r)| / 2 ^ 22) ≤
          (1 + 1 / 2 ^ 17) * (29 / 2 ^ 22) :=
        mul_le_mul hxl (div_le_div_of_nonneg_right ht3 (by positivity)) (by positivity)
          (by norm_num)
      have h6 : |val dc| * (1 / 2 ^ 149) ≤ 29 * (1 / 2 ^ 149) :=
        mul_le_mul_of_nonneg_right hx29 (by positivity)
      linarith
    have h7 : |val dc / val L * (val (L - r) - (val L - val r))| ≤
        (1 + 1 / 2 ^ 17) * (7 / 2 ^ 20 + 1 / 2 ^ 149) := by
      rw [abs_mul, abs_div, abs_of_pos hℓ0]
      exact mul_le_mul hxl ht2 (abs_nonneg _) (by norm_num)
    have h8 : ((1 : ℚ) + 1 / 2 ^ 17) * (29 / 2 ^ 22) + 29 * (1 / 2 ^ 149) +
        (1 + 1 / 2 ^ 17) * (7 / 2 ^ 20 + 1 / 2 ^ 149) ≤ 15 / 2 ^ 20 := by norm_num
    exact (abs_add _ _).trans (by linarith)
  have hB1 : |val dc * val ((L - r) / L)| ≤ 30 := by
    have e : val dc * val ((L - r) / L) =
        (val dc * val ((L - r) / L) - val dc * ((val L - val r) / val L)) +
          val dc * ((val L - val r) / val L) := by ring
    rw [e]
    have h1 : (15 : ℚ) / 2 ^ 20 + 29 ≤ 30 := by norm_num
    exact (abs_add _ _).trans (by linarith)
  have hn1 := mul_near_of_lt dc ((L - r) / L) hd hc.1 (lt_of_le_of_lt hB1 (by norm_num))
  have h1 := (approx_of_near hn1 hD1 hB1).mono (by norm_num : _ ≤ (23 : ℚ) / 2 ^ 20)
  -- times `0.5f`
  have hhalf := approx_val (lit 5 10) (by rw [lit_half]; exact isFin_fin _ _ _)
  rw [val_lit_half] at hhalf
  have h2 := (approx_mul h1 hhalf hg (by norm_num [abs_le] : |(1 : ℚ) / 2| ≤ 1 / 2)
    (by norm_num)).mono (by norm_num : _ ≤ (16 : ℚ) / 2 ^ 20)
  have hg2 : |val dc * ((val L - val r) / val L) * (1 / 2)| ≤ 29 / 2 := by
    rw [abs_mul]
    have := mul_le_mul hg (by norm_num [abs_le] : |(1 : ℚ) / 2| ≤ 1 / 2) (abs_nonneg _)
      (by norm_num : (0 : ℚ) ≤ 29)
    linarith
  -- times `stiffness`
  have hkb : |val k| ≤ 1 := by
    rw [abs_le]
    constructor <;> linarith
  have h3 := (approx_mul h2 (approx_val k hk) hg2 hkb (by norm_num)).mono
    (by norm_num : _ ≤ (20 : ℚ) / 2 ^ 20)
  refine ⟨h3, ?_⟩
  rw [abs_mul]
  have := mul_le_mul hg2 hkb (abs_nonneg _) (by norm_num : (0 : ℚ) ≤ 29 / 2)
  linarith

end Binary32

namespace F32

theorem Approx.retarget {ε δ x x' : ℚ} {c : F32} (h : Approx ε x c) (hx : |x - x'| ≤ δ) :
    Approx (ε + δ) x' c := by
  refine ⟨h.1, ?_⟩
  have e : val c - x' = (val c - x) + (x - x') := by ring
  rw [e]
  exact (abs_add _ _).trans (by linarith [h.2])

end F32

namespace Binary32

open F32

set_option maxRecDepth 100000

/-- One component of the difference of the two positions after `Constraint::solve`, for
positions of magnitude at most 8 and a correction `c3` within `20 / 2^20` of `y`: a finite
float within `69 / 2^20` of the component of `delta` minus `y` for each unpinned endpoint;
`pa` and `pb` say whether the endpoints are pinned. -/
theorem delta_component (Ac Bc c3 : F32) (pa pb : Bool) (y : ℚ) (hA : IsFin Ac)
    (hAb : |val Ac| ≤ 8) (hB : IsFin Bc) (hBb : |val Bc| ≤ 8) (hc : Approx (20 / 2 ^ 20) y c3)
    (hy : |y| ≤ 15) :
    Approx (69 / 2 ^ 20)
      (val (Bc - Ac) - ((if pa then (0 : ℚ) else 1) + (if pb then (0 : ℚ) else 1)) * y)
      ((if pb then Bc else Bc - c3) - (if pa then Ac else Ac + c3)) ∧
    |val ((if pb then Bc else Bc - c3) - (if pa then Ac else Ac + c3))| ≤ 48 := by
  have ha' : Approx (26 / 2 ^ 20) (val Ac + (if pa then (0 : ℚ) else 1) * y)
      (if pa then Ac else Ac + c3) ∧ |val Ac + (if pa then (0 : ℚ) else 1) * y| ≤ 23 := by
    cases pa
    · simp only [Bool.false_eq_true, if_false, one_mul]
      exact ⟨(approx_add (approx_val Ac hA) hc hAb hy (by norm_num)).mono (by norm_num),
        (abs_add _ _).trans (by linarith)⟩
    · simp only [if_true, zero_mul, add_zero]
      exact ⟨(approx_val Ac hA).mono (by norm_num), by linarith⟩
  have hb' : Approx (26 / 2 ^ 20) (val Bc - (if pb then (0 : ℚ) else 1) * y)
      (if pb then Bc else Bc - c3) ∧ |val Bc - (if pb then (0 : ℚ) else 1) * y| ≤ 23 := by
    cases pb
    · simp only [Bool.false_eq_true, if_false, one_mul]
      exact ⟨(approx_sub (approx_val Bc hB) hc hBb hy (by norm_num)).mono (by norm_num),
        (abs_sub _ _).trans (by linarith)⟩
    · simp only [if_true, zero_mul, sub_zero]
      exact ⟨(approx_val Bc hB).mono (by norm_num), by linarith⟩
  have hd := (approx_sub hb'.1 ha'.1 hb'.2 ha'.2 (by norm_num)).mono
    (by norm_num : _ ≤ (64 : ℚ) / 2 ^ 20)
  have h16 : |val Bc - val Ac| ≤ 16 := (abs_sub _ _).trans (by linarith)
  have hn := sub_near_of_lt Bc Ac hB hA (lt_of_le_of_lt h16 (by norm_num))
  have hsh : |val Bc - (if pb then (0 : ℚ) else 1) * y -
      (val Ac + (if pa then (0 : ℚ) else 1) * y) -
      (val (Bc - Ac) - ((if pa then (0 : ℚ) else 1) + (if pb then (0 : ℚ) else 1)) * y)| ≤
      5 / 2 ^ 20 := by
    have e : val Bc - (if pb then (0 : ℚ) else 1) * y -
        (val Ac + (if pa then (0 : ℚ) else 1) * y) -
        (val (Bc - Ac) - ((if pa then (0 : ℚ) else 1) + (if pb then (0 : ℚ) else 1)) * y) =
        -(val (Bc - Ac) - (val Bc - val Ac)) := by ring
    rw [e, abs_neg]
    have h1 := hn.2
    have h2 : |val Bc - val Ac| / 2 ^ 22 ≤ 16 / 2 ^ 22 :=
      div_le_div_of_nonneg_right h16 (by positivity)
    have h3 : (16 : ℚ) / 2 ^ 22 + 1 / 2 ^ 149 ≤ 5 / 2 ^ 20 := by norm_num
    linarith
  refine ⟨(hd.retarget hsh).mono (by norm_num), ?_⟩
  have h46 : |val Bc - (if pb then (0 : ℚ) else 1) * y -
      (val Ac + (if pa then (0 : ℚ) else 1) * y)| ≤ 46 :=
    (abs_sub _ _).trans (by linarith [hb'.2, ha'.2])
  have := hd.abs_le h46
  have h48 : (46 : ℚ) + 64 / 2 ^ 20 ≤ 48 := by norm_num
  linarith

end Binary32

section analysis6

set_option maxRecDepth 10000

/-- The squared length of a vector in terms of its float length `ℓ ≥ 2^-11`. -/
theorem sq_le_len (S ℓ : ℚ) (hℓ : 1 / 2 ^ 11 ≤ ℓ)
    (hS : |ℓ ^ 2 - S| ≤ S / 2 ^ 18 + 1 / 2 ^ 120) : S ≤ ℓ ^ 2 * (1 + 1 / 2 ^ 17) := by
  have hL2 : (1 / 2 ^ 11) ^ 2 ≤ ℓ ^ 2 := pow_le_pow_left₀ (by norm_num) hℓ 2
  have hζ : (1 : ℚ) / 2 ^ 120 ≤ ℓ ^ 2 * (1 / 2 ^ 98) := by
    have := mul_le_mul_of_nonneg_right hL2 (by norm_num : (0 : ℚ) ≤ 1 / 2 ^ 98)
    have h2 : ((1 : ℚ) / 2 ^ 11) ^ 2 * (1 / 2 ^ 98) = 1 / 2 ^ 120 := by norm_num
    linarith
  obtain ⟨s1, s2⟩ := abs_le.mp hS
  generalize (1 : ℚ) / 2 ^ 120 = ζ at hζ s1 s2
  have h0 := sq_nonneg ℓ
  linarith

/-- The length that the claim gives after one `solve()`, `r + (1 - k * m / 2) * (ℓ - r)`, is
between 0 and 28 for `ℓ ≤ 28`, `r` in `[0, 8]`, `k` in `[0, 1]` and `m` in `[0, 2]`. -/
theorem target_range (ℓ r k m : ℚ) (hℓ0 : 0 ≤ ℓ) (hℓ : ℓ ≤ 28) (hr0 : 0 ≤ r) (hr1 : r ≤ 8)
    (hk0 : 0 ≤ k) (hk1 : k ≤ 1) (hm0 : 0 ≤ m) (hm2 : m ≤ 2) :
    0 ≤ r + (1 - k * m / 2) * (ℓ - r) ∧ r + (1 - k * m / 2) * (ℓ - r) ≤ 28 := by
  have hq0 : 0 ≤ 1 - k * m / 2 := by
    have := mul_le_mul hk1 hm2 hm0 (by norm_num : (0 : ℚ) ≤ 1)
    linarith
  have hq1 : 1 - k * m / 2 ≤ 1 := by
    have := mul_nonneg hk0 hm0
    linarith
  have e : r + (1 - k * m / 2) * (ℓ - r) = (1 - (1 - k * m / 2)) * r + (1 - k * m / 2) * ℓ := by
    ring
  rw [e]
  generalize 1 - k * m / 2 = q at hq0 hq1
  have h1 : 0 ≤ (1 - q) * r := mul_nonneg (by linarith) hr0
  have h2 : 0 ≤ q * ℓ := mul_nonneg hq0 hℓ0
  have h3 : (1 - q) * r ≤ (1 - q) * 28 := mul_le_mul_of_nonneg_left (by linarith) (by linarith)
  have h4 : q * ℓ ≤ q * 28 := mul_le_mul_of_nonneg_left hℓ hq0
  constructor <;> linarith

end analysis6

namespace Binary32

open F32

set_option maxRecDepth 100000

theorem Bounded.of_le {b b' : ℚ} {v : Vec3 F32} (h : Bounded b v) (hb : b ≤ b') :
    Bounded b' v :=
  ⟨h.1, h.2.1.trans hb, h.2.2.1.trans hb, h.2.2.2.trans hb⟩

theorem addCorrection_position (corr : Vec3 F32) (p : Particle F32) :
    (addCorrection corr p).position =
      ⟨if p.isPinned then p.position.x else p.position.x + corr.x,
        if p.isPinned then p.position.y else p.position.y + corr.y,
        if p.isPinned then p.position.z else p.position.z + corr.z⟩ := by
  unfold addCorrection
  cases p.isPinned <;> rfl

theorem subCorrection_position (corr : Vec3 F32) (p : Particle F32) :
    (subCorrection corr p).position =
      ⟨if p.isPinned then p.position.x else p.position.x - corr.x,
        if p.isPinned then p.position.y else p.position.y - corr.y,
        if p.isPinned then p.position.z else p.position.z - corr.z⟩ := by
  unfold subCorrection
  cases p.isPinned <;> rfl

/-- The method `Constraint::solve` on two different particles when the current length is not
zero: the correction is added to the first particle and subtracted from the second, unless
that particle is pinned. -/
theorem solve_of_ne (c : Constraint F32) (ps : List (Particle F32)) (a b : Particle F32)
    (ha : ps[c.p1]? = some a) (hb : ps[c.p2]? = some b) (hij : c.p1 ≠ c.p2)
    (hne : F32.eq (length (b.position - a.position)) (lit 0 1) = false) :
    (Constraint.solve c ps)[c.p1]? = some (addCorrection ((b.position - a.position) *
      ((length (b.position - a.position) - c.restDistance) / length (b.position - a.position)) *
        lit 5 10 * c.stiffness) a) ∧
    (Constraint.solve c ps)[c.p2]? = some (subCorrection ((b.position - a.position) *
      ((length (b.position - a.position) - c.restDistance) / length (b.position - a.position)) *
        lit 5 10 * c.stiffness) b) := by
  unfold Constraint.solve
  rw [ha, hb]
  dsimp only
  rw [hne]
  simp only [Bool.false_eq_true, if_false]
  constructor
  · rw [List.getElem?_modify_ne _ _ (Ne.symm hij), List.getElem?_modify_eq, ha]
    rfl
  · rw [List.getElem?_modify_eq, List.getElem?_modify_ne _ _ hij, hb]
    rfl

end Binary32

namespace Binary32

open F32

set_option maxRecDepth 100000

theorem currentDist_eq (c : Constraint F32) (ps : List (Particle F32)) (a b : Particle F32)
    (ha : ps[c.p1]? = some a) (hb : ps[c.p2]? = some b) :
    Constraint.currentDist c ps = length (b.position - a.position) := by
  unfold Constraint.currentDist
  rw [ha, hb]

/-- The float length of the difference of two points with coordinates of magnitude at most 8
that are at least `2^-10` apart is between `2^-11` and 28, and its square is the squared
distance of the points up to one part in `2^16`. -/
theorem length_range (P Q : Vec3 F32) (hP : Bounded 8 P) (hQ : Bounded 8 Q)
    (hD : 1 / 2 ^ 20 ≤ sqDist P Q) :
    1 / 2 ^ 11 ≤ val (length (P - Q)) ∧ val (length (P - Q)) ≤ 28 ∧ IsFin (length (P - Q)) ∧
      |val (length (P - Q)) ^ 2 - sqDist P Q| ≤ sqDist P Q / 2 ^ 16 := by
  obtain ⟨hf, h0, hsq⟩ := length_sub P Q (hP.of_le (by norm_num)) (hQ.of_le (by norm_num))
  obtain ⟨-, hbx, hby, hbz⟩ := hP
  obtain ⟨-, hcx, hcy, hcz⟩ := hQ
  have hc : ∀ p q : ℚ, |p| ≤ 8 → |q| ≤ 8 → (p - q) ^ 2 ≤ 256 := by
    intro p q hp hq
    have h1 : |p - q| ≤ 16 := (abs_sub _ _).trans (by linarith)
    have h2 := pow_le_pow_left₀ (abs_nonneg _) h1 2
    rw [sq_abs] at h2
    linarith
  have hup : sqDist P Q ≤ 768 := by
    unfold sqDist
    have h1 := hc _ _ hbx hcx
    have h2 := hc _ _ hby hcy
    have h3 := hc _ _ hbz hcz
    linarith
  obtain ⟨s1, s2⟩ := abs_le.mp hsq
  have hη : (1 : ℚ) / 2 ^ 99 ≤ 1 / 2 ^ 40 := by norm_num
  have hη2 : (1 : ℚ) / 2 ^ 99 ≤ 1 / 2 ^ 20 / 2 ^ 17 := by norm_num
  have hdiv : (1 : ℚ) / 2 ^ 20 / 2 ^ 17 ≤ sqDist P Q / 2 ^ 17 :=
    div_le_div_of_nonneg_right hD (by norm_num)
  have hdiv2 : sqDist P Q / 2 ^ 17 ≤ 768 / 2 ^ 17 :=
    div_le_div_of_nonneg_right hup (by norm_num)
  have h16 : sqDist P Q / 2 ^ 16 = sqDist P Q / 2 ^ 17 + sqDist P Q / 2 ^ 17 := by ring
  have h17 : sqDist P Q / 2 ^ 17 = sqDist P Q * (1 / 2 ^ 17) := by ring
  generalize (1 : ℚ) / 2 ^ 99 = η at hη hη2 s1 s2
  refine ⟨?_, ?_, hf, ?_⟩
  · by_contra hlt
    rw [not_le] at hlt
    have h2 := pow_lt_pow_left₀ hlt h0 (by norm_num : (2 : ℕ) ≠ 0)
    have h3 : ((1 : ℚ) / 2 ^ 11) ^ 2 = 1 / 2 ^ 22 := by norm_num
    have h4 : (1 : ℚ) / 2 ^ 22 + 1 / 2 ^ 40 ≤ 1 / 2 ^ 20 * (1 - 1 / 2 ^ 17) := by norm_num
    have h5 : 1 / 2 ^ 20 * (1 - 1 / 2 ^ 17) ≤ sqDist P Q * (1 - 1 / 2 ^ 17) :=
      mul_le_mul_of_nonneg_right hD (by norm_num)
    rw [h3] at h2
    rw [h17] at s1
    linarith
  · by_contra hgt
    rw [not_le] at hgt
    have h2 := pow_lt_pow_left₀ hgt (by norm_num) (by norm_num : (2 : ℕ) ≠ 0)
    have h3 : (768 : ℚ) + 768 / 2 ^ 17 + 1 / 2 ^ 40 ≤ 28 ^ 2 := by norm_num
    linarith
  · rw [abs_le, h16]
    constructor <;> linarith

theorem val_lit_zero : val (lit 0 1) = 0 := by
  rw [lit_zero]
  exact val_zero _ _

theorem free_range (p : Particle F32) : 0 ≤ free p ∧ free p ≤ 1 := by
  unfold free
  cases p.isPinned <;> simp

/-- A coordinate of magnitude at most 8 moved by a correction of magnitude at most 15 is a
finite float of magnitude at most 32. -/
theorem moved_component (Ac c3 : F32) (p : Bool) (y : ℚ) (hA : IsFin Ac) (hAb : |val Ac| ≤ 8)
    (hc : Approx (20 / 2 ^ 20) y c3) (hy : |y| ≤ 15) :
    (IsFin (if p then Ac else Ac + c3) ∧ |val (if p then Ac else Ac + c3)| ≤ 32) ∧
    (IsFin (if p then Ac else Ac - c3) ∧ |val (if p then Ac else Ac - c3)| ≤ 32) := by
  cases p
  · simp only [Bool.false_eq_true, if_false]
    have h1 := approx_add (approx_val Ac hA) hc hAb hy (by norm_num)
    have h2 := approx_sub (approx_val Ac hA) hc hAb hy (by norm_num)
    have b1 : |val Ac + y| ≤ 23 := (abs_add _ _).trans (by linarith)
    have b2 : |val Ac - y| ≤ 23 := (abs_sub _ _).trans (by linarith)
    exact ⟨⟨h1.1, (h1.abs_le b1).trans (by norm_num)⟩, ⟨h2.1, (h2.abs_le b2).trans (by norm_num)⟩⟩
  · simp only [if_true]
    exact ⟨⟨hA, by linarith⟩, ⟨hA, by linarith⟩⟩

theorem addCorrection_isPinned (corr : Vec3 F32) (p : Particle F32) :
    (addCorrection corr p).isPinned = p.isPinned ∧
      (p.isPinned = true → addCorrection corr p = p) := by
  unfold addCorrection
  cases h : p.isPinned <;> simp [h]

theorem subCorrection_isPinned (corr : Vec3 F32) (p : Particle F32) :
    (subCorrection corr p).isPinned = p.isPinned ∧
      (p.isPinned = true → subCorrection corr p = p) := by
  unfold subCorrection
  cases h : p.isPinned <;> simp [h]

/-- One call of `Constraint::solve()` in binary32, for endpoints with coordinates of
magnitude at most 8 that are at least `2^-10` apart, a rest distance in `[0, 8]` and a
stiffness in `[0, 1]`: the call keeps the pinned endpoints, the new coordinates are finite
floats of magnitude at most 32, and the float length of the new difference of the endpoints
is within `2^-10` of `r + (1 - k * m / 2) * (ℓ - r)`, where `ℓ` is the float length of the
difference before the call and `m` the number of unpinned endpoints. -/
theorem solve_rounded_step (c : Constraint F32) (ps : List (Particle F32)) (a b : Particle F32)
    (ha : ps[c.p1]? = some a) (hb : ps[c.p2]? = some b)
    (hA : Bounded 8 a.position) (hB : Bounded 8 b.position)
    (hr : IsFin c.restDistance) (hr0 : 0 ≤ val c.restDistance) (hr1 : val c.restDistance ≤ 8)
    (hk : IsFin c.stiffness) (hk0 : 0 ≤ val c.stiffness) (hk1 : val c.stiffness ≤ 1)
    (hD : 1 / 2 ^ 20 ≤ sqDist b.position a.position) :
    ∃ a' b' : Particle F32,
      (Constraint.solve c ps)[c.p1]? = some a' ∧ (Constraint.solve c ps)[c.p2]? = some b' ∧
      a'.isPinned = a.isPinned ∧ b'.isPinned = b.isPinned ∧
      (a.isPinned = true → a' = a) ∧ (b.isPinned = true → b' = b) ∧
      Bounded 32 a'.position ∧ Bounded 32 b'.position ∧
      IsFin (length (b'.position - a'.position)) ∧
      |val (length (b'.position - a'.position)) -
        (val c.restDistance + (1 - val c.stiffness * (free a + free b) / 2) *
          (val (length (b.position - a.position)) - val c.restDistance))| ≤ 1 / 2 ^ 10 := by
  have hij : c.p1 ≠ c.p2 := by
    intro h
    rw [h, hb] at ha
    have hab : b = a := Option.some.inj ha
    rw [hab] at hD
    have h0 : sqDist a.position a.position = 0 := by
      unfold sqDist
      ring
    rw [h0] at hD
    norm_num at hD
  obtain ⟨hℓ1, hℓ2, hLf, -⟩ := length_range b.position a.position hB hA hD
  obtain ⟨⟨hAx, hAy, hAz⟩, hax, hay, haz⟩ := hA
  obtain ⟨⟨hBx, hBy, hBz⟩, hbx, hby, hbz⟩ := hB
  have h816 : (8 : ℚ) ≤ 16 := by norm_num
  obtain ⟨dx, bx, -⟩ := velocity_component b.position.x a.position.x hBx (hbx.trans h816) hAx
    (hax.trans h816)
  obtain ⟨dy, b_y, -⟩ := velocity_component b.position.y a.position.y hBy (hby.trans h816) hAy
    (hay.trans h816)
  obtain ⟨dz, bz, -⟩ := velocity_component b.position.z a.position.z hBz (hbz.trans h816) hAz
    (haz.trans h816)
  have h33 : (32 : ℚ) + 9 / 2 ^ 20 ≤ 2 ^ 18 := by norm_num
  have hd : Bounded (2 ^ 18) (b.position - a.position) :=
    ⟨⟨dx.1, dy.1, dz.1⟩, (dx.abs_le bx).trans h33, (dy.abs_le b_y).trans h33,
      (dz.abs_le bz).trans h33⟩
  obtain ⟨-, hℓ0, hsq⟩ := length_sq (b.position - a.position) hd
  have hS : sqNorm (b.position - a.position) = val (b.position.x - a.position.x) ^ 2 +
      val (b.position.y - a.position.y) ^ 2 + val (b.position.z - a.position.z) ^ 2 := rfl
  have hSle := sq_le_len _ _ hℓ1 hsq
  have qx := sq_nonneg (val (b.position.x - a.position.x))
  have qy := sq_nonneg (val (b.position.y - a.position.y))
  have qz := sq_nonneg (val (b.position.z - a.position.z))
  have hcx := comp_le_len (val (b.position.x - a.position.x)) _ _
    (by rw [hS]; linarith) hℓ0 hSle
  have hcy := comp_le_len (val (b.position.y - a.position.y)) _ _
    (by rw [hS]; linarith) hℓ0 hSle
  have hcz := comp_le_len (val (b.position.z - a.position.z)) _ _
    (by rw [hS]; linarith) hℓ0 hSle
  -- the guard `currentDist == 0.0f` is not taken
  have hne : F32.eq (length (b.position - a.position)) (lit 0 1) = false := by
    rw [Bool.eq_false_iff]
    intro h
    rw [eq_iff _ _ hLf (by rw [lit_zero]; exact isFin_fin _ _ _), val_lit_zero] at h
    rw [h] at hℓ1
    norm_num at hℓ1
  obtain ⟨h1, h2⟩ := solve_of_ne c ps a b ha hb hij hne
  -- the three components of the correction and of the new difference
  obtain ⟨cx, cxb⟩ := correction_component (b.position.x - a.position.x) _ c.restDistance
    c.stiffness dx.1 hLf hr hk hℓ1 hℓ2 hr0 hr1 hk0 hk1 hcx
  obtain ⟨cy, cyb⟩ := correction_component (b.position.y - a.position.y) _ c.restDistance
    c.stiffness dy.1 hLf hr hk hℓ1 hℓ2 hr0 hr1 hk0 hk1 hcy
  obtain ⟨cz, czb⟩ := correction_component (b.position.z - a.position.z) _ c.restDistance
    c.stiffness dz.1 hLf hr hk hℓ1 hℓ2 hr0 hr1 hk0 hk1 hcz
  obtain ⟨ex, exb⟩ := delta_component a.position.x b.position.x _ a.isPinned b.isPinned _
    hAx hax hBx hbx cx cxb
  obtain ⟨ey, eyb⟩ := delta_component a.position.y b.position.y _ a.isPinned b.isPinned _
    hAy hay hBy hby cy cyb
  obtain ⟨ez, ezb⟩ := delta_component a.position.z b.position.z _ a.isPinned b.isPinned _
    hAz haz hBz hbz cz czb
  obtain ⟨mxa, -⟩ := moved_component a.position.x _ a.isPinned _ hAx hax cx cxb
  obtain ⟨mya, -⟩ := moved_component a.position.y _ a.isPinned _ hAy hay cy cyb
  obtain ⟨mza, -⟩ := moved_component a.position.z _ a.isPinned _ hAz haz cz czb
  obtain ⟨-, mxb⟩ := moved_component b.position.x _ b.isPinned _ hBx hbx cx cxb
  obtain ⟨-, myb⟩ := moved_component b.position.y _ b.isPinned _ hBy hby cy cyb
  obtain ⟨-, mzb⟩ := moved_component b.position.z _ b.isPinned _ hBz hbz cz czb
  refine ⟨_, _, h1, h2, (addCorrection_isPinned _ a).1, (subCorrection_isPinned _ b).1,
    (addCorrection_isPinned _ a).2, (subCorrection_isPinned _ b).2, ?_, ?_, ?_⟩
  · rw [addCorrection_position]
    exact ⟨⟨mxa.1, mya.1, mza.1⟩, mxa.2, mya.2, mza.2⟩
  · rw [subCorrection_position]
    exact ⟨⟨mxb.1, myb.1, mzb.1⟩, mxb.2, myb.2, mzb.2⟩
  rw [addCorrection_position, subCorrection_position]
  have h48 : (48 : ℚ) ≤ 2 ^ 18 := by norm_num
  obtain ⟨hf', h0', hsq'⟩ := length_sq _
    (⟨⟨ex.1, ey.1, ez.1⟩, exb.trans h48, eyb.trans h48, ezb.trans h48⟩ : Bounded (2 ^ 18)
      (⟨if b.isPinned then b.position.x else b.position.x -
          ((b.position - a.position) * ((length (b.position - a.position) - c.restDistance) /
            length (b.position - a.position)) * lit 5 10 * c.stiffness).x,
        if b.isPinned then b.position.y else b.position.y -
          ((b.position - a.position) * ((length (b.position - a.position) - c.restDistance) /
            length (b.position - a.position)) * lit 5 10 * c.stiffness).y,
        if b.isPinned then b.position.z else b.position.z -
          ((b.position - a.position) * ((length (b.position - a.position) - c.restDistance) /
            length (b.position - a.position)) * lit 5 10 * c.stiffness).z⟩ -
       ⟨if a.isPinned then a.position.x else a.position.x +
          ((b.position - a.position) * ((length (b.position - a.position) - c.restDistance) /
            length (b.position - a.position)) * lit 5 10 * c.stiffness).x,
        if a.isPinned then a.position.y else a.position.y +
          ((b.position - a.position) * ((length (b.position - a.position) - c.restDistance) /
            length (b.position - a.position)) * lit 5 10 * c.stiffness).y,
        if a.isPinned then a.position.z else a.position.z +
          ((b.position - a.position) * ((length (b.position - a.position) - c.restDistance) /
            length (b.position - a.position)) * lit 5 10 * c.stiffness).z⟩ : Vec3 F32))
  refine ⟨hf', ?_⟩
  have hm : (if a.isPinned then (0 : ℚ) else 1) + (if b.isPinned then (0 : ℚ) else 1) =
      free a + free b := rfl
  obtain ⟨fa0, fa1⟩ := free_range a
  obtain ⟨fb0, fb1⟩ := free_range b
  have hℓpos : 0 < val (length (b.position - a.position)) := lt_of_lt_of_le (by norm_num) hℓ1
  obtain ⟨hT0, hT1⟩ := target_range (val (length (b.position - a.position)))
    (val c.restDistance) (val c.stiffness) (free a + free b) hℓ0 hℓ2 hr0 hr1 hk0 hk1
    (by linarith) (by linarith)
  have ex2 := ex.2
  have ey2 := ey.2
  have ez2 := ez.2
  rw [hm] at ex2 ey2 ez2
  have hsq2 := hsq
  rw [hS] at hsq2
  have hτℓ : (1 - (free a + free b) * ((val (length (b.position - a.position)) -
      val c.restDistance) / val (length (b.position - a.position)) * (1 / 2) *
        val c.stiffness)) * val (length (b.position - a.position)) =
      val c.restDistance + (1 - val c.stiffness * (free a + free b) / 2) *
        (val (length (b.position - a.position)) - val c.restDistance) := by
    field_simp
    ring
  have hτ : 0 ≤ 1 - (free a + free b) * ((val (length (b.position - a.position)) -
      val c.restDistance) / val (length (b.position - a.position)) * (1 / 2) *
        val c.stiffness) := by
    rw [← hτℓ] at hT0
    exact nonneg_of_mul_nonneg_left hT0 hℓpos
  have hxe : ∀ x : ℚ, x - (free a + free b) * (x * ((val (length (b.position - a.position)) -
      val c.restDistance) / val (length (b.position - a.position))) * (1 / 2) *
        val c.stiffness) = (1 - (free a + free b) * ((val (length (b.position - a.position)) -
      val c.restDistance) / val (length (b.position - a.position)) * (1 / 2) *
        val c.stiffness)) * x := by
    intro x
    ring
  rw [hxe] at ex2 ey2 ez2
  have key := dist_after _ _ _ _ _ _ _ _ _ (69 / 2 ^ 20) hτ hℓ1 (by norm_num) hsq2
    ex2 ey2 ez2 h0' hsq'
  rw [hτℓ] at key
  refine key.trans ?_
  have h1 : (val c.restDistance + (1 - val c.stiffness * (free a + free b) / 2) *
      (val (length (b.position - a.position)) - val c.restDistance)) / 2 ^ 16 ≤ 28 / 2 ^ 16 :=
    div_le_div_of_nonneg_right hT1 (by norm_num)
  have h2 : (28 : ℚ) / 2 ^ 16 + 5 * (69 / 2 ^ 20) ≤ 1 / 2 ^ 10 := by norm_num
  linarith

/-- The float `glm::length(p2->position - p1->position)` after one call of
`Constraint::solve()`, under the conditions of `solve_rounded_step`. -/
theorem solve_length (c : Constraint F32) (ps : List (Particle F32)) (a b : Particle F32)
    (ha : ps[c.p1]? = some a) (hb : ps[c.p2]? = some b)
    (hA : Bounded 8 a.position) (hB : Bounded 8 b.position)
    (hr : IsFin c.restDistance) (hr0 : 0 ≤ val c.restDistance) (hr1 : val c.restDistance ≤ 8)
    (hk : IsFin c.stiffness) (hk0 : 0 ≤ val c.stiffness) (hk1 : val c.stiffness ≤ 1)
    (hD : 1 / 2 ^ 20 ≤ sqDist b.position a.position) :
    IsFin (Constraint.currentDist c (Constraint.solve c ps)) ∧
    |val (Constraint.currentDist c (Constraint.solve c ps)) -
      (val c.restDistance + (1 - val c.stiffness * (free a + free b) / 2) *
        (val (Constraint.currentDist c ps) - val c.restDistance))| ≤ 1 / 2 ^ 10 := by
  obtain ⟨a', b', h1, h2, -, -, -, -, -, -, h3, h4⟩ :=
    solve_rounded_step c ps a b ha hb hA hB hr hr0 hr1 hk hk0 hk1 hD
  rw [currentDist_eq c ps a b ha hb, currentDist_eq c _ a' b' h1 h2]
  exact ⟨h3, h4⟩

end Binary32

namespace Binary32

open F32

set_option maxRecDepth 100000

/-- The float `glm::length(P - Q)` for points with coordinates of magnitude at most 32: its
square is the squared distance of the points up to one part in `2^17`. -/
theorem length_sub_wide (P Q : Vec3 F32) (hP : Bounded 32 P) (hQ : Bounded 32 Q) :
    IsFin (length (P - Q)) ∧ 0 ≤ val (length (P - Q)) ∧
      |val (length (P - Q)) ^ 2 - sqDist P Q| ≤ sqDist P Q / 2 ^ 17 + 1 / 2 ^ 99 := by
  obtain ⟨⟨hPx, hPy, hPz⟩, hbx, hby, hbz⟩ := hP
  obtain ⟨⟨hQx, hQy, hQz⟩, hcx, hcy, hcz⟩ := hQ
  have comp : ∀ p q : F32, IsFin p → IsFin q → |val p| ≤ 32 → |val q| ≤ 32 →
      |val p - val q| ≤ 64 ∧ Near (val p - val q) (p - q) ∧ |val (p - q)| ≤ 2 ^ 18 := by
    intro p q hp hq hpb hqb
    have h64 : |val p - val q| ≤ 64 := (abs_sub _ _).trans (by linarith)
    have hn := sub_near_of_lt p q hp hq (lt_of_le_of_lt h64 (by norm_num))
    refine ⟨h64, hn, ?_⟩
    have h1 := abs_sub_abs_le_abs_sub (val (p - q)) (val p - val q)
    have h2 : |val p - val q| / 2 ^ 22 ≤ 64 / 2 ^ 22 :=
      div_le_div_of_nonneg_right h64 (by norm_num)
    have h3 : (64 : ℚ) + 64 / 2 ^ 22 + 1 / 2 ^ 149 ≤ 2 ^ 18 := by norm_num
    have h4 := hn.2
    linarith
  obtain ⟨bx, nx, wx⟩ := comp P.x Q.x hPx hQx hbx hcx
  obtain ⟨b_y, ny, wy⟩ := comp P.y Q.y hPy hQy hby hcy
  obtain ⟨bz, nz, wz⟩ := comp P.z Q.z hPz hQz hbz hcz
  have hd : Bounded (2 ^ 18) (P - Q) := ⟨⟨nx.1, ny.1, nz.1⟩, wx, wy, wz⟩
  obtain ⟨hf, h0, hsq⟩ := length_sq (P - Q) hd
  have hsum := sum_sq_wide _ _ _ _ _ _ bx b_y bz nx.2 ny.2 nz.2
  have hS : sqNorm (P - Q) = val (P.x - Q.x) ^ 2 + val (P.y - Q.y) ^ 2 + val (P.z - Q.z) ^ 2 :=
    rfl
  have hD : sqDist P Q = (val P.x - val Q.x) ^ 2 + (val P.y - val Q.y) ^ 2 +
      (val P.z - val Q.z) ^ 2 := rfl
  rw [← hS, ← hD] at hsum
  have hD0 : 0 ≤ sqDist P Q := by
    rw [hD]
    positivity
  refine ⟨hf, h0, ?_⟩
  obtain ⟨s1, s2⟩ := abs_le.mp hsum
  obtain ⟨t1, t2⟩ := abs_le.mp hsq
  have h1 : sqNorm (P - Q) / 2 ^ 18 ≤ (sqDist P Q + sqDist P Q / 2 ^ 20 + 1 / 2 ^ 100) / 2 ^ 18 :=
    div_le_div_of_nonneg_right (by linarith) (by positivity)
  have h2 : (sqDist P Q + sqDist P Q / 2 ^ 20 + 1 / 2 ^ 100) / 2 ^ 18 + sqDist P Q / 2 ^ 20 =
      sqDist P Q * (1 / 2 ^ 18 + 1 / 2 ^ 38 + 1 / 2 ^ 20) + 1 / 2 ^ 118 := by ring
  have h3 : sqDist P Q * (1 / 2 ^ 18 + 1 / 2 ^ 38 + 1 / 2 ^ 20) ≤ sqDist P Q * (1 / 2 ^ 17) :=
    mul_le_mul_of_nonneg_left (by norm_num) hD0
  have h4 : (1 : ℚ) / 2 ^ 118 + 1 / 2 ^ 100 + 1 / 2 ^ 120 ≤ 1 / 2 ^ 99 := by norm_num
  have h5 : sqDist P Q / 2 ^ 17 = sqDist P Q * (1 / 2 ^ 17) := by ring
  rw [h5, abs_le]
  constructor <;> linarith

theorem sqDist_comm (P Q : Vec3 F32) : sqDist P Q = sqDist Q P := by
  unfold sqDist
  ring

/-- A point at squared distance at most 26 from a point with coordinates of magnitude at
most 2 has coordinates of magnitude at most 8. -/
theorem bounded_of_anchor (P F : Vec3 F32) (hP : Bounded 2 P) (hF : Fin3 F)
    (hD : sqDist F P ≤ 26) : Bounded 8 F := by
  obtain ⟨-, hx, hy, hz⟩ := hP
  have comp : ∀ f p : ℚ, |p| ≤ 2 → (f - p) ^ 2 ≤ 26 → |f| ≤ 8 := by
    intro f p hp hfp
    have h1 : |f - p| ≤ 6 := abs_le_of_sq_le_sq (by linarith) (by norm_num)
    have h2 : |f| ≤ |f - p| + |p| := by
      have := abs_add (f - p) p
      rwa [sub_add_cancel] at this
    linarith
  have qx := sq_nonneg (val F.x - val P.x)
  have qy := sq_nonneg (val F.y - val P.y)
  have qz := sq_nonneg (val F.z - val P.z)
  unfold sqDist at hD
  exact ⟨hF, comp _ _ hx (by linarith), comp _ _ hy (by linarith), comp _ _ hz (by linarith)⟩

theorem free_sum_of_ne (a b : Particle F32) (h : a.isPinned ≠ b.isPinned) :
    free a + free b = 1 := by
  unfold free
  cases ha : a.isPinned <;> cases hb : b.isPinned <;> simp_all

theorem free_sum_of_free (a b : Particle F32) (ha : a.isPinned = false)
    (hb : b.isPinned = false) : free a + free b = 2 := by
  unfold free
  rw [ha, hb]
  norm_num

/-- One call of `Constraint::solve()` in binary32 with stiffness 1 on a constraint between a
pinned particle with coordinates of magnitude at most 2 and an unpinned particle, for a rest
distance in `[2^-7, 4]`: the conditions on the two particles hold again after the call, and
the distance of the float length from the rest distance is halved, up to `2^-10`. -/
theorem solve_anchored (c : Constraint F32) (ps : List (Particle F32)) (a b : Particle F32)
    (ha : ps[c.p1]? = some a) (hb : ps[c.p2]? = some b) (hpin : a.isPinned ≠ b.isPinned)
    (hPa : a.isPinned = true → Bounded 2 a.position)
    (hPb : b.isPinned = true → Bounded 2 b.position)
    (hA : Bounded 8 a.position) (hB : Bounded 8 b.position)
    (hr : IsFin c.restDistance) (hr0 : 1 / 2 ^ 7 ≤ val c.restDistance)
    (hr1 : val c.restDistance ≤ 4) (hk : IsFin c.stiffness) (hk1 : val c.stiffness = 1)
    (hD0 : 1 / 2 ^ 20 ≤ sqDist b.position a.position)
    (hD1 : sqDist b.position a.position ≤ 26) :
    ∃ a' b' : Particle F32,
      (Constraint.solve c ps)[c.p1]? = some a' ∧ (Constraint.solve c ps)[c.p2]? = some b' ∧
      a'.isPinned = a.isPinned ∧ b'.isPinned = b.isPinned ∧
      (a.isPinned = true → a' = a) ∧ (b.isPinned = true → b' = b) ∧
      Bounded 8 a'.position ∧ Bounded 8 b'.position ∧
      1 / 2 ^ 20 ≤ sqDist b'.position a'.position ∧ sqDist b'.position a'.position ≤ 26 ∧
      IsFin (length (b'.position - a'.position)) ∧
      |val (length (b'.position - a'.position)) - val c.restDistance| ≤
        |val (length (b.position - a.position)) - val c.restDistance| / 2 + 1 / 2 ^ 10 := by
  obtain ⟨a', b', h1, h2, pa, pb, ea, eb, ba, bb, hf, hL⟩ :=
    solve_rounded_step c ps a b ha hb hA hB hr (by linarith) (by linarith) hk (by linarith) hk1.le hD0
  rw [free_sum_of_ne a b hpin, hk1] at hL
  obtain ⟨hℓ1, -, -, hℓsq⟩ := length_range b.position a.position hB hA hD0
  obtain ⟨-, h0', hsq'⟩ := length_sub_wide b'.position a'.position bb ba
  obtain ⟨l1, l2⟩ := abs_le.mp hL
  obtain ⟨s1, s2⟩ := abs_le.mp hℓsq
  obtain ⟨t1, t2⟩ := abs_le.mp hsq'
  -- the length before the call is at most 5.1
  have hℓup : val (length (b.position - a.position)) ≤ 51 / 10 := by
    by_contra hgt
    rw [not_le] at hgt
    have h2 := pow_lt_pow_left₀ hgt (by norm_num) (by norm_num : (2 : ℕ) ≠ 0)
    have h3 : sqDist b.position a.position / 2 ^ 16 ≤ 26 / 2 ^ 16 :=
      div_le_div_of_nonneg_right hD1 (by norm_num)
    have h4 : (26 : ℚ) + 26 / 2 ^ 16 ≤ (51 / 10) ^ 2 := by norm_num
    linarith
  -- the length after the call is between 3 * 2^-10 and 4.56
  have hup : val (length (b'.position - a'.position)) ≤ 456 / 100 := by
    have : (1 : ℚ) / 2 ^ 10 ≤ 1 / 1000 := by norm_num
    linarith
  have hlo : 3 / 2 ^ 10 ≤ val (length (b'.position - a'.position)) := by
    have : (1 : ℚ) / 2 ^ 7 = 8 / 2 ^ 10 := by norm_num
    have h3 : (0 : ℚ) ≤ 1 / 2 ^ 11 := by norm_num
    have h5 : (3 : ℚ) / 2 ^ 10 = 4 / 2 ^ 10 - 1 / 2 ^ 10 := by norm_num
    rw [this] at hr0
    rw [h5]
    linarith
  have hup2 := pow_le_pow_left₀ h0' hup 2
  have hlo2 := pow_le_pow_left₀ (by norm_num) hlo 2
  have hD0' : 1 / 2 ^ 20 ≤ sqDist b'.position a'.position := by
    have h3 : ((3 : ℚ) / 2 ^ 10) ^ 2 = 9 / 2 ^ 20 := by norm_num
    have h4 : sqDist b'.position a'.position / 2 ^ 17 =
        sqDist b'.position a'.position * (1 / 2 ^ 17) := by ring
    have h5 : (1 : ℚ) / 2 ^ 99 ≤ 1 / 2 ^ 20 := by norm_num
    rw [h3] at hlo2
    rw [h4] at t2
    by_contra hlt
    rw [not_le] at hlt
    have h6 : sqDist b'.position a'.position * (1 / 2 ^ 17) ≤ 1 / 2 ^ 20 * (1 / 2 ^ 17) :=
      mul_le_mul_of_nonneg_right hlt.le (by norm_num)
    have h7 : (1 : ℚ) / 2 ^ 20 + 1 / 2 ^ 20 * (1 / 2 ^ 17) + 1 / 2 ^ 20 < 9 / 2 ^ 20 := by
      norm_num
    linarith
  have hD1' : sqDist b'.position a'.position ≤ 26 := by
    have h3 : ((456 : ℚ) / 100) ^ 2 ≤ 21 := by norm_num
    have h4 : sqDist b'.position a'.position / 2 ^ 17 =
        sqDist b'.position a'.position * (1 / 2 ^ 17) := by ring
    have h5 : (1 : ℚ) / 2 ^ 99 ≤ 1 := by norm_num
    rw [h4] at t1
    by_contra hgt
    rw [not_le] at hgt
    have h6 : 26 * (1 - 1 / 2 ^ 17) ≤ sqDist b'.position a'.position * (1 - 1 / 2 ^ 17) :=
      mul_le_mul_of_nonneg_right hgt.le (by norm_num)
    have h7 : (21 : ℚ) + 1 < 26 * (1 - 1 / 2 ^ 17) := by norm_num
    linarith
  have hbnd : Bounded 8 a'.position ∧ Bounded 8 b'.position := by
    cases hap : a.isPinned
    · have hbp : b.isPinned = true := by
        cases hbp : b.isPinned
        · rw [hap, hbp] at hpin
          exact absurd rfl hpin
        · rfl
      have e := eb hbp
      rw [e] at hD1' ⊢
      rw [sqDist_comm] at hD1'
      exact ⟨bounded_of_anchor _ _ (hPb hbp) ba.1 hD1', hB⟩
    · have e := ea hap
      rw [e] at hD1' ⊢
      exact ⟨hA, bounded_of_anchor _ _ (hPa hap) bb.1 hD1'⟩
  refine ⟨a', b', h1, h2, pa, pb, ea, eb, hbnd.1, hbnd.2, hD0', hD1', hf, ?_⟩
  have e1 : val (length (b'.position - a'.position)) - val c.restDistance =
      (val (length (b'.position - a'.position)) - (val c.restDistance + (1 - 1 * 1 / 2) *
        (val (length (b.position - a.position)) - val c.restDistance))) +
      (val (length (b.position - a.position)) - val c.restDistance) / 2 := by ring
  rw [e1]
  refine (abs_add _ _).trans ?_
  rw [abs_div, abs_of_pos (by norm_num : (0 : ℚ) < 2)]
  linarith

/-- Repeated calls of `Constraint::solve()` in binary32 under the conditions of
`solve_anchored`: after `n` calls the distance of the float length from the rest distance
is at most the `2^n`-th part of the initial one, plus `2^-9`. -/
theorem solve_repeated (c : Constraint F32) (ps : List (Particle F32)) (a b : Particle F32)
    (ha : ps[c.p1]? = some a) (hb : ps[c.p2]? = some b) (hpin : a.isPinned ≠ b.isPinned)
    (hPa : a.isPinned = true → Bounded 2 a.position)
    (hPb : b.isPinned = true → Bounded 2 b.position)
    (hA : Bounded 8 a.position) (hB : Bounded 8 b.position)
    (hr : IsFin c.restDistance) (hr0 : 1 / 2 ^ 7 ≤ val c.restDistance)
    (hr1 : val c.restDistance ≤ 4) (hk : IsFin c.stiffness) (hk1 : val c.stiffness = 1)
    (hD0 : 1 / 2 ^ 20 ≤ sqDist b.position a.position)
    (hD1 : sqDist b.position a.position ≤ 26) (n : Nat) :
    ∃ a' b' : Particle F32,
      (Nat.iterate (Constraint.solve c) n ps)[c.p1]? = some a' ∧
      (Nat.iterate (Constraint.solve c) n ps)[c.p2]? = some b' ∧
      a'.isPinned = a.isPinned ∧ b'.isPinned = b.isPinned ∧
      (a.isPinned = true → a' = a) ∧ (b.isPinned = true → b' = b) ∧
      Bounded 8 a'.position ∧ Bounded 8 b'.position ∧
      1 / 2 ^ 20 ≤ sqDist b'.position a'.position ∧ sqDist b'.position a'.position ≤ 26 ∧
      IsFin (length (b'.position - a'.position)) ∧
      |val (length (b'.position - a'.position)) - val c.restDistance| ≤
        |val (length (b.position - a.position)) - val c.restDistance| / 2 ^ n +
          1 / 2 ^ 9 * (1 - 1 / 2 ^ n) := by
  induction n with
  | zero =>
    refine ⟨a, b, ha, hb, rfl, rfl, fun _ => rfl, fun _ => rfl, hA, hB, hD0, hD1,
      (length_range b.position a.position hB hA hD0).2.2.1, ?_⟩
    norm_num
  | succ n ih =>
    obtain ⟨a₁, b₁, h1, h2, pa, pb, ea, eb, ba, bb, d0, d1, -, he⟩ := ih
    have hpin₁ : a₁.isPinned ≠ b₁.isPinned := by rwa [pa, pb]
    have hPa₁ : a₁.isPinned = true → Bounded 2 a₁.position := by
      intro h
      rw [pa] at h
      rw [ea h]
      exact hPa h
    have hPb₁ : b₁.isPinned = true → Bounded 2 b₁.position := by
      intro h
      rw [pb] at h
      rw [eb h]
      exact hPb h
    obtain ⟨a₂, b₂, k1, k2, qa, qb, fa, fb, ca, cb, g0, g1, hf, hs⟩ :=
      solve_anchored c _ a₁ b₁ h1 h2 hpin₁ hPa₁ hPb₁ ba bb hr hr0 hr1 hk hk1 d0 d1
    rw [Function.iterate_succ_apply']
    refine ⟨a₂, b₂, k1, k2, qa.trans pa, qb.trans pb, ?_, ?_, ca, cb, g0, g1, hf, ?_⟩
    · intro h
      rw [fa (pa.trans h), ea h]
    · intro h
      rw [fb (pb.trans h), eb h]
    · refine hs.trans ?_
      have e1 : |val (length (b.position - a.position)) - val c.restDistance| / 2 ^ (n + 1) =
          |val (length (b.position - a.position)) - val c.restDistance| / 2 ^ n / 2 := by
        rw [pow_succ, div_div]
      have e2 : (1 : ℚ) / 2 ^ 9 * (1 - 1 / 2 ^ (n + 1)) =
          1 / 2 ^ 9 * (1 - 1 / 2 ^ n) / 2 + 1 / 2 ^ 10 := by
        rw [pow_succ]
        field_simp
        ring
      rw [e1, e2]
      linarith

end Binary32

namespace Binary32

open F32

set_option maxRecDepth 100000

/-- C7 (amended), in binary32 with every rounding accounted for: a constraint between two
particles with coordinates of magnitude at most 8 that are at least `2^-10` apart, with a
rest distance `r` in `[0, 8]` and a stiffness `k` in `[0, 1]`. The float `L` that
`glm::length` gives for the difference of the endpoints is the distance of the endpoints up
to rounding, and so is the float `L'` after one `solve()`, which is within `2^-10` of
`r + (1 - k * m / 2) * (L - r)`, `m` being the number of unpinned endpoints. With both
endpoints unpinned and `k = 1`, `L'` is within `2^-10` of `r`; with one endpoint pinned
and `k = 1` the error `|L - r|` is halved up to `2^-10`, and when the pinned endpoint has
coordinates of magnitude at most 2, `r` is in `[2^-7, 4]` and the distance is at most 5,
then after `n` calls the error is at most the `2^n`-th part of the initial one, plus
`2^-9`. -/
theorem Constraint.solve_error_rounded (c : Constraint F32) (ps : List (Particle F32))
    (a b : Particle F32) (ha : ps[c.p1]? = some a) (hb : ps[c.p2]? = some b)
    (hA : Bounded 8 a.position) (hB : Bounded 8 b.position)
    (hr : IsFin c.restDistance) (hr0 : 0 ≤ val c.restDistance) (hr1 : val c.restDistance ≤ 8)
    (hk : IsFin c.stiffness) (hk0 : 0 ≤ val c.stiffness) (hk1 : val c.stiffness ≤ 1)
    (hD : 1 / 2 ^ 20 ≤ sqDist b.position a.position) :
    (IsFin (Constraint.currentDist c ps) ∧ 0 < val (Constraint.currentDist c ps) ∧
      |val (Constraint.currentDist c ps) ^ 2 - sqDist b.position a.position| ≤
        sqDist b.position a.position / 2 ^ 16) ∧
    (∃ a' b' : Particle F32,
      (Constraint.solve c ps)[c.p1]? = some a' ∧ (Constraint.solve c ps)[c.p2]? = some b' ∧
      Fin3 a'.position ∧ Fin3 b'.position ∧
      |val (Constraint.currentDist c (Constraint.solve c ps)) ^ 2 -
        sqDist b'.position a'.position| ≤ sqDist b'.position a'.position / 2 ^ 17 + 1 / 2 ^ 99) ∧
    (IsFin (Constraint.currentDist c (Constraint.solve c ps)) ∧
      |val (Constraint.currentDist c (Constraint.solve c ps)) -
        (val c.restDistance + (1 - val c.stiffness * (free a + free b) / 2) *
          (val (Constraint.currentDist c ps) - val c.restDistance))| ≤ 1 / 2 ^ 10) ∧
    (a.isPinned = false → b.isPinned = false → val c.stiffness = 1 →
      |val (Constraint.currentDist c (Constraint.solve c ps)) - val c.restDistance| ≤
        1 / 2 ^ 10) ∧
    (a.isPinned ≠ b.isPinned → val c.stiffness = 1 →
      |val (Constraint.currentDist c (Constraint.solve c ps)) - val c.restDistance| ≤
        |val (Constraint.currentDist c ps) - val c.restDistance| / 2 + 1 / 2 ^ 10) ∧
    (a.isPinned ≠ b.isPinned → val c.stiffness = 1 →
      (a.isPinned = true → Bounded 2 a.position) → (b.isPinned = true → Bounded 2 b.position) →
      1 / 2 ^ 7 ≤ val c.restDistance → val c.restDistance ≤ 4 →
      sqDist b.position a.position ≤ 25 →
      ∀ n : Nat, IsFin (Constraint.currentDist c (Nat.iterate (Constraint.solve c) n ps)) ∧
        |val (Constraint.currentDist c (Nat.iterate (Constraint.solve c) n ps)) -
          val c.restDistance| ≤
            |val (Constraint.currentDist c ps) - val c.restDistance| / 2 ^ n + 1 / 2 ^ 9) := by
  obtain ⟨hℓ1, -, hLf, hℓsq⟩ := length_range b.position a.position hB hA hD
  obtain ⟨a', b', h1, h2, -, -, -, -, ba, bb, h3, h4⟩ :=
    solve_rounded_step c ps a b ha hb hA hB hr hr0 hr1 hk hk0 hk1 hD
  have hcur := currentDist_eq c ps a b ha hb
  have hcur' := currentDist_eq c _ a' b' h1 h2
  refine ⟨?_, ⟨a', b', h1, h2, ba.1, bb.1, ?_⟩, ?_, ?_, ?_, ?_⟩
  · rw [hcur]
    exact ⟨hLf, lt_of_lt_of_le (by norm_num) hℓ1, hℓsq⟩
  · rw [hcur']
    exact (length_sub_wide b'.position a'.position bb ba).2.2
  · rw [hcur, hcur']
    exact ⟨h3, h4⟩
  · intro pa pb hk
    rw [hcur']
    rw [free_sum_of_free a b pa pb, hk] at h4
    have e : val c.restDistance + (1 - 1 * 2 / 2) *
        (val (length (b.position - a.position)) - val c.restDistance) = val c.restDistance := by
      ring
    rwa [e] at h4
  · intro hpin hk
    rw [hcur, hcur']
    rw [free_sum_of_ne a b hpin, hk] at h4
    have e1 : val (length (b'.position - a'.position)) - val c.restDistance =
        (val (length (b'.position - a'.position)) - (val c.restDistance + (1 - 1 * 1 / 2) *
          (val (length (b.position - a.position)) - val c.restDistance))) +
        (val (length (b.position - a.position)) - val c.restDistance) / 2 := by ring
    rw [e1]
    refine (abs_add _ _).trans ?_
    rw [abs_div, abs_of_pos (by norm_num : (0 : ℚ) < 2)]
    linarith
  · intro hpin hone hPa hPb hr7 hr4 hD1 n
    obtain ⟨a₁, b₁, k1, k2, -, -, -, -, -, -, -, -, hf, he⟩ :=
      solve_repeated c ps a b ha hb hpin hPa hPb hA hB hr hr7 hr4 hk hone hD (by linarith) n
    rw [hcur, currentDist_eq c _ a₁ b₁ k1 k2]
    refine ⟨hf, he.trans ?_⟩
    have h5 : (0 : ℚ) ≤ 1 / 2 ^ n := by positivity
    have h6 : (1 : ℚ) / 2 ^ 9 * (1 - 1 / 2 ^ n) = 1 / 2 ^ 9 - 1 / 2 ^ 9 * (1 / 2 ^ n) := by ring
    have h7 : (0 : ℚ) ≤ 1 / 2 ^ 9 * (1 / 2 ^ n) := by positivity
    linarith

/-- Witness of C7: the constraint of rest distance 1 and stiffness 1 between a pinned
particle at `(0, 0, 0)` and a free particle at `(3, 0, 0)`: the length 3 becomes a length
within `2^-10` of 2 after one `solve()`, and it is within `2^-8` of 1 after ten. -/
theorem Constraint.solve_error_rounded_witness :
    Constraint.currentDist unitSpring anchoredPair = lit 3 1 ∧
    |val (Constraint.currentDist unitSpring (Constraint.solve unitSpring anchoredPair)) - 2| ≤
      1 / 2 ^ 10 ∧
    |val (Constraint.currentDist unitSpring
      (Nat.iterate (Constraint.solve unitSpring) 10 anchoredPair)) - 1| ≤ 1 / 2 ^ 8 := by
  have h1 : lit 1 1 = fin false 8388608 (-23) := by decide
  have h3 : lit 3 1 = fin false 12582912 (-22) := by decide
  have hz : (0 : F32) = fin false 0 (-149) := rfl
  have hv3 : val (lit 3 1) = 3 := by
    rw [h3, val_fin]
    norm_num [zpow_neg]
  have hz0 : val (0 : F32) = 0 := by simp [hz, val_fin]
  have hl : Constraint.currentDist unitSpring anchoredPair = lit 3 1 := by decide
  have hb0 : ∀ β : ℚ, 0 ≤ β → Bounded β (⟨0, 0, 0⟩ : Vec3 F32) := by
    intro β hβ
    refine ⟨⟨isFin_fin _ _ _, isFin_fin _ _ _, isFin_fin _ _ _⟩, ?_, ?_, ?_⟩ <;>
      simpa [hz0] using hβ
  have hb3 : Bounded 8 (⟨lit 3 1, 0, 0⟩ : Vec3 F32) := by
    refine ⟨⟨by rw [h3]; exact isFin_fin _ _ _, isFin_fin _ _ _, isFin_fin _ _ _⟩, ?_, ?_, ?_⟩
    · rw [hv3]
      norm_num
    · simp [hz0]
    · simp [hz0]
  have hr : val unitSpring.restDistance = 1 := val_lit_one
  have hk : val unitSpring.stiffness = 1 := val_lit_one
  have hf1 : IsFin (lit 1 1) := by
    rw [h1]
    exact isFin_fin _ _ _
  have hD : sqDist (⟨lit 3 1, 0, 0⟩ : Vec3 F32) ⟨0, 0, 0⟩ = 9 := by
    show (val (lit 3 1) - val (0 : F32)) ^ 2 + (val (0 : F32) - val (0 : F32)) ^ 2 +
      (val (0 : F32) - val (0 : F32)) ^ 2 = 9
    rw [hv3, hz0]
    norm_num
  have key := Constraint.solve_error_rounded unitSpring anchoredPair
    { Binary32.particleAt 0 0 0 with isPinned := true } (Binary32.particleAt (lit 3 1) 0 0)
    rfl rfl (hb0 8 (by norm_num)) hb3 hf1 (by rw [hr]; norm_num) (by rw [hr]; norm_num)
    hf1 (by rw [hk]; norm_num) (by rw [hk]) ((by norm_num : (1 : ℚ) / 2 ^ 20 ≤ 9).trans hD.ge)
  obtain ⟨-, -, k3, -, -, k6⟩ := key
  have k3' := k3.2
  have k6' := (k6 (by decide) hk (fun _ => hb0 2 (by norm_num)) (fun h => absurd h (by decide))
    (by rw [hr]; norm_num) (by rw [hr]; norm_num) (hD.le.trans (by norm_num)) 10).2
  rw [hl, hv3, hr] at k3' k6'
  rw [hk, free_sum_of_ne _ _ (by decide)] at k3'
  refine ⟨hl, ?_, ?_⟩
  · have e : (1 : ℚ) + (1 - 1 * 1 / 2) * (3 - 1) = 2 := by norm_num
    rwa [e] at k3'
  · refine k6'.trans ?_
    norm_num

end Binary32

end Silk
